import Mathlib

/-!
# xdeltalib: a shallow embedding of the block hashing and delta extraction core

The definitions below transcribe `xdeltalib.cpp` and `xdeltalib.h`:
the block-size policy, the hole set with its ordering, the hash index,
the hashing pipeline `read_and_hash` and the delta pipeline `read_and_delta`.
Machine integers are natural numbers or integers with explicit reductions
where the width matters. Loops whose termination depends on the input carry an
explicit bound on their iterations.
-/

namespace xdelta

/-! # Block-size policy (`rsync_sum_sizes_sqroot`, `get_xdelta_block_size`) -/

/-- The smallest block length of a single round (`#define XDELTA_BLOCK_SIZE 400`). -/
def XDELTA_BLOCK_SIZE : Nat := 400

/-- The largest block length of a single round (`(int32_t)1 << 20`). -/
def MAX_XDELTA_BLOCK_BYTES : Nat := 2 ^ 20

/-- Value of a 64-bit pattern read as `int64_t` (two's complement), the
conversion performed by `l = len`. -/
def to_int64 (x : Nat) : Int :=
  if x % 2 ^ 64 < 2 ^ 63 then ((x % 2 ^ 64 : Nat) : Int) else ((x % 2 ^ 64 : Nat) : Int) - 2 ^ 64

/-- Reduction of an integer to the range of `int32_t` (two's complement wrap). -/
def wrap_int32 (x : Int) : Int := (x + 2 ^ 31) % 2 ^ 32 - 2 ^ 31

/-- Reduction of an integer to `uint32_t`. -/
def to_uint32 (x : Int) : Nat := (x % 2 ^ 32).toNat

/-- Reduction of a natural number to `uint64_t`. -/
def u64 (x : Nat) : Nat := x % 2 ^ 64

/-- The loop `for (c = 1, l = len, cnt = 0; l >>= 2; c <<= 1, cnt++) {}` of
`rsync_sum_sizes_sqroot`: `l` is an `int64_t` shifted arithmetically, `c` an
`int32_t`. The counter `cnt` is never read and is left out. The first argument
bounds the number of iterations; `none` means the bound was reached. -/
def sqroot_scan : Nat → Int → Int → Option Int
  | 0, _, _ => none
  | fuel + 1, l, c =>
    let l1 := l >>> (2 : Nat)
    if l1 ≠ 0 then sqroot_scan fuel l1 (wrap_int32 (c * 2)) else some c

/-- The loop `do { blength |= c; if (len < (int64)blength * blength) blength &= ~c;
c >>= 1; } while (c >= 8);` of `rsync_sum_sizes_sqroot`, on a `uint32_t blength`. -/
def sqroot_bits : Nat → Nat → Nat → Nat → Option Nat
  | 0, _, _, _ => none
  | fuel + 1, len, blength, c =>
    let b1 := blength ||| c
    let b2 := if len < b1 * b1 then b1 &&& (2 ^ 32 - 1 - c) else b1
    let c1 := c / 2
    if c1 ≥ 8 then sqroot_bits fuel len b2 c1 else some b2

/-- Embedding of `rsync_sum_sizes_sqroot (uint64_t len)`; `fuel` bounds the
iterations of each loop and `none` is a run that does not finish within it. -/
def rsync_sum_sizes_sqroot (fuel : Nat) (len : Nat) : Option Nat :=
  if len ≤ XDELTA_BLOCK_SIZE * XDELTA_BLOCK_SIZE then some XDELTA_BLOCK_SIZE
  else
    match sqroot_scan fuel (to_int64 len) 1 with
    | none => none
    | some c =>
      if c < 0 ∨ c ≥ (MAX_XDELTA_BLOCK_BYTES : Int) then some MAX_XDELTA_BLOCK_BYTES
      else
        match sqroot_bits fuel len 0 c.toNat with
        | none => none
        | some blength => some (max blength XDELTA_BLOCK_SIZE)

/-- Embedding of `get_xdelta_block_size (const uint64_t filesize)`. -/
def get_xdelta_block_size (fuel : Nat) (filesize : Nat) : Option Nat :=
  rsync_sum_sizes_sqroot fuel filesize

/-- The bit-setting loop as the specification words it: for each bit from the
starting bit down to 8, tentatively set the bit and clear it again when the
square exceeds the size. The second argument counts the bits still to try, the
next one being `2 ^ (n + 2)`. -/
def spec_bit_setting (S : Nat) : Nat → Nat → Nat
  | 0, blength => blength
  | n + 1, blength =>
    let bit := 2 ^ (n + 3)
    let b1 := blength ||| bit
    spec_bit_setting S n (if b1 * b1 > S then b1 ^^^ bit else b1)

/-- The block-size policy as the specification words it: `MIN_BLOCK` up to
`MIN_BLOCK²`, otherwise the bit-setting loop started at the largest power of two
whose square is at most `S`, clamped to `2^20`, and the result raised to
`MIN_BLOCK`. -/
def spec_block_size (S : Nat) : Nat :=
  if S ≤ 400 * 400 then 400
  else
    let c := min (2 ^ Nat.log 2 (Nat.sqrt S)) (2 ^ 20)
    max (spec_bit_setting S (Nat.log 2 c - 2) 0) 400


/-! # Ordered sets (`std::set`) and the hole set -/

deriving instance DecidableEq for Except

/-- A `std::set` is represented by the list of its elements in iteration order
(`begin ()` first). `set_find less key` is `std::set::find`: the first element
that is not less than `key` (the lower bound) is returned when `key` is not less
than it either. -/
def set_find {α : Type} (less : α → α → Bool) (key : α) : List α → Option α
  | [] => none
  | e :: rest =>
    if less e key then set_find less key rest
    else if less key e then none
    else some e

/-- The element to which `find (key)` points is removed: `erase (pos)` for
`pos = find (key)`; nothing happens when `find` returns `end ()`. -/
def set_erase {α : Type} (less : α → α → Bool) (key : α) : List α → List α
  | [] => []
  | e :: rest =>
    if less e key then e :: set_erase less key rest
    else if less key e then e :: rest
    else rest

/-- The member `std::set::insert`: the element is placed before its lower
bound, unless that element is equivalent to it, in which case nothing changes. -/
def set_insert {α : Type} (less : α → α → Bool) (x : α) : List α → List α
  | [] => [x]
  | e :: rest =>
    if less e x then e :: set_insert less x rest
    else if less x e then x :: e :: rest
    else e :: rest

/-- Embedding of `struct hole_t`: two `uint64_t` fields. -/
structure hole_t where
  offset : Nat
  length : Nat
deriving DecidableEq, Repr

/-- Embedding of `std::less<xdelta::hole_t>`:
`right.offset + right.length < left.offset`, the sum taken in `uint64_t`. -/
def hole_less (left right : hole_t) : Bool :=
  decide (u64 (right.offset + right.length) < left.offset)

/-- Outcome of a call that can hit `BUG (...)`, together with the hole set the
caller's reference holds afterwards. -/
abbrev HoleResult := Except String Unit × List hole_t

/-- Embedding of `split_hole (std::set<hole_t> & holeset, const hole_t & hole)`.
The second component is the content of `holeset` after the call. -/
def split_hole (holeset : List hole_t) (hole : hole_t) : HoleResult :=
  let findhole : hole_t := { offset := hole.offset, length := 0 }
  match set_find hole_less findhole holeset with
  | some bighole =>
    if bighole.offset ≤ hole.offset ∧
        u64 (bighole.offset + bighole.length) ≥ u64 (hole.offset + hole.length) then
      let s0 := set_erase hole_less findhole holeset
      let s1 :=
        if bighole.offset < hole.offset then
          set_insert hole_less
            { offset := bighole.offset, length := hole.offset - bighole.offset } s0
        else s0
      let bigend := u64 (bighole.offset + bighole.length)
      let holeend := u64 (hole.offset + hole.length)
      let s2 :=
        if bigend > holeend then
          set_insert hole_less
            { offset := u64 (hole.offset + hole.length), length := bigend - holeend } s1
        else s1
      (.ok (), s2)
    else (.error "hole must be exists", holeset)
  | none => (.error "hole must be exists", holeset)

/-- Successive `split_hole` calls on one hole set, as in the closing loop of
`read_and_delta`; the first fatal error ends the sequence. -/
def split_holes : List hole_t → List hole_t → HoleResult
  | holeset, [] => (.ok (), holeset)
  | holeset, c :: cs =>
    match split_hole holeset c with
    | (.ok _, s) => split_holes s cs
    | (.error e, s) => (.error e, s)

/-- A hole whose end `offset + length` is representable in `uint64_t`; this is
exactly the condition under which `std::less<hole_t>` is irreflexive on it. -/
def hole_valid (h : hole_t) : Prop := h.offset + h.length < 2 ^ 64

instance (h : hole_t) : Decidable (hole_valid h) := by
  unfold hole_valid; infer_instance

/-- A well-formed hole set: the elements are valid holes, strictly ordered by
the comparator in iteration order. -/
def holeset_wf (l : List hole_t) : Prop :=
  (∀ h ∈ l, hole_valid h) ∧ l.Pairwise (fun a b => hole_less a b = true)

/-- Byte offset `x` lies in the half-open range of some hole of the set. -/
def covered (l : List hole_t) (x : Nat) : Prop :=
  ∃ h ∈ l, h.offset ≤ x ∧ x < h.offset + h.length

/-- Range `c` lies inside hole `P`. -/
def hole_contains (P c : hole_t) : Prop :=
  P.offset ≤ c.offset ∧ c.offset + c.length ≤ P.offset + P.length

instance (P c : hole_t) : Decidable (hole_contains P c) := by
  unfold hole_contains; infer_instance

/-- Each argument of a sequence of `split_hole` calls has positive length when
`pos` is set, and is contained in some hole of the set at the time of its call. -/
def split_args_ok (pos : Bool) : List hole_t → List hole_t → Prop
  | _, [] => True
  | holeset, c :: cs =>
    (pos = true → 0 < c.length) ∧ (∃ P ∈ holeset, hole_contains P c) ∧
      split_args_ok pos (split_hole holeset c).2 cs

/-- The holes that replace `P` after `c` is cut out of it: the part right of
`c`, then the part left of `c`, in iteration order. -/
def split_pieces (P c : hole_t) : List hole_t :=
  (if c.offset + c.length < P.offset + P.length then
    [({ offset := c.offset + c.length,
        length := P.offset + P.length - (c.offset + c.length) } : hole_t)]
   else []) ++
  (if P.offset < c.offset then
    [({ offset := P.offset, length := c.offset - P.offset } : hole_t)]
   else [])


/-! # Strong-hash records and the hash index (`hash_table`) -/

/-- What `xdeltalib.cpp` and `xdeltalib.h` take from headers that are not among
the sources (`mytypes.h`, `md4.h`, `rollsum.h`), kept as parameters:
the platform switch that selects the buffer length, the digest width, the
one-shot strong hash `get_slow_hash` as a function from the hashed bytes to the
digest bytes, and the rolling checksum with its state and operations. -/
structure Env where
  BIT32_PLATFORM : Bool
  DIGEST_BYTES : Nat
  get_slow_hash : List Nat → List Nat
  Rollsum : Type
  RollsumInit : Rollsum
  RollsumUpdate : Rollsum → List Nat → Rollsum
  RollsumRollin : Rollsum → Nat → Rollsum
  RollsumRotate : Rollsum → Nat → Nat → Rollsum
  RollsumDigest : Rollsum → Nat

/-- The buffer length `XDELTA_BUFFER_LEN`: `1 << 25` on a 32-bit platform,
`1 << 23` otherwise. -/
def XDELTA_BUFFER_LEN (E : Env) : Nat := if E.BIT32_PLATFORM then 2 ^ 25 else 2 ^ 23

/-- Embedding of `struct target_pos` (`uint64_t t_offset`, `uint32_t index`). -/
structure target_pos where
  t_offset : Nat
  index : Nat
deriving DecidableEq, Repr

/-- Embedding of `struct slow_hash`: the digest bytes and the target position. -/
structure slow_hash where
  hash : List Nat
  tpos : target_pos
deriving DecidableEq, Repr

/-- The C function `memcmp` on the first `n` bytes of two arrays, reduced to its
sign. Bytes past the end of a list read as 0; digests are `DIGEST_BYTES` long,
so this case does not arise for them. -/
def memcmp : List Nat → List Nat → Nat → Int
  | _, _, 0 => 0
  | a, b, n + 1 =>
    if a.headD 0 < b.headD 0 then -1
    else if a.headD 0 > b.headD 0 then 1
    else memcmp a.tail b.tail n

/-- Embedding of `std::less<xdelta::slow_hash>`:
`memcmp (left.hash, right.hash, DIGEST_BYTES) < 0`. -/
def slow_less (E : Env) (left right : slow_hash) : Bool :=
  decide (memcmp left.hash right.hash E.DIGEST_BYTES < 0)

/-- Two digests agree on their `DIGEST_BYTES` bytes. -/
def digest_eq (E : Env) (a b : List Nat) : Prop := memcmp a b E.DIGEST_BYTES = 0

instance (E : Env) (a b : List Nat) : Decidable (digest_eq E a b) := by
  unfold digest_eq; infer_instance

/-- The member `hash_table_`: a map from the fast hash to a `std::set<slow_hash>`,
represented by its lookup function; each set is the list of its elements in
iteration order. -/
abbrev hash_table := Nat → Option (List slow_hash)

/-- The empty hash index. -/
def hash_table.empty : hash_table := fun _ => none

/-- Embedding of `hash_table::add_block (fhash, shash)`: a fresh empty set is
stored under `fhash` when the key is absent, then `shash` is inserted in the
set under `fhash`. -/
def hash_table.add_block (E : Env) (ht : hash_table) (fhash : Nat) (shash : slow_hash) :
    hash_table :=
  let s : List slow_hash :=
    match ht fhash with
    | none => []
    | some s => s
  fun k => if k = fhash then some (set_insert (slow_less E) shash s) else ht k

/-- Embedding of `hash_table::find_block (fhash, buf, len)`; `buf` holds the
bytes at the pointer. The probe has `tpos.index = -1` as `uint32_t` and an
unset `t_offset`, neither of which the comparator reads. -/
def hash_table.find_block (E : Env) (ht : hash_table) (fhash : Nat) (buf : List Nat)
    (len : Nat) : Option slow_hash :=
  match ht fhash with
  | none => none
  | some s =>
    let bsh : slow_hash :=
      { hash := E.get_slow_hash (buf.take len), tpos := { t_offset := 0, index := 2 ^ 32 - 1 } }
    set_find (slow_less E) bsh s

/-- The hash index after a sequence of `add_block` calls on an empty table. -/
def hash_table.build (E : Env) (adds : List (Nat × slow_hash)) : hash_table :=
  adds.foldl (fun ht p => hash_table.add_block E ht p.1 p.2) hash_table.empty

/-- The comparator is a strict weak ordering: irreflexive, transitive, and
equivalent elements compare alike with every other element. -/
structure strict_weak {α : Type} (less : α → α → Bool) : Prop where
  irrefl : ∀ a, less a a = false
  trans : ∀ a b c, less a b = true → less b c = true → less a c = true
  equiv_left : ∀ a b c, less a b = false → less b a = false → less a c = less b c
  equiv_right : ∀ a b c, less a b = false → less b a = false → less c a = less c b

/-- The records of a history of `add_block` calls that were made under fast
hash `f` with a digest equal to `d`. -/
def added_under (E : Env) (f : Nat) (d : List Nat) (p : Nat × slow_hash) : Bool :=
  decide (p.1 = f) && decide (digest_eq E p.2.hash d)

/-- The invariant tying a hash index to the history of `add_block` calls that
produced it. -/
def index_inv (E : Env) (ht : hash_table) (hist : List (Nat × slow_hash)) : Prop :=
  ∀ f, match ht f with
    | none => ∀ p ∈ hist, p.1 ≠ f
    | some s =>
      s.Pairwise (fun a b => slow_less E a b = true) ∧
      ∀ e, e ∈ s ↔ hist.find? (added_under E f e.hash) = some (f, e)


/-! # File reader, buffer memory and run outcomes -/

/-- Modelled from the spec: the external file reader (`rw.h` is not among the
sources). A reader is a byte sequence with a current position; `read_file`
returns at most the wanted number of bytes, at most what is left of the file,
and at most `chunk n + 1` bytes on its `n`-th call, so that every way of
splitting the data into positive-size reads is some choice of `chunk`. A return
of 0 is the end of the file. `seek_file` moves the position and returns it. -/
structure file_reader where
  content : List Nat
  pos : Nat
  calls : Nat
  chunk : Nat → Nat

/-- Byte of the file at an absolute offset. -/
def file_reader.byte (r : file_reader) (i : Nat) : Nat := r.content.getD i 0

/-- Number of bytes the next `read_file (buf, want)` returns. -/
def file_reader.read_size (r : file_reader) (want : Nat) : Nat :=
  min want (min (r.content.length - r.pos) (r.chunk r.calls + 1))

/-- The call `read_file (dst, want)` on buffer memory `mem`: the returned size,
the memory with the bytes stored from `dst` on, and the advanced reader. -/
def file_reader.read_file (r : file_reader) (mem : Nat → Nat) (dst want : Nat) :
    Nat × (Nat → Nat) × file_reader :=
  let size := r.read_size want
  (size,
   fun i => if dst ≤ i ∧ i < dst + size then r.byte (r.pos + (i - dst)) else mem i,
   { r with pos := r.pos + size, calls := r.calls + 1 })

/-- The call `seek_file (offset, FILE_BEGIN)`. -/
def file_reader.seek_file (r : file_reader) (offset : Nat) : Nat × file_reader :=
  (offset, { r with pos := offset })

/-- The `n` bytes of buffer memory that start at offset `p`. -/
def mem_bytes (mem : Nat → Nat) (p n : Nat) : List Nat :=
  (List.range n).map (fun i => mem (p + i))

/-- The C function `memmove (dst, src, n)` on buffer memory. -/
def memmove (mem : Nat → Nat) (dst src n : Nat) : Nat → Nat :=
  fun i => if dst ≤ i ∧ i < dst + n then mem (src + (i - dst)) else mem i

/-- Reduction of an integer to `uint64_t`. -/
def to_uint64 (x : Int) : Nat := (x % 2 ^ 64).toNat

/-- How a run of a pipeline ends: it returns, it throws, or it is still
running when the bound on loop iterations is used up. -/
inductive Run (α : Type) where
  | done (a : α)
  | thrown (msg : String)
  | unfinished

/-- Embedding of `rolling_hasher::hash (buf, len)`, which returns the digest
of the sum after `RollsumInit` and `RollsumUpdate` as a `uint32_t`. -/
def rolling_hasher_hash (E : Env) (bytes : List Nat) : Nat :=
  E.RollsumDigest (E.RollsumUpdate E.RollsumInit bytes) % 2 ^ 32

/-- Embedding of `rolling_hasher::hash_value ()`, the digest of the current sum
as a `uint32_t`. -/
def rolling_hasher_hash_value (E : Env) (sum : E.Rollsum) : Nat :=
  E.RollsumDigest sum % 2 ^ 32

/-- Embedding of `rolling_hasher::eat_hash (buf, len)`: the state after
`RollsumInit` and one `RollsumRollin` per byte. -/
def rolling_hasher_eat_hash (E : Env) (bytes : List Nat) : E.Rollsum :=
  bytes.foldl E.RollsumRollin E.RollsumInit

/-! # Hashing pipeline (`read_and_hash`) -/

/-- The local variables of `read_and_hash` together with the reader, the
tuples passed to `stream.add_block` so far, and, when a digest context is
supplied, the byte spans passed to `rs_mdfour_update` so far. Pointers into the
buffer are offsets from `buf.begin ()`. -/
structure hash_state where
  reader : file_reader
  stream : List (Nat × slow_hash)
  pctx : Option (List (List Nat))
  buf : Nat → Nat
  to_read_bytes : Nat
  index : Nat
  rdbuf : Nat
  endbuf : Nat
  buflen : Nat

/-- The loop `while (buflen > 0) { size = reader.read_file (endbuf, buflen); ... }`
of `read_and_hash`. -/
def hash_fill : Nat → hash_state → Run hash_state
  | 0, s => if s.buflen > 0 then .unfinished else .done s
  | fuel + 1, s =>
    if s.buflen > 0 then
      let res := s.reader.read_file s.buf s.endbuf s.buflen
      let size := res.1
      if size ≤ 0 then .thrown "Can't not read file or pipe."
      else
        hash_fill fuel
          { s with
            reader := res.2.2
            buf := res.2.1
            pctx := s.pctx.map (fun spans => spans ++ [mem_bytes res.2.1 s.rdbuf size])
            to_read_bytes := to_uint64 ((s.to_read_bytes : Int) - size)
            endbuf := s.endbuf + size
            buflen := to_uint32 ((s.buflen : Int) - size) }
    else .done s

/-- The loop `while ((int32_t)(endbuf - rdbuf) >= blk_len) { ... }` of
`read_and_hash`, which emits one tuple per full block of the buffer. -/
def hash_blocks (E : Env) (blk_len t_offset : Nat) : Nat → hash_state → Run hash_state
  | 0, s =>
    if wrap_int32 ((s.endbuf : Int) - s.rdbuf) ≥ (blk_len : Int) then .unfinished else .done s
  | fuel + 1, s =>
    if wrap_int32 ((s.endbuf : Int) - s.rdbuf) ≥ (blk_len : Int) then
      let block := mem_bytes s.buf s.rdbuf blk_len
      let fhash := rolling_hasher_hash E block
      let bsh : slow_hash :=
        { hash := E.get_slow_hash block
          tpos := { t_offset := t_offset, index := to_uint32 s.index } }
      hash_blocks E blk_len t_offset fuel
        { s with
          stream := s.stream ++ [(fhash, bsh)]
          index := u64 (s.index + 1)
          rdbuf := s.rdbuf + blk_len }
    else .done s

/-- The loop `while (to_read_bytes > 0) { ... }` of `read_and_hash`. -/
def hash_loop (E : Env) (blk_len t_offset : Nat) : Nat → hash_state → Run hash_state
  | 0, s => if s.to_read_bytes > 0 then .unfinished else .done s
  | fuel + 1, s =>
    if s.to_read_bytes > 0 then
      match hash_fill s.buflen { s with endbuf := s.rdbuf } with
      | .done s2 =>
        match hash_blocks E blk_len t_offset s2.endbuf { s2 with rdbuf := 0 } with
        | .done s4 =>
          let remain := to_uint32 (wrap_int32 ((s4.endbuf : Int) - s4.rdbuf))
          let buf1 := if remain > 0 then memmove s4.buf 0 s4.rdbuf remain else s4.buf
          let buflen := to_uint32 ((XDELTA_BUFFER_LEN E : Int) - remain)
          let buflen := if s4.to_read_bytes > buflen then buflen else to_uint32 s4.to_read_bytes
          hash_loop E blk_len t_offset fuel
            { s4 with buf := buf1, rdbuf := remain, buflen := buflen }
        | .thrown msg => .thrown msg
        | .unfinished => .unfinished
      | .thrown msg => .thrown msg
      | .unfinished => .unfinished
    else .done s

/-- Embedding of `read_and_hash (reader, stream, to_read_bytes, blk_len,
t_offset, pctx)`. The result holds the reader, the tuples passed to
`stream.add_block` and the spans passed to the digest context. `fuel` bounds the
iterations of the outer loop. -/
def read_and_hash (E : Env) (fuel : Nat) (reader : file_reader)
    (stream : List (Nat × slow_hash)) (to_read_bytes blk_len t_offset : Nat)
    (pctx : Option (List (List Nat))) : Run hash_state :=
  hash_loop E blk_len t_offset fuel
    { reader := reader
      stream := stream
      pctx := pctx
      buf := fun _ => 0
      to_read_bytes := to_read_bytes
      index := 0
      rdbuf := 0
      endbuf := 0
      buflen := to_uint32
        (if to_read_bytes > XDELTA_BUFFER_LEN E then XDELTA_BUFFER_LEN E else to_read_bytes) }

/-- The `i`-th block of `B` bytes of the region that starts at offset `p` of a
byte sequence. -/
def block_at (D : List Nat) (p B i : Nat) : List Nat :=
  (List.range B).map (fun j => D.getD (p + i * B + j) 0)

/-- The tuple that `read_and_hash` emits for block `i` of the region. -/
def hash_tuple (E : Env) (D : List Nat) (p B t_offset i : Nat) : Nat × slow_hash :=
  (rolling_hasher_hash E (block_at D p B i),
   { hash := E.get_slow_hash (block_at D p B i)
     tpos := { t_offset := t_offset, index := i % 2 ^ 32 } })

/-- The state of `read_and_hash` at the head of its outer loop, for a region of
`R` bytes that starts at offset `p0` of the file: `k` blocks have been emitted
and `rem` bytes of the next block wait at the start of the buffer. -/
def hash_inv (E : Env) (content : List Nat) (p0 R B toff : Nat)
    (st : List (Nat × slow_hash)) (s : hash_state) : Prop :=
  s.reader.content = content ∧ s.rdbuf < B ∧
  s.reader.pos + s.to_read_bytes = p0 + R ∧
  s.index * B + s.rdbuf + s.to_read_bytes = R ∧
  s.stream = st ++ (List.range s.index).map (hash_tuple E content p0 B toff) ∧
  (∀ i, i < s.rdbuf → s.buf i = content.getD (p0 + s.index * B + i) 0) ∧
  s.buflen = min s.to_read_bytes (XDELTA_BUFFER_LEN E - s.rdbuf)

/-- The tuples a finished run of `read_and_hash` passed to the stream. -/
def hash_output : Run hash_state → Option (List (Nat × slow_hash))
  | .done s => some s.stream
  | .thrown _ => none
  | .unfinished => none

/-! # Delta pipeline (`read_and_delta`) -/

/-- A call of `xdelta_stream::add_block`: a copy record `(tpos, blk_len,
s_offset)` or a literal record `(data, blk_len, s_offset)`, where `data` holds
the `blk_len` bytes at the pointer. -/
inductive delta_record where
  | copy (tpos : target_pos) (blk_len : Nat) (s_offset : Nat)
  | literal (data : List Nat) (blk_len : Nat) (s_offset : Nat)
deriving DecidableEq, Repr

/-- Source offset of a record. -/
def delta_record.s_offset : delta_record → Nat
  | .copy _ _ o => o
  | .literal _ _ o => o

/-- Length of a record. -/
def delta_record.len : delta_record → Nat
  | .copy _ l _ => l
  | .literal _ l _ => l

/-- The local variables of the per-hole loop of `read_and_delta` together with
the reader, the records passed to `stream.add_block` so far, the list
`holes2remove`, and the calls of `hashes.find_block` made so far (`probes`: the
fast hash and the `blk_len` bytes at the pointer of each call). Pointers into
the buffer are offsets from `buf.begin ()`. -/
structure delta_state (E : Env) where
  reader : file_reader
  stream : List delta_record
  holes2remove : List hole_t
  probes : List (Nat × List Nat)
  buf : Nat → Nat
  to_read_bytes : Nat
  rdbuf : Nat
  endbuf : Nat
  sentrybuf : Nat
  hasher : E.Rollsum
  newhash : Bool
  remain : Int
  outchar : Nat
  offset : Nat

/-- The loop `while (buflen > 0) { size = reader.read_file (sentrybuf + remain,
buflen); ... }` of `read_and_delta`. -/
def delta_fill (E : Env) : Nat → delta_state E → Nat → Run (delta_state E)
  | 0, s, buflen => if buflen > 0 then .unfinished else .done s
  | fuel + 1, s, buflen =>
    if buflen > 0 then
      let res := s.reader.read_file s.buf (s.sentrybuf + s.remain.toNat) buflen
      let size := res.1
      if size ≤ 0 then .thrown "Can't not read file or pipe."
      else
        delta_fill E fuel
          { s with
            reader := res.2.2
            buf := res.2.1
            to_read_bytes := to_uint32 ((s.to_read_bytes : Int) - size)
            endbuf := s.endbuf + size
            remain := wrap_int32 (s.remain + size) }
          (to_uint32 ((buflen : Int) - size))
    else .done s

/-- The statement `if (slipsize > 0) { if (adddiff) stream.add_block (sentrybuf,
slipsize, offset); offset += slipsize; }` with `slipsize = rdbuf - sentrybuf`. -/
def delta_flush (E : Env) (adddiff : Bool) (s : delta_state E) : delta_state E :=
  let slipsize := to_uint32 ((s.rdbuf : Int) - s.sentrybuf)
  if slipsize > 0 then
    { s with
      stream :=
        if adddiff then
          s.stream ++ [.literal (mem_bytes s.buf s.sentrybuf slipsize) slipsize s.offset]
        else s.stream
      offset := u64 (s.offset + slipsize) }
  else s

/-- The loop `while (true) { ... }` that `read_and_delta` runs for one hole.
`fuel` bounds its iterations. -/
def delta_loop (E : Env) (hashes : hash_table) (blk_len : Nat) (need_split_hole : Bool) :
    Nat → delta_state E → Run (delta_state E)
  | 0, _ => .unfinished
  | fuel + 1, s =>
    let adddiff := !need_split_hole
    if s.remain < (blk_len : Int) then
      if s.to_read_bytes = 0 then
        let slipsize := to_uint32 ((s.endbuf : Int) - s.sentrybuf)
        if slipsize > 0 ∧ adddiff = true then
          .done { s with
            stream := s.stream ++
              [.literal (mem_bytes s.buf s.sentrybuf slipsize) slipsize s.offset] }
        else .done s
      else
        let s1 := delta_flush E adddiff s
        let buf1 := if s1.remain > 0 then memmove s1.buf 0 s1.rdbuf s1.remain.toNat else s1.buf
        let buflen := to_uint32 ((XDELTA_BUFFER_LEN E : Int) - s1.remain)
        let buflen := if s1.to_read_bytes > buflen then buflen else s1.to_read_bytes
        match delta_fill E buflen
            { s1 with buf := buf1, sentrybuf := 0, rdbuf := 0, endbuf := 0 + s1.remain.toNat }
            buflen with
        | .done s3 => delta_loop E hashes blk_len need_split_hole fuel s3
        | .thrown msg => .thrown msg
        | .unfinished => .unfinished
    else
      let hasher :=
        if s.newhash then rolling_hasher_eat_hash E (mem_bytes s.buf s.rdbuf blk_len)
        else E.RollsumRotate s.hasher s.outchar (s.buf (s.rdbuf + blk_len - 1))
      let s1 := { s with
        hasher := hasher
        newhash := false
        probes := s.probes ++
          [(rolling_hasher_hash_value E hasher, mem_bytes s.buf s.rdbuf blk_len)] }
      match hash_table.find_block E hashes (rolling_hasher_hash_value E hasher)
          (mem_bytes s.buf s.rdbuf blk_len) blk_len with
      | some bsh =>
        let s2 := delta_flush E adddiff s1
        delta_loop E hashes blk_len need_split_hole fuel
          { s2 with
            stream := s2.stream ++ [.copy bsh.tpos (to_uint32 blk_len) s2.offset]
            holes2remove :=
              if need_split_hole then
                s2.holes2remove ++ [{ offset := s2.offset, length := blk_len }]
              else s2.holes2remove
            rdbuf := s2.rdbuf + blk_len
            offset := u64 (s2.offset + blk_len)
            remain := wrap_int32 (s2.remain - blk_len)
            sentrybuf := s2.rdbuf + blk_len
            newhash := true }
      | none =>
        delta_loop E hashes blk_len need_split_hole fuel
          { s1 with
            outchar := s1.buf s1.rdbuf
            rdbuf := s1.rdbuf + 1
            remain := wrap_int32 (s1.remain - 1) }

/-- What a run of `read_and_delta` carries from one hole to the next: the
reader, the records emitted so far, `holes2remove`, the calls of
`hashes.find_block` made so far, and the buffer. -/
structure delta_acc where
  reader : file_reader
  stream : List delta_record
  holes2remove : List hole_t
  probes : List (Nat × List Nat)
  buf : Nat → Nat

/-- The body of the loop over the hole set: seek to the hole, then run the
per-hole loop with fresh local variables. -/
def delta_hole (E : Env) (hashes : hash_table) (blk_len : Nat) (need_split_hole : Bool)
    (fuel : Nat) (hole : hole_t) (acc : delta_acc) : Run delta_acc :=
  let sk := acc.reader.seek_file hole.offset
  if sk.1 ≠ hole.offset then .thrown "Can't seek file"
  else
    match delta_loop E hashes blk_len need_split_hole fuel
        { reader := sk.2
          stream := acc.stream
          holes2remove := acc.holes2remove
          probes := acc.probes
          buf := acc.buf
          to_read_bytes := to_uint32 hole.length
          rdbuf := 0
          endbuf := 0
          sentrybuf := 0
          hasher := E.RollsumInit
          newhash := true
          remain := 0
          outchar := 0
          offset := sk.1 } with
    | .done s =>
      .done { reader := s.reader, stream := s.stream, holes2remove := s.holes2remove,
              probes := s.probes, buf := s.buf }
    | .thrown msg => .thrown msg
    | .unfinished => .unfinished

/-- The loop `for (it_t begin = hole_set.begin (); begin != hole_set.end ();
++begin)` over the hole set in iteration order. -/
def delta_holes (E : Env) (hashes : hash_table) (blk_len : Nat) (need_split_hole : Bool)
    (fuel : Nat) : List hole_t → delta_acc → Run delta_acc
  | [], acc => .done acc
  | hole :: rest, acc =>
    match delta_hole E hashes blk_len need_split_hole fuel hole acc with
    | .done acc1 => delta_holes E hashes blk_len need_split_hole fuel rest acc1
    | .thrown msg => .thrown msg
    | .unfinished => .unfinished

/-- What `read_and_delta` leaves behind when it returns: the reader, the
records passed to the stream, the hole set, and the calls of
`hashes.find_block` it made. -/
structure delta_result where
  reader : file_reader
  stream : List delta_record
  hole_set : List hole_t
  probes : List (Nat × List Nat)

/-- Embedding of `read_and_delta (reader, stream, hashes, hole_set, blk_len,
need_split_hole)`. `fuel` bounds the iterations of each per-hole loop. -/
def read_and_delta (E : Env) (fuel : Nat) (reader : file_reader) (stream : List delta_record)
    (hashes : hash_table) (hole_set : List hole_t) (blk_len : Nat) (need_split_hole : Bool) :
    Run delta_result :=
  match delta_holes E hashes blk_len need_split_hole fuel hole_set
      { reader := reader, stream := stream, holes2remove := [], probes := [],
        buf := fun _ => 0 } with
  | .done acc =>
    if need_split_hole then
      match split_holes hole_set acc.holes2remove with
      | (.ok _, hs) =>
        .done { reader := acc.reader, stream := acc.stream, hole_set := hs,
                probes := acc.probes }
      | (.error msg, _) => .thrown msg
    else
      .done { reader := acc.reader, stream := acc.stream, hole_set := hole_set,
              probes := acc.probes }
  | .thrown msg => .thrown msg
  | .unfinished => .unfinished

/-- The output file after one record is applied to it, as the round-trip
property words it: a literal writes its bytes at its `s_offset`, a copy writes
the `len` bytes of the target that start at `tpos.t_offset + tpos.index * B`.
Writing past the end of the output extends it. -/
def apply_record (T : List Nat) (B : Nat) (out : List Nat) : delta_record → List Nat
  | .literal data _ o =>
    (List.range (max out.length (o + data.length))).map
      (fun i => if o ≤ i ∧ i < o + data.length then data.getD (i - o) 0 else out.getD i 0)
  | .copy tpos len o =>
    (List.range (max out.length (o + len))).map
      (fun i =>
        if o ≤ i ∧ i < o + len then T.getD (tpos.t_offset + tpos.index * B + (i - o)) 0
        else out.getD i 0)

/-- The reconstruction of the source from the target and a record stream. -/
def apply_delta (T : List Nat) (B : Nat) (recs : List delta_record) : List Nat :=
  recs.foldl (apply_record T B) []

/-- A toy instance of the parameters used to run the model on small inputs:
digests of one byte that hold the sum of the block modulo 251, and a rolling
sum that is the plain sum of the window. -/
def toy_env : Env where
  BIT32_PLATFORM := false
  DIGEST_BYTES := 1
  get_slow_hash := fun bytes => [bytes.sum % 251]
  Rollsum := Nat
  RollsumInit := 0
  RollsumUpdate := fun s bytes => s + bytes.sum
  RollsumRollin := fun s c => s + c
  RollsumRotate := fun s out inc => s + inc - out
  RollsumDigest := fun s => s % 2 ^ 32

/-- The `n` bytes of a byte sequence that start at offset `o`. -/
def content_bytes (D : List Nat) (o n : Nat) : List Nat :=
  (List.range n).map (fun i => D.getD (o + i) 0)

/-- The records `recs` lie one after the other between source offsets `a` and
`b`: without gaps (each record starts where the previous one ends, the first at
`a`, the last ends at `b`) or, when `gaps` is set, with gaps allowed between
them. -/
def rec_chain (gaps : Bool) : Nat → List delta_record → Nat → Prop
  | a, [], b => if gaps then a ≤ b else a = b
  | a, r :: rs, b =>
    (if gaps then a ≤ r.s_offset else r.s_offset = a) ∧
      rec_chain gaps (r.s_offset + r.len) rs b

/-- What `read_and_delta` guarantees of a record it emits over a file with the
given content: a literal is non-empty, is emitted only when literals are, and
carries the bytes of the file at its offset; a copy has the block length and the
target position of a record that `find_block` returned for the bytes of the file
at its offset. -/
def record_sound (E : Env) (hashes : hash_table) (content : List Nat) (B : Nat)
    (gaps : Bool) : delta_record → Prop
  | .literal data len o => gaps = false ∧ 0 < len ∧ data = content_bytes content o len
  | .copy tpos len o =>
    len = B ∧ ∃ f bsh, hash_table.find_block E hashes f (content_bytes content o B) B = some bsh ∧
      bsh.tpos = tpos

/-- The records emitted for one hole and the hole removals noted for it. -/
def hole_records (E : Env) (hashes : hash_table) (content : List Nat) (B : Nat) (gaps : Bool)
    (stream0 : List delta_record) (h2r0 : List hole_t) (a b : Nat)
    (stream : List delta_record) (h2r : List hole_t) : Prop :=
  ∃ recs, stream = stream0 ++ recs ∧ rec_chain gaps a recs b ∧
    (∀ r ∈ recs, record_sound E hashes content B gaps r) ∧
    h2r = h2r0 ++ (if gaps then recs.map (fun r => ({ offset := r.s_offset, length := B } : hole_t))
      else [])

/-- The state of the per-hole loop of `read_and_delta` at the head of an
iteration, for hole `H` of a file with the given content: the buffer holds the
bytes of the file from `offset` on between `sentrybuf` and `endbuf`, the reader
stands behind them, and the records emitted so far for this hole reach from the
start of the hole to `offset`. -/
def delta_inv (E : Env) (hashes : hash_table) (content : List Nat) (B : Nat) (gaps : Bool)
    (H : hole_t) (stream0 : List delta_record) (h2r0 : List hole_t) (s : delta_state E) : Prop :=
  s.reader.content = content ∧
  s.sentrybuf ≤ s.rdbuf ∧ s.rdbuf ≤ s.endbuf ∧ s.endbuf ≤ XDELTA_BUFFER_LEN E ∧
  s.remain = (s.endbuf : Int) - s.rdbuf ∧
  (∀ i, s.sentrybuf ≤ i → i < s.endbuf →
    s.buf i = content.getD (s.offset + (i - s.sentrybuf)) 0) ∧
  s.reader.pos = s.offset + (s.endbuf - s.sentrybuf) ∧
  s.reader.pos + s.to_read_bytes = H.offset + to_uint32 H.length ∧
  H.offset ≤ s.offset ∧
  hole_records E hashes content B gaps stream0 h2r0 H.offset s.offset s.stream s.holes2remove

/-- The records a finished run of `read_and_delta` passed to the stream. -/
def delta_output : Run delta_result → Option (List delta_record)
  | .done res => some res.stream
  | .thrown _ => none
  | .unfinished => none

/-- An instance of the parameters whose strong hash is the identity on blocks
of `n` bytes, so that equal digests are equal blocks; the rolling sum is the
plain sum of the window. -/
def id_env (n : Nat) : Env where
  BIT32_PLATFORM := false
  DIGEST_BYTES := n
  get_slow_hash := fun bytes => bytes
  Rollsum := Nat
  RollsumInit := 0
  RollsumUpdate := fun s bytes => s + bytes.sum
  RollsumRollin := fun s c => s + c
  RollsumRotate := fun s out inc => s + inc - out
  RollsumDigest := fun s => s % 2 ^ 32

/-- A record reproduces the source: a literal carries the bytes of `S` at its
offset, a copy points at bytes of `T` that equal the bytes of `S` at its offset. -/
def record_faithful (T S : List Nat) (B : Nat) : delta_record → Prop
  | .literal data len o => data = content_bytes S o len
  | .copy tpos len o =>
    ∀ t, t < len → T.getD (tpos.t_offset + tpos.index * B + t) 0 = S.getD (o + t) 0

/-- A target of `2^32 + 1` bytes: `2^32` zero bytes followed by the byte 1. -/
def big_target : List Nat := List.replicate (2 ^ 32) 0 ++ [1]

/-! # The per-hole loop seen from the file -/

/-- The state of the per-hole loop of `read_and_delta` with the buffer taken
out: the three cursors are kept as offsets into the file (`sent` is `offset`,
the file offset of the byte at `sentrybuf`; `rd` that of the byte at `rdbuf`;
`stop` that of the byte at `endbuf`, the first byte not read yet), next to the
rolling hasher, the flag `newhash`, `outchar`, and what the loop has emitted. -/
structure scan_state (E : Env) where
  sent : Nat
  rd : Nat
  stop : Nat
  hasher : E.Rollsum
  newhash : Bool
  outchar : Nat
  stream : List delta_record
  holes2remove : List hole_t
  probes : List (Nat × List Nat)

/-- The statement that emits the pending literal between `sentrybuf` and
`rdbuf` and moves `offset` past it, on file offsets. -/
def scan_flush {E : Env} (content : List Nat) (adddiff : Bool) (a : scan_state E) :
    scan_state E :=
  if a.sent < a.rd then
    { a with
      stream :=
        if adddiff then
          a.stream ++ [.literal (content_bytes content a.sent (a.rd - a.sent)) (a.rd - a.sent)
            a.sent]
        else a.stream
      sent := a.rd }
  else a

/-- The branch `to_read_bytes == 0` on file offsets: the bytes up to `endbuf`
are the last literal of the hole. -/
def scan_final {E : Env} (content : List Nat) (need_split_hole : Bool) (a : scan_state E) :
    scan_state E :=
  if a.sent < a.stop ∧ (!need_split_hole) = true then
    { a with
      stream := a.stream ++
        [.literal (content_bytes content a.sent (a.stop - a.sent)) (a.stop - a.sent) a.sent] }
  else a

/-- The refill branch on file offsets: the pending literal is flushed and the
buffer is filled up to its length `L` or to the end `hi` of the hole. -/
def scan_refill {E : Env} (content : List Nat) (L hi : Nat) (need_split_hole : Bool)
    (a : scan_state E) : scan_state E :=
  let a1 := scan_flush content (!need_split_hole) a
  { a1 with stop := min hi (a1.rd + L) }

/-- The rolling hasher after the statement `if (newhash) hasher.eat_hash (rdbuf,
blk_len) else hasher.update (outchar, *(rdbuf + blk_len - 1))`, on file offsets. -/
def scan_hasher (E : Env) (content : List Nat) (blk_len : Nat) (a : scan_state E) : E.Rollsum :=
  if a.newhash then rolling_hasher_eat_hash E (content_bytes content a.rd blk_len)
  else E.RollsumRotate a.hasher a.outchar (content.getD (a.rd + blk_len - 1) 0)

/-- The state at the call of `hashes.find_block`, on file offsets. -/
def scan_probe (E : Env) (content : List Nat) (blk_len : Nat) (a : scan_state E) :
    scan_state E :=
  { a with
    hasher := scan_hasher E content blk_len a
    newhash := false
    probes := a.probes ++
      [(rolling_hasher_hash_value E (scan_hasher E content blk_len a),
        content_bytes content a.rd blk_len)] }

/-- The branch `if (bsh)` on file offsets: flush, emit the copy, note the hole
to remove, and move past the block. -/
def scan_hit {E : Env} (content : List Nat) (blk_len : Nat) (need_split_hole : Bool)
    (bsh : slow_hash) (a1 : scan_state E) : scan_state E :=
  let a2 := scan_flush content (!need_split_hole) a1
  { a2 with
    stream := a2.stream ++ [.copy bsh.tpos blk_len a2.rd]
    holes2remove :=
      if need_split_hole then a2.holes2remove ++ [{ offset := a2.rd, length := blk_len }]
      else a2.holes2remove
    rd := a2.rd + blk_len
    sent := a2.rd + blk_len
    newhash := true }

/-- The branch that slips the window by one byte, on file offsets. -/
def scan_miss {E : Env} (content : List Nat) (a1 : scan_state E) : scan_state E :=
  { a1 with
    outchar := content.getD a1.rd 0
    rd := a1.rd + 1 }

/-- The per-hole loop of `read_and_delta` on file offsets, for a hole that ends
at file offset `hi` and a buffer of `L` bytes: the same branches as
`delta_loop`, with every buffer access replaced by the bytes of the file at
that place. `delta_loop_scan` shows that `delta_loop` computes exactly this. -/
def scan_loop (E : Env) (hashes : hash_table) (content : List Nat) (blk_len L hi : Nat)
    (need_split_hole : Bool) : Nat → scan_state E → Option (scan_state E)
  | 0, _ => none
  | fuel + 1, a =>
    if a.stop - a.rd < blk_len then
      if a.stop = hi then some (scan_final content need_split_hole a)
      else
        scan_loop E hashes content blk_len L hi need_split_hole fuel
          (scan_refill content L hi need_split_hole a)
    else
      match hash_table.find_block E hashes
          (rolling_hasher_hash_value E (scan_hasher E content blk_len a))
          (content_bytes content a.rd blk_len) blk_len with
      | some bsh =>
        scan_loop E hashes content blk_len L hi need_split_hole fuel
          (scan_hit content blk_len need_split_hole bsh (scan_probe E content blk_len a))
      | none =>
        scan_loop E hashes content blk_len L hi need_split_hole fuel
          (scan_miss content (scan_probe E content blk_len a))

/-- The file-offset view of a state of the per-hole loop. -/
def delta_view {E : Env} (s : delta_state E) : scan_state E :=
  { sent := s.offset
    rd := s.offset + (s.rdbuf - s.sentrybuf)
    stop := s.offset + (s.endbuf - s.sentrybuf)
    hasher := s.hasher
    newhash := s.newhash
    outchar := s.outchar
    stream := s.stream
    holes2remove := s.holes2remove
    probes := s.probes }

/-- The file-offset view of the outcome of the per-hole loop. -/
def run_view {E : Env} : Run (delta_state E) → Option (scan_state E)
  | .done s => some (delta_view s)
  | .thrown _ => none
  | .unfinished => none

/-- How the buffer of the per-hole loop relates to the file, for a hole that
ends at file offset `hi`: the cursors are in order within the buffer, `remain`
is the distance from `rdbuf` to `endbuf`, the buffer holds the bytes of the file
from `offset` on between `sentrybuf` and `endbuf`, the reader stands behind
them, and `to_read_bytes` is what is left of the hole. -/
def delta_buf_inv (E : Env) (content : List Nat) (hi : Nat) (s : delta_state E) : Prop :=
  s.reader.content = content ∧
  s.sentrybuf ≤ s.rdbuf ∧ s.rdbuf ≤ s.endbuf ∧ s.endbuf ≤ XDELTA_BUFFER_LEN E ∧
  s.remain = (s.endbuf : Int) - s.rdbuf ∧
  (∀ i, s.sentrybuf ≤ i → i < s.endbuf →
    s.buf i = content.getD (s.offset + (i - s.sentrybuf)) 0) ∧
  s.reader.pos = s.offset + (s.endbuf - s.sentrybuf) ∧
  s.reader.pos + s.to_read_bytes = hi ∧
  s.to_read_bytes < 2 ^ 32

/-- The rolling hasher of the buffered loop after the statement `if (newhash)
hasher.eat_hash (rdbuf, blk_len) else hasher.update (outchar, *(rdbuf + blk_len
- 1))`, as `delta_loop` has it. -/
def delta_hasher (E : Env) (blk_len : Nat) (s : delta_state E) : E.Rollsum :=
  if s.newhash then rolling_hasher_eat_hash E (mem_bytes s.buf s.rdbuf blk_len)
  else E.RollsumRotate s.hasher s.outchar (s.buf (s.rdbuf + blk_len - 1))

/-- The state of the buffered loop at the call of `hashes.find_block`, as
`delta_loop` has it. -/
def delta_probe (E : Env) (blk_len : Nat) (s : delta_state E) : delta_state E :=
  { s with
    hasher := delta_hasher E blk_len s
    newhash := false
    probes := s.probes ++
      [(rolling_hasher_hash_value E (delta_hasher E blk_len s),
        mem_bytes s.buf s.rdbuf blk_len)] }

/-- The branch `if (bsh)` of the buffered loop, as `delta_loop` has it. -/
def delta_hit (E : Env) (blk_len : Nat) (need_split_hole : Bool) (bsh : slow_hash)
    (s1 : delta_state E) : delta_state E :=
  let s2 := delta_flush E (!need_split_hole) s1
  { s2 with
    stream := s2.stream ++ [.copy bsh.tpos (to_uint32 blk_len) s2.offset]
    holes2remove :=
      if need_split_hole then
        s2.holes2remove ++ [{ offset := s2.offset, length := blk_len }]
      else s2.holes2remove
    rdbuf := s2.rdbuf + blk_len
    offset := u64 (s2.offset + blk_len)
    remain := wrap_int32 (s2.remain - blk_len)
    sentrybuf := s2.rdbuf + blk_len
    newhash := true }

/-- The branch of the buffered loop that slips the window by one byte, as
`delta_loop` has it. -/
def delta_miss {E : Env} (s1 : delta_state E) : delta_state E :=
  { s1 with
    outchar := s1.buf s1.rdbuf
    rdbuf := s1.rdbuf + 1
    remain := wrap_int32 (s1.remain - 1) }


/-- The view of the state in which `read_and_delta` enters the per-hole loop
for a hole at file offset `offset`. -/
def scan_init (E : Env) (offset : Nat) (stream : List delta_record) (holes2remove : List hole_t)
    (probes : List (Nat × List Nat)) : scan_state E :=
  { sent := offset
    rd := offset
    stop := offset
    hasher := E.RollsumInit
    newhash := true
    outchar := 0
    stream := stream
    holes2remove := holes2remove
    probes := probes }

/-- From state `a` the loop on file offsets comes to state `b`: every run from
`a` that returns is continued by a run from `b` that returns the same. -/
def scan_reaches (E : Env) (hashes : hash_table) (content : List Nat) (blk_len L hi : Nat)
    (need_split_hole : Bool) (a b : scan_state E) : Prop :=
  ∀ fuel r, scan_loop E hashes content blk_len L hi need_split_hole fuel a = some r →
    ∃ fuel', scan_loop E hashes content blk_len L hi need_split_hole fuel' b = some r

/-- The loop on file offsets stands at file offset `q` with nothing pending:
the pending literal is empty, the next window is hashed afresh, and the bytes
read so far end within the hole. -/
def scan_aligned {E : Env} (a : scan_state E) (q hi : Nat) : Prop :=
  a.sent = q ∧ a.rd = q ∧ a.newhash = true ∧ q ≤ a.stop ∧ a.stop ≤ hi

/-- What `find_block` returns for the window of `blk_len` bytes at file offset
`q` when the fast hash is the one `eat_hash` gives for the window. -/
def seeded_find (E : Env) (hashes : hash_table) (content : List Nat) (blk_len q : Nat) :
    Option slow_hash :=
  hash_table.find_block E hashes
    (rolling_hasher_hash_value E (rolling_hasher_eat_hash E (content_bytes content q blk_len)))
    (content_bytes content q blk_len) blk_len

/-- The target position of the record that `seeded_find` returns, if any. -/
def seeded_tpos (E : Env) (hashes : hash_table) (content : List Nat) (blk_len q : Nat) :
    target_pos :=
  match seeded_find E hashes content blk_len q with
  | some bsh => bsh.tpos
  | none => { t_offset := 0, index := 0 }

/-- The copy records for `n` consecutive blocks from file offset `q` on. -/
def copy_run (E : Env) (hashes : hash_table) (content : List Nat) (blk_len q n : Nat) :
    List delta_record :=
  (List.range n).map
    (fun i => .copy (seeded_tpos E hashes content blk_len (q + i * blk_len)) blk_len
      (q + i * blk_len))

/-- The literal record for the bytes of the file from `a` up to `b`, if any. -/
def literal_span (content : List Nat) (a b : Nat) : List delta_record :=
  if a < b then [.literal (content_bytes content a (b - a)) (b - a) a] else []

/-- Seeding the rolling hasher byte by byte (`eat_hash`) gives the fast hash
that `rolling_hasher::hash` gives for the same bytes. -/
def seed_agrees (E : Env) : Prop :=
  ∀ bytes : List Nat,
    rolling_hasher_hash_value E (rolling_hasher_eat_hash E bytes) = rolling_hasher_hash E bytes

/-- Rolling the hasher of a window of `blk_len` bytes by one byte (`update`)
gives the hasher that `eat_hash` gives for the slid window. -/
def roll_agrees (E : Env) (blk_len : Nat) : Prop :=
  ∀ (W : List Nat) (c : Nat), W.length = blk_len →
    E.RollsumRotate (rolling_hasher_eat_hash E W) (W.headD 0) c =
      rolling_hasher_eat_hash E (W.tail ++ [c])

/-- When the next window is not hashed afresh, the hasher holds the window one
byte back and `outchar` is the first byte of that window. -/
def scan_rolled {E : Env} (content : List Nat) (blk_len : Nat) (a : scan_state E) : Prop :=
  a.newhash = false →
    1 ≤ a.rd ∧ a.hasher = rolling_hasher_eat_hash E (content_bytes content (a.rd - 1) blk_len) ∧
    a.outchar = content.getD (a.rd - 1) 0

/-- The loop on file offsets stands at file offset `q`, with the bytes from
`sent` on pending as a literal. -/
def scan_pending {E : Env} (a : scan_state E) (q hi : Nat) : Prop :=
  a.sent ≤ q ∧ a.rd = q ∧ q ≤ a.stop ∧ a.stop ≤ hi

/-- The records are non-empty literals that carry the bytes of the file and lie
one after the other from file offset `a` to file offset `b`. -/
def literal_chain (content : List Nat) : Nat → List delta_record → Nat → Prop
  | a, [], b => a = b
  | a, r :: rs, b =>
    ∃ m, a < m ∧ r = .literal (content_bytes content a (m - a)) (m - a) a ∧
      literal_chain content m rs b

/-- What the loop adds to the stream for pending bytes: nothing in an
intermediate round, a chain of literals in the final round. -/
def pending_emitted (content : List Nat) (need_split_hole : Bool) (a : Nat)
    (lits : List delta_record) (b : Nat) : Prop :=
  if need_split_hole then lits = [] ∧ a ≤ b else literal_chain content a lits b


/-! # Rolling checksum -/

/-- Modelled from the spec: the state of the rolling checksum `Rollsum` of
`rollsum.h`, which is not among the sources. The spec describes a classic
rsync-style adler-like checksum with a 32-bit digest; the state holds the number
of bytes in the window and the two running sums, each kept in 32 bits. -/
structure rsync_rollsum where
  count : Nat
  s1 : Nat
  s2 : Nat
deriving DecidableEq, Repr

/-- Modelled from the spec: the constant added to every byte of the window
(`ROLLSUM_CHAR_OFFSET`). -/
def ROLLSUM_CHAR_OFFSET : Nat := 31

/-- Modelled from the spec: `RollsumInit`, the empty window. -/
def rsync_init : rsync_rollsum := { count := 0, s1 := 0, s2 := 0 }

/-- Modelled from the spec: `RollsumRollin`, one byte enters the window: the
first sum grows by the byte, the second by the new first sum. -/
def rsync_rollin (s : rsync_rollsum) (c : Nat) : rsync_rollsum :=
  let s1 := (s.s1 + (c % 256 + ROLLSUM_CHAR_OFFSET)) % 2 ^ 32
  { count := (s.count + 1) % 2 ^ 32, s1 := s1, s2 := (s.s2 + s1) % 2 ^ 32 }

/-- Modelled from the spec: `RollsumUpdate`, which absorbs a run of bytes. -/
def rsync_update (s : rsync_rollsum) (bytes : List Nat) : rsync_rollsum :=
  bytes.foldl rsync_rollin s

/-- Modelled from the spec: `RollsumRotate`, the roll by one position: byte
`out` leaves the window and byte `inc` enters it, in unsigned 32-bit
arithmetic. -/
def rsync_rotate (s : rsync_rollsum) (out inc : Nat) : rsync_rollsum :=
  let s1 := to_uint32 ((s.s1 : Int) + ((inc % 256 : Nat) : Int) - ((out % 256 : Nat) : Int))
  { count := s.count
    s1 := s1
    s2 := to_uint32 ((s.s2 : Int) + (s1 : Int)
      - ((s.count * (out % 256 + ROLLSUM_CHAR_OFFSET) : Nat) : Int)) }

/-- Modelled from the spec: `RollsumDigest`, the 32-bit value with the low 16
bits of the second sum above the low 16 bits of the first. -/
def rsync_digest (s : rsync_rollsum) : Nat :=
  (s.s2 % 2 ^ 16) * 2 ^ 16 + s.s1 % 2 ^ 16

/-- The parameters `E` with the rolling checksum replaced by the modelled one. -/
def with_rsync_rollsum (E : Env) : Env :=
  { E with
    Rollsum := rsync_rollsum
    RollsumInit := rsync_init
    RollsumUpdate := rsync_update
    RollsumRollin := rsync_rollin
    RollsumRotate := rsync_rotate
    RollsumDigest := rsync_digest }

/-- The two running sums of a window in unbounded arithmetic, continued from
the sums `(a, b)`: the first adds up the bytes (each with the offset), the
second adds up the first after each byte. -/
def ideal_sums : Nat × Nat → List Nat → Nat × Nat
  | p, [] => p
  | p, c :: l =>
    ideal_sums (p.1 + (c % 256 + ROLLSUM_CHAR_OFFSET),
      p.2 + (p.1 + (c % 256 + ROLLSUM_CHAR_OFFSET))) l


/-- A record is a copy record. -/
def delta_record.is_copy : delta_record → Bool
  | .copy _ _ _ => true
  | .literal _ _ _ => false

/-- The source of the first concrete scenario: `"abcdefghij"` repeated 100
times. -/
def abc_source : List Nat :=
  (List.replicate 100 [97, 98, 99, 100, 101, 102, 103, 104, 105, 106]).flatten


/-- A source of `2^23 + 1` zero bytes, one byte longer than the buffer of a
platform that is not a 32-bit platform. -/
def big_source : List Nat := List.replicate (2 ^ 23 + 1) 0

/-- The cursors of the loop on file offsets are in order, what is pending fits
in the buffer of `L` bytes, and no record emitted so far is longer than `L`. -/
def scan_bounded {E : Env} (L hi : Nat) (a : scan_state E) : Prop :=
  a.sent ≤ a.rd ∧ a.rd ≤ a.stop ∧ a.stop ≤ hi ∧ a.stop ≤ a.sent + L ∧
  ∀ r ∈ a.stream, r.len ≤ L


/-- The bytes fed to the digest context by a finished run of `read_and_hash`:
the spans passed to `rs_mdfour_update`, one after the other in call order. -/
def hash_digest_feed : Run hash_state → Option (List Nat)
  | .done s => s.pctx.map List.flatten
  | .thrown _ => none
  | .unfinished => none


/-- Two byte ranges do not overlap. -/
def hole_disjoint (c d : hole_t) : Prop :=
  c.offset + c.length ≤ d.offset ∨ d.offset + d.length ≤ c.offset

/-- The hole that `read_and_delta` notes in `holes2remove` for a copy record. -/
def copy_hole (B : Nat) (r : delta_record) : hole_t := { offset := r.s_offset, length := B }


/-- The target of the second concrete scenario: `"A"` repeated 1024 times. -/
def scenario_target : List Nat := List.replicate 1024 65

/-- The source of the second concrete scenario: 512 times `"A"`, one `"B"`, 511
times `"A"`. -/
def scenario_source : List Nat := List.replicate 512 65 ++ 66 :: List.replicate 511 65

/-! # The per-hole loop on any input -/

/-- The state with which the read loop of a refill starts, as `delta_loop` has
it: the pending bytes are flushed, the unread rest of the buffer is moved to its
start and the cursors are reset. -/
def delta_refill_state (E : Env) (need_split_hole : Bool) (s : delta_state E) : delta_state E :=
  let s1 := delta_flush E (!need_split_hole) s
  { s1 with
    buf := if s1.remain > 0 then memmove s1.buf 0 s1.rdbuf s1.remain.toNat else s1.buf
    sentrybuf := 0
    rdbuf := 0
    endbuf := 0 + s1.remain.toNat }

/-- The number of bytes a refill asks for, `buflen = XDELTA_BUFFER_LEN - remain`
cut down to `to_read_bytes`, as `delta_loop` has it. -/
def delta_refill_len (E : Env) (need_split_hole : Bool) (s : delta_state E) : Nat :=
  let s1 := delta_flush E (!need_split_hole) s
  if s1.to_read_bytes > to_uint32 ((XDELTA_BUFFER_LEN E : Int) - s1.remain) then
    to_uint32 ((XDELTA_BUFFER_LEN E : Int) - s1.remain)
  else s1.to_read_bytes

/-- The state in which the per-hole loop ends, as `delta_loop` has it: the bytes
still pending are emitted as a literal when literals are emitted. -/
def delta_final (E : Env) (need_split_hole : Bool) (s : delta_state E) : delta_state E :=
  if to_uint32 ((s.endbuf : Int) - s.sentrybuf) > 0 ∧ (!need_split_hole) = true then
    { s with
      stream := s.stream ++
        [.literal (mem_bytes s.buf s.sentrybuf (to_uint32 ((s.endbuf : Int) - s.sentrybuf)))
          (to_uint32 ((s.endbuf : Int) - s.sentrybuf)) s.offset] }
  else s

/-- The local variables with which the per-hole loop starts on hole `H`, as
`delta_hole` has them. -/
def delta_hole_init (E : Env) (H : hole_t) (acc : delta_acc) : delta_state E :=
  { reader := (acc.reader.seek_file H.offset).2
    stream := acc.stream
    holes2remove := acc.holes2remove
    probes := acc.probes
    buf := acc.buf
    to_read_bytes := to_uint32 H.length
    rdbuf := 0
    endbuf := 0
    sentrybuf := 0
    hasher := E.RollsumInit
    newhash := true
    remain := 0
    outchar := 0
    offset := (acc.reader.seek_file H.offset).1 }

/-! # What an intermediate round and the final round have in common -/

/-- A state of the per-hole loop with what depends on `need_split_hole` taken
out: the literal records are dropped from the stream and the list of noted
holes is emptied. -/
def delta_state.strip {E : Env} (s : delta_state E) : delta_state E :=
  { s with stream := s.stream.filter delta_record.is_copy, holes2remove := [] }

/-- The outcome of the per-hole loop without literals and noted holes. -/
def run_strip {E : Env} : Run (delta_state E) → Run (delta_state E)
  | .done s => .done s.strip
  | .thrown msg => .thrown msg
  | .unfinished => .unfinished

/-- What a run carries from hole to hole, without literals and noted holes. -/
def delta_acc.strip (acc : delta_acc) : delta_acc :=
  { acc with stream := acc.stream.filter delta_record.is_copy, holes2remove := [] }

/-- The outcome of the loop over the holes without literals and noted holes. -/
def acc_strip : Run delta_acc → Run delta_acc
  | .done acc => .done acc.strip
  | .thrown msg => .thrown msg
  | .unfinished => .unfinished

/-- A logged call of `hashes.find_block` whose fast hash is the one that
`rolling_hasher::hash` gives for the bytes passed with it, a window of
`blk_len` bytes. -/
def probe_fresh (E : Env) (blk_len : Nat) (p : Nat × List Nat) : Prop :=
  p.1 = rolling_hasher_hash E p.2 ∧ p.2.length = blk_len

/-! # Machine arithmetic -/

theorem to_uint32_sub (a b : Nat) (h1 : b ≤ a) (h2 : a < 2 ^ 32) :
    to_uint32 ((a : Int) - (b : Nat)) = a - b := by
  unfold to_uint32; omega

theorem to_uint64_sub (a b : Nat) (h1 : b ≤ a) (h2 : a < 2 ^ 64) :
    to_uint64 ((a : Int) - (b : Nat)) = a - b := by
  unfold to_uint64; omega

theorem to_uint32_cast (a : Nat) : to_uint32 (a : Int) = a % 2 ^ 32 := by
  unfold to_uint32; omega

theorem to_uint32_of_lt (a : Nat) (h : a < 2 ^ 32) : to_uint32 (a : Int) = a := by
  unfold to_uint32; omega

theorem to_uint32_lt (a : Nat) : to_uint32 (a : Int) < 2 ^ 32 := by
  unfold to_uint32; omega

theorem to_uint32_le (n : Nat) : to_uint32 (n : Int) ≤ n := by
  unfold to_uint32; omega

theorem to_uint32_sub_int (L : Nat) (r : Int) (d : Nat) (hr : r = (d : Int)) (h : d ≤ L)
    (hL : L < 2 ^ 32) : to_uint32 ((L : Int) - r) = L - d := by
  subst hr
  unfold to_uint32; omega

theorem wrap_int32_id (x : Int) (h0 : 0 ≤ x) (h1 : x < 2 ^ 31) : wrap_int32 x = x := by
  unfold wrap_int32; omega

theorem wrap_int32_sub_ge_iff (e p B : Nat) (h1 : p ≤ e) (h2 : e < 2 ^ 31) :
    wrap_int32 ((e : Int) - p) ≥ (B : Int) ↔ p + B ≤ e := by
  unfold wrap_int32; omega

theorem to_uint32_wrap_sub (e p : Nat) (h1 : p ≤ e) (h2 : e < 2 ^ 31) :
    to_uint32 (wrap_int32 ((e : Int) - p)) = e - p := by
  unfold to_uint32 wrap_int32; omega

theorem u64_of_lt (x : Nat) (h : x < 2 ^ 64) : u64 x = x := Nat.mod_eq_of_lt h


/-! # Block-size policy: proofs -/

theorem or_low_bit (i b : Nat) (h : 2 ^ (i + 1) ∣ b) : b ||| 2 ^ i = b + 2 ^ i := by
  obtain ⟨m, rfl⟩ := h
  have h : (2:Nat) ^ i < 2 ^ (i + 1) := Nat.pow_lt_pow_right (by omega) (by omega)
  exact (Nat.mul_add_lt_is_or h m).symm

theorem and_not_low_bit (i b : Nat) (hd : 2 ^ (i + 1) ∣ b) (h : b + 2 ^ i < 2 ^ 32) :
    (b + 2 ^ i) &&& (2 ^ 32 - 1 - 2 ^ i) = b := by
  have hi : (2:Nat) ^ i < 2 ^ 32 := by omega
  have hm : b < 2 ^ 32 := by omega
  apply Nat.eq_of_testBit_eq
  intro j
  rw [← or_low_bit i b hd, Nat.testBit_and, Nat.testBit_or]
  have e : 2 ^ 32 - 1 - 2 ^ i = 2 ^ 32 - (2 ^ i + 1) := by omega
  rw [e, Nat.testBit_two_pow_sub_succ hi, Nat.testBit_two_pow]
  obtain ⟨m, rfl⟩ := hd
  by_cases hji : i = j
  · subst hji
    simp [Nat.testBit_mul_pow_two]
  · by_cases hj : j < 32
    · simp [hji, hj]
    · have : (2 ^ (i + 1) * m).testBit j = false := by
        apply Nat.testBit_lt_two_pow
        calc 2 ^ (i + 1) * m < 2 ^ 32 := hm
          _ ≤ 2 ^ j := Nat.pow_le_pow_right (by omega) (by omega)
      simp [hji, hj, this]

theorem sqroot_bits_spec (len : Nat) : ∀ (i fuel b : Nat), i < fuel →
    2 ^ (i + 4) ∣ b → b + 2 ^ (i + 4) ≤ 2 ^ 32 → b * b ≤ len →
    len < (b + 2 ^ (i + 4)) * (b + 2 ^ (i + 4)) →
    ∃ r, sqroot_bits fuel len b (2 ^ (i + 3)) = some r ∧
      8 ∣ r ∧ r * r ≤ len ∧ len < (r + 8) * (r + 8) := by
  intro i
  induction i with
  | zero =>
    intro fuel b hf hd hb hlo hhi
    obtain ⟨f, rfl⟩ : ∃ f, fuel = f + 1 := ⟨fuel - 1, by omega⟩
    have hor := or_low_bit 3 b hd
    have hand := and_not_low_bit 3 b hd (by norm_num at hb ⊢; omega)
    simp only [sqroot_bits, Nat.zero_add]
    rw [hor, hand]
    norm_num at hd hb hhi ⊢
    split
    · exact ⟨by omega, hlo, by assumption⟩
    · refine ⟨by omega, by omega, ?_⟩
      have : b + 8 + 8 = b + 16 := by omega
      rw [this]; exact hhi
  | succ i ih =>
    intro fuel b hf hd hb hlo hhi
    obtain ⟨f, rfl⟩ : ∃ f, fuel = f + 1 := ⟨fuel - 1, by omega⟩
    have e4 : (2:Nat) ^ (i + 1 + 4) = 2 * 2 ^ (i + 4) := by
      rw [show i + 1 + 4 = (i + 4) + 1 by omega, Nat.pow_succ]; omega
    have e3 : (2:Nat) ^ (i + 1 + 3) = 2 ^ (i + 4) := by
      rw [show i + 1 + 3 = i + 4 by omega]
    have e2 : (2:Nat) ^ (i + 4) = 2 * 2 ^ (i + 3) := by
      rw [show i + 4 = (i + 3) + 1 by omega, Nat.pow_succ]; omega
    have h8 : (2:Nat) ^ 3 ≤ 2 ^ (i + 3) := Nat.pow_le_pow_right (by omega) (by omega)
    have hor := or_low_bit (i + 1 + 3) b hd
    have hand := and_not_low_bit (i + 1 + 3) b hd (by rw [e3]; rw [e4] at hb; omega)
    have hd2 : 2 ^ (i + 4) ∣ b := Dvd.dvd.trans ⟨2, by rw [e4]; ring⟩ hd
    simp only [sqroot_bits]
    rw [hor, hand]
    have hc1 : 2 ^ (i + 1 + 3) / 2 = 2 ^ (i + 3) := by
      rw [e3, e2]; omega
    rw [hc1]
    have hge : 2 ^ (i + 3) ≥ 8 := by simpa using h8
    simp only [hge, ↓reduceIte]
    rw [e3]
    rw [e4] at hb hhi
    split
    · rename_i hlt
      exact ih f b (by omega) hd2 (by omega) hlo hlt
    · rename_i hge2
      refine ih f (b + 2 ^ (i + 4)) (by omega) (Nat.dvd_add hd2 (dvd_refl _)) (by omega) (by omega) ?_
      have : b + 2 ^ (i + 4) + 2 ^ (i + 4) = b + 2 * 2 ^ (i + 4) := by omega
      rw [this]; exact hhi

theorem xor_low_bit (i b : Nat) (hd : 2 ^ (i + 1) ∣ b) : (b + 2 ^ i) ^^^ 2 ^ i = b := by
  apply Nat.eq_of_testBit_eq
  intro j
  rw [← or_low_bit i b hd, Nat.testBit_xor, Nat.testBit_or, Nat.testBit_two_pow]
  obtain ⟨m, rfl⟩ := hd
  by_cases hji : i = j
  · subst hji
    simp [Nat.testBit_mul_pow_two]
  · simp [hji]

theorem spec_bit_setting_spec (S : Nat) : ∀ (n b : Nat),
    2 ^ (n + 3) ∣ b → b * b ≤ S → S < (b + 2 ^ (n + 3)) * (b + 2 ^ (n + 3)) →
    8 ∣ spec_bit_setting S n b ∧ spec_bit_setting S n b * spec_bit_setting S n b ≤ S ∧
      S < (spec_bit_setting S n b + 8) * (spec_bit_setting S n b + 8) := by
  intro n
  induction n with
  | zero =>
    intro b hd hlo hhi
    simp only [spec_bit_setting]
    norm_num at hd hhi
    exact ⟨hd, hlo, hhi⟩
  | succ n ih =>
    intro b hd hlo hhi
    have e4 : (2:Nat) ^ (n + 1 + 3) = 2 * 2 ^ (n + 3) := by
      rw [show n + 1 + 3 = (n + 3) + 1 by omega, Nat.pow_succ]; omega
    have hd1 : 2 ^ (n + 3 + 1) ∣ b := by
      rw [show n + 3 + 1 = n + 1 + 3 by omega]; exact hd
    have hd2 : 2 ^ (n + 3) ∣ b := Dvd.dvd.trans ⟨2, by rw [e4]; ring⟩ hd
    simp only [spec_bit_setting]
    rw [or_low_bit (n + 3) b hd1, xor_low_bit (n + 3) b hd1]
    rw [e4] at hhi
    split
    · rename_i hgt
      exact ih b hd2 hlo hgt
    · rename_i hle
      refine ih (b + 2 ^ (n + 3)) (Nat.dvd_add hd2 (dvd_refl _)) (by omega) ?_
      have : b + 2 ^ (n + 3) + 2 ^ (n + 3) = b + 2 * 2 ^ (n + 3) := by omega
      rw [this]; exact hhi

theorem mult8_sqrt_unique (S r1 r2 : Nat) (h1 : 8 ∣ r1) (h2 : 8 ∣ r2)
    (l1 : r1 * r1 ≤ S) (u1 : S < (r1 + 8) * (r1 + 8))
    (l2 : r2 * r2 ≤ S) (u2 : S < (r2 + 8) * (r2 + 8)) : r1 = r2 := by
  obtain ⟨a, rfl⟩ := h1
  obtain ⟨b, rfl⟩ := h2
  rcases Nat.lt_trichotomy a b with h | h | h
  · have : 8 * a + 8 ≤ 8 * b := by omega
    have := Nat.mul_le_mul this this
    omega
  · rw [h]
  · have : 8 * b + 8 ≤ 8 * a := by omega
    have := Nat.mul_le_mul this this
    omega

theorem wrap_int32_double (x : Int) : wrap_int32 (wrap_int32 x * 2) = wrap_int32 (x * 2) := by
  unfold wrap_int32; omega

theorem sqroot_scan_nat : ∀ (fuel l j : Nat), l < 4 ^ (fuel + 1) →
    sqroot_scan (fuel + 1) (l : Int) (wrap_int32 (2 ^ j))
      = some (wrap_int32 (2 ^ (j + Nat.log 4 l))) := by
  intro fuel
  induction fuel with
  | zero =>
    intro l j h
    have hl : l < 4 := by simpa using h
    have h0 : ((l : Int) >>> (2 : Nat)) = 0 := by
      rw [Int.shiftRight_eq_div_pow]; norm_num; omega
    simp only [sqroot_scan, h0, ne_eq, not_true_eq_false, ↓reduceIte]
    rw [Nat.log_of_lt hl]; rfl
  | succ f ih =>
    intro l j h
    have hs : ((l : Int) >>> (2 : Nat)) = ((l / 4 : Nat) : Int) := by
      rw [Int.shiftRight_eq_div_pow]; norm_num
    rw [sqroot_scan]
    simp only [hs]
    by_cases h4 : l < 4
    · have : l / 4 = 0 := by omega
      simp only [this, Nat.cast_zero, ne_eq, not_true_eq_false, ↓reduceIte]
      rw [Nat.log_of_lt h4]; rfl
    · have hne : ((l / 4 : Nat) : Int) ≠ 0 := by
        have : 1 ≤ l / 4 := by omega
        omega
      simp only [ne_eq, hne, not_false_eq_true, ↓reduceIte]
      rw [wrap_int32_double]
      have hlt : l / 4 < 4 ^ (f + 1) := by
        rw [Nat.div_lt_iff_lt_mul (by omega)]
        rw [Nat.pow_succ] at h; exact h
      have := ih (l / 4) (j + 1) hlt
      rw [show ((2:Int) ^ j * 2) = 2 ^ (j + 1) by rw [pow_succ]]
      rw [this]
      have hlog : Nat.log 4 l = Nat.log 4 (l / 4) + 1 := by
        rw [Nat.log_of_one_lt_of_le (by omega) (by omega)]
      rw [hlog, show j + 1 + Nat.log 4 (l / 4) = j + (Nat.log 4 (l / 4) + 1) by omega]

theorem sqroot_scan_negative : ∀ (fuel : Nat) (l c : Int), l < 0 → sqroot_scan fuel l c = none := by
  intro fuel
  induction fuel with
  | zero => intro l c _; rfl
  | succ f ih =>
    intro l c hl
    have hs : l >>> (2 : Nat) = l / 4 := by
      rw [Int.shiftRight_eq_div_pow]; norm_num
    have hneg : l / 4 < 0 := by omega
    rw [sqroot_scan]
    simp only [hs]
    have hne : l / 4 ≠ 0 := by omega
    simp only [ne_eq, hne, not_false_eq_true, ↓reduceIte]
    exact ih _ _ hneg

theorem to_int64_small (S : Nat) (h : S < 2 ^ 63) : to_int64 S = (S : Int) := by
  unfold to_int64
  have : S % 2 ^ 64 = S := Nat.mod_eq_of_lt (by omega)
  rw [this, if_pos h]

theorem to_int64_large (S : Nat) (h : 2 ^ 63 ≤ S) (h2 : S < 2 ^ 64) : to_int64 S < 0 := by
  unfold to_int64
  have : S % 2 ^ 64 = S := Nat.mod_eq_of_lt h2
  rw [this, if_neg (by omega)]
  omega

theorem four_pow_eq (k : Nat) : (4:Nat) ^ k = 2 ^ k * 2 ^ k := by
  rw [← Nat.mul_pow]

theorem block_size_small (fuel S : Nat) (h : S ≤ 400 * 400) :
    get_xdelta_block_size fuel S = some 400 := by
  simp only [get_xdelta_block_size, rsync_sum_sizes_sqroot, XDELTA_BLOCK_SIZE]
  rw [if_pos h]

theorem sqroot_scan_of_lt (fuel S : Nat) (hf : 64 ≤ fuel) (hS : S < 2 ^ 63) :
    sqroot_scan fuel (to_int64 S) 1 = some (wrap_int32 (2 ^ Nat.log 4 S)) := by
  obtain ⟨f, rfl⟩ : ∃ f, fuel = f + 1 := ⟨fuel - 1, by omega⟩
  rw [to_int64_small S hS]
  have hlt : S < 4 ^ (f + 1) := by
    calc S < 2 ^ 63 := hS
      _ ≤ 4 ^ 32 := by norm_num
      _ ≤ 4 ^ (f + 1) := Nat.pow_le_pow_right (by omega) (by omega)
  have := sqroot_scan_nat f S 0 hlt
  rw [show wrap_int32 (2 ^ 0) = 1 from rfl, Nat.zero_add] at this
  exact this

theorem block_size_mid (fuel S : Nat) (hf : 64 ≤ fuel) (h1 : 400 * 400 < S) (h2 : S < 2 ^ 40) :
    ∃ r, get_xdelta_block_size fuel S = some r ∧ 8 ∣ r ∧ r * r ≤ S ∧ S < (r + 8) * (r + 8) := by
  have hS0 : S ≠ 0 := by omega
  have hk8 : 8 ≤ Nat.log 4 S := Nat.le_log_of_pow_le (by omega) (by norm_num; omega)
  have hk19 : Nat.log 4 S < 20 := Nat.log_lt_of_lt_pow hS0 (by norm_num; omega)
  have hup : S < 4 ^ (Nat.log 4 S + 1) := Nat.lt_pow_succ_log_self (by omega) S
  obtain ⟨i, hi⟩ : ∃ i, Nat.log 4 S = i + 3 := ⟨Nat.log 4 S - 3, by omega⟩
  have hc31 : (2:Nat) ^ (i + 3) < 2 ^ 20 := Nat.pow_lt_pow_right (by omega) (by omega)
  have hc31' : ((2:Int) ^ (i + 3)) < 2 ^ 20 := by exact_mod_cast hc31
  have hpos : (0:Int) ≤ 2 ^ (i + 3) := by positivity
  simp only [get_xdelta_block_size, rsync_sum_sizes_sqroot, XDELTA_BLOCK_SIZE,
    MAX_XDELTA_BLOCK_BYTES]
  rw [if_neg (by omega), sqroot_scan_of_lt fuel S hf (by omega), hi,
    wrap_int32_id _ hpos (by omega)]
  simp only
  rw [if_neg (by push_cast; omega)]
  have htn : ((2:Int) ^ (i + 3)).toNat = 2 ^ (i + 3) := by
    have : ((2:Int) ^ (i + 3)) = ((2 ^ (i + 3) : Nat) : Int) := by push_cast; rfl
    rw [this, Int.toNat_natCast]
  rw [htn]
  have hb : 0 + 2 ^ (i + 4) ≤ 2 ^ 32 := by
    have : (2:Nat) ^ (i + 4) ≤ 2 ^ 32 := Nat.pow_le_pow_right (by omega) (by omega)
    omega
  have hhi : S < (0 + 2 ^ (i + 4)) * (0 + 2 ^ (i + 4)) := by
    rw [hi, show i + 3 + 1 = i + 4 by omega, four_pow_eq] at hup
    simpa using hup
  obtain ⟨r, hr, hd, hlo, hu⟩ := sqroot_bits_spec S i fuel 0 (by omega) (dvd_zero _) hb (by omega) hhi
  rw [hr]
  refine ⟨max r 400, rfl, ?_, ?_, ?_⟩
  all_goals
    have h400 : 400 ≤ r := by
      by_contra hlt
      obtain ⟨m, rfl⟩ := hd
      have : 8 * m + 8 ≤ 400 := by omega
      have := Nat.mul_le_mul this this
      omega
    rw [max_eq_left h400]
    assumption

theorem spec_block_size_mid (S : Nat) (h1 : 400 * 400 < S) (h2 : S < 2 ^ 40) :
    8 ∣ spec_block_size S ∧ spec_block_size S * spec_block_size S ≤ S ∧
      S < (spec_block_size S + 8) * (spec_block_size S + 8) := by
  have hq0 : Nat.sqrt S ≠ 0 := by
    have : 400 ≤ Nat.sqrt S := Nat.le_sqrt.mpr (by omega)
    omega
  have hq400 : 400 ≤ Nat.sqrt S := Nat.le_sqrt.mpr (by omega)
  have hq : Nat.sqrt S < 2 ^ 20 := Nat.sqrt_lt.mpr (by norm_num; omega)
  have he8 : 8 ≤ Nat.log 2 (Nat.sqrt S) := Nat.le_log_of_pow_le (by omega) (by norm_num; omega)
  have hcle : 2 ^ Nat.log 2 (Nat.sqrt S) ≤ Nat.sqrt S := Nat.pow_log_le_self 2 hq0
  have hup : Nat.sqrt S < 2 ^ (Nat.log 2 (Nat.sqrt S) + 1) := Nat.lt_pow_succ_log_self (by omega) _
  have hmin : min (2 ^ Nat.log 2 (Nat.sqrt S)) (2 ^ 20) = 2 ^ Nat.log 2 (Nat.sqrt S) :=
    min_eq_left (by omega)
  obtain ⟨n, hn⟩ : ∃ n, Nat.log 2 (Nat.sqrt S) = n + 2 := ⟨Nat.log 2 (Nat.sqrt S) - 2, by omega⟩
  have hS : S < (0 + 2 ^ (n + 3)) * (0 + 2 ^ (n + 3)) := by
    rw [hn] at hup
    have := Nat.sqrt_lt.mp hup
    simpa using this
  have key := spec_bit_setting_spec S n 0 (dvd_zero _) (by omega) hS
  have hdef : spec_block_size S = max (spec_bit_setting S n 0) 400 := by
    simp only [spec_block_size]
    rw [if_neg (by omega), hmin, Nat.log_pow (by omega), hn]
    rfl
  obtain ⟨hd, hlo, hu⟩ := key
  have h400 : 400 ≤ spec_bit_setting S n 0 := by
    by_contra hlt
    obtain ⟨m, hm⟩ := hd
    rw [hm] at hu hlt
    have : 8 * m + 8 ≤ 400 := by omega
    have := Nat.mul_le_mul this this
    omega
  rw [hdef, max_eq_left h400]
  exact ⟨hd, hlo, hu⟩

theorem block_size_large (fuel S : Nat) (hf : 64 ≤ fuel) (h1 : 2 ^ 40 ≤ S) (h2 : S < 2 ^ 63) :
    get_xdelta_block_size fuel S = some (2 ^ 20) := by
  have hS0 : S ≠ 0 := by omega
  have hk20 : 20 ≤ Nat.log 4 S := Nat.le_log_of_pow_le (by omega) (by norm_num; omega)
  have hk31 : Nat.log 4 S < 32 := Nat.log_lt_of_lt_pow hS0 (by norm_num; omega)
  simp only [get_xdelta_block_size, rsync_sum_sizes_sqroot, XDELTA_BLOCK_SIZE,
    MAX_XDELTA_BLOCK_BYTES]
  rw [if_neg (by omega), sqroot_scan_of_lt fuel S hf h2]
  simp only
  have hc : wrap_int32 (2 ^ Nat.log 4 S) < 0 ∨ wrap_int32 (2 ^ Nat.log 4 S) ≥ ((2 ^ 20 : Nat) : Int) := by
    by_cases h31 : Nat.log 4 S = 31
    · left; rw [h31]; decide
    · right
      have hlt : (2:Nat) ^ Nat.log 4 S < 2 ^ 31 := Nat.pow_lt_pow_right (by omega) (by omega)
      have hge : (2:Nat) ^ 20 ≤ 2 ^ Nat.log 4 S := Nat.pow_le_pow_right (by omega) hk20
      have hlt' : ((2:Int) ^ Nat.log 4 S) < 2 ^ 31 := by exact_mod_cast hlt
      have hge' : ((2:Int) ^ 20) ≤ 2 ^ Nat.log 4 S := by exact_mod_cast hge
      rw [wrap_int32_id _ (by positivity) hlt']
      push_cast; omega
  rw [if_pos hc]

theorem block_size_bounds_below (fuel S : Nat) (hf : 64 ≤ fuel) (hS : S < 2 ^ 63) :
    ∃ B, get_xdelta_block_size fuel S = some B ∧ 400 ≤ B ∧ B ≤ 1048576 ∧ 8 ∣ B := by
  by_cases h1 : S ≤ 400 * 400
  · exact ⟨400, block_size_small fuel S h1, by omega, by omega, by decide⟩
  · by_cases h2 : S < 2 ^ 40
    · obtain ⟨r, hr, hd, hlo, hu⟩ := block_size_mid fuel S hf (by omega) h2
      refine ⟨r, hr, ?_, ?_, hd⟩
      · by_contra hlt
        obtain ⟨m, rfl⟩ := hd
        have : 8 * m + 8 ≤ 400 := by omega
        have := Nat.mul_le_mul this this
        omega
      · by_contra hgt
        have : 1048576 ≤ r := by omega
        have := Nat.mul_le_mul this this
        norm_num at h2
        omega
    · exact ⟨2 ^ 20, block_size_large fuel S hf (by omega) hS, by norm_num, by norm_num, by decide⟩

theorem block_size_diverges (fuel S : Nat) (h1 : 2 ^ 63 ≤ S) (h2 : S < 2 ^ 64) :
    get_xdelta_block_size fuel S = none := by
  simp only [get_xdelta_block_size, rsync_sum_sizes_sqroot, XDELTA_BLOCK_SIZE]
  rw [if_neg (by omega), sqroot_scan_negative fuel _ _ (to_int64_large S h1 h2)]

theorem get_xdelta_block_size_value (fuel S : Nat) (hf : 64 ≤ fuel) :
    (S ≤ 400 * 400 → get_xdelta_block_size fuel S = some 400) ∧
    (400 * 400 < S → S < 2 ^ 40 →
      get_xdelta_block_size fuel S = some (spec_block_size S) ∧
      8 ∣ spec_block_size S ∧ spec_block_size S * spec_block_size S ≤ S ∧
      ∀ m, 8 ∣ m → m * m ≤ S → m ≤ spec_block_size S) := by
  refine ⟨block_size_small fuel S, ?_⟩
  intro h1 h2
  obtain ⟨r, hr, hd, hlo, hu⟩ := block_size_mid fuel S hf h1 h2
  obtain ⟨sd, slo, su⟩ := spec_block_size_mid S h1 h2
  have heq : r = spec_block_size S := mult8_sqrt_unique S _ _ hd sd hlo hu slo su
  refine ⟨by rw [hr, heq], sd, slo, ?_⟩
  intro m hm hle
  by_contra hgt
  obtain ⟨a, rfl⟩ := hm
  obtain ⟨b, hb⟩ := sd
  rw [hb] at su hgt
  have : 8 * b + 8 ≤ 8 * a := by omega
  have := Nat.mul_le_mul this this
  omega

theorem get_xdelta_block_size_value_witness :
    get_xdelta_block_size 64 (400 * 400) = some 400 ∧
    (get_xdelta_block_size 64 1000000 = some (spec_block_size 1000000) ∧
      8 ∣ spec_block_size 1000000 ∧ spec_block_size 1000000 * spec_block_size 1000000 ≤ 1000000 ∧
      ∀ m, 8 ∣ m → m * m ≤ 1000000 → m ≤ spec_block_size 1000000) :=
  ⟨(get_xdelta_block_size_value 64 (400 * 400) (by decide)).1 (by decide),
   (get_xdelta_block_size_value 64 1000000 (by decide)).2 (by decide) (by decide)⟩

theorem get_xdelta_block_size_no_result : ∀ fuel : Nat, get_xdelta_block_size fuel (2 ^ 63) = none :=
  fun fuel => block_size_diverges fuel (2 ^ 63) (by decide) (by decide)


/-! # Hole set: proofs -/

theorem hole_less_iff (a b : hole_t) (hb : hole_valid b) :
    hole_less a b = true ↔ b.offset + b.length < a.offset := by
  unfold hole_less
  rw [u64_of_lt _ hb]
  simp

theorem hole_less_false_iff (a b : hole_t) (hb : hole_valid b) :
    hole_less a b = false ↔ a.offset ≤ b.offset + b.length := by
  unfold hole_less
  rw [u64_of_lt _ hb]
  simp

theorem holeset_wf_cons {e : hole_t} {l : List hole_t} (h : holeset_wf (e :: l)) :
    holeset_wf l :=
  ⟨fun x hx => h.1 x (List.mem_cons_of_mem _ hx), (List.pairwise_cons.mp h.2).2⟩

/-- On a well-formed hole set the zero-length probe at `x` finds the hole whose
closed range holds `x`, and erasing at that position removes exactly this hole. -/
theorem set_find_erase_hole (P : hole_t) (x : Nat) (l2 : List hole_t) :
    ∀ l1 : List hole_t, holeset_wf (l1 ++ P :: l2) → P.offset ≤ x → x ≤ P.offset + P.length →
      set_find hole_less ⟨x, 0⟩ (l1 ++ P :: l2) = some P ∧
      set_erase hole_less ⟨x, 0⟩ (l1 ++ P :: l2) = l1 ++ l2 := by
  intro l1
  induction l1 with
  | nil =>
    intro hwf h1 h2
    have hP : hole_valid P := hwf.1 P (by simp)
    have a1 : hole_less P ⟨x, 0⟩ = false := by
      rw [hole_less_false_iff]
      · simp; omega
      · unfold hole_valid at *; simp; omega
    have a2 : hole_less ⟨x, 0⟩ P = false := by
      rw [hole_less_false_iff _ _ hP]; simpa using h2
    simp [set_find, set_erase, a1, a2]
  | cons e l1 ih =>
    intro hwf h1 h2
    have hP : hole_valid P := hwf.1 P (by simp)
    have hlt : hole_less e P = true := by
      have := (List.pairwise_cons.mp hwf.2).1 P (by simp)
      exact this
    rw [hole_less_iff _ _ hP] at hlt
    have a1 : hole_less e ⟨x, 0⟩ = true := by
      rw [hole_less_iff]
      · simp; omega
      · unfold hole_valid at *; simp; omega
    obtain ⟨i1, i2⟩ := ih (holeset_wf_cons hwf) h1 h2
    rw [List.cons_append]
    simp only [set_find, set_erase, a1, ↓reduceIte]
    exact ⟨i1, by rw [i2]; rfl⟩

theorem set_find_mem {α : Type} (less : α → α → Bool) (key : α) :
    ∀ (l : List α) (e : α), set_find less key l = some e →
      e ∈ l ∧ less e key = false ∧ less key e = false := by
  intro l
  induction l with
  | nil => intro e h; simp [set_find] at h
  | cons a l ih =>
    intro e h
    simp only [set_find] at h
    by_cases h1 : less a key = true
    · rw [if_pos h1] at h
      obtain ⟨m, p⟩ := ih e h
      exact ⟨List.mem_cons_of_mem _ m, p⟩
    · rw [if_neg h1] at h
      by_cases h2 : less key a = true
      · rw [if_pos h2] at h; simp at h
      · rw [if_neg h2] at h
        have : a = e := by simpa using h
        subst this
        exact ⟨by simp, by simpa using h1, by simpa using h2⟩

/-- Inserting a hole that sorts after every element of `l1` and before every
element of `l2` places it between them. -/
theorem set_insert_hole (h : hole_t) (hv : hole_valid h) (l2 : List hole_t)
    (hl2 : ∀ e ∈ l2, hole_valid e ∧ hole_less h e = true) :
    ∀ l1 : List hole_t, (∀ e ∈ l1, hole_less e h = true) →
      set_insert hole_less h (l1 ++ l2) = l1 ++ h :: l2 := by
  intro l1
  induction l1 with
  | nil =>
    intro _
    cases l2 with
    | nil => simp [set_insert]
    | cons e rest =>
      obtain ⟨ev, el⟩ := hl2 e (by simp)
      have a1 : hole_less e h = false := by
        rw [hole_less_false_iff _ _ hv]
        rw [hole_less_iff _ _ ev] at el
        omega
      simp [set_insert, a1, el]
  | cons a l1 ih =>
    intro hl1
    have a1 : hole_less a h = true := hl1 a (by simp)
    have := ih (fun e he => hl1 e (List.mem_cons_of_mem _ he))
    simp [set_insert, a1, this]

theorem split_hole_decomp (l1 l2 : List hole_t) (P c : hole_t)
    (hwf : holeset_wf (l1 ++ P :: l2)) (hpos : 0 < c.length) (hc : hole_contains P c) :
    split_hole (l1 ++ P :: l2) c = (.ok (), l1 ++ split_pieces P c ++ l2) := by
  obtain ⟨hc1, hc2⟩ := hc
  have hP : hole_valid P := hwf.1 P (by simp)
  have hPv : P.offset + P.length < 2 ^ 64 := hP
  have hcv : c.offset + c.length < 2 ^ 64 := by omega
  obtain ⟨f1, f2⟩ := set_find_erase_hole P c.offset l2 l1 hwf hc1 (by omega)
  have hpw := List.pairwise_append.mp hwf.2
  have hl1P : ∀ e ∈ l1, P.offset + P.length < e.offset := by
    intro e he
    have := hpw.2.2 e he P (by simp)
    exact (hole_less_iff _ _ hP).mp this
  have hl2P : ∀ e ∈ l2, hole_valid e ∧ e.offset + e.length < P.offset := by
    intro e he
    have hev : hole_valid e := hwf.1 e (by simp [he])
    have := (List.pairwise_cons.mp hpw.2.1).1 e he
    exact ⟨hev, (hole_less_iff _ _ hev).mp this⟩
  unfold split_hole
  simp only [f1, f2]
  rw [u64_of_lt _ hPv, u64_of_lt _ hcv]
  rw [if_pos ⟨hc1, hc2⟩]
  unfold split_pieces
  by_cases hL : P.offset < c.offset
  · have hLv : hole_valid ⟨P.offset, c.offset - P.offset⟩ := by
      unfold hole_valid; simp; omega
    have s1 : set_insert hole_less ⟨P.offset, c.offset - P.offset⟩ (l1 ++ l2)
        = l1 ++ ⟨P.offset, c.offset - P.offset⟩ :: l2 := by
      apply set_insert_hole _ hLv
      · intro e he
        obtain ⟨ev, el⟩ := hl2P e he
        exact ⟨ev, by rw [hole_less_iff _ _ ev]; simpa using el⟩
      · intro e he
        rw [hole_less_iff _ _ hLv]
        have := hl1P e he
        simp; omega
    simp only [hL, ↓reduceIte, s1]
    by_cases hR : c.offset + c.length < P.offset + P.length
    · have hRv : hole_valid ⟨c.offset + c.length, P.offset + P.length - (c.offset + c.length)⟩ := by
        unfold hole_valid; simp; omega
      have s2 : set_insert hole_less
          ⟨c.offset + c.length, P.offset + P.length - (c.offset + c.length)⟩
          (l1 ++ ⟨P.offset, c.offset - P.offset⟩ :: l2)
          = l1 ++ ⟨c.offset + c.length, P.offset + P.length - (c.offset + c.length)⟩ ::
              ⟨P.offset, c.offset - P.offset⟩ :: l2 := by
        apply set_insert_hole _ hRv
        · intro e he
          rcases List.mem_cons.mp he with rfl | he
          · exact ⟨hLv, by rw [hole_less_iff _ _ hLv]; simp; omega⟩
          · obtain ⟨ev, el⟩ := hl2P e he
            exact ⟨ev, by rw [hole_less_iff _ _ ev]; simp; omega⟩
        · intro e he
          rw [hole_less_iff _ _ hRv]
          have := hl1P e he
          simp; omega
      have hgt : P.offset + P.length > c.offset + c.length := hR
      simp only [hgt, hR, ↓reduceIte, s2]
      simp
    · have hgt : ¬ (P.offset + P.length > c.offset + c.length) := hR
      simp only [hgt, hR, ↓reduceIte]
      simp
  · simp only [hL, ↓reduceIte]
    by_cases hR : c.offset + c.length < P.offset + P.length
    · have hRv : hole_valid ⟨c.offset + c.length, P.offset + P.length - (c.offset + c.length)⟩ := by
        unfold hole_valid; simp; omega
      have s2 : set_insert hole_less
          ⟨c.offset + c.length, P.offset + P.length - (c.offset + c.length)⟩ (l1 ++ l2)
          = l1 ++ ⟨c.offset + c.length, P.offset + P.length - (c.offset + c.length)⟩ :: l2 := by
        apply set_insert_hole _ hRv
        · intro e he
          obtain ⟨ev, el⟩ := hl2P e he
          exact ⟨ev, by rw [hole_less_iff _ _ ev]; simp; omega⟩
        · intro e he
          rw [hole_less_iff _ _ hRv]
          have := hl1P e he
          simp; omega
      have hgt : P.offset + P.length > c.offset + c.length := hR
      simp only [hgt, hR, ↓reduceIte, s2]
      simp
    · have hgt : ¬ (P.offset + P.length > c.offset + c.length) := hR
      simp only [hgt, hR, ↓reduceIte]
      simp

theorem split_pieces_sub (P c : hole_t) (hpos : 0 < c.length) (hc : hole_contains P c) :
    ∀ m ∈ split_pieces P c, P.offset ≤ m.offset ∧ m.offset + m.length ≤ P.offset + P.length ∧
      0 < m.length := by
  obtain ⟨hc1, hc2⟩ := hc
  intro m hm
  unfold split_pieces at hm
  rcases List.mem_append.mp hm with h | h
  · split at h
    · rw [List.mem_singleton] at h
      subst h; simp; omega
    · simp at h
  · split at h
    · rw [List.mem_singleton] at h
      subst h; simp; omega
    · simp at h

theorem split_pieces_pairwise (P c : hole_t) (hP : hole_valid P) (hpos : 0 < c.length)
    (hc : hole_contains P c) :
    (split_pieces P c).Pairwise (fun a b => hole_less a b = true) := by
  obtain ⟨hc1, hc2⟩ := hc
  unfold split_pieces
  by_cases hL : P.offset < c.offset <;> by_cases hR : c.offset + c.length < P.offset + P.length
  · simp only [hL, hR, ↓reduceIte, List.singleton_append, List.pairwise_cons, List.mem_singleton,
      forall_eq, List.not_mem_nil, IsEmpty.forall_iff, implies_true, List.Pairwise.nil, and_self,
      and_true]
    rw [hole_less_iff]
    · simp; omega
    · unfold hole_valid at *; simp; omega
  · simp [hL, hR]
  · simp [hL, hR]
  · simp [hL, hR]

/-- Replacing a hole of a well-formed set by an ordered list of sub-holes
keeps the set well-formed. -/
theorem holeset_wf_replace (l1 l2 M : List hole_t) (P : hole_t)
    (hwf : holeset_wf (l1 ++ P :: l2))
    (hsub : ∀ m ∈ M, P.offset ≤ m.offset ∧ m.offset + m.length ≤ P.offset + P.length)
    (hM : M.Pairwise (fun a b => hole_less a b = true)) :
    holeset_wf (l1 ++ M ++ l2) := by
  have hP : hole_valid P := hwf.1 P (by simp)
  have hPv : P.offset + P.length < 2 ^ 64 := hP
  have hMv : ∀ m ∈ M, hole_valid m := by
    intro m hm
    have := hsub m hm
    unfold hole_valid; omega
  have hpw := List.pairwise_append.mp hwf.2
  have hpw2 := List.pairwise_cons.mp hpw.2.1
  constructor
  · intro h hh
    rcases List.mem_append.mp hh with hh | hh
    · rcases List.mem_append.mp hh with hh | hh
      · exact hwf.1 h (by simp [hh])
      · exact hMv h hh
    · exact hwf.1 h (by simp [hh])
  · rw [List.pairwise_append, List.pairwise_append]
    refine ⟨⟨hpw.1, hM, ?_⟩, hpw2.2, ?_⟩
    · intro a ha m hm
      have h1 := hpw.2.2 a ha P (by simp)
      rw [hole_less_iff _ _ hP] at h1
      rw [hole_less_iff _ _ (hMv m hm)]
      have := hsub m hm
      omega
    · intro a ha b hb
      have hbv : hole_valid b := hwf.1 b (by simp [hb])
      rw [hole_less_iff _ _ hbv]
      rcases List.mem_append.mp ha with ha | ha
      · have h1 := hpw.2.2 a ha b (by simp [hb])
        exact (hole_less_iff _ _ hbv).mp h1
      · have h2 := hpw2.1 b hb
        rw [hole_less_iff _ _ hbv] at h2
        have := hsub a ha
        omega

theorem holeset_wf_not_mem (l1 l2 : List hole_t) (P : hole_t)
    (hwf : holeset_wf (l1 ++ P :: l2)) : P ∉ l1 ∧ P ∉ l2 := by
  have hP : hole_valid P := hwf.1 P (by simp)
  have hpw := List.pairwise_append.mp hwf.2
  have hpw2 := List.pairwise_cons.mp hpw.2.1
  constructor
  · intro h
    have := hpw.2.2 P h P (by simp)
    rw [hole_less_iff _ _ hP] at this
    omega
  · intro h
    have := hpw2.1 P h
    rw [hole_less_iff _ _ hP] at this
    omega

theorem covered_append (l1 l2 : List hole_t) (x : Nat) :
    covered (l1 ++ l2) x ↔ covered l1 x ∨ covered l2 x := by
  unfold covered
  constructor
  · rintro ⟨h, hm, hx⟩
    rcases List.mem_append.mp hm with hm | hm
    · exact Or.inl ⟨h, hm, hx⟩
    · exact Or.inr ⟨h, hm, hx⟩
  · rintro (⟨h, hm, hx⟩ | ⟨h, hm, hx⟩)
    · exact ⟨h, List.mem_append_left _ hm, hx⟩
    · exact ⟨h, List.mem_append_right _ hm, hx⟩

theorem covered_split_pieces (P c : hole_t) (hc : hole_contains P c) (x : Nat) :
    covered (split_pieces P c) x ↔
      (P.offset ≤ x ∧ x < P.offset + P.length) ∧ ¬ (c.offset ≤ x ∧ x < c.offset + c.length) := by
  obtain ⟨hc1, hc2⟩ := hc
  unfold covered split_pieces
  by_cases hL : P.offset < c.offset <;> by_cases hR : c.offset + c.length < P.offset + P.length
  all_goals
    simp only [hL, hR, ↓reduceIte, List.singleton_append, List.mem_cons, List.mem_singleton,
      List.append_nil, List.nil_append, List.not_mem_nil, false_and, exists_false, or_false,
      exists_eq_or_imp, exists_eq_left]
    constructor
    · intro h
      first
        | exact h.elim
        | omega
    · intro h; omega

/-- Cutting a contained range of positive length out of a well-formed hole set:
the call succeeds, the set stays well-formed and covers what it covered before
except the range. -/
theorem split_hole_ok (holes : List hole_t) (P c : hole_t) (hwf : holeset_wf holes)
    (hP : P ∈ holes) (hpos : 0 < c.length) (hc : hole_contains P c) :
    ∃ l1 l2, holes = l1 ++ P :: l2 ∧
      split_hole holes c = (.ok (), l1 ++ split_pieces P c ++ l2) ∧
      holeset_wf (l1 ++ split_pieces P c ++ l2) ∧
      ∀ x, covered (l1 ++ split_pieces P c ++ l2) x ↔
        covered holes x ∧ ¬ (c.offset ≤ x ∧ x < c.offset + c.length) := by
  obtain ⟨l1, l2, rfl⟩ := List.append_of_mem hP
  have hPv : hole_valid P := hwf.1 P (by simp)
  refine ⟨l1, l2, rfl, split_hole_decomp l1 l2 P c hwf hpos hc, ?_, ?_⟩
  · exact holeset_wf_replace l1 l2 _ P hwf
      (fun m hm => ⟨(split_pieces_sub P c hpos hc m hm).1, (split_pieces_sub P c hpos hc m hm).2.1⟩)
      (split_pieces_pairwise P c hPv hpos hc)
  · intro x
    have hpw := List.pairwise_append.mp hwf.2
    have hpw2 := List.pairwise_cons.mp hpw.2.1
    have hl1 : covered l1 x → P.offset + P.length < x := by
      rintro ⟨e, he, hx⟩
      have := hpw.2.2 e he P (by simp)
      rw [hole_less_iff _ _ hPv] at this
      omega
    have hl2 : covered l2 x → x < P.offset := by
      rintro ⟨e, he, hx⟩
      have hev : hole_valid e := hwf.1 e (by simp [he])
      have := hpw2.1 e he
      rw [hole_less_iff _ _ hev] at this
      omega
    have hPc : covered (P :: l2) x ↔ (P.offset ≤ x ∧ x < P.offset + P.length) ∨ covered l2 x := by
      have := covered_append [P] l2 x
      simp only [List.singleton_append] at this
      rw [this]
      unfold covered
      simp
    rw [covered_append, covered_append, covered_append, hPc, covered_split_pieces P c hc]
    obtain ⟨hc1, hc2⟩ := hc
    constructor
    · rintro ((h | h) | h)
      · have := hl1 h
        exact ⟨Or.inl h, by omega⟩
      · exact ⟨Or.inr (Or.inl h.1), h.2⟩
      · have := hl2 h
        exact ⟨Or.inr (Or.inr h), by omega⟩
    · rintro ⟨(h | h | h), hn⟩
      · exact Or.inl (Or.inl h)
      · exact Or.inl (Or.inr ⟨h, hn⟩)
      · exact Or.inr h

theorem mem_split_pieces (P c h : hole_t) :
    h ∈ split_pieces P c ↔
      (P.offset < c.offset ∧ h = ⟨P.offset, c.offset - P.offset⟩) ∨
      (c.offset + c.length < P.offset + P.length ∧
        h = ⟨c.offset + c.length, P.offset + P.length - (c.offset + c.length)⟩) := by
  unfold split_pieces
  by_cases hL : P.offset < c.offset <;> by_cases hR : c.offset + c.length < P.offset + P.length <;>
    simp [hL, hR, or_comm]

theorem split_hole_contained_ok (holes : List hole_t) (P c : hole_t) (hwf : holeset_wf holes)
    (hP : P ∈ holes) (hc : hole_contains P c) : (split_hole holes c).1 = .ok () := by
  obtain ⟨l1, l2, rfl⟩ := List.append_of_mem hP
  obtain ⟨hc1, hc2⟩ := hc
  have hPv : P.offset + P.length < 2 ^ 64 := hwf.1 P (by simp)
  have hcv : c.offset + c.length < 2 ^ 64 := by omega
  obtain ⟨f1, _⟩ := set_find_erase_hole P c.offset l2 l1 hwf hc1 (by omega)
  unfold split_hole
  simp only [f1]
  rw [u64_of_lt _ hPv, u64_of_lt _ hcv, if_pos ⟨hc1, hc2⟩]

theorem split_hole_not_contained (holes : List hole_t) (c : hole_t) (hwf : holeset_wf holes)
    (hc : hole_valid c) (hno : ¬ ∃ P ∈ holes, hole_contains P c) :
    split_hole holes c = (.error "hole must be exists", holes) := by
  cases hf : set_find hole_less ⟨c.offset, 0⟩ holes with
  | none =>
    unfold split_hole
    simp only [hf]
  | some big =>
    obtain ⟨hm, _, _⟩ := set_find_mem hole_less _ holes big hf
    have hbv : big.offset + big.length < 2 ^ 64 := hwf.1 big hm
    have hcv : c.offset + c.length < 2 ^ 64 := hc
    have : ¬ (big.offset ≤ c.offset ∧ big.offset + big.length ≥ c.offset + c.length) := by
      intro h
      exact hno ⟨big, hm, h.1, h.2⟩
    unfold split_hole
    simp only [hf]
    rw [u64_of_lt _ hbv, u64_of_lt _ hcv, if_neg this]

theorem split_hole_unchanged_of_error (holes : List hole_t) (c : hole_t)
    (h : (split_hole holes c).1 ≠ .ok ()) : (split_hole holes c).2 = holes := by
  cases hf : set_find hole_less ⟨c.offset, 0⟩ holes with
  | none =>
    unfold split_hole
    simp only [hf]
  | some big =>
    unfold split_hole at h ⊢
    simp only [hf] at h ⊢
    split
    · rename_i hcond
      rw [if_pos hcond] at h
      exact absurd rfl h
    · rfl

/-- C5. For a well-formed hole set and a range `c` of positive length inside a
hole `P` of the set, `split_hole` succeeds and leaves the old set with `P`
removed, plus the part of `P` left of `c` exactly when `P.offset < c.offset`,
plus the part right of `c` exactly when `P` ends after `c`; the other holes are
unchanged and the set is still well-formed. -/
theorem split_hole_postcondition (holes : List hole_t) (P c : hole_t)
    (hwf : holeset_wf holes) (hP : P ∈ holes) (hpos : 0 < c.length)
    (h1 : P.offset ≤ c.offset) (h2 : c.offset + c.length ≤ P.offset + P.length) :
    (split_hole holes c).1 = .ok () ∧ holeset_wf (split_hole holes c).2 ∧
    ∀ h, h ∈ (split_hole holes c).2 ↔
      (h ∈ holes ∧ h ≠ P) ∨
      (P.offset < c.offset ∧ h = ⟨P.offset, c.offset - P.offset⟩) ∨
      (c.offset + c.length < P.offset + P.length ∧
        h = ⟨c.offset + c.length, P.offset + P.length - (c.offset + c.length)⟩) := by
  obtain ⟨l1, l2, rfl, hs, hwf2, _⟩ := split_hole_ok holes P c hwf hP hpos ⟨h1, h2⟩
  obtain ⟨n1, n2⟩ := holeset_wf_not_mem l1 l2 P hwf
  rw [hs]
  refine ⟨rfl, hwf2, ?_⟩
  intro h
  simp only [List.mem_append, List.mem_cons, mem_split_pieces]
  constructor
  · rintro ((h | h) | h)
    · exact Or.inl ⟨Or.inl h, fun e => n1 (e ▸ h)⟩
    · exact Or.inr h
    · exact Or.inl ⟨Or.inr (Or.inr h), fun e => n2 (e ▸ h)⟩
  · rintro (⟨(h | h | h), hne⟩ | h)
    · exact Or.inl (Or.inl h)
    · exact absurd h hne
    · exact Or.inr h
    · exact Or.inl (Or.inr h)

theorem split_hole_postcondition_witness :
    (split_hole [⟨0, 10⟩] ⟨5, 2⟩).1 = .ok () ∧ holeset_wf (split_hole [⟨0, 10⟩] ⟨5, 2⟩).2 ∧
    ∀ h, h ∈ (split_hole [⟨0, 10⟩] ⟨5, 2⟩).2 ↔
      (h ∈ [(⟨0, 10⟩ : hole_t)] ∧ h ≠ ⟨0, 10⟩) ∨
      ((0:Nat) < 5 ∧ h = ⟨0, 5 - 0⟩) ∨
      (5 + 2 < 0 + 10 ∧ h = ⟨5 + 2, 0 + 10 - (5 + 2)⟩) :=
  split_hole_postcondition [⟨0, 10⟩] ⟨0, 10⟩ ⟨5, 2⟩
    ⟨by simp [hole_valid], by simp⟩ (by simp) (by decide) (by decide) (by decide)

/-- C6, amended. On a well-formed hole set, for a range `c` whose end
`c.offset + c.length` is representable in `uint64_t`, `split_hole` raises the
fatal error "hole must be exists" exactly when no hole of the set fully contains
`c`, and whenever it does not succeed the hole set is what it was before the
call. -/
theorem split_hole_failure (holes : List hole_t) (c : hole_t)
    (hwf : holeset_wf holes) (hc : hole_valid c) :
    ((split_hole holes c).1 = .error "hole must be exists" ↔
      ¬ ∃ P ∈ holes, hole_contains P c) ∧
    ((split_hole holes c).1 ≠ .ok () → (split_hole holes c).2 = holes) := by
  refine ⟨⟨?_, ?_⟩, split_hole_unchanged_of_error holes c⟩
  · intro herr hex
    obtain ⟨P, hP, hPc⟩ := hex
    have := split_hole_contained_ok holes P c hwf hP hPc
    rw [this] at herr
    exact absurd herr (by decide)
  · intro hno
    rw [split_hole_not_contained holes c hwf hc hno]

theorem split_hole_failure_witness :
    ((split_hole [⟨20, 10⟩, ⟨0, 10⟩] ⟨8, 4⟩).1 = .error "hole must be exists" ↔
      ¬ ∃ P ∈ [(⟨20, 10⟩ : hole_t), ⟨0, 10⟩], hole_contains P ⟨8, 4⟩) ∧
    ((split_hole [⟨20, 10⟩, ⟨0, 10⟩] ⟨8, 4⟩).1 ≠ .ok () →
      (split_hole [⟨20, 10⟩, ⟨0, 10⟩] ⟨8, 4⟩).2 = [⟨20, 10⟩, ⟨0, 10⟩]) :=
  split_hole_failure [⟨20, 10⟩, ⟨0, 10⟩] ⟨8, 4⟩
    ⟨by simp [hole_valid], by simp [hole_less, u64]⟩ (by simp [hole_valid])

/-- C6 as stated fails for a range whose end is not representable: for
`c = {5, 2^64 - 1}` on the hole set `{[0, 10)}` the sum `c.offset + c.length`
wraps to 4, the containment test of `split_hole` passes, and the call succeeds
and leaves the set `{[0, 5)}`, though no hole of the set contains `c`. -/
theorem split_hole_failure_counterexample :
    (split_hole [⟨0, 10⟩] ⟨5, 2 ^ 64 - 1⟩).1 = .ok () ∧
    (split_hole [⟨0, 10⟩] ⟨5, 2 ^ 64 - 1⟩).2 = [⟨0, 5⟩] ∧
    ¬ ∃ P ∈ [(⟨0, 10⟩ : hole_t)], hole_contains P ⟨5, 2 ^ 64 - 1⟩ := by
  decide

theorem split_holes_invariant : ∀ (cs holes : List hole_t), holeset_wf holes →
    split_args_ok true holes cs →
    (split_holes holes cs).1 = .ok () ∧ holeset_wf (split_holes holes cs).2 ∧
    ∀ x, covered (split_holes holes cs).2 x ↔
      (covered holes x ∧ ¬ ∃ c ∈ cs, c.offset ≤ x ∧ x < c.offset + c.length) := by
  intro cs
  induction cs with
  | nil =>
    intro holes hwf _
    simp [split_holes, hwf]
  | cons c cs ih =>
    intro holes hwf hargs
    obtain ⟨hpos, ⟨P, hP, hPc⟩, hrest⟩ := hargs
    obtain ⟨l1, l2, _, hs, hwf2, hcov⟩ := split_hole_ok holes P c hwf hP (hpos rfl) hPc
    rw [hs] at hrest
    obtain ⟨r1, r2, r3⟩ := ih _ hwf2 hrest
    simp only [split_holes, hs]
    refine ⟨r1, r2, ?_⟩
    intro x
    rw [r3, hcov]
    constructor
    · rintro ⟨⟨h1, h2⟩, h3⟩
      refine ⟨h1, ?_⟩
      rintro ⟨d, hd, hx⟩
      rcases List.mem_cons.mp hd with rfl | hd
      · exact h2 hx
      · exact h3 ⟨d, hd, hx⟩
    · rintro ⟨h1, h2⟩
      exact ⟨⟨h1, fun hx => h2 ⟨c, by simp, hx⟩⟩,
        fun ⟨d, hd, hx⟩ => h2 ⟨d, List.mem_cons_of_mem _ hd, hx⟩⟩

/-- C4, amended. Starting from the hole set `{[0, N)}` and applying any finite
sequence of `split_hole` calls whose arguments have positive length and are each
contained in some hole of the set at the time of the call, every call succeeds,
the resulting holes are pairwise separated and sorted by offset (descending in
iteration order: each hole ends before the offset of every hole that precedes
it), and the byte offsets they cover are those of `[0, N)` outside all the
argument ranges. -/
theorem hole_set_invariant (N : Nat) (hN : N < 2 ^ 64) (cs : List hole_t)
    (hargs : split_args_ok true [⟨0, N⟩] cs) :
    (split_holes [⟨0, N⟩] cs).1 = .ok () ∧
    (split_holes [⟨0, N⟩] cs).2.Pairwise (fun a b => b.offset + b.length < a.offset) ∧
    ∀ x, covered (split_holes [⟨0, N⟩] cs).2 x ↔
      (x < N ∧ ¬ ∃ c ∈ cs, c.offset ≤ x ∧ x < c.offset + c.length) := by
  have hwf : holeset_wf [⟨0, N⟩] := ⟨by simp only [List.mem_singleton, forall_eq, hole_valid]; omega, by simp⟩
  obtain ⟨r1, r2, r3⟩ := split_holes_invariant cs _ hwf hargs
  refine ⟨r1, ?_, ?_⟩
  · refine List.Pairwise.imp_of_mem ?_ r2.2
    intro a b _ hb h
    exact (hole_less_iff a b (r2.1 b hb)).mp h
  · intro x
    rw [r3]
    simp [covered]

theorem hole_set_invariant_witness :
    (split_holes [⟨0, 10⟩] [⟨5, 2⟩, ⟨1, 1⟩, ⟨7, 3⟩]).1 = .ok () ∧
    (split_holes [⟨0, 10⟩] [⟨5, 2⟩, ⟨1, 1⟩, ⟨7, 3⟩]).2.Pairwise
      (fun a b => b.offset + b.length < a.offset) ∧
    ∀ x, covered (split_holes [⟨0, 10⟩] [⟨5, 2⟩, ⟨1, 1⟩, ⟨7, 3⟩]).2 x ↔
      (x < 10 ∧ ¬ ∃ c ∈ [(⟨5, 2⟩ : hole_t), ⟨1, 1⟩, ⟨7, 3⟩],
        c.offset ≤ x ∧ x < c.offset + c.length) :=
  hole_set_invariant 10 (by decide) [⟨5, 2⟩, ⟨1, 1⟩, ⟨7, 3⟩]
    ⟨fun _ => by decide, ⟨⟨0, 10⟩, by simp, by decide⟩,
     fun _ => by decide, ⟨⟨0, 5⟩, by decide, by decide⟩,
     fun _ => by decide, ⟨⟨7, 3⟩, by decide, by decide⟩, trivial⟩

/-- C4 as stated fails for an argument of length zero: from `{[0, 10)}` the call
`split_hole ({5, 0})` is accepted, the part right of offset 5 is then rejected
by the set as equivalent to the part left of it, and offsets 5 to 9 are no
longer covered although no argument range holds them. -/
theorem hole_set_invariant_zero_length_counterexample :
    split_args_ok false [⟨0, 10⟩] [⟨5, 0⟩] ∧
    split_holes [⟨0, 10⟩] [⟨5, 0⟩] = (.ok (), [⟨0, 5⟩]) ∧
    ¬ (∀ x, covered (split_holes [⟨0, 10⟩] [⟨5, 0⟩]).2 x ↔
      (x < 10 ∧ ¬ ∃ c ∈ [(⟨5, 0⟩ : hole_t)], c.offset ≤ x ∧ x < c.offset + c.length)) := by
  refine ⟨⟨fun h => absurd h (by decide), ⟨⟨0, 10⟩, by simp, by decide⟩, trivial⟩, by decide, ?_⟩
  intro h
  have h7 := (h 7).mpr ⟨by decide, by simp⟩
  have e : split_holes [⟨0, 10⟩] [⟨5, 0⟩] = (.ok (), [⟨0, 5⟩]) := by decide
  rw [e] at h7
  obtain ⟨q, hq, hq1, hq2⟩ := h7
  simp at hq
  subst hq
  simp at hq2


/-! # Hash index: proofs -/

theorem memcmp_succ (a b : List Nat) (n : Nat) :
    memcmp a b (n + 1) =
      if a.headD 0 < b.headD 0 then -1
      else if a.headD 0 > b.headD 0 then 1
      else memcmp a.tail b.tail n := rfl

theorem memcmp_neg : ∀ (n : Nat) (a b : List Nat), memcmp b a n = - memcmp a b n := by
  intro n
  induction n with
  | zero => intro a b; simp [memcmp]
  | succ n ih =>
    intro a b
    rw [memcmp_succ, memcmp_succ, ih a.tail b.tail]
    generalize a.headD 0 = x
    generalize b.headD 0 = y
    split_ifs <;> omega

theorem memcmp_self : ∀ (n : Nat) (a : List Nat), memcmp a a n = 0 := by
  intro n
  induction n with
  | zero => intro a; simp [memcmp]
  | succ n ih =>
    intro a
    rw [memcmp_succ, ih]
    simp

theorem memcmp_congr_left : ∀ (n : Nat) (a b c : List Nat),
    memcmp a b n = 0 → memcmp a c n = memcmp b c n := by
  intro n
  induction n with
  | zero => intro a b c _; simp [memcmp]
  | succ n ih =>
    intro a b c h
    rw [memcmp_succ] at h
    rw [memcmp_succ, memcmp_succ]
    have ih' := ih a.tail b.tail c.tail
    revert h ih'
    generalize a.headD 0 = x
    generalize b.headD 0 = y
    generalize c.headD 0 = z
    generalize memcmp a.tail b.tail n = u
    generalize memcmp a.tail c.tail n = v
    generalize memcmp b.tail c.tail n = w
    intro h ih'
    split_ifs at h ⊢ <;> omega

theorem memcmp_trans : ∀ (n : Nat) (a b c : List Nat),
    memcmp a b n < 0 → memcmp b c n < 0 → memcmp a c n < 0 := by
  intro n
  induction n with
  | zero => intro a b c h; simp [memcmp] at h
  | succ n ih =>
    intro a b c h1 h2
    rw [memcmp_succ] at h1 h2
    rw [memcmp_succ]
    have ih' := ih a.tail b.tail c.tail
    revert h1 h2 ih'
    generalize a.headD 0 = x
    generalize b.headD 0 = y
    generalize c.headD 0 = z
    generalize memcmp a.tail b.tail n = u
    generalize memcmp a.tail c.tail n = v
    generalize memcmp b.tail c.tail n = w
    intro h1 h2 ih'
    split_ifs at h1 h2 ⊢ <;> omega

/-- On arrays of `n` bytes, `memcmp` returns 0 exactly for equal arrays. -/
theorem memcmp_eq_zero_iff : ∀ (n : Nat) (a b : List Nat), a.length = n → b.length = n →
    (memcmp a b n = 0 ↔ a = b) := by
  intro n
  induction n with
  | zero =>
    intro a b ha hb
    simp [memcmp, List.length_eq_zero.mp ha, List.length_eq_zero.mp hb]
  | succ n ih =>
    intro a b ha hb
    obtain ⟨x, a', rfl⟩ := List.exists_cons_of_length_eq_add_one ha
    obtain ⟨y, b', rfl⟩ := List.exists_cons_of_length_eq_add_one hb
    rw [memcmp_succ]
    simp only [List.headD_cons, List.tail_cons, List.cons.injEq]
    have ha' : a'.length = n := by simpa using ha
    have hb' : b'.length = n := by simpa using hb
    by_cases h1 : x < y
    · simp only [h1, ↓reduceIte]
      constructor
      · intro h; exact absurd h (by decide)
      · rintro ⟨rfl, _⟩; omega
    · by_cases h2 : x > y
      · simp only [h1, h2, ↓reduceIte]
        constructor
        · intro h; exact absurd h (by decide)
        · rintro ⟨rfl, _⟩; omega
      · simp only [h1, h2, ↓reduceIte]
        rw [ih a' b' ha' hb']
        constructor
        · intro h; exact ⟨by omega, h⟩
        · intro h; exact h.2

theorem slow_less_false_iff (E : Env) (a b : slow_hash) :
    (slow_less E a b = false ∧ slow_less E b a = false) ↔ digest_eq E a.hash b.hash := by
  unfold slow_less digest_eq
  have := memcmp_neg E.DIGEST_BYTES a.hash b.hash
  simp only [decide_eq_false_iff_not, not_lt]
  omega

theorem digest_eq_refl (E : Env) (a : List Nat) : digest_eq E a a := memcmp_self _ _

theorem digest_eq_symm (E : Env) {a b : List Nat} (h : digest_eq E a b) : digest_eq E b a := by
  unfold digest_eq at *
  rw [memcmp_neg, h]; rfl

theorem digest_eq_congr (E : Env) {a b : List Nat} (h : digest_eq E a b) (c : List Nat) :
    digest_eq E c a ↔ digest_eq E c b := by
  unfold digest_eq at *
  have := memcmp_congr_left _ a b c h
  rw [memcmp_neg _ a c, memcmp_neg _ b c]
  omega

theorem slow_less_strict_weak (E : Env) : strict_weak (slow_less E) where
  irrefl := by
    intro a
    simp [slow_less, memcmp_self]
  trans := by
    intro a b c h1 h2
    simp only [slow_less, decide_eq_true_eq] at *
    exact memcmp_trans _ _ _ _ h1 h2
  equiv_left := by
    intro a b c h1 h2
    have h := (slow_less_false_iff E a b).mpr.mt
    have he : digest_eq E a.hash b.hash := (slow_less_false_iff E a b).mp ⟨h1, h2⟩
    simp only [slow_less]
    rw [memcmp_congr_left _ _ _ c.hash he]
  equiv_right := by
    intro a b c h1 h2
    have he : digest_eq E a.hash b.hash := (slow_less_false_iff E a b).mp ⟨h1, h2⟩
    simp only [slow_less]
    rw [memcmp_neg _ a.hash c.hash, memcmp_neg _ b.hash c.hash,
      memcmp_congr_left _ _ _ c.hash he]

/-- On a strictly ordered list, `find` returns the element equivalent to the
key when there is one. -/
theorem set_find_of_mem {α : Type} (less : α → α → Bool) (sw : strict_weak less) (key : α) :
    ∀ (l : List α), l.Pairwise (fun a b => less a b = true) → ∀ e ∈ l,
      less e key = false → less key e = false → set_find less key l = some e := by
  intro l
  induction l with
  | nil => intro _ e he; simp at he
  | cons a l ih =>
    intro hs e he h1 h2
    obtain ⟨hhead, htail⟩ := List.pairwise_cons.mp hs
    rcases List.mem_cons.mp he with rfl | he
    · simp [set_find, h1, h2]
    · have hae : less a e = true := hhead e he
      have : less a key = true := by
        rw [← sw.equiv_right e key a h1 h2]; exact hae
      simp only [set_find, this, ↓reduceIte]
      exact ih htail e he h1 h2

/-- Insertion keeps the list strictly ordered; the new element enters exactly
when no element of the set is equivalent to it. -/
theorem set_insert_spec {α : Type} (less : α → α → Bool) (sw : strict_weak less) (x : α) :
    ∀ (l : List α), l.Pairwise (fun a b => less a b = true) →
      (set_insert less x l).Pairwise (fun a b => less a b = true) ∧
      ∀ e, e ∈ set_insert less x l ↔
        e ∈ l ∨ (e = x ∧ ∀ y ∈ l, ¬ (less y x = false ∧ less x y = false)) := by
  intro l
  induction l with
  | nil => intro _; simp [set_insert]
  | cons a l ih =>
    intro hs
    obtain ⟨hhead, htail⟩ := List.pairwise_cons.mp hs
    obtain ⟨ih1, ih2⟩ := ih htail
    simp only [set_insert]
    by_cases h1 : less a x = true
    · simp only [h1, ↓reduceIte]
      constructor
      · rw [List.pairwise_cons]
        refine ⟨?_, ih1⟩
        intro e he
        rcases (ih2 e).mp he with he | ⟨rfl, _⟩
        · exact hhead e he
        · exact h1
      · intro e
        simp only [List.mem_cons, ih2]
        constructor
        · rintro (h | h | ⟨h, hn⟩)
          · exact Or.inl (Or.inl h)
          · exact Or.inl (Or.inr h)
          · refine Or.inr ⟨h, ?_⟩
            intro y hy
            rcases hy with rfl | hy
            · intro hc; rw [hc.1] at h1; exact absurd h1 (by decide)
            · exact hn y hy
        · rintro ((h | h) | ⟨h, hn⟩)
          · exact Or.inl h
          · exact Or.inr (Or.inl h)
          · exact Or.inr (Or.inr ⟨h, fun y hy => hn y (Or.inr hy)⟩)
    · have h1f : less a x = false := by simpa using h1
      by_cases h2 : less x a = true
      · simp only [h1f, h2, Bool.false_eq_true, ↓reduceIte]
        have hall : ∀ y ∈ a :: l, less x y = true := by
          intro y hy
          rcases List.mem_cons.mp hy with rfl | hy
          · exact h2
          · exact sw.trans _ _ _ h2 (hhead y hy)
        constructor
        · rw [List.pairwise_cons]
          exact ⟨hall, hs⟩
        · intro e
          simp only [List.mem_cons]
          constructor
          · rintro (h | h | h)
            · refine Or.inr ⟨h, ?_⟩
              intro y hy hc
              have := hall y (List.mem_cons.mpr hy)
              rw [hc.2] at this; exact absurd this (by decide)
            · exact Or.inl (Or.inl h)
            · exact Or.inl (Or.inr h)
          · rintro ((h | h) | ⟨h, _⟩)
            · exact Or.inr (Or.inl h)
            · exact Or.inr (Or.inr h)
            · exact Or.inl h
      · have h2f : less x a = false := by simpa using h2
        simp only [h1f, h2f, Bool.false_eq_true, ↓reduceIte]
        refine ⟨hs, ?_⟩
        intro e
        constructor
        · intro h; exact Or.inl h
        · rintro (h | ⟨_, hn⟩)
          · exact h
          · exact absurd ⟨h1f, h2f⟩ (hn a (by simp))

/-- Inserting an element equivalent to one already in the set changes nothing. -/
theorem set_insert_noop {α : Type} (less : α → α → Bool) (sw : strict_weak less) (x : α) :
    ∀ (l : List α), l.Pairwise (fun a b => less a b = true) → ∀ q ∈ l,
      less q x = false → less x q = false → set_insert less x l = l := by
  intro l
  induction l with
  | nil => intro _ q hq; simp at hq
  | cons a l ih =>
    intro hs q hq h1 h2
    obtain ⟨hhead, htail⟩ := List.pairwise_cons.mp hs
    rcases List.mem_cons.mp hq with rfl | hq
    · simp [set_insert, h1, h2]
    · have hae : less a q = true := hhead _ hq
      have : less a x = true := by
        rw [← sw.equiv_right q x a h1 h2]; exact hae
      simp only [set_insert, this, ↓reduceIte, List.cons.injEq, true_and]
      exact ih htail q hq h1 h2

theorem added_under_congr (E : Env) (f : Nat) {d1 d2 : List Nat} (h : digest_eq E d1 d2) :
    added_under E f d1 = added_under E f d2 := by
  funext p
  unfold added_under
  have := digest_eq_congr E h p.2.hash
  by_cases h1 : digest_eq E p.2.hash d1
  · simp [h1, this.mp h1]
  · have h2 : ¬ digest_eq E p.2.hash d2 := fun c => h1 (this.mpr c)
    simp [h1, h2]

theorem find_added_under_some (E : Env) (f : Nat) (d : List Nat) (hist : List (Nat × slow_hash))
    (p : Nat × slow_hash) (h : hist.find? (added_under E f d) = some p) :
    p.1 = f ∧ digest_eq E p.2.hash d ∧ hist.find? (added_under E f p.2.hash) = some p := by
  have hp := List.find?_some h
  unfold added_under at hp
  simp only [Bool.and_eq_true, decide_eq_true_eq] at hp
  refine ⟨hp.1, hp.2, ?_⟩
  rw [added_under_congr E f hp.2]
  exact h

theorem index_inv_empty (E : Env) : index_inv E hash_table.empty [] := by
  intro f
  simp [hash_table.empty]

/-- One `add_block` call extends the history by one record. -/
theorem index_inv_add (E : Env) (ht : hash_table) (hist : List (Nat × slow_hash))
    (hinv : index_inv E ht hist) (f0 : Nat) (r0 : slow_hash) :
    index_inv E (hash_table.add_block E ht f0 r0) (hist ++ [(f0, r0)]) := by
  have sw := slow_less_strict_weak E
  intro f
  have hf := hinv f
  by_cases hff : f = f0
  · subst hff
    have hself : added_under E f r0.hash (f, r0) = true := by
      simp [added_under, digest_eq_refl]
    cases hs : ht f with
    | none =>
      rw [hs] at hf
      simp only [hash_table.add_block, hs, ↓reduceIte, set_insert]
      refine ⟨by simp, ?_⟩
      intro e
      have hnone : ∀ d, hist.find? (added_under E f d) = none := by
        intro d
        rw [List.find?_eq_none]
        intro p hp
        have := hf p hp
        simp [added_under, this]
      rw [List.find?_append, hnone]
      simp only [List.mem_singleton, Option.none_or, List.find?_cons, List.find?_nil]
      constructor
      · rintro rfl
        rw [hself]
      · intro h
        split at h
        · simp at h; exact h.symm
        · simp at h
    | some s =>
      rw [hs] at hf
      obtain ⟨hsorted, hmem⟩ := hf
      obtain ⟨i1, i2⟩ := set_insert_spec (slow_less E) sw r0 s hsorted
      simp only [hash_table.add_block, hs, ↓reduceIte]
      refine ⟨i1, ?_⟩
      intro e
      rw [i2, List.find?_append]
      constructor
      · rintro (h | ⟨rfl, hn⟩)
        · rw [(hmem e).mp h]; rfl
        · have hnone : hist.find? (added_under E f e.hash) = none := by
            cases hq : hist.find? (added_under E f e.hash) with
            | none => rfl
            | some p =>
              exfalso
              obtain ⟨p1, p2, p3⟩ := find_added_under_some E f _ hist p hq
              have hpm : p.2 ∈ s := by
                rw [hmem p.2]
                rw [p3, ← p1]
              exact hn p.2 hpm ((slow_less_false_iff E p.2 e).mpr p2)
          rw [hnone]
          simp only [Option.none_or, List.find?_cons, hself]
      · intro h
        cases hq : hist.find? (added_under E f e.hash) with
        | some p =>
          rw [hq] at h
          simp only [Option.or, Option.some.injEq] at h
          subst h
          exact Or.inl ((hmem e).mpr hq)
        | none =>
          rw [hq] at h
          simp only [Option.none_or, List.find?_cons, List.find?_nil] at h
          split at h
          · rename_i heq
            simp only [Option.some.injEq, Prod.mk.injEq, true_and] at h
            subst h
            refine Or.inr ⟨rfl, ?_⟩
            intro y hy hc
            have hye : digest_eq E y.hash r0.hash := (slow_less_false_iff E y r0).mp hc
            have := (hmem y).mp hy
            rw [added_under_congr E f hye, hq] at this
            simp at this
          · simp at h
  · have hne : ¬ (f = f0) := hff
    simp only [hash_table.add_block, hne, ↓reduceIte]
    have hlast : ∀ d, added_under E f d (f0, r0) = false := by
      intro d
      have : ¬ (f0 = f) := fun h => hff h.symm
      simp [added_under, this]
    cases hs : ht f with
    | none =>
      rw [hs] at hf
      simp only
      intro p hp
      rcases List.mem_append.mp hp with hp | hp
      · exact hf p hp
      · simp only [List.mem_singleton] at hp
        subst hp
        exact fun h => hff h.symm
    | some s =>
      rw [hs] at hf
      simp only
      refine ⟨hf.1, ?_⟩
      intro e
      rw [hf.2 e, List.find?_append]
      simp only [List.find?_cons, hlast, List.find?_nil, Option.or_none]

theorem index_inv_foldl (E : Env) : ∀ (adds : List (Nat × slow_hash)) (ht : hash_table)
    (hist : List (Nat × slow_hash)), index_inv E ht hist →
    index_inv E (adds.foldl (fun ht p => hash_table.add_block E ht p.1 p.2) ht) (hist ++ adds) := by
  intro adds
  induction adds with
  | nil => intro ht hist h; simpa using h
  | cons p adds ih =>
    intro ht hist h
    have := ih _ _ (index_inv_add E ht hist h p.1 p.2)
    simpa using this

theorem index_inv_build (E : Env) (adds : List (Nat × slow_hash)) :
    index_inv E (hash_table.build E adds) adds := by
  have := index_inv_foldl E adds _ _ (index_inv_empty E)
  simpa [hash_table.build] using this

/-- Lookup in an index that satisfies the invariant returns the earliest record
of the history under the fast hash whose digest equals that of the bytes. -/
theorem find_block_of_inv (E : Env) (ht : hash_table) (hist : List (Nat × slow_hash))
    (hinv : index_inv E ht hist) (f : Nat) (buf : List Nat) (len : Nat) :
    hash_table.find_block E ht f buf len =
      (hist.find? (added_under E f (E.get_slow_hash (buf.take len)))).map Prod.snd := by
  have sw := slow_less_strict_weak E
  have hf := hinv f
  unfold hash_table.find_block
  cases hs : ht f with
  | none =>
    rw [hs] at hf
    have : hist.find? (added_under E f (E.get_slow_hash (buf.take len))) = none := by
      rw [List.find?_eq_none]
      intro p hp
      have := hf p hp
      simp [added_under, this]
    simp [this]
  | some s =>
    rw [hs] at hf
    obtain ⟨hsorted, hmem⟩ := hf
    simp only
    cases hq : hist.find? (added_under E f (E.get_slow_hash (buf.take len))) with
    | some p =>
      obtain ⟨p1, p2, p3⟩ := find_added_under_some E f _ hist p hq
      have hpm : p.2 ∈ s := by
        rw [hmem p.2, p3, ← p1]
      have heq := (slow_less_false_iff E p.2
        ⟨E.get_slow_hash (buf.take len), ⟨0, 2 ^ 32 - 1⟩⟩).mpr p2
      rw [set_find_of_mem (slow_less E) sw _ s hsorted p.2 hpm heq.1 heq.2]
      rfl
    | none =>
      cases hfind : set_find (slow_less E)
          ⟨E.get_slow_hash (buf.take len), ⟨0, 2 ^ 32 - 1⟩⟩ s with
      | none => rfl
      | some e =>
        exfalso
        obtain ⟨m1, m2, m3⟩ := set_find_mem (slow_less E) _ s e hfind
        have hd : digest_eq E e.hash (E.get_slow_hash (buf.take len)) :=
          (slow_less_false_iff E e ⟨E.get_slow_hash (buf.take len), ⟨0, 2 ^ 32 - 1⟩⟩).mp ⟨m2, m3⟩
        have := (hmem e).mp m1
        rw [added_under_congr E f hd, hq] at this
        simp at this

theorem add_block_noop (E : Env) (ht : hash_table) (hist : List (Nat × slow_hash))
    (hinv : index_inv E ht hist) (f : Nat) (r : slow_hash)
    (hex : ∃ p ∈ hist, p.1 = f ∧ digest_eq E p.2.hash r.hash) :
    hash_table.add_block E ht f r = ht := by
  have sw := slow_less_strict_weak E
  have hf := hinv f
  obtain ⟨p, hp, hp1, hp2⟩ := hex
  funext k
  unfold hash_table.add_block
  by_cases hk : k = f
  · subst hk
    simp only [↓reduceIte]
    cases hs : ht k with
    | none =>
      rw [hs] at hf
      exact absurd hp1 (hf p hp)
    | some s =>
      rw [hs] at hf
      obtain ⟨hsorted, hmem⟩ := hf
      simp only [Option.some.injEq]
      have hsome : ∃ q, hist.find? (added_under E k r.hash) = some q := by
        cases hq : hist.find? (added_under E k r.hash) with
        | some q => exact ⟨q, rfl⟩
        | none =>
          rw [List.find?_eq_none] at hq
          have := hq p hp
          simp [added_under, hp1, hp2] at this
      obtain ⟨q, hq⟩ := hsome
      obtain ⟨q1, q2, q3⟩ := find_added_under_some E k _ hist q hq
      have hqm : q.2 ∈ s := by rw [hmem q.2, q3, ← q1]
      have heq := (slow_less_false_iff E q.2 r).mpr q2
      exact set_insert_noop (slow_less E) sw r s hsorted q.2 hqm heq.1 heq.2
  · simp [hk]

/-- C9. For every sequence of `add_block` calls on an empty `hash_table` and
every query `(f, buf, len)`, `find_block` returns the earliest-added record whose
fast hash is `f` and whose digest equals the strong digest of `buf[0..len)`, and
none when there is no such record: records under another fast hash are never
returned, and an `add_block` under a fast hash that already holds a record with
an equal digest leaves the index unchanged, whatever its target position. -/
theorem find_block_after_adds (E : Env) (adds : List (Nat × slow_hash)) (f : Nat)
    (buf : List Nat) (len : Nat) :
    hash_table.find_block E (hash_table.build E adds) f buf len =
      (adds.find? (fun p => decide (p.1 = f) &&
        decide (digest_eq E p.2.hash (E.get_slow_hash (buf.take len))))).map Prod.snd ∧
    ∀ r : slow_hash, (∃ p ∈ adds, p.1 = f ∧ digest_eq E p.2.hash r.hash) →
      hash_table.add_block E (hash_table.build E adds) f r = hash_table.build E adds :=
  ⟨find_block_of_inv E _ adds (index_inv_build E adds) f buf len,
   fun r h => add_block_noop E _ adds (index_inv_build E adds) f r h⟩


/-! # Hashing pipeline: proofs -/

theorem XDELTA_BUFFER_LEN_bounds (E : Env) :
    2 ^ 23 ≤ XDELTA_BUFFER_LEN E ∧ XDELTA_BUFFER_LEN E ≤ 2 ^ 25 := by
  unfold XDELTA_BUFFER_LEN
  split <;> decide

theorem read_size_bounds (r : file_reader) (want : Nat) (h1 : 0 < want)
    (h2 : r.pos + want ≤ r.content.length) :
    0 < r.read_size want ∧ r.read_size want ≤ want := by
  unfold file_reader.read_size
  omega

/-- The inner read loop of `read_and_hash` stores the next `buflen` bytes of
the file at `endbuf`, however the reader splits them. -/
theorem hash_fill_spec : ∀ (fuel : Nat) (s : hash_state), s.buflen ≤ fuel →
    s.reader.pos + s.buflen ≤ s.reader.content.length → s.buflen ≤ s.to_read_bytes →
    s.to_read_bytes < 2 ^ 64 → s.buflen < 2 ^ 32 →
    ∃ s', hash_fill fuel s = .done s' ∧ s'.reader.content = s.reader.content ∧
      s'.reader.chunk = s.reader.chunk ∧ s'.reader.pos = s.reader.pos + s.buflen ∧
      s'.stream = s.stream ∧ s'.to_read_bytes = s.to_read_bytes - s.buflen ∧
      s'.index = s.index ∧ s'.rdbuf = s.rdbuf ∧ s'.endbuf = s.endbuf + s.buflen ∧
      (∀ i, s'.buf i =
        if s.endbuf ≤ i ∧ i < s.endbuf + s.buflen then
          s.reader.content.getD (s.reader.pos + (i - s.endbuf)) 0
        else s.buf i) := by
  intro fuel
  induction fuel with
  | zero =>
    intro s hf _ _ _ _
    have h0 : s.buflen = 0 := by omega
    refine ⟨s, ?_, rfl, rfl, by omega, rfl, by omega, rfl, rfl, by omega, ?_⟩
    · simp [hash_fill, h0]
    · intro i
      have : ¬ (s.endbuf ≤ i ∧ i < s.endbuf + s.buflen) := by omega
      rw [if_neg this]
  | succ fuel ih =>
    intro s hf hlen hto h64 h32
    by_cases h0 : s.buflen = 0
    · refine ⟨s, ?_, rfl, rfl, by omega, rfl, by omega, rfl, rfl, by omega, ?_⟩
      · simp [hash_fill, h0]
      · intro i
        have : ¬ (s.endbuf ≤ i ∧ i < s.endbuf + s.buflen) := by omega
        rw [if_neg this]
    · have hpos : 0 < s.buflen := by omega
      obtain ⟨hs1, hs2⟩ := read_size_bounds s.reader s.buflen hpos hlen
      have hgt : s.buflen > 0 := hpos
      have hsz : ¬ (s.reader.read_size s.buflen ≤ 0) := by omega
      have e32 : to_uint32 ((s.buflen : Int) - (s.reader.read_size s.buflen : Nat))
          = s.buflen - s.reader.read_size s.buflen := to_uint32_sub _ _ hs2 h32
      have e64 : to_uint64 ((s.to_read_bytes : Int) - (s.reader.read_size s.buflen : Nat))
          = s.to_read_bytes - s.reader.read_size s.buflen := to_uint64_sub _ _ (by omega) h64
      rw [hash_fill]
      simp only [hgt, ↓reduceIte, file_reader.read_file, hsz, e32, e64]
      obtain ⟨s', r1, r2, r3, r4, r5, r6, r7, r8, r9, r10⟩ := ih
        { s with
          reader := { s.reader with pos := s.reader.pos + s.reader.read_size s.buflen,
                                    calls := s.reader.calls + 1 }
          buf := fun i =>
            if s.endbuf ≤ i ∧ i < s.endbuf + s.reader.read_size s.buflen then
              s.reader.byte (s.reader.pos + (i - s.endbuf))
            else s.buf i
          pctx := s.pctx.map (fun spans => spans ++
            [mem_bytes (fun i =>
              if s.endbuf ≤ i ∧ i < s.endbuf + s.reader.read_size s.buflen then
                s.reader.byte (s.reader.pos + (i - s.endbuf))
              else s.buf i) s.rdbuf (s.reader.read_size s.buflen)])
          to_read_bytes := s.to_read_bytes - s.reader.read_size s.buflen
          endbuf := s.endbuf + s.reader.read_size s.buflen
          buflen := s.buflen - s.reader.read_size s.buflen }
        (by simp only; omega) (by simp only; omega) (by simp only; omega)
        (by simp only; omega) (by simp only; omega)
      refine ⟨s', r1, r2, r3, ?_, r5, ?_, r7, r8, ?_, ?_⟩
      · rw [r4]; simp only; omega
      · rw [r6]; simp only; omega
      · rw [r9]; simp only; omega
      · intro i
        rw [r10 i]
        simp only [file_reader.byte]
        by_cases c1 : s.endbuf + s.reader.read_size s.buflen ≤ i ∧
            i < s.endbuf + s.reader.read_size s.buflen +
              (s.buflen - s.reader.read_size s.buflen)
        · rw [if_pos c1, if_pos (by omega)]
          congr 1; omega
        · rw [if_neg c1]
          by_cases c2 : s.endbuf ≤ i ∧ i < s.endbuf + s.reader.read_size s.buflen
          · rw [if_pos c2, if_pos (by omega)]
          · rw [if_neg c2, if_neg (by omega)]

/-- The tuple emitted for the block of the buffer that starts at offset `p`. -/
theorem hash_blocks_spec (E : Env) (B toff : Nat) (hB : 1 ≤ B) :
    ∀ (fuel : Nat) (s : hash_state), s.rdbuf ≤ s.endbuf → s.endbuf < 2 ^ 31 →
    s.endbuf - s.rdbuf ≤ fuel → s.index + (s.endbuf - s.rdbuf) / B < 2 ^ 64 →
    ∃ s', hash_blocks E B toff fuel s = .done s' ∧
      s'.stream = s.stream ++ (List.range ((s.endbuf - s.rdbuf) / B)).map (fun j =>
        (rolling_hasher_hash E (mem_bytes s.buf (s.rdbuf + j * B) B),
         ({ hash := E.get_slow_hash (mem_bytes s.buf (s.rdbuf + j * B) B),
            tpos := { t_offset := toff, index := (s.index + j) % 2 ^ 32 } } : slow_hash))) ∧
      s'.rdbuf = s.rdbuf + (s.endbuf - s.rdbuf) / B * B ∧
      s'.index = s.index + (s.endbuf - s.rdbuf) / B ∧
      s'.endbuf = s.endbuf ∧ s'.buf = s.buf ∧ s'.reader = s.reader ∧
      s'.to_read_bytes = s.to_read_bytes := by
  intro fuel
  induction fuel with
  | zero =>
    intro s h1 h2 h3 _
    have he : s.endbuf - s.rdbuf = 0 := by omega
    have hc : ¬ (wrap_int32 ((s.endbuf : Int) - s.rdbuf) ≥ (B : Int)) := by
      rw [wrap_int32_sub_ge_iff _ _ _ h1 h2]; omega
    refine ⟨s, ?_, ?_, ?_, ?_, rfl, rfl, rfl, rfl⟩
    · simp only [hash_blocks, hc, ↓reduceIte]
    · simp [he]
    · simp [he]
    · simp [he]
  | succ fuel ih =>
    intro s h1 h2 h3 h4
    by_cases hc : s.rdbuf + B ≤ s.endbuf
    · have hw : wrap_int32 ((s.endbuf : Int) - s.rdbuf) ≥ (B : Int) :=
        (wrap_int32_sub_ge_iff _ _ _ h1 h2).mpr hc
      have hdiv : (s.endbuf - s.rdbuf) / B = (s.endbuf - (s.rdbuf + B)) / B + 1 := by
        have : s.endbuf - s.rdbuf = (s.endbuf - (s.rdbuf + B)) + B := by omega
        rw [this, Nat.add_div_right _ (by omega)]
      have hidx : u64 (s.index + 1) = s.index + 1 := by
        have h4' := h4
        rw [hdiv] at h4'
        generalize (s.endbuf - (s.rdbuf + B)) / B = g at h4'
        exact u64_of_lt _ (by omega)
      have h32 : to_uint32 (s.index : Int) = s.index % 2 ^ 32 := to_uint32_cast _
      rw [hash_blocks]
      simp only [hw, ↓reduceIte, hidx, h32]
      obtain ⟨s', r1, r2, r3, r4, r5, r6, r7, r8⟩ := ih
        { s with
          stream := s.stream ++
            [(rolling_hasher_hash E (mem_bytes s.buf s.rdbuf B),
              ({ hash := E.get_slow_hash (mem_bytes s.buf s.rdbuf B),
                 tpos := { t_offset := toff, index := s.index % 2 ^ 32 } } : slow_hash))]
          index := s.index + 1
          rdbuf := s.rdbuf + B }
        (by simp only; omega) (by simp only; omega) (by simp only; omega)
        (by
          simp only
          rw [hdiv] at h4
          generalize (s.endbuf - (s.rdbuf + B)) / B = g at h4
          omega)
      refine ⟨s', r1, ?_, ?_, ?_, r5, r6, r7, r8⟩
      · rw [r2, hdiv, List.range_succ_eq_map]
        simp only [List.append_assoc, List.singleton_append, List.map_cons, List.map_map,
          Nat.zero_mul, Nat.add_zero]
        congr 2
        apply List.map_congr_left
        intro j _
        simp only [Function.comp, Nat.succ_eq_add_one]
        have e1 : s.rdbuf + B + j * B = s.rdbuf + (j + 1) * B := by ring
        have e2 : s.index + 1 + j = s.index + (j + 1) := by ring
        rw [e1, e2]
      · rw [r3, hdiv]; simp only; ring
      · rw [r4, hdiv]; simp only; ring
    · have hw : ¬ (wrap_int32 ((s.endbuf : Int) - s.rdbuf) ≥ (B : Int)) := by
        rw [wrap_int32_sub_ge_iff _ _ _ h1 h2]; exact hc
      have he : (s.endbuf - s.rdbuf) / B = 0 := Nat.div_eq_of_lt (by omega)
      refine ⟨s, ?_, ?_, ?_, ?_, rfl, rfl, rfl, rfl⟩
      · rw [hash_blocks]; simp only [hw, ↓reduceIte]
      · simp [he]
      · simp [he]
      · simp [he]

theorem mem_bytes_eq_block_at (buf : Nat → Nat) (D : List Nat) (p q B i : Nat)
    (h : ∀ t, t < B → buf (q + t) = D.getD (p + i * B + t) 0) :
    mem_bytes buf q B = block_at D p B i := by
  unfold mem_bytes block_at
  apply List.map_congr_left
  intro t ht
  exact h t (List.mem_range.mp ht)

/-- One pass of the outer loop of `read_and_hash` keeps the loop invariant and
uses up part of the region. -/
theorem hash_loop_step (E : Env) (content : List Nat) (p0 R B toff : Nat)
    (st : List (Nat × slow_hash)) (hB1 : 1 ≤ B) (hBL : B ≤ XDELTA_BUFFER_LEN E)
    (hR : R < 2 ^ 64) (hlen : p0 + R ≤ content.length) (s : hash_state)
    (hinv : hash_inv E content p0 R B toff st s) (hpos : s.to_read_bytes > 0) :
    ∃ s5, (∀ fuel, hash_loop E B toff (fuel + 1) s = hash_loop E B toff fuel s5) ∧
      hash_inv E content p0 R B toff st s5 ∧ s5.to_read_bytes < s.to_read_bytes := by
  obtain ⟨hL1, hL2⟩ := XDELTA_BUFFER_LEN_bounds E
  obtain ⟨i1, i2, i3, i4, i5, i6, i7⟩ := hinv
  have hidxle : s.index ≤ s.index * B := Nat.le_mul_of_pos_right _ (by omega)
  have hn1 : 1 ≤ s.buflen := by rw [i7]; omega
  have hn2 : s.buflen ≤ s.to_read_bytes := by rw [i7]; omega
  have hn3 : s.rdbuf + s.buflen ≤ XDELTA_BUFFER_LEN E := by rw [i7]; omega
  obtain ⟨s2, f1, f2, f3, f4, f5, f6, f7, f8, f9, f10⟩ :=
    hash_fill_spec s.buflen { s with endbuf := s.rdbuf } (by simp only; omega)
      (by simp only; rw [i1]; omega) (by simp only; omega) (by simp only; omega)
      (by simp only; omega)
  simp only at f2 f3 f4 f5 f6 f7 f8 f9 f10
  have hF : ∀ j, j < s.rdbuf + s.buflen →
      s2.buf j = content.getD (p0 + s.index * B + j) 0 := by
    intro j hj
    rw [f10 j]
    by_cases c : s.rdbuf ≤ j ∧ j < s.rdbuf + s.buflen
    · rw [if_pos c, i1]
      congr 1; omega
    · rw [if_neg c]
      exact i6 j (by omega)
  have hdivle : (s.rdbuf + s.buflen) / B ≤ s.rdbuf + s.buflen := Nat.div_le_self _ _
  obtain ⟨s4, b1, b2, b3, b4, b5, b6, b7, b8⟩ :=
    hash_blocks_spec E B toff hB1 s2.endbuf { s2 with rdbuf := 0 } (by simp only; omega)
      (by simp only; rw [f9]; omega) (by simp only; omega)
      (by simp only; rw [f9, f7, Nat.sub_zero]; omega)
  simp only [Nat.sub_zero, Nat.zero_add] at b2 b3 b4 b5 b6 b7 b8
  rw [f9] at b2 b3 b4 b5
  rw [f7] at b2 b4
  have hdm := Nat.div_add_mod (s.rdbuf + s.buflen) B
  have hmod : (s.rdbuf + s.buflen) % B < B := Nat.mod_lt _ (by omega)
  rw [Nat.mul_comm] at hdm
  generalize hq : (s.rdbuf + s.buflen) / B = q at b2 b3 b4 hdm hdivle
  generalize hm : (s.rdbuf + s.buflen) % B = m at hdm hmod
  have hrem : to_uint32 (wrap_int32 ((s4.endbuf : Int) - s4.rdbuf)) = m := by
    rw [b5, b3]
    generalize q * B = Q at hdm
    rw [to_uint32_wrap_sub _ _ (by omega) (by omega)]
    omega
  have hbl : to_uint32 ((XDELTA_BUFFER_LEN E : Int) - (m : Nat)) = XDELTA_BUFFER_LEN E - m :=
    to_uint32_sub _ _ (by omega) (by omega)
  have hto : to_uint32 (s4.to_read_bytes : Int) = s4.to_read_bytes % 2 ^ 32 :=
    to_uint32_cast _
  have hstep : ∀ fuel, hash_loop E B toff (fuel + 1) s = hash_loop E B toff fuel
      { s4 with
        buf := if m > 0 then memmove s4.buf 0 s4.rdbuf m else s4.buf
        rdbuf := m
        buflen := if s4.to_read_bytes > XDELTA_BUFFER_LEN E - m then XDELTA_BUFFER_LEN E - m
          else s4.to_read_bytes % 2 ^ 32 } := by
    intro fuel
    rw [hash_loop]
    simp only [hpos, ↓reduceIte, f1, b1, hrem, hbl, hto]
  refine ⟨_, hstep, ?_, ?_⟩
  · clear hstep f1 b1 hrem hbl hto
    refine ⟨?_, hmod, ?_, ?_, ?_, ?_, ?_⟩
    · show s4.reader.content = content
      rw [b7, f2]; exact i1
    · show s4.reader.pos + s4.to_read_bytes = p0 + R
      rw [b7, b8, f4, f6]; omega
    · show s4.index * B + m + s4.to_read_bytes = R
      rw [b4, b8, f6, Nat.add_mul]
      generalize q * B = Q at hdm
      generalize s.index * B = P at i4
      omega
    · show s4.stream = st ++ List.map (hash_tuple E content p0 B toff) (List.range s4.index)
      rw [b2, b4, f5, i5, List.append_assoc, List.range_add, List.map_append, List.map_map]
      congr 2
      apply List.map_congr_left
      intro j hj
      have hj' := List.mem_range.mp hj
      have hjB : (j + 1) * B ≤ q * B := Nat.mul_le_mul_right _ (by omega)
      have hblock : mem_bytes s2.buf (j * B) B = block_at content p0 B (s.index + j) := by
        apply mem_bytes_eq_block_at
        intro t ht
        rw [Nat.add_mul] at hjB
        rw [hF (j * B + t) (by
          generalize q * B = Q at hdm hjB
          generalize j * B = J at hjB
          omega)]
        congr 1
        rw [Nat.add_mul]; omega
      simp only [Function.comp, hash_tuple]
      rw [hblock]
    · intro i hi
      show (if m > 0 then memmove s4.buf 0 s4.rdbuf m else s4.buf) i
        = content.getD (p0 + s4.index * B + i) 0
      have hi' : i < m := hi
      rw [b4]
      have hlt : q * B + i < s.rdbuf + s.buflen := by
        generalize q * B = Q at hdm
        omega
      have hp : m > 0 := by omega
      rw [if_pos hp, b6, b3]
      simp only [memmove]
      rw [if_pos (by omega), Nat.sub_zero, hF _ hlt]
      congr 1
      rw [Nat.add_mul]; omega
    · show (if s4.to_read_bytes > XDELTA_BUFFER_LEN E - m then XDELTA_BUFFER_LEN E - m
          else s4.to_read_bytes % 2 ^ 32) = min s4.to_read_bytes (XDELTA_BUFFER_LEN E - m)
      rw [b8, f6]
      split
      · omega
      · rw [Nat.mod_eq_of_lt (by omega)]; omega
  · show s4.to_read_bytes < s.to_read_bytes
    rw [b8, f6]; omega

theorem hash_loop_spec (E : Env) (content : List Nat) (p0 R B toff : Nat)
    (st : List (Nat × slow_hash)) (hB1 : 1 ≤ B) (hBL : B ≤ XDELTA_BUFFER_LEN E)
    (hR : R < 2 ^ 64) (hlen : p0 + R ≤ content.length) :
    ∀ (fuel : Nat) (s : hash_state), s.to_read_bytes < fuel →
      hash_inv E content p0 R B toff st s →
      ∃ s', hash_loop E B toff fuel s = .done s' ∧
        s'.stream = st ++ (List.range (R / B)).map (hash_tuple E content p0 B toff) ∧
        s'.reader.pos = p0 + R ∧ s'.reader.content = content := by
  intro fuel
  induction fuel with
  | zero => intro s h; omega
  | succ fuel ih =>
    intro s hfuel hinv
    by_cases h0 : s.to_read_bytes = 0
    · obtain ⟨i1, i2, i3, i4, i5, i6, i7⟩ := hinv
      refine ⟨s, ?_, ?_, by omega, i1⟩
      · rw [hash_loop]; simp [h0]
      · have : R / B = s.index := by
          rw [← i4, h0, Nat.add_zero, Nat.mul_comm, Nat.mul_add_div (by omega),
            Nat.div_eq_of_lt i2, Nat.add_zero]
        rw [this, i5]
    · obtain ⟨s5, hstep, hinv5, hlt⟩ := hash_loop_step E content p0 R B toff st hB1 hBL hR hlen
        s hinv (by omega)
      rw [hstep fuel]
      exact ih s5 (by omega) hinv5

theorem read_and_hash_spec (E : Env) (r : file_reader) (st : List (Nat × slow_hash))
    (R B toff fuel : Nat) (pctx : Option (List (List Nat)))
    (hB1 : 1 ≤ B) (hBL : B ≤ XDELTA_BUFFER_LEN E) (hR : R < 2 ^ 64)
    (hlen : r.pos + R ≤ r.content.length) (hfuel : R < fuel) :
    ∃ s', read_and_hash E fuel r st R B toff pctx = .done s' ∧
      s'.stream = st ++ (List.range (R / B)).map (hash_tuple E r.content r.pos B toff) ∧
      s'.reader.pos = r.pos + R ∧ s'.reader.content = r.content := by
  obtain ⟨hL1, hL2⟩ := XDELTA_BUFFER_LEN_bounds E
  unfold read_and_hash
  apply hash_loop_spec E r.content r.pos R B toff st hB1 hBL hR hlen fuel _ hfuel
  refine ⟨rfl, by simp only; omega, rfl, by simp only; omega, by simp, ?_, ?_⟩
  · intro i hi
    simp only at hi
    omega
  · simp only
    split
    · rw [to_uint32_of_lt _ (by omega)]; omega
    · rw [to_uint32_of_lt _ (by omega)]; omega

/-- C10, amended. For every region of `R` bytes that a reader is positioned at,
every block length `B` with `1 ≤ B ≤ XDELTA_BUFFER_LEN`, every `t_offset`, and
every way the reader splits the data into positive-size reads, `read_and_hash`
returns after passing exactly `R / B` tuples to the stream, in order
`i = 0, 1, 2, …`, where tuple `i` has the fast hash `rolling_hasher::hash` of
the `i`-th block of `B` bytes, the strong hash of the same bytes, and the
position `(t_offset, i mod 2^32)`; the trailing `R mod B` bytes give no tuple. -/
theorem read_and_hash_output (E : Env) (content : List Nat) (pos calls : Nat)
    (chunk : Nat → Nat) (R B t_offset fuel : Nat) (pctx : Option (List (List Nat)))
    (hB1 : 1 ≤ B) (hBL : B ≤ XDELTA_BUFFER_LEN E) (hR : R < 2 ^ 64)
    (hlen : pos + R ≤ content.length) (hfuel : R < fuel) :
    hash_output (read_and_hash E fuel ⟨content, pos, calls, chunk⟩ [] R B t_offset pctx) =
      some ((List.range (R / B)).map (fun i =>
        (rolling_hasher_hash E (block_at content pos B i),
         ({ hash := E.get_slow_hash (block_at content pos B i),
            tpos := { t_offset := t_offset, index := i % 2 ^ 32 } } : slow_hash)))) := by
  obtain ⟨s', h1, h2, _, _⟩ := read_and_hash_spec E ⟨content, pos, calls, chunk⟩ [] R B
    t_offset fuel pctx hB1 hBL hR hlen hfuel
  rw [h1]
  simp only [hash_output, h2, List.nil_append]
  rfl

theorem read_and_hash_output_witness :
    hash_output (read_and_hash toy_env 8 ⟨[1, 2, 3, 4, 5, 6, 7], 0, 0, fun _ => 1⟩ [] 7 3 0 none) =
      some ((List.range (7 / 3)).map (fun i =>
        (rolling_hasher_hash toy_env (block_at [1, 2, 3, 4, 5, 6, 7] 0 3 i),
         ({ hash := toy_env.get_slow_hash (block_at [1, 2, 3, 4, 5, 6, 7] 0 3 i),
            tpos := { t_offset := 0, index := i % 2 ^ 32 } } : slow_hash)))) :=
  read_and_hash_output toy_env [1, 2, 3, 4, 5, 6, 7] 0 0 (fun _ => 1) 7 3 0 8 none
    (by decide) (by decide) (by decide) (by decide) (by decide)

/-- C10 as stated fails once the region holds more than `2^32` blocks: the
block counter is stored in the 32-bit field `tpos.index`, so for a region of
`2^32 + 1` bytes hashed with `B = 1` the tuple of block `2^32` carries the
position `(0, 0)`, not `(0, 2^32)`. -/
theorem read_and_hash_index_counterexample :
    (hash_output (read_and_hash toy_env (2 ^ 32 + 2)
        ⟨List.replicate (2 ^ 32 + 1) 0, 0, 0, fun _ => 0⟩ [] (2 ^ 32 + 1) 1 0 none)).map
      (fun l => (l.length, (l.get? (2 ^ 32)).map (fun t => t.2.tpos))) =
      some (2 ^ 32 + 1, some ⟨0, 0⟩) := by
  have hlen : (⟨List.replicate (2 ^ 32 + 1) 0, 0, 0, fun _ => 0⟩ : file_reader).pos + (2 ^ 32 + 1)
      ≤ (⟨List.replicate (2 ^ 32 + 1) 0, 0, 0, fun _ => 0⟩ : file_reader).content.length := by
    show 0 + (2 ^ 32 + 1) ≤ (List.replicate (2 ^ 32 + 1) 0).length
    rw [List.length_replicate]
    decide
  obtain ⟨hs, a1, a2, _, _⟩ := read_and_hash_spec toy_env
    ⟨List.replicate (2 ^ 32 + 1) 0, 0, 0, fun _ => 0⟩ [] (2 ^ 32 + 1) 1 0 (2 ^ 32 + 2) none
    (by decide) (by decide) (by decide) hlen (by decide)
  rw [a1]
  show Option.map _ (some hs.stream) = _
  rw [Option.map_some', a2, List.nil_append, Nat.div_one]
  simp only [List.length_map, List.length_range, List.get?_eq_getElem?, List.getElem?_map]
  rw [List.getElem?_range (by decide)]
  rfl

/-! # Delta pipeline: proofs -/

theorem delta_fill_spec (E : Env) : ∀ (fuel : Nat) (s : delta_state E) (n : Nat), n ≤ fuel →
    s.reader.pos + n ≤ s.reader.content.length → n ≤ s.to_read_bytes →
    s.to_read_bytes < 2 ^ 32 → 0 ≤ s.remain → s.remain + n < 2 ^ 31 →
    s.sentrybuf + s.remain.toNat = s.endbuf →
    ∃ rd' buf', delta_fill E fuel s n = .done
        { s with reader := rd', buf := buf', to_read_bytes := s.to_read_bytes - n,
                 endbuf := s.endbuf + n, remain := s.remain + n } ∧
      rd'.content = s.reader.content ∧ rd'.pos = s.reader.pos + n ∧
      (∀ i, buf' i =
        if s.endbuf ≤ i ∧ i < s.endbuf + n then
          s.reader.content.getD (s.reader.pos + (i - s.endbuf)) 0
        else s.buf i) := by
  intro fuel
  induction fuel with
  | zero =>
    intro s n hf _ _ _ _ _ _
    have h0 : n = 0 := by omega
    subst h0
    refine ⟨s.reader, s.buf, ?_, rfl, rfl, ?_⟩
    · simp [delta_fill]
    · intro i
      rw [if_neg (by omega)]
  | succ fuel ih =>
    intro s n hf hlen hto h32 hr0 hr31 hend
    by_cases h0 : n = 0
    · subst h0
      refine ⟨s.reader, s.buf, ?_, rfl, rfl, ?_⟩
      · simp [delta_fill]
      · intro i
        rw [if_neg (by omega)]
    · have hpos : n > 0 := by omega
      obtain ⟨hs1, hs2⟩ := read_size_bounds s.reader n hpos hlen
      have hsz : ¬ (s.reader.read_size n ≤ 0) := by omega
      have e32 : to_uint32 ((n : Int) - (s.reader.read_size n : Nat))
          = n - s.reader.read_size n := to_uint32_sub _ _ hs2 (by omega)
      have e32' : to_uint32 ((s.to_read_bytes : Int) - (s.reader.read_size n : Nat))
          = s.to_read_bytes - s.reader.read_size n := to_uint32_sub _ _ (by omega) h32
      have ew : wrap_int32 (s.remain + (s.reader.read_size n : Nat))
          = s.remain + (s.reader.read_size n : Nat) := wrap_int32_id _ (by omega) (by omega)
      rw [delta_fill]
      simp only [hpos, ↓reduceIte, file_reader.read_file, hsz, e32, e32', ew]
      obtain ⟨rd', buf', r1, r2, r3, r4⟩ := ih
        { s with
          reader := { s.reader with pos := s.reader.pos + s.reader.read_size n,
                                    calls := s.reader.calls + 1 }
          buf := fun i =>
            if s.sentrybuf + s.remain.toNat ≤ i ∧
                i < s.sentrybuf + s.remain.toNat + s.reader.read_size n then
              s.reader.byte (s.reader.pos + (i - (s.sentrybuf + s.remain.toNat)))
            else s.buf i
          to_read_bytes := s.to_read_bytes - s.reader.read_size n
          endbuf := s.endbuf + s.reader.read_size n
          remain := s.remain + (s.reader.read_size n : Nat) }
        (n - s.reader.read_size n)
        (by omega) (by simp only; omega) (by simp only; omega) (by simp only; omega)
        (by simp only; omega) (by simp only; omega) (by simp only; omega)
      refine ⟨rd', buf', ?_, r2, ?_, ?_⟩
      · rw [r1]
        simp only
        congr 2
        · omega
        · omega
        · omega
      · rw [r3]; simp only; omega
      · intro i
        rw [r4 i]
        simp only [file_reader.byte, hend]
        by_cases c1 : s.endbuf + s.reader.read_size n ≤ i ∧
            i < s.endbuf + s.reader.read_size n + (n - s.reader.read_size n)
        · rw [if_pos c1, if_pos (by omega)]
          congr 1; omega
        · rw [if_neg c1]
          by_cases c2 : s.endbuf ≤ i ∧ i < s.endbuf + s.reader.read_size n
          · rw [if_pos c2, if_pos (by omega)]
          · rw [if_neg c2, if_neg (by omega)]

theorem rec_chain_snoc (g : Bool) (r : delta_record) : ∀ (recs : List delta_record) (a b : Nat),
    rec_chain g a recs b → (if g then b ≤ r.s_offset else r.s_offset = b) →
    rec_chain g a (recs ++ [r]) (r.s_offset + r.len) := by
  intro recs
  induction recs with
  | nil =>
    intro a b h1 h2
    simp only [rec_chain, List.nil_append] at h1 ⊢
    cases g
    · simp only [Bool.false_eq_true, ↓reduceIte] at h1 h2 ⊢
      exact ⟨by omega, trivial⟩
    · simp only [↓reduceIte] at h1 h2 ⊢
      exact ⟨by omega, by omega⟩
  | cons x recs ih =>
    intro a b h1 h2
    simp only [rec_chain, List.cons_append] at h1 ⊢
    exact ⟨h1.1, ih _ _ h1.2 h2⟩

theorem rec_chain_extend : ∀ (recs : List delta_record) (a b b' : Nat),
    rec_chain true a recs b → b ≤ b' → rec_chain true a recs b' := by
  intro recs
  induction recs with
  | nil =>
    intro a b b' h1 h2
    simp only [rec_chain, ↓reduceIte] at h1 ⊢
    omega
  | cons x recs ih =>
    intro a b b' h1 h2
    simp only [rec_chain] at h1 ⊢
    exact ⟨h1.1, ih _ _ _ h1.2 h2⟩

theorem mem_bytes_eq_content (buf : Nat → Nat) (D : List Nat) (p o n : Nat)
    (h : ∀ t, t < n → buf (p + t) = D.getD (o + t) 0) :
    mem_bytes buf p n = content_bytes D o n := by
  unfold mem_bytes content_bytes
  apply List.map_congr_left
  intro t ht
  exact h t (List.mem_range.mp ht)

/-- The pending literal between `sentrybuf` and `rdbuf` is emitted (or skipped
when literals are deferred) and `offset` moves past it. -/
theorem delta_flush_spec (E : Env) (hashes : hash_table) (content : List Nat) (B : Nat)
    (gaps : Bool) (H : hole_t) (stream0 : List delta_record) (h2r0 : List hole_t)
    (s : delta_state E) (hv : H.offset + to_uint32 H.length < 2 ^ 64)
    (hinv : delta_inv E hashes content B gaps H stream0 h2r0 s) :
    ∃ st', delta_flush E (!gaps) s =
        { s with stream := st', offset := s.offset + (s.rdbuf - s.sentrybuf) } ∧
      hole_records E hashes content B gaps stream0 h2r0 H.offset
        (s.offset + (s.rdbuf - s.sentrybuf)) st' s.holes2remove := by
  obtain ⟨hL1, hL2⟩ := XDELTA_BUFFER_LEN_bounds E
  obtain ⟨i1, i2, i3, i4, i5, i6, i7, i8, i9, recs, j1, j2, j3, j4⟩ := hinv
  have hslip : to_uint32 ((s.rdbuf : Int) - s.sentrybuf) = s.rdbuf - s.sentrybuf :=
    to_uint32_sub _ _ i2 (by omega)
  unfold delta_flush
  simp only [hslip]
  by_cases h0 : s.rdbuf - s.sentrybuf > 0
  · have hoff : u64 (s.offset + (s.rdbuf - s.sentrybuf)) = s.offset + (s.rdbuf - s.sentrybuf) :=
      u64_of_lt _ (by omega)
    simp only [h0, ↓reduceIte, hoff]
    refine ⟨_, rfl, ?_⟩
    cases gaps with
    | true =>
      simp only [Bool.not_true, Bool.false_eq_true, ↓reduceIte]
      exact ⟨recs, j1, rec_chain_extend _ _ _ _ j2 (by omega), j3, j4⟩
    | false =>
      simp only [Bool.not_false, ↓reduceIte]
      refine ⟨recs ++ [.literal (mem_bytes s.buf s.sentrybuf (s.rdbuf - s.sentrybuf))
        (s.rdbuf - s.sentrybuf) s.offset], ?_, ?_, ?_, ?_⟩
      · rw [j1, List.append_assoc]
      · have := rec_chain_snoc false (.literal (mem_bytes s.buf s.sentrybuf
          (s.rdbuf - s.sentrybuf)) (s.rdbuf - s.sentrybuf) s.offset) recs _ _ j2 (by simp [delta_record.s_offset])
        simpa [delta_record.s_offset, delta_record.len] using this
      · intro r hr
        rcases List.mem_append.mp hr with hr | hr
        · exact j3 r hr
        · simp only [List.mem_singleton] at hr
          subst hr
          refine ⟨rfl, h0, ?_⟩
          apply mem_bytes_eq_content
          intro t ht
          rw [i6 (s.sentrybuf + t) (by omega) (by omega)]
          congr 1; omega
      · simpa using j4
  · have hz : s.rdbuf - s.sentrybuf = 0 := by omega
    simp only [h0, ↓reduceIte, hz, Nat.add_zero]
    exact ⟨s.stream, rfl, recs, j1, j2, j3, j4⟩

theorem delta_loop_spec (E : Env) (hashes : hash_table) (content : List Nat) (B : Nat)
    (gaps : Bool) (H : hole_t) (stream0 : List delta_record) (h2r0 : List hole_t)
    (hB1 : 1 ≤ B) (hBL : B ≤ XDELTA_BUFFER_LEN E)
    (hEnd : H.offset + to_uint32 H.length ≤ content.length)
    (hv : H.offset + to_uint32 H.length < 2 ^ 64) :
    ∀ (fuel : Nat) (s : delta_state E), delta_inv E hashes content B gaps H stream0 h2r0 s →
      2 * s.to_read_bytes + (s.endbuf - s.rdbuf) < fuel →
      ∃ s', delta_loop E hashes B gaps fuel s = .done s' ∧ s'.reader.content = content ∧
        hole_records E hashes content B gaps stream0 h2r0 H.offset
          (H.offset + to_uint32 H.length) s'.stream s'.holes2remove := by
  obtain ⟨hL1, hL2⟩ := XDELTA_BUFFER_LEN_bounds E
  have hH32 : to_uint32 H.length < 2 ^ 32 := to_uint32_lt _
  intro fuel
  induction fuel with
  | zero => intro s _ h; omega
  | succ fuel ih =>
    intro s hinv hfuel
    have hinv' := hinv
    obtain ⟨i1, i2, i3, i4, i5, i6, i7, i8, i9, recs, j1, j2, j3, j4⟩ := hinv'
    have hremN : s.remain.toNat = s.endbuf - s.rdbuf := by omega
    rw [delta_loop]
    by_cases hA : s.remain < (B : Int)
    · simp only [hA, ↓reduceIte]
      by_cases hto : s.to_read_bytes = 0
      · -- the hole is used up: the pending bytes up to endbuf form the last literal
        simp only [hto, ↓reduceIte]
        have hslip : to_uint32 ((s.endbuf : Int) - s.sentrybuf) = s.endbuf - s.sentrybuf :=
          to_uint32_sub _ _ (by omega) (by omega)
        rw [hslip]
        cases gaps with
        | true =>
          simp only [Bool.not_true, Bool.false_eq_true, and_false, ↓reduceIte]
          exact ⟨s, rfl, i1, recs, j1, rec_chain_extend _ _ _ _ j2 (by omega), j3, j4⟩
        | false =>
          simp only [Bool.not_false, and_true]
          by_cases h0 : s.endbuf - s.sentrybuf > 0
          · simp only [h0, ↓reduceIte]
            refine ⟨_, rfl, i1, recs ++ [.literal (mem_bytes s.buf s.sentrybuf
              (s.endbuf - s.sentrybuf)) (s.endbuf - s.sentrybuf) s.offset], ?_, ?_, ?_, ?_⟩
            · simp only; rw [j1, List.append_assoc]
            · have := rec_chain_snoc false (.literal (mem_bytes s.buf s.sentrybuf
                (s.endbuf - s.sentrybuf)) (s.endbuf - s.sentrybuf) s.offset) recs _ _ j2
                (by simp [delta_record.s_offset])
              have e : s.offset + (s.endbuf - s.sentrybuf) = H.offset + to_uint32 H.length := by
                omega
              simpa [delta_record.s_offset, delta_record.len, e] using this
            · intro r hr
              rcases List.mem_append.mp hr with hr | hr
              · exact j3 r hr
              · simp only [List.mem_singleton] at hr
                subst hr
                refine ⟨rfl, h0, ?_⟩
                apply mem_bytes_eq_content
                intro t ht
                rw [i6 (s.sentrybuf + t) (by omega) (by omega)]
                congr 1; omega
            · simpa using j4
          · simp only [h0, ↓reduceIte]
            have e : s.offset = H.offset + to_uint32 H.length := by omega
            refine ⟨s, rfl, i1, recs, j1, ?_, j3, j4⟩
            rw [← e]; exact j2
      · -- refill: flush the pending literal, compact, read on
        simp only [hto, ↓reduceIte]
        obtain ⟨st', hfl, hrec⟩ := delta_flush_spec E hashes content B gaps H stream0 h2r0 s hv hinv
        rw [hfl]
        simp only
        have hbl : to_uint32 ((XDELTA_BUFFER_LEN E : Int) - s.remain)
            = XDELTA_BUFFER_LEN E - (s.endbuf - s.rdbuf) :=
          to_uint32_sub_int _ _ _ (by omega) (by omega) (by omega)
        rw [hbl, hremN]
        obtain ⟨rd', buf', f1, f2, f3, f4⟩ := delta_fill_spec E
          (if s.to_read_bytes > XDELTA_BUFFER_LEN E - (s.endbuf - s.rdbuf) then
            XDELTA_BUFFER_LEN E - (s.endbuf - s.rdbuf) else s.to_read_bytes)
          { s with
            stream := st'
            offset := s.offset + (s.rdbuf - s.sentrybuf)
            buf := if s.remain > 0 then memmove s.buf 0 s.rdbuf (s.endbuf - s.rdbuf) else s.buf
            sentrybuf := 0
            rdbuf := 0
            endbuf := 0 + (s.endbuf - s.rdbuf) }
          (if s.to_read_bytes > XDELTA_BUFFER_LEN E - (s.endbuf - s.rdbuf) then
            XDELTA_BUFFER_LEN E - (s.endbuf - s.rdbuf) else s.to_read_bytes)
          (le_refl _)
          (by simp only; rw [i1]; split <;> omega)
          (by simp only; split <;> omega)
          (by simp only; omega)
          (by simp only; omega)
          (by simp only; split <;> omega)
          (by simp only; omega)
        rw [f1]
        simp only
        simp only at f2 f3 f4
        apply ih
        · refine ⟨f2.trans i1, Nat.zero_le _, Nat.zero_le _, ?_, ?_, ?_, ?_, ?_, ?_, hrec⟩
          · simp only; split <;> omega
          · simp only; split <;> omega
          · intro i _ hi
            simp only at hi ⊢
            rw [f4 i]
            by_cases c : 0 + (s.endbuf - s.rdbuf) ≤ i ∧ i < 0 + (s.endbuf - s.rdbuf) +
                (if s.to_read_bytes > XDELTA_BUFFER_LEN E - (s.endbuf - s.rdbuf) then
                  XDELTA_BUFFER_LEN E - (s.endbuf - s.rdbuf) else s.to_read_bytes)
            · rw [if_pos c, i1]
              congr 1; omega
            · rw [if_neg c]
              have hi' : i < s.endbuf - s.rdbuf := by omega
              have hrp : s.remain > 0 := by omega
              rw [if_pos hrp]
              simp only [memmove]
              rw [if_pos (by omega), i6 _ (by omega) (by omega)]
              congr 1; omega
          · rw [f3]; simp only; split <;> omega
          · rw [f3]; simp only; split <;> omega
          · simp only; omega
        · simp only; split <;> omega
    · -- a full window is available at rdbuf
      simp only [hA, ↓reduceIte]
      have hwin : s.rdbuf + B ≤ s.endbuf := by omega
      have hbytes : mem_bytes s.buf s.rdbuf B
          = content_bytes content (s.offset + (s.rdbuf - s.sentrybuf)) B := by
        apply mem_bytes_eq_content
        intro t ht
        rw [i6 (s.rdbuf + t) (by omega) (by omega)]
        congr 1; omega
      cases hfind : hash_table.find_block E hashes
          (rolling_hasher_hash_value E
            (if s.newhash = true then rolling_hasher_eat_hash E (mem_bytes s.buf s.rdbuf B)
             else E.RollsumRotate s.hasher s.outchar (s.buf (s.rdbuf + B - 1))))
          (mem_bytes s.buf s.rdbuf B) B with
      | some bsh =>
        simp only
        have hinv1 : delta_inv E hashes content B gaps H stream0 h2r0
            { s with
              hasher := (if s.newhash = true then
                  rolling_hasher_eat_hash E (mem_bytes s.buf s.rdbuf B)
                else E.RollsumRotate s.hasher s.outchar (s.buf (s.rdbuf + B - 1)))
              newhash := false
              probes := s.probes ++ [(rolling_hasher_hash_value E
                (if s.newhash = true then
                  rolling_hasher_eat_hash E (mem_bytes s.buf s.rdbuf B)
                else E.RollsumRotate s.hasher s.outchar (s.buf (s.rdbuf + B - 1))),
                mem_bytes s.buf s.rdbuf B)] } :=
          ⟨i1, i2, i3, i4, i5, i6, i7, i8, i9, recs, j1, j2, j3, j4⟩
        obtain ⟨st', hfl, hrec⟩ := delta_flush_spec E hashes content B gaps H stream0 h2r0 _ hv hinv1
        rw [hfl]
        simp only
        have hB32 : to_uint32 (B : Int) = B := to_uint32_of_lt _ (by omega)
        have hoff : u64 (s.offset + (s.rdbuf - s.sentrybuf) + B)
            = s.offset + (s.rdbuf - s.sentrybuf) + B := u64_of_lt _ (by omega)
        have hw : wrap_int32 (s.remain - (B : Int)) = s.remain - B :=
          wrap_int32_id _ (by omega) (by omega)
        rw [hB32, hoff, hw]
        apply ih
        · obtain ⟨recs1, k1, k2, k3, k4⟩ := hrec
          refine ⟨i1, le_refl _, hwin, i4, ?_, ?_, ?_, ?_, ?_, ?_⟩
          · simp only; omega
          · intro i h1 h2
            simp only at h1 h2 ⊢
            rw [i6 i (by omega) h2]
            congr 1; omega
          · simp only; omega
          · simp only; omega
          · simp only; omega
          · refine ⟨recs1 ++ [.copy bsh.tpos B (s.offset + (s.rdbuf - s.sentrybuf))],
              ?_, ?_, ?_, ?_⟩
            · simp only; rw [k1, List.append_assoc]
            · have := rec_chain_snoc gaps
                (.copy bsh.tpos B (s.offset + (s.rdbuf - s.sentrybuf))) recs1 _ _ k2
                (by cases gaps <;> simp [delta_record.s_offset])
              simpa [delta_record.s_offset, delta_record.len] using this
            · intro r hr
              rcases List.mem_append.mp hr with hr | hr
              · exact k3 r hr
              · simp only [List.mem_singleton] at hr
                subst hr
                have hf2 := hfind
                rw [hbytes] at hf2
                exact ⟨rfl, _, bsh, hf2, rfl⟩
            · simp only
              rw [k4]
              cases gaps <;> simp [delta_record.s_offset]
        · simp only; omega
      | none =>
        simp only
        have hw : wrap_int32 (s.remain - 1) = s.remain - 1 :=
          wrap_int32_id _ (by omega) (by omega)
        rw [hw]
        apply ih
        · refine ⟨i1, by simp only; omega, by simp only; omega, i4, by simp only; omega,
            i6, i7, i8, i9, recs, j1, j2, j3, j4⟩
        · simp only; omega

/-- Processing one hole of a file: the per-hole loop returns, and the records
it added reach from the start of the hole to its processed end. -/
theorem delta_hole_spec (E : Env) (hashes : hash_table) (content : List Nat) (B : Nat)
    (gaps : Bool) (H : hole_t) (acc : delta_acc) (fuel : Nat)
    (hB1 : 1 ≤ B) (hBL : B ≤ XDELTA_BUFFER_LEN E) (hc : acc.reader.content = content)
    (hEnd : H.offset + to_uint32 H.length ≤ content.length)
    (hv : H.offset + to_uint32 H.length < 2 ^ 64)
    (hfuel : 2 * to_uint32 H.length < fuel) :
    ∃ acc', delta_hole E hashes B gaps fuel H acc = .done acc' ∧
      acc'.reader.content = content ∧
      hole_records E hashes content B gaps acc.stream acc.holes2remove H.offset
        (H.offset + to_uint32 H.length) acc'.stream acc'.holes2remove := by
  unfold delta_hole
  simp only [file_reader.seek_file, ne_eq, not_true_eq_false, ↓reduceIte]
  obtain ⟨s', h1, h2, h3⟩ := delta_loop_spec E hashes content B gaps H acc.stream
    acc.holes2remove hB1 hBL hEnd hv fuel
    { reader := { acc.reader with pos := H.offset }
      stream := acc.stream
      holes2remove := acc.holes2remove
      probes := acc.probes
      buf := acc.buf
      to_read_bytes := to_uint32 H.length
      rdbuf := 0
      endbuf := 0
      sentrybuf := 0
      hasher := E.RollsumInit
      newhash := true
      remain := 0
      outchar := 0
      offset := H.offset }
    ⟨hc, le_refl _, le_refl _, Nat.zero_le _, by simp, by intro i _ hi; simp at hi, by simp,
      by simp, le_refl _, [], by simp, by cases gaps <;> simp [rec_chain],
      by simp, by cases gaps <;> simp⟩
    (by simp only; omega)
  rw [h1]
  exact ⟨_, rfl, h2, h3⟩

theorem rec_chain_within (g : Bool) : ∀ (recs : List delta_record) (a b : Nat),
    rec_chain g a recs b → a ≤ b ∧ ∀ r ∈ recs, a ≤ r.s_offset ∧ r.s_offset + r.len ≤ b := by
  intro recs
  induction recs with
  | nil =>
    intro a b h
    simp only [rec_chain] at h
    refine ⟨?_, by simp⟩
    cases g
    · simp at h; omega
    · simpa using h
  | cons x recs ih =>
    intro a b h
    simp only [rec_chain] at h
    obtain ⟨h1, h2⟩ := h
    obtain ⟨k1, k2⟩ := ih _ _ h2
    have hax : a ≤ x.s_offset := by
      cases g
      · simp at h1; omega
      · simpa using h1
    refine ⟨by omega, ?_⟩
    intro r hr
    rcases List.mem_cons.mp hr with rfl | hr
    · exact ⟨hax, by omega⟩
    · have := k2 r hr
      exact ⟨by omega, this.2⟩

/-- The loop over the hole set: it returns, and the records it adds come in one
group per hole, in iteration order, each group within its hole. -/
theorem delta_holes_spec (E : Env) (hashes : hash_table) (content : List Nat) (B : Nat)
    (gaps : Bool) (fuel : Nat) (hB1 : 1 ≤ B) (hBL : B ≤ XDELTA_BUFFER_LEN E) :
    ∀ (holes : List hole_t) (acc : delta_acc), acc.reader.content = content →
      (∀ h ∈ holes, h.offset + h.length ≤ content.length ∧ hole_valid h ∧
        2 * to_uint32 h.length < fuel) →
      ∃ acc' groups, delta_holes E hashes B gaps fuel holes acc = .done acc' ∧
        acc'.reader.content = content ∧
        acc'.stream = acc.stream ++ groups.flatten ∧
        List.Forall₂ (fun h g =>
          hole_records E hashes content B gaps [] [] h.offset (h.offset + to_uint32 h.length)
            g (if gaps then g.map (fun r => ({ offset := r.s_offset, length := B } : hole_t))
               else [])) holes groups ∧
        acc'.holes2remove = acc.holes2remove ++
          (if gaps then groups.flatten.map
            (fun r => ({ offset := r.s_offset, length := B } : hole_t)) else []) := by
  intro holes
  induction holes with
  | nil =>
    intro acc hc _
    refine ⟨acc, [], rfl, hc, by simp, List.Forall₂.nil, by cases gaps <;> simp⟩
  | cons h holes ih =>
    intro acc hc hall
    obtain ⟨a1, a2, a3⟩ := hall h (by simp)
    have hle := to_uint32_le h.length
    have hv : h.offset + to_uint32 h.length < 2 ^ 64 := by
      unfold hole_valid at a2; omega
    obtain ⟨acc1, d1, d2, recs, d3, d4, d5, d6⟩ := delta_hole_spec E hashes content B gaps h acc
      fuel hB1 hBL hc (by omega) hv a3
    obtain ⟨acc2, groups, e1, e2, e3, e4, e5⟩ := ih acc1 d2
      (fun x hx => hall x (List.mem_cons_of_mem _ hx))
    refine ⟨acc2, recs :: groups, ?_, e2, ?_, ?_, ?_⟩
    · simp only [delta_holes, d1, e1]
    · rw [e3, d3]; simp
    · refine List.Forall₂.cons ⟨recs, by simp, d4, d5, ?_⟩ e4
      cases gaps <;> simp
    · rw [e5, d6]
      cases gaps <;> simp

theorem delta_single_probe (ht : hash_table) (r : slow_hash)
    (h : hash_table.find_block (id_env 1) ht 1 [1] 1 = some r) :
    delta_output (read_and_delta (id_env 1) 3 ⟨[1], 0, 0, fun _ => 0⟩ [] ht [⟨0, 1⟩] 1 false)
      = some [.copy r.tpos 1 0] := by
  have e1 : to_uint32 ((1 : Nat) : Int) = 1 := by decide
  have e2 : XDELTA_BUFFER_LEN (id_env 1) = 2 ^ 23 := by decide
  have h' := h
  simp only [id_env, Nat.reducePow] at h'
  simp only [read_and_delta, delta_holes, delta_hole, file_reader.seek_file, delta_loop,
    delta_fill, delta_flush, file_reader.read_file, file_reader.read_size, e1, e2]
  simp [to_uint32, wrap_int32, mem_bytes, rolling_hasher_eat_hash, rolling_hasher_hash_value,
    id_env, file_reader.byte,
    List.range_succ, h', u64, delta_output, memmove]

theorem content_bytes_length (D : List Nat) (o n : Nat) : (content_bytes D o n).length = n := by
  simp [content_bytes]

theorem content_bytes_getD (D : List Nat) (o n j : Nat) (hj : j < n) :
    (content_bytes D o n).getD j 0 = D.getD (o + j) 0 := by
  simp [content_bytes, List.getD_eq_getElem?_getD, List.getElem?_map, List.getElem?_range hj]

theorem content_bytes_self (S : List Nat) : content_bytes S 0 S.length = S := by
  apply List.ext_getElem
  · simp [content_bytes]
  · intro i h1 h2
    simp [content_bytes, List.getD_eq_getElem?_getD, List.getElem?_eq_getElem h2]

theorem block_at_eq_content_bytes (D : List Nat) (p B i : Nat) :
    block_at D p B i = content_bytes D (p + i * B) B := rfl

/-- Applying a faithful record that starts at offset `a` to the first `a`
bytes of the source yields the first `a + len` bytes of the source. -/
theorem apply_record_chain (T S : List Nat) (B a : Nat) (r : delta_record)
    (ho : r.s_offset = a) (hf : record_faithful T S B r) :
    apply_record T B (content_bytes S 0 a) r = content_bytes S 0 (a + r.len) := by
  cases r with
  | literal data len o =>
    simp only [delta_record.s_offset] at ho
    subst ho
    simp only [record_faithful] at hf
    subst hf
    simp only [apply_record, delta_record.len, content_bytes_length]
    rw [Nat.max_eq_right (by omega)]
    unfold content_bytes
    apply List.map_congr_left
    intro i hi
    have hi' := List.mem_range.mp hi
    by_cases c : o ≤ i ∧ i < o + len
    · rw [if_pos c]
      have := content_bytes_getD S o len (i - o) (by omega)
      unfold content_bytes at this
      rw [this]
      congr 1; omega
    · rw [if_neg c]
      have := content_bytes_getD S 0 o i (by omega)
      unfold content_bytes at this
      rw [this]
  | copy tpos len o =>
    simp only [delta_record.s_offset] at ho
    subst ho
    simp only [record_faithful] at hf
    simp only [apply_record, delta_record.len, content_bytes_length]
    rw [Nat.max_eq_right (by omega)]
    unfold content_bytes
    apply List.map_congr_left
    intro i hi
    have hi' := List.mem_range.mp hi
    by_cases c : o ≤ i ∧ i < o + len
    · rw [if_pos c, hf (i - o) (by omega)]
      congr 1; omega
    · rw [if_neg c]
      have := content_bytes_getD S 0 o i (by omega)
      unfold content_bytes at this
      rw [this]

theorem apply_chain (T S : List Nat) (B : Nat) : ∀ (recs : List delta_record) (a b : Nat),
    rec_chain false a recs b → (∀ r ∈ recs, record_faithful T S B r) →
    recs.foldl (apply_record T B) (content_bytes S 0 a) = content_bytes S 0 b := by
  intro recs
  induction recs with
  | nil =>
    intro a b h _
    simp only [rec_chain, Bool.false_eq_true, ↓reduceIte] at h
    subst h
    rfl
  | cons r recs ih =>
    intro a b h hf
    simp only [rec_chain, Bool.false_eq_true, ↓reduceIte] at h
    obtain ⟨h1, h2⟩ := h
    rw [List.foldl_cons, apply_record_chain T S B a r h1 (hf r (by simp))]
    rw [h1] at h2
    exact ih _ _ h2 (fun x hx => hf x (List.mem_cons_of_mem _ hx))

/-- A record that `read_and_delta` emits against the index built from the
tuples of `T` reproduces the source, when equal digests of a block of `T` and a
window of `S` mean equal bytes and the block indices fit the 32-bit field. -/
theorem record_faithful_of_sound (E : Env) (T S : List Nat) (B : Nat)
    (hTb : T.length / B ≤ 2 ^ 32)
    (hcf : ∀ i o, i < T.length / B → o + B ≤ S.length →
      digest_eq E (E.get_slow_hash (block_at T 0 B i)) (E.get_slow_hash (content_bytes S o B)) →
      block_at T 0 B i = content_bytes S o B)
    (r : delta_record)
    (hs : record_sound E
      (hash_table.build E ((List.range (T.length / B)).map (hash_tuple E T 0 B 0))) S B false r)
    (hin : r.s_offset + r.len ≤ S.length) : record_faithful T S B r := by
  cases r with
  | literal data len o => exact hs.2.2
  | copy tpos len o =>
    obtain ⟨hlen, f, bsh, hfind, htp⟩ := hs
    simp only [delta_record.s_offset, delta_record.len] at hin
    subst hlen
    rw [find_block_of_inv E _ _ (index_inv_build E _) f _ len] at hfind
    have htake : (content_bytes S o len).take len = content_bytes S o len :=
      List.take_of_length_le (by rw [content_bytes_length])
    rw [htake] at hfind
    cases hq : List.find? (added_under E f (E.get_slow_hash (content_bytes S o len)))
        ((List.range (T.length / len)).map (hash_tuple E T 0 len 0)) with
    | none => rw [hq] at hfind; simp at hfind
    | some p =>
      rw [hq] at hfind
      simp only [Option.map_some', Option.some.injEq] at hfind
      have hmem := List.mem_of_find?_eq_some hq
      have hp := List.find?_some hq
      obtain ⟨j, hj, hje⟩ := List.mem_map.mp hmem
      have hj' := List.mem_range.mp hj
      simp only [added_under, Bool.and_eq_true, decide_eq_true_eq] at hp
      rw [← hje] at hp
      simp only [hash_tuple] at hp
      have hblk := hcf j o hj' hin hp.2
      intro t ht
      rw [← htp, ← hfind, ← hje]
      simp only [hash_tuple]
      rw [Nat.mod_eq_of_lt (by omega)]
      have h1 := content_bytes_getD S o len t ht
      rw [← hblk, block_at_eq_content_bytes, content_bytes_getD _ _ _ _ ht] at h1
      exact h1

/-- Per-hole coverage for holes shorter than `2^32` bytes: in the final round
the records emitted for the hole lie one after the other without gaps from
`H.offset` to `H.offset + H.length`. -/
theorem delta_hole_coverage (E : Env) (hashes : hash_table) (content : List Nat) (B : Nat)
    (H : hole_t) (acc : delta_acc) (fuel : Nat)
    (hB1 : 1 ≤ B) (hBL : B ≤ XDELTA_BUFFER_LEN E) (hc : acc.reader.content = content)
    (hlen : H.length < 2 ^ 32) (hEnd : H.offset + H.length ≤ content.length)
    (hv : hole_valid H) (hfuel : 2 * H.length < fuel) :
    ∃ acc' recs, delta_hole E hashes B false fuel H acc = .done acc' ∧
      acc'.stream = acc.stream ++ recs ∧ rec_chain false H.offset recs (H.offset + H.length) ∧
      ∀ r ∈ recs, 0 < r.len := by
  have h32 : to_uint32 (H.length : Int) = H.length := to_uint32_of_lt _ hlen
  obtain ⟨acc', h1, _, recs, h3, h4, h5, _⟩ := delta_hole_spec E hashes content B false H acc
    fuel hB1 hBL hc (by rw [h32]; exact hEnd) (by rw [h32]; exact hv) (by rw [h32]; exact hfuel)
  rw [h32] at h4
  refine ⟨acc', recs, h1, h3, h4, ?_⟩
  intro r hr
  have := h5 r hr
  cases r with
  | literal data len o => exact this.2.1
  | copy tpos len o =>
    simp only [record_sound] at this
    simp only [delta_record.len]
    omega

/-- C2 at the failing input: for the hole `[0, 2^32)` of a file of `2^32` bytes
the final round returns without emitting any record, because the hole length is
cut to `uint32_t` (`to_read_bytes = (uint32_t)hole.length = 0`), while the claim
asks for records that cover the whole hole. -/
theorem delta_hole_length_truncated :
    holeset_wf [⟨0, 2 ^ 32⟩] ∧
    delta_output (read_and_delta toy_env 1 ⟨List.replicate (2 ^ 32) 0, 0, 0, fun _ => 0⟩ []
      hash_table.empty [⟨0, 2 ^ 32⟩] 400 false) = some [] :=
  ⟨⟨by simp [hole_valid], by simp⟩, by decide⟩

/-- C3, amended. `read_and_delta` takes the holes of a well-formed hole set in
the iteration order of the set, which is descending by offset: the loop over
the holes returns, the records come in one group per hole in that order, each
group within the range of its hole, and every hole ends before the offset of
each hole that precedes it; so the records emitted for a hole with a larger
offset all precede the records emitted for a hole with a smaller offset. In the
final round this record sequence is what `read_and_delta` returns. -/
theorem hole_processing_order (E : Env) (hashes : hash_table) (content : List Nat)
    (pos calls : Nat) (chunk : Nat → Nat) (holes : List hole_t) (B fuel : Nat)
    (need_split_hole : Bool)
    (hB1 : 1 ≤ B) (hBL : B ≤ XDELTA_BUFFER_LEN E) (hwf : holeset_wf holes)
    (hfit : ∀ h ∈ holes, h.offset + h.length ≤ content.length)
    (hfuel : ∀ h ∈ holes, 2 * to_uint32 h.length < fuel) :
    ∃ acc groups,
      delta_holes E hashes B need_split_hole fuel holes
        ⟨⟨content, pos, calls, chunk⟩, [], [], [], fun _ => 0⟩ = .done acc ∧
      acc.stream = groups.flatten ∧
      List.Forall₂ (fun h g => ∀ r ∈ g,
        h.offset ≤ r.s_offset ∧ r.s_offset + r.len ≤ h.offset + h.length) holes groups ∧
      holes.Pairwise (fun a b => b.offset + b.length < a.offset) ∧
      (need_split_hole = false →
        read_and_delta E fuel ⟨content, pos, calls, chunk⟩ [] hashes holes B false =
          .done ⟨acc.reader, acc.stream, holes, acc.probes⟩) := by
  obtain ⟨acc, groups, h1, _, h3, h4, _⟩ := delta_holes_spec E hashes content B need_split_hole
    fuel hB1 hBL holes ⟨⟨content, pos, calls, chunk⟩, [], [], [], fun _ => 0⟩ rfl
    (fun h hh => ⟨hfit h hh, hwf.1 h hh, hfuel h hh⟩)
  refine ⟨acc, groups, h1, by simpa using h3, ?_, ?_, ?_⟩
  · refine List.Forall₂.imp ?_ h4
    intro h g hg r hr
    obtain ⟨recs, e1, e2, _, _⟩ := hg
    simp only [List.nil_append] at e1
    subst e1
    have := (rec_chain_within _ _ _ _ e2).2 r hr
    have hle := to_uint32_le h.length
    omega
  · refine List.Pairwise.imp_of_mem ?_ hwf.2
    intro a b _ hb h
    exact (hole_less_iff a b (hwf.1 b hb)).mp h
  · intro hn
    subst hn
    simp only [read_and_delta, h1, Bool.false_eq_true, ↓reduceIte]

theorem hole_processing_order_witness :
    ∃ acc groups,
      delta_holes toy_env hash_table.empty 1 false 10 [⟨2, 1⟩, ⟨0, 1⟩]
        ⟨⟨[7, 8, 9], 0, 0, fun _ => 0⟩, [], [], [], fun _ => 0⟩ = .done acc ∧
      acc.stream = groups.flatten ∧
      List.Forall₂ (fun h g => ∀ r ∈ g,
        h.offset ≤ r.s_offset ∧ r.s_offset + r.len ≤ h.offset + h.length)
        [(⟨2, 1⟩ : hole_t), ⟨0, 1⟩] groups ∧
      [(⟨2, 1⟩ : hole_t), ⟨0, 1⟩].Pairwise (fun a b => b.offset + b.length < a.offset) ∧
      (false = false →
        read_and_delta toy_env 10 ⟨[7, 8, 9], 0, 0, fun _ => 0⟩ [] hash_table.empty
          [⟨2, 1⟩, ⟨0, 1⟩] 1 false = .done ⟨acc.reader, acc.stream, [⟨2, 1⟩, ⟨0, 1⟩], acc.probes⟩) :=
  hole_processing_order toy_env hash_table.empty [7, 8, 9] 0 0 (fun _ => 0) [⟨2, 1⟩, ⟨0, 1⟩] 1 10
    false (by decide) (by decide) ⟨by simp [hole_valid], by simp [hole_less, u64]⟩
    (by simp) (by simp [to_uint32])

/-- C3 as stated fails: the hole set that holds `[0, 1)` and `[2, 3)` iterates
as `[2, 3)`, `[0, 1)` whichever hole is inserted first, and the final round over
the file `7 8 9` emits the literal of the hole at offset 2 before the literal of
the hole at offset 0. -/
theorem hole_processing_order_counterexample :
    set_insert hole_less ⟨2, 1⟩ (set_insert hole_less ⟨0, 1⟩ []) = [⟨2, 1⟩, ⟨0, 1⟩] ∧
    set_insert hole_less ⟨0, 1⟩ (set_insert hole_less ⟨2, 1⟩ []) = [⟨2, 1⟩, ⟨0, 1⟩] ∧
    delta_output (read_and_delta toy_env 10 ⟨[7, 8, 9], 0, 0, fun _ => 0⟩ []
      hash_table.empty [⟨2, 1⟩, ⟨0, 1⟩] 1 false)
      = some [.literal [9] 1 2, .literal [7] 1 0] := by
  decide

theorem big_target_length : big_target.length = 2 ^ 32 + 1 := by
  unfold big_target
  rw [List.length_append, List.length_replicate]
  rfl

theorem big_target_getD_lt (i : Nat) (h : i < 2 ^ 32) : big_target.getD i 0 = 0 := by
  unfold big_target
  rw [List.getD_append _ _ _ _ (by rw [List.length_replicate]; exact h),
    List.getD_eq_getElem?_getD, List.getElem?_replicate_of_lt h]
  rfl

theorem big_target_getD_last : big_target.getD (2 ^ 32) 0 = 1 := by
  unfold big_target
  rw [List.getD_append_right _ _ _ _ (by rw [List.length_replicate]),
    List.length_replicate, Nat.sub_self]
  rfl

theorem big_target_block_lt (i : Nat) (h : i < 2 ^ 32) : block_at big_target 0 1 i = [0] := by
  unfold block_at
  rw [show List.range 1 = [0] from rfl, List.map_cons, List.map_nil]
  rw [show 0 + i * 1 + 0 = i by omega, big_target_getD_lt i h]

theorem big_target_block_last : block_at big_target 0 1 (2 ^ 32) = [1] := by
  unfold block_at
  rw [show List.range 1 = [0] from rfl, List.map_cons, List.map_nil]
  rw [show 0 + 2 ^ 32 * 1 + 0 = 2 ^ 32 by omega, big_target_getD_last]

theorem big_target_find :
    hash_table.find_block (id_env 1)
      (hash_table.build (id_env 1)
        ((List.range (2 ^ 32 + 1)).map (hash_tuple (id_env 1) big_target 0 1 0))) 1 [1] 1
      = some ⟨[1], ⟨0, 0⟩⟩ := by
  rw [find_block_of_inv (id_env 1) _ _ (index_inv_build (id_env 1) _) 1 [1] 1]
  rw [List.range_succ, List.map_append, List.find?_append]
  have hnone : List.find? (added_under (id_env 1) 1 ((id_env 1).get_slow_hash ([1].take 1)))
      ((List.range (2 ^ 32)).map (hash_tuple (id_env 1) big_target 0 1 0)) = none := by
    rw [List.find?_eq_none]
    intro p hp
    obtain ⟨i, hi, rfl⟩ := List.mem_map.mp hp
    have hi' := List.mem_range.mp hi
    simp only [hash_tuple, added_under, big_target_block_lt i hi']
    decide
  rw [hnone]
  simp only [List.map_cons, List.map_nil, hash_tuple, big_target_block_last]
  decide

theorem id_env_collision_free (n : Nat) (T S : List Nat) (i o : Nat)
    (h : digest_eq (id_env n) ((id_env n).get_slow_hash (block_at T 0 n i))
      ((id_env n).get_slow_hash (content_bytes S o n))) :
    block_at T 0 n i = content_bytes S o n := by
  have h1 : (block_at T 0 n i).length = n := by simp [block_at]
  have h2 : (content_bytes S o n).length = n := content_bytes_length S o n
  exact (memcmp_eq_zero_iff n _ _ h1 h2).mp h

/-- C1, amended. Round trip, single round: for every target `T` that splits
into at most `2^32` blocks of length `B`, every source `S` of length below
`2^32`, and every `B` with `1 ≤ B ≤ XDELTA_BUFFER_LEN`, let the index be built by
`add_block` from the tuples `read_and_hash` emits for `T` (`t_offset` 0) and let
the record stream be what the final round of `read_and_delta` emits for `S` with
the hole set `{[0, |S|)}`. Both runs return, however the readers split their
reads, and when equal digests of a block of `T` and a window of `S` mean equal
bytes, applying the records to `T` reconstructs exactly `S`. -/
theorem round_trip (E : Env) (T S : List Nat) (B : Nat) (chunkT chunkS : Nat → Nat)
    (fuelT fuelS : Nat) (hB1 : 1 ≤ B) (hBL : B ≤ XDELTA_BUFFER_LEN E)
    (hS : S.length < 2 ^ 32) (hTb : T.length / B ≤ 2 ^ 32)
    (hcf : ∀ i o, i < T.length / B → o + B ≤ S.length →
      digest_eq E (E.get_slow_hash (block_at T 0 B i)) (E.get_slow_hash (content_bytes S o B)) →
      block_at T 0 B i = content_bytes S o B)
    (hfT : T.length < fuelT) (hfS : 2 * S.length < fuelS) :
    ∃ hs res,
      read_and_hash E fuelT ⟨T, 0, 0, chunkT⟩ [] T.length B 0 none = .done hs ∧
      read_and_delta E fuelS ⟨S, 0, 0, chunkS⟩ [] (hash_table.build E hs.stream)
        [⟨0, S.length⟩] B false = .done res ∧
      apply_delta T B res.stream = S := by
  have hT : T.length < 2 ^ 64 := by
    obtain ⟨_, hL2⟩ := XDELTA_BUFFER_LEN_bounds E
    have h1 : T.length < B * (T.length / B + 1) := Nat.lt_mul_div_succ _ (by omega)
    have h2 : B * (T.length / B + 1) ≤ 2 ^ 25 * (2 ^ 32 + 1) :=
      Nat.mul_le_mul (by omega) (by omega)
    omega
  obtain ⟨hs, a1, a2, _, _⟩ := read_and_hash_spec E ⟨T, 0, 0, chunkT⟩ [] T.length B 0 fuelT
    none hB1 hBL hT (by simp) hfT
  simp only [List.nil_append] at a2
  have h32 : to_uint32 (S.length : Int) = S.length := to_uint32_of_lt _ hS
  obtain ⟨acc, groups, b1, _, b3, b4, _⟩ := delta_holes_spec E (hash_table.build E hs.stream) S
    B false fuelS hB1 hBL [⟨0, S.length⟩] ⟨⟨S, 0, 0, chunkS⟩, [], [], [], fun _ => 0⟩ rfl
    (by
      intro h hh
      simp only [List.mem_singleton] at hh
      subst hh
      refine ⟨by simp, by simp only [hole_valid]; omega, by simp only; omega⟩)
  refine ⟨hs, ⟨acc.reader, acc.stream, [⟨0, S.length⟩], acc.probes⟩, a1, ?_, ?_⟩
  · simp only [read_and_delta, b1, Bool.false_eq_true, ↓reduceIte]
  · cases b4 with
    | cons hg hrest =>
      cases hrest
      obtain ⟨recs, c1, c2, c3, _⟩ := hg
      simp only [List.nil_append] at c1
      subst c1
      simp only [List.nil_append, List.flatten, List.append_nil] at b3
      simp only [h32, Nat.zero_add] at c2
      simp only [b3, apply_delta]
      have key := apply_chain T S B _ 0 S.length c2 (by
        intro r hr
        have hin := (rec_chain_within _ _ _ _ c2).2 r hr
        have hsound := c3 r hr
        rw [a2] at hsound
        exact record_faithful_of_sound E T S B hTb hcf r hsound hin.2)
      rw [content_bytes_self] at key
      exact key

theorem round_trip_witness :
    ∃ hs res,
      read_and_hash (id_env 2) 5 ⟨[1, 2, 3, 4], 0, 0, fun _ => 0⟩ [] [1, 2, 3, 4].length 2 0 none
        = .done hs ∧
      read_and_delta (id_env 2) 9 ⟨[9, 1, 2, 7], 0, 0, fun _ => 0⟩ []
        (hash_table.build (id_env 2) hs.stream) [⟨0, [9, 1, 2, 7].length⟩] 2 false = .done res ∧
      apply_delta [1, 2, 3, 4] 2 res.stream = [9, 1, 2, 7] :=
  round_trip (id_env 2) [1, 2, 3, 4] [9, 1, 2, 7] 2 (fun _ => 0) (fun _ => 0) 5 9
    (by decide) (by decide) (by decide) (by decide)
    (fun i o _ _ h => id_env_collision_free 2 _ _ i o h) (by decide) (by decide)

/-- C1 as stated fails for a target of more than `2^32` blocks: with `B = 1`, the
identity as strong hash (equal digests are equal blocks), the target of `2^32`
zero bytes followed by the byte 1 and the source that is the single byte 1, the
block that matches is block `2^32`, its record carries the index cut to 32
bits, 0, and the copy reconstructs the byte 0 where the source has 1. -/
theorem round_trip_counterexample :
    (∀ x y : List Nat, x.length = 1 → y.length = 1 →
      digest_eq (id_env 1) ((id_env 1).get_slow_hash x) ((id_env 1).get_slow_hash y) → x = y) ∧
    big_target.length = 2 ^ 32 + 1 ∧
    (hash_output (read_and_hash (id_env 1) (2 ^ 32 + 2) ⟨big_target, 0, 0, fun _ => 0⟩ []
        (2 ^ 32 + 1) 1 0 none)).bind
      (fun tuples =>
        (delta_output (read_and_delta (id_env 1) 3 ⟨[1], 0, 0, fun _ => 0⟩ []
          (hash_table.build (id_env 1) tuples) [⟨0, 1⟩] 1 false)).map (apply_delta big_target 1))
      = some [0] := by
  refine ⟨?_, big_target_length, ?_⟩
  · intro x y hx hy h
    exact (memcmp_eq_zero_iff 1 x y hx hy).mp h
  · have hlen : (⟨big_target, 0, 0, fun _ => 0⟩ : file_reader).pos + (2 ^ 32 + 1)
        ≤ (⟨big_target, 0, 0, fun _ => 0⟩ : file_reader).content.length := by
      show 0 + (2 ^ 32 + 1) ≤ big_target.length
      rw [big_target_length]
      decide
    obtain ⟨hs, a1, a2, _, _⟩ := read_and_hash_spec (id_env 1) ⟨big_target, 0, 0, fun _ => 0⟩ []
      (2 ^ 32 + 1) 1 0 (2 ^ 32 + 2) none (by decide) (by decide) (by decide) hlen (by decide)
    have hst : hs.stream =
        (List.range (2 ^ 32 + 1)).map (hash_tuple (id_env 1) big_target 0 1 0) := by
      rw [a2, List.nil_append, Nat.div_one]
    rw [a1]
    show (Option.bind (some hs.stream) _) = _
    rw [Option.some_bind, hst, delta_single_probe _ _ big_target_find]
    show some (apply_record big_target 1 [] (.copy ⟨0, 0⟩ 1 0)) = some [0]
    have hap : apply_record big_target 1 [] (.copy ⟨0, 0⟩ 1 0) =
        (List.range (max ([] : List Nat).length (0 + 1))).map (fun i =>
          if 0 ≤ i ∧ i < 0 + 1 then big_target.getD (0 + 0 * 1 + (i - 0)) 0
          else ([] : List Nat).getD i 0) := rfl
    have hr : List.range (max ([] : List Nat).length (0 + 1)) = [0] := by decide
    have hc : (0 ≤ 0 ∧ 0 < 0 + 1) := by decide
    rw [hap, hr, List.map_cons, List.map_nil, if_pos hc]
    rw [show 0 + 0 * 1 + (0 - 0) = 0 from rfl, big_target_getD_lt 0 (by decide)]

/-! # The buffered loop and the loop on file offsets -/

theorem scan_state_ext {E : Env} (a b : scan_state E) (h1 : a.sent = b.sent) (h2 : a.rd = b.rd)
    (h3 : a.stop = b.stop) (h4 : a.hasher = b.hasher) (h5 : a.newhash = b.newhash)
    (h6 : a.outchar = b.outchar) (h7 : a.stream = b.stream)
    (h8 : a.holes2remove = b.holes2remove) (h9 : a.probes = b.probes) : a = b := by
  cases a; cases b
  simp only at h1 h2 h3 h4 h5 h6 h7 h8 h9
  subst h1 h2 h3 h4 h5 h6 h7 h8 h9
  rfl

/-- The flush statement of the model in explicit form, and its view. -/
theorem delta_flush_view (E : Env) (content : List Nat) (hi : Nat) (adddiff : Bool)
    (s : delta_state E) (hv : hi < 2 ^ 64) (hinv : delta_buf_inv E content hi s) :
    ∃ st', delta_flush E adddiff s =
        { s with stream := st', offset := s.offset + (s.rdbuf - s.sentrybuf) } ∧
      st' = (scan_flush content adddiff (delta_view s)).stream ∧
      (scan_flush content adddiff (delta_view s)).sent = s.offset + (s.rdbuf - s.sentrybuf) := by
  obtain ⟨hL1, hL2⟩ := XDELTA_BUFFER_LEN_bounds E
  obtain ⟨i1, i2, i3, i4, i5, i6, i7, i8, i9⟩ := hinv
  have hslip : to_uint32 ((s.rdbuf : Int) - s.sentrybuf) = s.rdbuf - s.sentrybuf :=
    to_uint32_sub _ _ i2 (by omega)
  unfold delta_flush scan_flush
  simp only [hslip, delta_view]
  by_cases h0 : s.rdbuf - s.sentrybuf > 0
  · have hoff : u64 (s.offset + (s.rdbuf - s.sentrybuf)) = s.offset + (s.rdbuf - s.sentrybuf) :=
      u64_of_lt _ (by omega)
    have h1 : s.offset < s.offset + (s.rdbuf - s.sentrybuf) := by omega
    have h2 : s.offset + (s.rdbuf - s.sentrybuf) - s.offset = s.rdbuf - s.sentrybuf := by omega
    have hb : mem_bytes s.buf s.sentrybuf (s.rdbuf - s.sentrybuf)
        = content_bytes content s.offset (s.rdbuf - s.sentrybuf) := by
      apply mem_bytes_eq_content
      intro t ht
      rw [i6 (s.sentrybuf + t) (by omega) (by omega)]
      congr 1; omega
    simp only [h0, ↓reduceIte, hoff, h1, h2, hb]
    exact ⟨_, rfl, rfl, trivial⟩
  · have hz : s.rdbuf - s.sentrybuf = 0 := by omega
    simp only [h0, ↓reduceIte, hz, Nat.add_zero, Nat.lt_irrefl]
    exact ⟨_, rfl, rfl, trivial⟩

theorem scan_flush_proj {E : Env} (content : List Nat) (adddiff : Bool) (a : scan_state E) :
    (scan_flush content adddiff a).rd = a.rd ∧ (scan_flush content adddiff a).stop = a.stop ∧
    (scan_flush content adddiff a).hasher = a.hasher ∧
    (scan_flush content adddiff a).newhash = a.newhash ∧
    (scan_flush content adddiff a).outchar = a.outchar ∧
    (scan_flush content adddiff a).holes2remove = a.holes2remove ∧
    (scan_flush content adddiff a).probes = a.probes := by
  unfold scan_flush
  split <;> exact ⟨rfl, rfl, rfl, rfl, rfl, rfl, rfl⟩

theorem scan_flush_sent {E : Env} (content : List Nat) (adddiff : Bool) (a : scan_state E)
    (h : a.sent ≤ a.rd) : (scan_flush content adddiff a).sent = a.rd := by
  unfold scan_flush
  split
  · rfl
  · omega

/-- The branch `to_read_bytes == 0` of the buffered loop. -/
theorem delta_step_final (E : Env) (hashes : hash_table) (content : List Nat) (B : Nat)
    (gaps : Bool) (hi : Nat) (s : delta_state E) (hinv : delta_buf_inv E content hi s)
    (hA : s.remain < (B : Int)) (hto : s.to_read_bytes = 0) (fuel : Nat) :
    run_view (delta_loop E hashes B gaps (fuel + 1) s) =
      some (scan_final content gaps (delta_view s)) := by
  obtain ⟨hL1, hL2⟩ := XDELTA_BUFFER_LEN_bounds E
  obtain ⟨i1, i2, i3, i4, i5, i6, i7, i8, i9⟩ := hinv
  rw [delta_loop]
  simp only [hA, ↓reduceIte]
  rw [if_pos hto]
  have hslip : to_uint32 ((s.endbuf : Int) - s.sentrybuf) = s.endbuf - s.sentrybuf :=
    to_uint32_sub _ _ (by omega) (by omega)
  have hcond : (s.endbuf - s.sentrybuf > 0 ∧ (!gaps) = true) ↔
      ((delta_view s).sent < (delta_view s).stop ∧ (!gaps) = true) := by
    simp only [delta_view]
    constructor
    · rintro ⟨h1, h2⟩; exact ⟨by omega, h2⟩
    · rintro ⟨h1, h2⟩; exact ⟨by omega, h2⟩
  rw [hslip]
  unfold scan_final
  by_cases hc : s.endbuf - s.sentrybuf > 0 ∧ (!gaps) = true
  · rw [if_pos hc, if_pos (hcond.mp hc)]
    have hb : mem_bytes s.buf s.sentrybuf (s.endbuf - s.sentrybuf)
        = content_bytes content s.offset (s.endbuf - s.sentrybuf) := by
      apply mem_bytes_eq_content
      intro t ht
      rw [i6 (s.sentrybuf + t) (by omega) (by omega)]
      congr 1; omega
    have he : s.offset + (s.endbuf - s.sentrybuf) - s.offset = s.endbuf - s.sentrybuf := by
      omega
    simp only [run_view, delta_view, hb, he]
  · rw [if_neg hc, if_neg (fun h => hc (hcond.mpr h))]
    rfl

/-- The buffer invariant after compaction and refill with `n` more bytes. -/
theorem refill_buf_inv (E : Env) (content : List Nat) (hi : Nat) (s : delta_state E)
    (hinv : delta_buf_inv E content hi s) (st' : List delta_record) (rd' : file_reader)
    (buf' : Nat → Nat) (n : Nat) (hn1 : n ≤ s.to_read_bytes)
    (hn2 : n ≤ XDELTA_BUFFER_LEN E - (s.endbuf - s.rdbuf))
    (f2 : rd'.content = s.reader.content) (f3 : rd'.pos = s.reader.pos + n)
    (f4 : ∀ i, buf' i =
      if 0 + (s.endbuf - s.rdbuf) ≤ i ∧ i < 0 + (s.endbuf - s.rdbuf) + n then
        s.reader.content.getD (s.reader.pos + (i - (0 + (s.endbuf - s.rdbuf)))) 0
      else (if s.remain > 0 then memmove s.buf 0 s.rdbuf (s.endbuf - s.rdbuf) else s.buf) i) :
    delta_buf_inv E content hi
      { s with
        reader := rd'
        stream := st'
        buf := buf'
        to_read_bytes := s.to_read_bytes - n
        offset := s.offset + (s.rdbuf - s.sentrybuf)
        sentrybuf := 0
        rdbuf := 0
        endbuf := 0 + (s.endbuf - s.rdbuf) + n
        remain := s.remain + n } := by
  obtain ⟨i1, i2, i3, i4, i5, i6, i7, i8, i9⟩ := hinv
  refine ⟨f2.trans i1, Nat.zero_le _, Nat.zero_le _, ?_, ?_, ?_, ?_, ?_, ?_⟩
  · show 0 + (s.endbuf - s.rdbuf) + n ≤ XDELTA_BUFFER_LEN E
    omega
  · show s.remain + (n : Int) = ((0 + (s.endbuf - s.rdbuf) + n : Nat) : Int) - (0 : Nat)
    omega
  · intro i _ hi'
    show buf' i = content.getD (s.offset + (s.rdbuf - s.sentrybuf) + (i - 0)) 0
    have hi2 : i < 0 + (s.endbuf - s.rdbuf) + n := hi'
    rw [f4 i]
    by_cases c : 0 + (s.endbuf - s.rdbuf) ≤ i ∧ i < 0 + (s.endbuf - s.rdbuf) + n
    · rw [if_pos c, i1]
      congr 1; omega
    · rw [if_neg c]
      have hi'' : i < s.endbuf - s.rdbuf := by omega
      have hrp : s.remain > 0 := by omega
      rw [if_pos hrp]
      simp only [memmove]
      rw [if_pos (by omega), i6 _ (by omega) (by omega)]
      congr 1; omega
  · show rd'.pos = s.offset + (s.rdbuf - s.sentrybuf) + (0 + (s.endbuf - s.rdbuf) + n - 0)
    rw [f3]; omega
  · show rd'.pos + (s.to_read_bytes - n) = hi
    rw [f3]; omega
  · show s.to_read_bytes - n < 2 ^ 32
    omega

/-- The view of the state after compaction and refill. -/
theorem refill_view (E : Env) (content : List Nat) (hi : Nat) (gaps : Bool) (s : delta_state E)
    (hinv : delta_buf_inv E content hi s) (st' : List delta_record) (rd' : file_reader)
    (buf' : Nat → Nat) (n : Nat)
    (hn3 : n = min s.to_read_bytes (XDELTA_BUFFER_LEN E - (s.endbuf - s.rdbuf)))
    (hst : st' = (scan_flush content (!gaps) (delta_view s)).stream)
    (hsent : (scan_flush content (!gaps) (delta_view s)).sent
      = s.offset + (s.rdbuf - s.sentrybuf)) :
    delta_view
      { s with
        reader := rd'
        stream := st'
        buf := buf'
        to_read_bytes := s.to_read_bytes - n
        offset := s.offset + (s.rdbuf - s.sentrybuf)
        sentrybuf := 0
        rdbuf := 0
        endbuf := 0 + (s.endbuf - s.rdbuf) + n
        remain := s.remain + n }
      = scan_refill content (XDELTA_BUFFER_LEN E) hi gaps (delta_view s) := by
  obtain ⟨i1, i2, i3, i4, i5, i6, i7, i8, i9⟩ := hinv
  obtain ⟨p1, p2, p3, p4, p5, p6, p7⟩ := scan_flush_proj content (!gaps) (delta_view s)
  apply scan_state_ext
  · exact hsent.symm
  · show s.offset + (s.rdbuf - s.sentrybuf) + (0 - 0) = _
    unfold scan_refill
    show _ = (scan_flush content (!gaps) (delta_view s)).rd
    rw [p1]; rfl
  · show s.offset + (s.rdbuf - s.sentrybuf) + (0 + (s.endbuf - s.rdbuf) + n - 0)
      = min hi ((scan_flush content (!gaps) (delta_view s)).rd + XDELTA_BUFFER_LEN E)
    rw [p1]
    show _ = min hi (s.offset + (s.rdbuf - s.sentrybuf) + XDELTA_BUFFER_LEN E)
    omega
  · exact p3.symm
  · exact p4.symm
  · exact p5.symm
  · exact hst
  · exact p6.symm
  · exact p7.symm

/-- A refill whose bytes the file holds: the loop goes on from a state in which
the buffer invariant holds again, whose view is the refill of the scanner, and
whose reader has advanced by the bytes asked for. -/
theorem delta_step_refill_fit (E : Env) (hashes : hash_table) (content : List Nat) (B : Nat)
    (gaps : Bool) (hi : Nat) (hv : hi < 2 ^ 64)
    (s : delta_state E) (hinv : delta_buf_inv E content hi s)
    (hA : s.remain < (B : Int)) (hto : ¬ s.to_read_bytes = 0)
    (hfit : s.reader.pos + min s.to_read_bytes (XDELTA_BUFFER_LEN E - (s.endbuf - s.rdbuf))
      ≤ content.length) :
    ∃ s3, (∀ fuel, delta_loop E hashes B gaps (fuel + 1) s = delta_loop E hashes B gaps fuel s3) ∧
      delta_buf_inv E content hi s3 ∧
      delta_view s3 = scan_refill content (XDELTA_BUFFER_LEN E) hi gaps (delta_view s) ∧
      s3.reader.pos
        = s.reader.pos + min s.to_read_bytes (XDELTA_BUFFER_LEN E - (s.endbuf - s.rdbuf)) := by
  obtain ⟨hL1, hL2⟩ := XDELTA_BUFFER_LEN_bounds E
  have hinv' := hinv
  obtain ⟨i1, i2, i3, i4, i5, i6, i7, i8, i9⟩ := hinv'
  have hremN : s.remain.toNat = s.endbuf - s.rdbuf := by omega
  obtain ⟨st', hfl, hst, hsent⟩ := delta_flush_view E content hi (!gaps) s hv hinv
  have hbl : to_uint32 ((XDELTA_BUFFER_LEN E : Int) - s.remain)
      = XDELTA_BUFFER_LEN E - (s.endbuf - s.rdbuf) :=
    to_uint32_sub_int _ _ _ (by omega) (by omega) (by omega)
  generalize hn : (if s.to_read_bytes > XDELTA_BUFFER_LEN E - (s.endbuf - s.rdbuf) then
      XDELTA_BUFFER_LEN E - (s.endbuf - s.rdbuf) else s.to_read_bytes) = n
  have hn1 : n ≤ s.to_read_bytes := by rw [← hn]; split <;> omega
  have hn2 : n ≤ XDELTA_BUFFER_LEN E - (s.endbuf - s.rdbuf) := by rw [← hn]; split <;> omega
  have hn3 : n = min s.to_read_bytes (XDELTA_BUFFER_LEN E - (s.endbuf - s.rdbuf)) := by
    rw [← hn]; split <;> omega
  rw [← hn3] at hfit ⊢
  obtain ⟨rd', buf', f1, f2, f3, f4⟩ := delta_fill_spec E n
    { s with
      stream := st'
      offset := s.offset + (s.rdbuf - s.sentrybuf)
      buf := if s.remain > 0 then memmove s.buf 0 s.rdbuf (s.endbuf - s.rdbuf) else s.buf
      sentrybuf := 0
      rdbuf := 0
      endbuf := 0 + (s.endbuf - s.rdbuf) }
    n (le_refl _) (by simp only; rw [i1]; exact hfit) hn1 i9 (by simp only; omega)
    (by simp only; omega) (by simp only; omega)
  simp only at f1 f2 f3 f4
  refine ⟨_, ?_, refill_buf_inv E content hi s hinv st' rd' buf' n hn1 hn2 f2 f3 f4,
    refill_view E content hi gaps s hinv st' rd' buf' n hn3 hst hsent, f3⟩
  intro fuel
  rw [delta_loop]
  simp only [hA, ↓reduceIte]
  rw [if_neg hto, hfl]
  simp only
  rw [hbl, hremN, hn, f1]

/-- A refill inside a hole that the file holds: the loop goes on from a state in
which the buffer invariant holds again and whose view is the refill of the
scanner. -/
theorem delta_step_refill (E : Env) (hashes : hash_table) (content : List Nat) (B : Nat)
    (gaps : Bool) (hi : Nat) (hEnd : hi ≤ content.length) (hv : hi < 2 ^ 64)
    (s : delta_state E) (hinv : delta_buf_inv E content hi s)
    (hA : s.remain < (B : Int)) (hto : ¬ s.to_read_bytes = 0) :
    ∃ s3, (∀ fuel, delta_loop E hashes B gaps (fuel + 1) s = delta_loop E hashes B gaps fuel s3) ∧
      delta_buf_inv E content hi s3 ∧
      delta_view s3 = scan_refill content (XDELTA_BUFFER_LEN E) hi gaps (delta_view s) := by
  obtain ⟨s3, h1, h2, h3, _⟩ := delta_step_refill_fit E hashes content B gaps hi hv s hinv hA hto
    (by obtain ⟨_, _, _, _, _, _, _, i8, _⟩ := hinv; omega)
  exact ⟨s3, h1, h2, h3⟩

/-- The window branch of `delta_loop`, written with the named pieces. -/
theorem delta_loop_window (E : Env) (hashes : hash_table) (B : Nat) (gaps : Bool)
    (s : delta_state E) (hA : ¬ s.remain < (B : Int)) (fuel : Nat) :
    delta_loop E hashes B gaps (fuel + 1) s =
      match hash_table.find_block E hashes (rolling_hasher_hash_value E (delta_hasher E B s))
          (mem_bytes s.buf s.rdbuf B) B with
      | some bsh => delta_loop E hashes B gaps fuel (delta_hit E B gaps bsh (delta_probe E B s))
      | none => delta_loop E hashes B gaps fuel (delta_miss (delta_probe E B s)) := by
  rw [delta_loop]
  simp only [hA, ↓reduceIte]
  rfl

/-- With a full window in the buffer, the bytes the loop looks at are the bytes
of the file at the window. -/
theorem delta_window (E : Env) (content : List Nat) (hi B : Nat) (s : delta_state E)
    (hinv : delta_buf_inv E content hi s) (hB1 : 1 ≤ B) (hwin : s.rdbuf + B ≤ s.endbuf) :
    mem_bytes s.buf s.rdbuf B = content_bytes content (delta_view s).rd B ∧
    s.buf (s.rdbuf + B - 1) = content.getD ((delta_view s).rd + B - 1) 0 ∧
    s.buf s.rdbuf = content.getD (delta_view s).rd 0 := by
  obtain ⟨i1, i2, i3, i4, i5, i6, i7, i8, i9⟩ := hinv
  refine ⟨?_, ?_, ?_⟩
  · apply mem_bytes_eq_content
    intro t ht
    rw [i6 (s.rdbuf + t) (by omega) (by omega)]
    show _ = content.getD (s.offset + (s.rdbuf - s.sentrybuf) + t) 0
    congr 1; omega
  · rw [i6 (s.rdbuf + B - 1) (by omega) (by omega)]
    show _ = content.getD (s.offset + (s.rdbuf - s.sentrybuf) + B - 1) 0
    congr 1; omega
  · rw [i6 s.rdbuf (by omega) (by omega)]
    rfl

theorem delta_hasher_view (E : Env) (content : List Nat) (hi B : Nat) (s : delta_state E)
    (hinv : delta_buf_inv E content hi s) (hB1 : 1 ≤ B) (hwin : s.rdbuf + B ≤ s.endbuf) :
    delta_hasher E B s = scan_hasher E content B (delta_view s) := by
  obtain ⟨w1, w2, _⟩ := delta_window E content hi B s hinv hB1 hwin
  unfold delta_hasher scan_hasher
  rw [w1, w2]
  rfl

theorem delta_probe_view (E : Env) (content : List Nat) (hi B : Nat) (s : delta_state E)
    (hinv : delta_buf_inv E content hi s) (hB1 : 1 ≤ B) (hwin : s.rdbuf + B ≤ s.endbuf) :
    delta_view (delta_probe E B s) = scan_probe E content B (delta_view s) ∧
    delta_buf_inv E content hi (delta_probe E B s) := by
  obtain ⟨w1, _, _⟩ := delta_window E content hi B s hinv hB1 hwin
  have hh := delta_hasher_view E content hi B s hinv hB1 hwin
  refine ⟨?_, hinv⟩
  unfold delta_probe scan_probe
  simp only [delta_view]
  rw [hh, w1]
  rfl

/-- The buffer invariant and the view after a slip of one byte. -/
theorem delta_miss_view (E : Env) (content : List Nat) (hi B : Nat) (s1 : delta_state E)
    (hinv : delta_buf_inv E content hi s1) (hB1 : 1 ≤ B) (hwin : s1.rdbuf + B ≤ s1.endbuf) :
    delta_buf_inv E content hi (delta_miss s1) ∧
    delta_view (delta_miss s1) = scan_miss content (delta_view s1) := by
  obtain ⟨hL1, hL2⟩ := XDELTA_BUFFER_LEN_bounds E
  obtain ⟨_, _, w3⟩ := delta_window E content hi B s1 hinv hB1 hwin
  obtain ⟨i1, i2, i3, i4, i5, i6, i7, i8, i9⟩ := hinv
  have hw : wrap_int32 (s1.remain - 1) = s1.remain - 1 :=
    wrap_int32_id _ (by omega) (by omega)
  constructor
  · refine ⟨i1, ?_, ?_, i4, ?_, i6, i7, i8, i9⟩
    · show s1.sentrybuf ≤ s1.rdbuf + 1
      omega
    · show s1.rdbuf + 1 ≤ s1.endbuf
      omega
    · show wrap_int32 (s1.remain - 1) = (s1.endbuf : Int) - ((s1.rdbuf + 1 : Nat) : Int)
      rw [hw]; omega
  · apply scan_state_ext
    · rfl
    · show s1.offset + (s1.rdbuf + 1 - s1.sentrybuf) = s1.offset + (s1.rdbuf - s1.sentrybuf) + 1
      omega
    · rfl
    · rfl
    · rfl
    · exact w3
    · rfl
    · rfl
    · rfl

/-- The branch `if (bsh)` of the buffered loop in explicit form. -/
theorem delta_hit_eq (E : Env) (content : List Nat) (hi B : Nat) (gaps : Bool) (bsh : slow_hash)
    (s1 : delta_state E) (hinv : delta_buf_inv E content hi s1) (hv : hi < 2 ^ 64)
    (hBL : B ≤ XDELTA_BUFFER_LEN E) (hwin : s1.rdbuf + B ≤ s1.endbuf) :
    delta_hit E B gaps bsh s1 =
      { s1 with
        stream := (scan_flush content (!gaps) (delta_view s1)).stream ++
          [.copy bsh.tpos B (s1.offset + (s1.rdbuf - s1.sentrybuf))]
        holes2remove :=
          if gaps then
            s1.holes2remove ++
              [{ offset := s1.offset + (s1.rdbuf - s1.sentrybuf), length := B }]
          else s1.holes2remove
        rdbuf := s1.rdbuf + B
        offset := s1.offset + (s1.rdbuf - s1.sentrybuf) + B
        remain := s1.remain - B
        sentrybuf := s1.rdbuf + B
        newhash := true } := by
  obtain ⟨hL1, hL2⟩ := XDELTA_BUFFER_LEN_bounds E
  obtain ⟨st', hfl, hst, hsent⟩ := delta_flush_view E content hi (!gaps) s1 hv hinv
  obtain ⟨i1, i2, i3, i4, i5, i6, i7, i8, i9⟩ := hinv
  have hB32 : to_uint32 (B : Int) = B := to_uint32_of_lt _ (by omega)
  have hoff : u64 (s1.offset + (s1.rdbuf - s1.sentrybuf) + B)
      = s1.offset + (s1.rdbuf - s1.sentrybuf) + B := u64_of_lt _ (by omega)
  have hw : wrap_int32 (s1.remain - (B : Int)) = s1.remain - B :=
    wrap_int32_id _ (by omega) (by omega)
  unfold delta_hit
  rw [hfl]
  simp only
  rw [hB32, hoff, hw, hst]

/-- The buffer invariant after a copy. -/
theorem delta_hit_inv (E : Env) (content : List Nat) (hi B : Nat) (gaps : Bool) (bsh : slow_hash)
    (s1 : delta_state E) (hinv : delta_buf_inv E content hi s1) (hv : hi < 2 ^ 64)
    (hBL : B ≤ XDELTA_BUFFER_LEN E) (hwin : s1.rdbuf + B ≤ s1.endbuf) :
    delta_buf_inv E content hi (delta_hit E B gaps bsh s1) := by
  rw [delta_hit_eq E content hi B gaps bsh s1 hinv hv hBL hwin]
  obtain ⟨i1, i2, i3, i4, i5, i6, i7, i8, i9⟩ := hinv
  refine ⟨i1, le_refl _, hwin, i4, ?_, ?_, ?_, i8, i9⟩
  · show s1.remain - (B : Int) = (s1.endbuf : Int) - ((s1.rdbuf + B : Nat) : Int)
    omega
  · intro i h1 h2
    show s1.buf i = content.getD (s1.offset + (s1.rdbuf - s1.sentrybuf) + B
      + (i - (s1.rdbuf + B))) 0
    have h1' : s1.rdbuf + B ≤ i := h1
    have h2' : i < s1.endbuf := h2
    rw [i6 i (by omega) h2']
    congr 1; omega
  · show s1.reader.pos = s1.offset + (s1.rdbuf - s1.sentrybuf) + B
      + (s1.endbuf - (s1.rdbuf + B))
    omega

/-- The view after a copy. -/
theorem delta_hit_view (E : Env) (content : List Nat) (hi B : Nat) (gaps : Bool) (bsh : slow_hash)
    (s1 : delta_state E) (hinv : delta_buf_inv E content hi s1) (hv : hi < 2 ^ 64)
    (hBL : B ≤ XDELTA_BUFFER_LEN E) (hwin : s1.rdbuf + B ≤ s1.endbuf) :
    delta_view (delta_hit E B gaps bsh s1) = scan_hit content B gaps bsh (delta_view s1) := by
  rw [delta_hit_eq E content hi B gaps bsh s1 hinv hv hBL hwin]
  obtain ⟨i1, i2, i3, i4, i5, i6, i7, i8, i9⟩ := hinv
  obtain ⟨p1, p2, p3, p4, p5, p6, p7⟩ := scan_flush_proj content (!gaps) (delta_view s1)
  unfold scan_hit
  apply scan_state_ext
  · show s1.offset + (s1.rdbuf - s1.sentrybuf) + B
      = (scan_flush content (!gaps) (delta_view s1)).rd + B
    rw [p1]; rfl
  · show s1.offset + (s1.rdbuf - s1.sentrybuf) + B + (s1.rdbuf + B - (s1.rdbuf + B))
      = (scan_flush content (!gaps) (delta_view s1)).rd + B
    rw [p1]
    show _ = s1.offset + (s1.rdbuf - s1.sentrybuf) + B
    omega
  · show s1.offset + (s1.rdbuf - s1.sentrybuf) + B + (s1.endbuf - (s1.rdbuf + B))
      = (scan_flush content (!gaps) (delta_view s1)).stop
    rw [p2]
    show _ = s1.offset + (s1.endbuf - s1.sentrybuf)
    omega
  · exact p3.symm
  · rfl
  · exact p5.symm
  · show _ = (scan_flush content (!gaps) (delta_view s1)).stream
      ++ [.copy bsh.tpos B (scan_flush content (!gaps) (delta_view s1)).rd]
    rw [p1]; rfl
  · show _ = if gaps = true then (scan_flush content (!gaps) (delta_view s1)).holes2remove
        ++ [{ offset := (scan_flush content (!gaps) (delta_view s1)).rd, length := B }]
      else (scan_flush content (!gaps) (delta_view s1)).holes2remove
    rw [p1, p6]; rfl
  · exact p7.symm

/-- The buffered loop computes what the loop on file offsets computes: with the
same bound on iterations both run out, or both return and the returned state of
`delta_loop` has the returned state of `scan_loop` as its view. -/
theorem delta_loop_scan (E : Env) (hashes : hash_table) (content : List Nat) (B : Nat)
    (gaps : Bool) (hi : Nat) (hB1 : 1 ≤ B) (hBL : B ≤ XDELTA_BUFFER_LEN E)
    (hEnd : hi ≤ content.length) (hv : hi < 2 ^ 64) :
    ∀ (fuel : Nat) (s : delta_state E), delta_buf_inv E content hi s →
      run_view (delta_loop E hashes B gaps fuel s) =
        scan_loop E hashes content B (XDELTA_BUFFER_LEN E) hi gaps fuel (delta_view s) := by
  intro fuel
  induction fuel with
  | zero => intro s _; rfl
  | succ fuel ih =>
    intro s hinv
    have hinv' := hinv
    obtain ⟨i1, i2, i3, i4, i5, i6, i7, i8, i9⟩ := hinv'
    have hdist : (delta_view s).stop - (delta_view s).rd = s.endbuf - s.rdbuf := by
      simp only [delta_view]; omega
    rw [scan_loop]
    by_cases hA : s.remain < (B : Int)
    · have hA' : (delta_view s).stop - (delta_view s).rd < B := by rw [hdist]; omega
      rw [if_pos hA']
      by_cases hto : s.to_read_bytes = 0
      · have hstop : (delta_view s).stop = hi := by simp only [delta_view]; omega
        rw [if_pos hstop]
        exact delta_step_final E hashes content B gaps hi s hinv hA hto fuel
      · have hstop : ¬ (delta_view s).stop = hi := by simp only [delta_view]; omega
        rw [if_neg hstop]
        obtain ⟨s3, h1, h2, h3⟩ := delta_step_refill E hashes content B gaps hi hEnd hv s hinv
          hA hto
        rw [h1 fuel, ih s3 h2, h3]
    · have hA' : ¬ (delta_view s).stop - (delta_view s).rd < B := by rw [hdist]; omega
      rw [if_neg hA']
      have hwin : s.rdbuf + B ≤ s.endbuf := by omega
      obtain ⟨w1, _, _⟩ := delta_window E content hi B s hinv hB1 hwin
      obtain ⟨q1, q2⟩ := delta_probe_view E content hi B s hinv hB1 hwin
      have hwin1 : (delta_probe E B s).rdbuf + B ≤ (delta_probe E B s).endbuf := hwin
      rw [delta_loop_window E hashes B gaps s hA fuel,
        delta_hasher_view E content hi B s hinv hB1 hwin, w1]
      cases hfind : hash_table.find_block E hashes
          (rolling_hasher_hash_value E (scan_hasher E content B (delta_view s)))
          (content_bytes content (delta_view s).rd B) B with
      | some bsh =>
        simp only
        rw [ih _ (delta_hit_inv E content hi B gaps bsh _ q2 hv hBL hwin1),
          delta_hit_view E content hi B gaps bsh _ q2 hv hBL hwin1, q1]
      | none =>
        simp only
        obtain ⟨m1, m2⟩ := delta_miss_view E content hi B _ q2 hB1 hwin1
        rw [ih _ m1, m2, q1]

/-! # Runs of the loop on file offsets -/

/-- Processing one hole: the per-hole loop returns, and what it has emitted is
what the loop on file offsets returns from the initial view. -/
theorem delta_hole_scan (E : Env) (hashes : hash_table) (content : List Nat) (B : Nat)
    (gaps : Bool) (H : hole_t) (acc : delta_acc) (fuel : Nat)
    (hB1 : 1 ≤ B) (hBL : B ≤ XDELTA_BUFFER_LEN E) (hc : acc.reader.content = content)
    (hEnd : H.offset + to_uint32 H.length ≤ content.length)
    (hv : H.offset + to_uint32 H.length < 2 ^ 64)
    (hfuel : 2 * to_uint32 H.length < fuel) :
    ∃ acc' r, delta_hole E hashes B gaps fuel H acc = .done acc' ∧
      scan_loop E hashes content B (XDELTA_BUFFER_LEN E) (H.offset + to_uint32 H.length) gaps
        fuel (scan_init E H.offset acc.stream acc.holes2remove acc.probes) = some r ∧
      acc'.reader.content = content ∧ acc'.stream = r.stream ∧
      acc'.holes2remove = r.holes2remove ∧ acc'.probes = r.probes := by
  have h32 : to_uint32 H.length < 2 ^ 32 := to_uint32_lt _
  unfold delta_hole
  simp only [file_reader.seek_file, ne_eq, not_true_eq_false, ↓reduceIte]
  generalize hs0 : ({ reader := { acc.reader with pos := H.offset }
                      stream := acc.stream
                      holes2remove := acc.holes2remove
                      probes := acc.probes
                      buf := acc.buf
                      to_read_bytes := to_uint32 H.length
                      rdbuf := 0
                      endbuf := 0
                      sentrybuf := 0
                      hasher := E.RollsumInit
                      newhash := true
                      remain := 0
                      outchar := 0
                      offset := H.offset } : delta_state E) = s0
  have hinv : delta_inv E hashes content B gaps H acc.stream acc.holes2remove s0 := by
    subst hs0
    exact ⟨hc, le_refl _, le_refl _, Nat.zero_le _, by simp, by intro i _ hi; simp at hi,
      by simp, by simp, le_refl _, [], by simp, by cases gaps <;> simp [rec_chain],
      by simp, by cases gaps <;> simp⟩
  have hbinv : delta_buf_inv E content (H.offset + to_uint32 H.length) s0 := by
    subst hs0
    exact ⟨hc, le_refl _, le_refl _, Nat.zero_le _, by simp, by intro i _ hi; simp at hi,
      by simp, by simp, h32⟩
  have hview : delta_view s0 = scan_init E H.offset acc.stream acc.holes2remove acc.probes := by
    subst hs0; rfl
  obtain ⟨s', h1, h2, _⟩ := delta_loop_spec E hashes content B gaps H acc.stream
    acc.holes2remove hB1 hBL hEnd hv fuel s0 hinv (by subst hs0; simp only; omega)
  have h3 := delta_loop_scan E hashes content B gaps _ hB1 hBL hEnd hv fuel s0 hbinv
  rw [h1, hview] at h3
  rw [h1]
  exact ⟨_, delta_view s', rfl, h3.symm, h2, rfl, rfl, rfl⟩

/-- The final round over the single hole `[0, |S|)` of a source `S` shorter than
`2^32` bytes: `read_and_delta` returns, and its records and `find_block` calls
are those of the loop on file offsets. -/
theorem delta_source_scan (E : Env) (hashes : hash_table) (S : List Nat) (B : Nat)
    (chunk : Nat → Nat) (fuel : Nat) (hB1 : 1 ≤ B) (hBL : B ≤ XDELTA_BUFFER_LEN E)
    (hS : S.length < 2 ^ 32) (hfuel : 2 * S.length < fuel) :
    ∃ res r, read_and_delta E fuel ⟨S, 0, 0, chunk⟩ [] hashes [⟨0, S.length⟩] B false
        = .done res ∧
      scan_loop E hashes S B (XDELTA_BUFFER_LEN E) S.length false fuel (scan_init E 0 [] [] [])
        = some r ∧
      res.stream = r.stream ∧ res.probes = r.probes ∧ res.hole_set = [⟨0, S.length⟩] := by
  have h32 : to_uint32 (S.length : Int) = S.length := to_uint32_of_lt _ hS
  obtain ⟨acc', r, h1, h2, _, h4, _, h6⟩ := delta_hole_scan E hashes S B false ⟨0, S.length⟩
    ⟨⟨S, 0, 0, chunk⟩, [], [], [], fun _ => 0⟩ fuel hB1 hBL rfl
    (by simp only [h32]; omega) (by simp only [h32]; omega) (by simp only [h32]; omega)
  simp only [h32, Nat.zero_add] at h2
  refine ⟨⟨acc'.reader, acc'.stream, [⟨0, S.length⟩], acc'.probes⟩, r, ?_, h2, h4, h6, rfl⟩
  simp only [read_and_delta, delta_holes, h1, Bool.false_eq_true, ↓reduceIte]

theorem scan_reaches_refl (E : Env) (hashes : hash_table) (content : List Nat) (B L hi : Nat)
    (gaps : Bool) (a : scan_state E) : scan_reaches E hashes content B L hi gaps a a :=
  fun fuel _ h => ⟨fuel, h⟩

theorem scan_reaches_trans (E : Env) (hashes : hash_table) (content : List Nat) (B L hi : Nat)
    (gaps : Bool) (a b c : scan_state E) (h1 : scan_reaches E hashes content B L hi gaps a b)
    (h2 : scan_reaches E hashes content B L hi gaps b c) :
    scan_reaches E hashes content B L hi gaps a c := by
  intro fuel r h
  obtain ⟨f1, e1⟩ := h1 fuel r h
  exact h2 f1 r e1

theorem scan_reaches_refill (E : Env) (hashes : hash_table) (content : List Nat) (B L hi : Nat)
    (gaps : Bool) (a : scan_state E) (h1 : a.stop - a.rd < B) (h2 : a.stop ≠ hi) :
    scan_reaches E hashes content B L hi gaps a (scan_refill content L hi gaps a) := by
  intro fuel r h
  cases fuel with
  | zero => simp [scan_loop] at h
  | succ fuel =>
    rw [scan_loop, if_pos h1, if_neg h2] at h
    exact ⟨fuel, h⟩

theorem scan_reaches_hit (E : Env) (hashes : hash_table) (content : List Nat) (B L hi : Nat)
    (gaps : Bool) (a : scan_state E) (bsh : slow_hash) (h1 : ¬ a.stop - a.rd < B)
    (h2 : hash_table.find_block E hashes
      (rolling_hasher_hash_value E (scan_hasher E content B a))
      (content_bytes content a.rd B) B = some bsh) :
    scan_reaches E hashes content B L hi gaps a
      (scan_hit content B gaps bsh (scan_probe E content B a)) := by
  intro fuel r h
  cases fuel with
  | zero => simp [scan_loop] at h
  | succ fuel =>
    rw [scan_loop, if_neg h1, h2] at h
    exact ⟨fuel, h⟩

theorem scan_reaches_miss (E : Env) (hashes : hash_table) (content : List Nat) (B L hi : Nat)
    (gaps : Bool) (a : scan_state E) (h1 : ¬ a.stop - a.rd < B)
    (h2 : hash_table.find_block E hashes
      (rolling_hasher_hash_value E (scan_hasher E content B a))
      (content_bytes content a.rd B) B = none) :
    scan_reaches E hashes content B L hi gaps a
      (scan_miss content (scan_probe E content B a)) := by
  intro fuel r h
  cases fuel with
  | zero => simp [scan_loop] at h
  | succ fuel =>
    rw [scan_loop, if_neg h1, h2] at h
    exact ⟨fuel, h⟩

theorem scan_loop_final (E : Env) (hashes : hash_table) (content : List Nat) (B L hi : Nat)
    (gaps : Bool) (a : scan_state E) (h1 : a.stop - a.rd < B) (h2 : a.stop = hi)
    (fuel : Nat) (r : scan_state E)
    (h : scan_loop E hashes content B L hi gaps fuel a = some r) :
    r = scan_final content gaps a := by
  cases fuel with
  | zero => simp [scan_loop] at h
  | succ fuel =>
    rw [scan_loop, if_pos h1, if_pos h2] at h
    exact (Option.some.inj h).symm

/-- At an aligned state with a block ahead, the loop comes to an aligned state
that has the block in the buffer, without emitting anything. -/
theorem aligned_window (E : Env) (hashes : hash_table) (content : List Nat) (B L hi : Nat)
    (gaps : Bool) (hBL : B ≤ L) (a : scan_state E) (q : Nat) (ha : scan_aligned a q hi)
    (hq : q + B ≤ hi) :
    ∃ a1, scan_reaches E hashes content B L hi gaps a a1 ∧ scan_aligned a1 q hi ∧
      ¬ a1.stop - a1.rd < B ∧ a1.stream = a.stream ∧ a1.holes2remove = a.holes2remove ∧
      a1.probes = a.probes := by
  obtain ⟨h1, h2, h3, h4, h5⟩ := ha
  by_cases hw : a.stop - a.rd < B
  · have hne : a.stop ≠ hi := by omega
    have hfl : scan_flush content (!gaps) a = a := by
      unfold scan_flush
      rw [if_neg (by omega)]
    refine ⟨scan_refill content L hi gaps a,
      scan_reaches_refill E hashes content B L hi gaps a hw hne, ?_, ?_, ?_, ?_, ?_⟩
    · unfold scan_refill
      simp only [hfl]
      exact ⟨h1, h2, h3, by show q ≤ min hi (a.rd + L); omega,
        by show min hi (a.rd + L) ≤ hi; omega⟩
    · unfold scan_refill
      simp only [hfl]
      show ¬ min hi (a.rd + L) - a.rd < B
      omega
    · unfold scan_refill; simp only [hfl]
    · unfold scan_refill; simp only [hfl]
    · unfold scan_refill; simp only [hfl]
  · exact ⟨a, scan_reaches_refl E hashes content B L hi gaps a, ⟨h1, h2, h3, h4, h5⟩, hw,
      rfl, rfl, rfl⟩

/-- At an aligned state whose block is found in the index, the loop emits the
copy of the block and comes to the aligned state behind it. -/
theorem aligned_copy (E : Env) (hashes : hash_table) (content : List Nat) (B L hi : Nat)
    (gaps : Bool) (hBL : B ≤ L) (a : scan_state E) (q : Nat) (ha : scan_aligned a q hi)
    (hq : q + B ≤ hi) (bsh : slow_hash)
    (hfind : seeded_find E hashes content B q = some bsh) :
    ∃ a', scan_reaches E hashes content B L hi gaps a a' ∧ scan_aligned a' (q + B) hi ∧
      a'.stream = a.stream ++ [.copy bsh.tpos B q] ∧
      a'.holes2remove = a.holes2remove ++ (if gaps then [⟨q, B⟩] else []) := by
  obtain ⟨a1, r1, ⟨h1, h2, h3, h4, h5⟩, hw, e1, e2, _⟩ :=
    aligned_window E hashes content B L hi gaps hBL a q ha hq
  have hh : scan_hasher E content B a1
      = rolling_hasher_eat_hash E (content_bytes content q B) := by
    unfold scan_hasher
    rw [h3, h2]
    rfl
  have hf : hash_table.find_block E hashes
      (rolling_hasher_hash_value E (scan_hasher E content B a1))
      (content_bytes content a1.rd B) B = some bsh := by
    rw [hh, h2]
    exact hfind
  have hfl : scan_flush content (!gaps) (scan_probe E content B a1)
      = scan_probe E content B a1 := by
    unfold scan_flush
    rw [if_neg (by show ¬ a1.sent < a1.rd; omega)]
  refine ⟨scan_hit content B gaps bsh (scan_probe E content B a1),
    scan_reaches_trans E hashes content B L hi gaps _ _ _ r1
      (scan_reaches_hit E hashes content B L hi gaps a1 bsh hw hf), ?_, ?_, ?_⟩
  · unfold scan_hit
    simp only [hfl]
    refine ⟨?_, ?_, rfl, ?_, h5⟩
    · show a1.rd + B = q + B
      omega
    · show a1.rd + B = q + B
      omega
    · show q + B ≤ a1.stop
      omega
  · unfold scan_hit
    simp only [hfl]
    show a1.stream ++ [.copy bsh.tpos B a1.rd] = _
    rw [e1, h2]
  · unfold scan_hit
    simp only [hfl]
    show (if gaps = true then a1.holes2remove ++ [⟨a1.rd, B⟩] else a1.holes2remove) = _
    rw [e2, h2]
    cases gaps <;> simp

/-- From an aligned state, `n` blocks in a row that are found in the index
are emitted as `n` copies. -/
theorem aligned_run (E : Env) (hashes : hash_table) (content : List Nat) (B L hi : Nat)
    (gaps : Bool) (hBL : B ≤ L) (q : Nat) :
    ∀ (n : Nat) (a : scan_state E), scan_aligned a q hi → q + n * B ≤ hi →
      (∀ i, i < n → ∃ bsh, seeded_find E hashes content B (q + i * B) = some bsh) →
      ∃ a', scan_reaches E hashes content B L hi gaps a a' ∧ scan_aligned a' (q + n * B) hi ∧
        a'.stream = a.stream ++ copy_run E hashes content B q n ∧
        a'.holes2remove = a.holes2remove ++
          (if gaps then (List.range n).map (fun i => (⟨q + i * B, B⟩ : hole_t)) else []) := by
  intro n
  induction n with
  | zero =>
    intro a ha _ _
    refine ⟨a, scan_reaches_refl E hashes content B L hi gaps a, ?_, ?_, ?_⟩
    · simpa using ha
    · simp [copy_run]
    · cases gaps <;> simp
  | succ n ih =>
    intro a ha hq hall
    have hmul : (n + 1) * B = n * B + B := by ring
    obtain ⟨a1, r1, al1, s1, t1⟩ := ih a ha (by rw [hmul] at hq; omega)
      (fun i hi' => hall i (by omega))
    obtain ⟨bsh, hb⟩ := hall n (by omega)
    obtain ⟨a2, r2, al2, s2, t2⟩ := aligned_copy E hashes content B L hi gaps hBL a1 (q + n * B)
      al1 (by rw [hmul] at hq; omega) bsh hb
    refine ⟨a2, scan_reaches_trans E hashes content B L hi gaps _ _ _ r1 r2, ?_, ?_, ?_⟩
    · rw [hmul, ← Nat.add_assoc]; exact al2
    · rw [s2, s1, List.append_assoc]
      congr 1
      unfold copy_run
      rw [List.range_succ, List.map_append]
      simp only [List.map_cons, List.map_nil, seeded_tpos, hb]
    · rw [t2, t1]
      cases gaps
      · simp
      · simp only [↓reduceIte, List.append_assoc, List.range_succ, List.map_append,
          List.map_cons, List.map_nil]

/-- From an aligned state with less than a block left of the hole, the loop
returns after it has emitted what is left as one literal (in the final round). -/
theorem aligned_tail (E : Env) (hashes : hash_table) (content : List Nat) (B L hi : Nat)
    (gaps : Bool) (hBL : B ≤ L) (a : scan_state E) (q : Nat) (ha : scan_aligned a q hi)
    (hq : hi - q < B) (fuel : Nat) (r : scan_state E)
    (h : scan_loop E hashes content B L hi gaps fuel a = some r) :
    r.stream = a.stream ++ (if gaps then [] else literal_span content q hi) ∧
    r.holes2remove = a.holes2remove ∧ r.probes = a.probes := by
  obtain ⟨h1, h2, h3, h4, h5⟩ := ha
  have hw : a.stop - a.rd < B := by omega
  have key : ∀ (b : scan_state E), b.sent = q → b.stop = hi → b.rd = q → b.stream = a.stream →
      b.holes2remove = a.holes2remove → b.probes = a.probes →
      (scan_final content gaps b).stream
        = a.stream ++ (if gaps then [] else literal_span content q hi) ∧
      (scan_final content gaps b).holes2remove = a.holes2remove ∧
      (scan_final content gaps b).probes = a.probes := by
    intro b b1 b2 b3 b4 b5 b6
    unfold scan_final literal_span
    rw [b1, b2]
    cases gaps with
    | true => simp [b4, b5, b6]
    | false =>
      by_cases hlt : q < hi
      · simp [hlt, b1, b2, b4, b5, b6]
      · simp [hlt, b4, b5, b6]
  by_cases hs : a.stop = hi
  · rw [scan_loop_final E hashes content B L hi gaps a hw hs fuel r h]
    exact key a h1 hs h2 rfl rfl rfl
  · have hfl : scan_flush content (!gaps) a = a := by
      unfold scan_flush
      rw [if_neg (by omega)]
    obtain ⟨f2, e2⟩ := scan_reaches_refill E hashes content B L hi gaps a hw hs fuel r h
    have hr : scan_refill content L hi gaps a = { a with stop := min hi (a.rd + L) } := by
      unfold scan_refill
      simp only [hfl]
    rw [hr] at e2
    rw [scan_loop_final E hashes content B L hi gaps _ (by show min hi (a.rd + L) - a.rd < B; omega)
      (by show min hi (a.rd + L) = hi; omega) f2 r e2]
    exact key _ h1 (by show min hi (a.rd + L) = hi; omega) h2 rfl rfl rfl

/-- In the index built from the tuples of the blocks of `T`, a window whose
bytes are those of a block of `T` is found under its seeded fast hash, when
seeding byte by byte gives the fast hash that `rolling_hasher::hash` gives. -/
theorem tuples_find_hit (E : Env) (T S : List Nat) (B n q i : Nat)
    (hseed : ∀ bytes : List Nat,
      rolling_hasher_hash_value E (rolling_hasher_eat_hash E bytes) = rolling_hasher_hash E bytes)
    (hi : i < n) (hb : content_bytes S q B = block_at T 0 B i) :
    ∃ bsh, seeded_find E
      (hash_table.build E ((List.range n).map (hash_tuple E T 0 B 0))) S B q = some bsh := by
  unfold seeded_find
  rw [find_block_of_inv E _ _ (index_inv_build E _), hseed]
  have htake : (content_bytes S q B).take B = content_bytes S q B := by
    apply List.take_of_length_le
    rw [content_bytes_length]
  rw [htake, hb]
  cases hf : List.find? (added_under E (rolling_hasher_hash E (block_at T 0 B i))
      (E.get_slow_hash (block_at T 0 B i))) ((List.range n).map (hash_tuple E T 0 B 0)) with
  | some p => exact ⟨p.2, rfl⟩
  | none =>
    exfalso
    rw [List.find?_eq_none] at hf
    have hmem : hash_tuple E T 0 B 0 i ∈ (List.range n).map (hash_tuple E T 0 B 0) :=
      List.mem_map.mpr ⟨i, List.mem_range.mpr hi, rfl⟩
    apply hf _ hmem
    unfold added_under hash_tuple
    simp only [decide_True, Bool.true_and, decide_eq_true_eq]
    exact digest_eq_refl E _

/-- In the index built from the tuples of the blocks of `T`, a window whose
digest is that of no block of `T` is not found, whatever the fast hash. -/
theorem tuples_find_miss (E : Env) (T : List Nat) (B n : Nat) (W : List Nat)
    (hno : ∀ i, i < n →
      ¬ digest_eq E (E.get_slow_hash (block_at T 0 B i)) (E.get_slow_hash (W.take B)))
    (f : Nat) :
    hash_table.find_block E
      (hash_table.build E ((List.range n).map (hash_tuple E T 0 B 0))) f W B = none := by
  rw [find_block_of_inv E _ _ (index_inv_build E _), Option.map_eq_none', List.find?_eq_none]
  intro p hp
  obtain ⟨i, hi, rfl⟩ := List.mem_map.mp hp
  have := hno i (List.mem_range.mp hi)
  unfold added_under hash_tuple
  simp only [Bool.and_eq_true, decide_eq_true_eq, not_and]
  intro _
  exact this

/-- Identical files: with the index built from `T`, the final round over the
whole of `S = T` emits one copy per full block and the rest as one literal. -/
theorem identical_files_stream (E : Env) (T : List Nat) (B : Nat) (chunkT chunkS : Nat → Nat)
    (fuelT fuelS : Nat) (hB1 : 1 ≤ B) (hBL : B ≤ XDELTA_BUFFER_LEN E)
    (hN : T.length < 2 ^ 32)
    (hseed : ∀ bytes : List Nat,
      rolling_hasher_hash_value E (rolling_hasher_eat_hash E bytes) = rolling_hasher_hash E bytes)
    (hfT : T.length < fuelT) (hfS : 2 * T.length < fuelS) :
    ∃ hs res,
      read_and_hash E fuelT ⟨T, 0, 0, chunkT⟩ [] T.length B 0 none = .done hs ∧
      read_and_delta E fuelS ⟨T, 0, 0, chunkS⟩ [] (hash_table.build E hs.stream)
        [⟨0, T.length⟩] B false = .done res ∧
      res.stream = copy_run E (hash_table.build E hs.stream) T B 0 (T.length / B) ++
        literal_span T (T.length / B * B) T.length := by
  obtain ⟨hs, a1, a2, _, _⟩ := read_and_hash_spec E ⟨T, 0, 0, chunkT⟩ [] T.length B 0 fuelT
    none hB1 hBL (by omega) (by simp) hfT
  simp only [List.nil_append] at a2
  obtain ⟨res, r, b1, b2, b3, _, _⟩ := delta_source_scan E (hash_table.build E hs.stream) T B
    chunkS fuelS hB1 hBL hN hfS
  refine ⟨hs, res, a1, b1, ?_⟩
  have hdm := Nat.div_add_mod T.length B
  have hml := Nat.mod_lt T.length (by omega : B > 0)
  have hmul : T.length / B * B = B * (T.length / B) := Nat.mul_comm _ _
  obtain ⟨a', c1, c2, c3, _⟩ := aligned_run E (hash_table.build E hs.stream) T B
    (XDELTA_BUFFER_LEN E) T.length false hBL 0 (T.length / B) (scan_init E 0 [] [] [])
    ⟨rfl, rfl, rfl, Nat.zero_le _, Nat.zero_le _⟩ (by omega)
    (by
      intro i hi
      rw [a2]
      exact tuples_find_hit E T T B _ _ i hseed hi (block_at_eq_content_bytes T 0 B i).symm)
  obtain ⟨f', e'⟩ := c1 fuelS r b2
  obtain ⟨d1, _, _⟩ := aligned_tail E (hash_table.build E hs.stream) T B (XDELTA_BUFFER_LEN E)
    T.length false hBL a' _ c2 (by omega) f' r e'
  rw [b3, d1, c3]
  simp [scan_init]

theorem literal_chain_le (content : List Nat) : ∀ (lits : List delta_record) (a b : Nat),
    literal_chain content a lits b → a ≤ b := by
  intro lits
  induction lits with
  | nil => intro a b h; exact le_of_eq h
  | cons r rs ih =>
    intro a b h
    obtain ⟨m, h1, _, h3⟩ := h
    have := ih m b h3
    omega

theorem literal_chain_append (content : List Nat) : ∀ (l1 l2 : List delta_record) (a b c : Nat),
    literal_chain content a l1 b → literal_chain content b l2 c →
    literal_chain content a (l1 ++ l2) c := by
  intro l1
  induction l1 with
  | nil => intro l2 a b c h1 h2; rw [show a = b from h1]; exact h2
  | cons r rs ih =>
    intro l2 a b c h1 h2
    obtain ⟨m, e1, e2, e3⟩ := h1
    exact ⟨m, e1, e2, ih l2 m b c e3 h2⟩

theorem literal_chain_span (content : List Nat) (a b : Nat) (h : a ≤ b) :
    literal_chain content a (literal_span content a b) b := by
  unfold literal_span
  by_cases hlt : a < b
  · rw [if_pos hlt]
    exact ⟨b, hlt, rfl, rfl⟩
  · rw [if_neg hlt]
    show a = b
    omega

theorem pending_emitted_refl (content : List Nat) (gaps : Bool) (a : Nat) :
    pending_emitted content gaps a [] a := by
  unfold pending_emitted
  cases gaps
  · exact rfl
  · exact ⟨rfl, le_refl _⟩

theorem pending_emitted_append (content : List Nat) (gaps : Bool) (l1 l2 : List delta_record)
    (a b c : Nat) (h1 : pending_emitted content gaps a l1 b)
    (h2 : pending_emitted content gaps b l2 c) : pending_emitted content gaps a (l1 ++ l2) c := by
  unfold pending_emitted at *
  cases gaps
  · exact literal_chain_append content l1 l2 a b c h1 h2
  · simp only [↓reduceIte] at h1 h2 ⊢
    obtain ⟨e1, e2⟩ := h1
    obtain ⟨e3, e4⟩ := h2
    subst e1 e3
    exact ⟨rfl, by omega⟩

/-- What the flush statement adds to the stream. -/
theorem scan_flush_stream {E : Env} (content : List Nat) (gaps : Bool) (a : scan_state E)
    (h : a.sent ≤ a.rd) :
    ∃ lits, (scan_flush content (!gaps) a).stream = a.stream ++ lits ∧
      pending_emitted content gaps a.sent lits a.rd ∧
      (gaps = false → lits = literal_span content a.sent a.rd) := by
  unfold scan_flush pending_emitted literal_span
  by_cases hlt : a.sent < a.rd
  · rw [if_pos hlt]
    cases gaps
    · refine ⟨[.literal (content_bytes content a.sent (a.rd - a.sent)) (a.rd - a.sent) a.sent],
        rfl, ?_, ?_⟩
      · exact ⟨a.rd, hlt, rfl, rfl⟩
      · intro _; rw [if_pos hlt]
    · exact ⟨[], by simp, ⟨rfl, h⟩, by simp⟩
  · rw [if_neg hlt]
    have he : a.sent = a.rd := by omega
    cases gaps
    · exact ⟨[], by simp, he, by intro _; rw [if_neg hlt]⟩
    · exact ⟨[], by simp, ⟨rfl, h⟩, by simp⟩

theorem content_bytes_slide (D : List Nat) (q B : Nat) (hB : 1 ≤ B) :
    (content_bytes D q B).headD 0 = D.getD q 0 ∧
    (content_bytes D q B).tail ++ [D.getD (q + B) 0] = content_bytes D (q + 1) B := by
  obtain ⟨n, rfl⟩ : ∃ n, B = n + 1 := ⟨B - 1, by omega⟩
  constructor
  · unfold content_bytes
    rw [List.range_succ_eq_map]
    simp
  · apply List.ext_getElem
    · simp [content_bytes]
    · intro i h1 h2
      simp only [content_bytes, List.length_map, List.length_range] at h2
      by_cases hi : i < n
      · rw [List.getElem_append_left (by simp [content_bytes]; omega)]
        simp only [content_bytes, List.getElem_tail, List.getElem_map, List.getElem_range]
        congr 1; omega
      · have : i = n := by omega
        subst this
        rw [List.getElem_append_right (by simp [content_bytes])]
        simp only [content_bytes, List.length_tail, List.length_map, List.length_range,
          Nat.add_sub_cancel, Nat.sub_self, List.getElem_cons_zero, List.getElem_map,
          List.getElem_range]
        congr 1; omega

/-- Under the rolling identity the hasher at a window is the seeded hasher of
the window, however the window was reached. -/
theorem scan_hasher_rolled (E : Env) (content : List Nat) (B : Nat) (a : scan_state E)
    (hB : 1 ≤ B) (hroll : roll_agrees E B) (hr : scan_rolled content B a) :
    scan_hasher E content B a = rolling_hasher_eat_hash E (content_bytes content a.rd B) := by
  unfold scan_hasher
  cases hn : a.newhash with
  | true => rfl
  | false =>
    obtain ⟨h1, h2, h3⟩ := hr hn
    obtain ⟨s1, s2⟩ := content_bytes_slide content (a.rd - 1) B hB
    simp only [Bool.false_eq_true, ↓reduceIte]
    rw [h2, h3, ← s1, hroll _ _ (content_bytes_length _ _ _)]
    have e1 : a.rd + B - 1 = a.rd - 1 + B := by omega
    have e2 : a.rd - 1 + 1 = a.rd := by omega
    rw [e1, s2, e2]

/-- At a state with a window ahead, the loop comes to a state that has the
window in the buffer; a refill on the way flushes the pending bytes. -/
theorem pending_window (E : Env) (hashes : hash_table) (content : List Nat) (B L hi : Nat)
    (gaps : Bool) (hBL : B ≤ L) (a : scan_state E) (q : Nat) (ha : scan_pending a q hi)
    (hq : q + B ≤ hi) :
    ∃ a1 lits, scan_reaches E hashes content B L hi gaps a a1 ∧ scan_pending a1 q hi ∧
      ¬ a1.stop - a1.rd < B ∧ a1.stream = a.stream ++ lits ∧
      pending_emitted content gaps a.sent lits a1.sent ∧
      (gaps = false → lits = literal_span content a.sent a1.sent) ∧
      a1.holes2remove = a.holes2remove ∧
      a1.hasher = a.hasher ∧ a1.newhash = a.newhash ∧ a1.outchar = a.outchar ∧
      (a1.sent = a.sent ∨ a1.sent = q) := by
  obtain ⟨h1, h2, h4, h5⟩ := ha
  by_cases hw : a.stop - a.rd < B
  · have hne : a.stop ≠ hi := by omega
    obtain ⟨lits, f1, f2, f3⟩ := scan_flush_stream content gaps a (by omega)
    obtain ⟨p1, p2, p3, p4, p5, p6, p7⟩ := scan_flush_proj content (!gaps) a
    have hs := scan_flush_sent content (!gaps) a (by omega)
    refine ⟨scan_refill content L hi gaps a, lits,
      scan_reaches_refill E hashes content B L hi gaps a hw hne, ?_, ?_, ?_, ?_, ?_, ?_, ?_, ?_, ?_,
      ?_⟩
    · unfold scan_refill
      refine ⟨?_, ?_, ?_, ?_⟩
      · show (scan_flush content (!gaps) a).sent ≤ q
        omega
      · show (scan_flush content (!gaps) a).rd = q
        omega
      · show q ≤ min hi ((scan_flush content (!gaps) a).rd + L)
        omega
      · show min hi ((scan_flush content (!gaps) a).rd + L) ≤ hi
        omega
    · unfold scan_refill
      show ¬ min hi ((scan_flush content (!gaps) a).rd + L) - (scan_flush content (!gaps) a).rd < B
      omega
    · exact f1
    · show pending_emitted content gaps a.sent lits (scan_flush content (!gaps) a).sent
      rw [hs]; exact f2
    · intro hg
      show lits = literal_span content a.sent (scan_flush content (!gaps) a).sent
      rw [hs]; exact f3 hg
    · exact p6
    · exact p3
    · exact p4
    · exact p5
    · right
      show (scan_flush content (!gaps) a).sent = q
      omega
  · refine ⟨a, [], scan_reaches_refl E hashes content B L hi gaps a, ⟨h1, h2, h4, h5⟩, hw,
      by simp, pending_emitted_refl content gaps a.sent, ?_, rfl, rfl, rfl, rfl, Or.inl rfl⟩
    intro _
    simp [literal_span]

/-- A window that is not found in the index: the loop slips by one byte. -/
theorem pending_miss (E : Env) (hashes : hash_table) (content : List Nat) (B L hi : Nat)
    (gaps : Bool) (hB1 : 1 ≤ B) (hBL : B ≤ L) (hroll : roll_agrees E B)
    (a : scan_state E) (q : Nat) (ha : scan_pending a q hi) (hr : scan_rolled content B a)
    (hq : q + B ≤ hi) (hfind : seeded_find E hashes content B q = none) :
    ∃ a' lits, scan_reaches E hashes content B L hi gaps a a' ∧ scan_pending a' (q + 1) hi ∧
      scan_rolled content B a' ∧ a'.stream = a.stream ++ lits ∧
      pending_emitted content gaps a.sent lits a'.sent ∧
      a'.holes2remove = a.holes2remove := by
  obtain ⟨a1, lits, r1, ⟨h1, h2, h4, h5⟩, hw, e1, e2, _, e3, e4, e5, e6, _⟩ :=
    pending_window E hashes content B L hi gaps hBL a q ha hq
  have hr1 : scan_rolled content B a1 := by
    intro hn
    rw [e5] at hn
    obtain ⟨g1, g2, g3⟩ := hr hn
    rw [h2, e4, e6, ← ha.2.1]
    exact ⟨g1, g2, g3⟩
  have hh := scan_hasher_rolled E content B a1 hB1 hroll hr1
  have hf : hash_table.find_block E hashes
      (rolling_hasher_hash_value E (scan_hasher E content B a1))
      (content_bytes content a1.rd B) B = none := by
    rw [hh, h2]
    exact hfind
  refine ⟨scan_miss content (scan_probe E content B a1), lits,
    scan_reaches_trans E hashes content B L hi gaps _ _ _ r1
      (scan_reaches_miss E hashes content B L hi gaps a1 hw hf), ?_, ?_, e1, e2, e3⟩
  · refine ⟨?_, ?_, ?_, h5⟩
    · show a1.sent ≤ q + 1
      omega
    · show a1.rd + 1 = q + 1
      omega
    · show q + 1 ≤ a1.stop
      omega
  · intro _
    refine ⟨?_, ?_, ?_⟩
    · show 1 ≤ a1.rd + 1
      omega
    · show scan_hasher E content B a1
        = rolling_hasher_eat_hash E (content_bytes content (a1.rd + 1 - 1) B)
      rw [hh]
      rfl
    · show content.getD a1.rd 0 = content.getD (a1.rd + 1 - 1) 0
      rfl

/-- A window that is found in the index: the pending bytes go out as one
literal (in the final round), then the copy. -/
theorem pending_hit (E : Env) (hashes : hash_table) (content : List Nat) (B L hi : Nat)
    (gaps : Bool) (hB1 : 1 ≤ B) (hBL : B ≤ L) (hroll : roll_agrees E B)
    (a : scan_state E) (q : Nat) (ha : scan_pending a q hi) (hr : scan_rolled content B a)
    (hq : q + B ≤ hi) (bsh : slow_hash) (hfind : seeded_find E hashes content B q = some bsh) :
    ∃ a' lits, scan_reaches E hashes content B L hi gaps a a' ∧ scan_aligned a' (q + B) hi ∧
      a'.stream = a.stream ++ lits ++ [.copy bsh.tpos B q] ∧
      pending_emitted content gaps a.sent lits q ∧
      (gaps = false → lits = literal_span content a.sent q) ∧
      a'.holes2remove = a.holes2remove ++ (if gaps then [⟨q, B⟩] else []) := by
  obtain ⟨a1, lits, r1, ⟨h1, h2, h4, h5⟩, hw, e1, e2, e2', e3, e4, e5, e6, e7⟩ :=
    pending_window E hashes content B L hi gaps hBL a q ha hq
  have hr1 : scan_rolled content B a1 := by
    intro hn
    rw [e5] at hn
    obtain ⟨g1, g2, g3⟩ := hr hn
    rw [h2, e4, e6, ← ha.2.1]
    exact ⟨g1, g2, g3⟩
  have hh := scan_hasher_rolled E content B a1 hB1 hroll hr1
  have hf : hash_table.find_block E hashes
      (rolling_hasher_hash_value E (scan_hasher E content B a1))
      (content_bytes content a1.rd B) B = some bsh := by
    rw [hh, h2]
    exact hfind
  have hps : (scan_probe E content B a1).sent ≤ (scan_probe E content B a1).rd := by
    show a1.sent ≤ a1.rd
    omega
  obtain ⟨lits2, f1, f2, f3⟩ := scan_flush_stream content gaps (scan_probe E content B a1) hps
  obtain ⟨p1, p2, p3, p4, p5, p6, p7⟩ := scan_flush_proj content (!gaps)
    (scan_probe E content B a1)
  have hrd : (scan_probe E content B a1).rd = q := h2
  have hsent : (scan_probe E content B a1).sent = a1.sent := rfl
  rw [hrd, hsent] at f2 f3
  refine ⟨scan_hit content B gaps bsh (scan_probe E content B a1), lits ++ lits2,
    scan_reaches_trans E hashes content B L hi gaps _ _ _ r1
      (scan_reaches_hit E hashes content B L hi gaps a1 bsh hw hf), ?_, ?_,
    pending_emitted_append content gaps _ _ _ _ _ e2 f2, ?_, ?_⟩
  · unfold scan_hit
    refine ⟨?_, ?_, rfl, ?_, ?_⟩
    · show (scan_flush content (!gaps) (scan_probe E content B a1)).rd + B = q + B
      rw [p1, hrd]
    · show (scan_flush content (!gaps) (scan_probe E content B a1)).rd + B = q + B
      rw [p1, hrd]
    · show q + B ≤ (scan_flush content (!gaps) (scan_probe E content B a1)).stop
      rw [p2]
      show q + B ≤ a1.stop
      omega
    · show (scan_flush content (!gaps) (scan_probe E content B a1)).stop ≤ hi
      rw [p2]
      exact h5
  · unfold scan_hit
    show (scan_flush content (!gaps) (scan_probe E content B a1)).stream
      ++ [.copy bsh.tpos B (scan_flush content (!gaps) (scan_probe E content B a1)).rd] = _
    rw [f1, p1, hrd]
    show a1.stream ++ lits2 ++ _ = _
    simp only [e1, List.append_assoc]
  · intro hg
    have g1 := e2' hg
    have g2 := f3 hg
    rw [g1, g2]
    rcases e7 with e7 | e7
    · rw [e7]
      simp [literal_span]
    · rw [e7]
      simp [literal_span]
  · unfold scan_hit
    show (if gaps = true then
        (scan_flush content (!gaps) (scan_probe E content B a1)).holes2remove
          ++ [⟨(scan_flush content (!gaps) (scan_probe E content B a1)).rd, B⟩]
      else (scan_flush content (!gaps) (scan_probe E content B a1)).holes2remove) = _
    rw [p6, p1, hrd]
    show (if gaps = true then a1.holes2remove ++ [⟨q, B⟩] else a1.holes2remove) = _
    rw [e3]
    cases gaps <;> simp

/-- A run of windows none of which is found in the index: the loop slips over
them byte by byte; what it emits on the way are literals for pending bytes. -/
theorem pending_slide (E : Env) (hashes : hash_table) (content : List Nat) (B L hi : Nat)
    (gaps : Bool) (hB1 : 1 ≤ B) (hBL : B ≤ L) (hroll : roll_agrees E B) :
    ∀ (k : Nat) (a : scan_state E) (q : Nat), scan_pending a q hi → scan_rolled content B a →
      (∀ i, i < k → q + i + B ≤ hi) →
      (∀ i, i < k → seeded_find E hashes content B (q + i) = none) →
      ∃ a' lits, scan_reaches E hashes content B L hi gaps a a' ∧ scan_pending a' (q + k) hi ∧
        scan_rolled content B a' ∧ a'.stream = a.stream ++ lits ∧
        pending_emitted content gaps a.sent lits a'.sent ∧
        a'.holes2remove = a.holes2remove := by
  intro k
  induction k with
  | zero =>
    intro a q ha hr _ _
    exact ⟨a, [], scan_reaches_refl E hashes content B L hi gaps a, ha, hr, by simp,
      pending_emitted_refl content gaps a.sent, rfl⟩
  | succ k ih =>
    intro a q ha hr hwin hmiss
    obtain ⟨a1, l1, r1, p1, q1, s1, e1, t1⟩ := pending_miss E hashes content B L hi gaps hB1 hBL
      hroll a q ha hr (by have := hwin 0 (by omega); omega) (by simpa using hmiss 0 (by omega))
    obtain ⟨a2, l2, r2, p2, q2, s2, e2, t2⟩ := ih a1 (q + 1) p1 q1
      (fun i hi' => by have := hwin (i + 1) (by omega); omega)
      (fun i hi' => by
        have := hmiss (i + 1) (by omega)
        rw [show q + 1 + i = q + (i + 1) by omega]
        exact this)
    refine ⟨a2, l1 ++ l2, scan_reaches_trans E hashes content B L hi gaps _ _ _ r1 r2, ?_, q2, ?_,
      pending_emitted_append content gaps _ _ _ _ _ e1 e2, ?_⟩
    · rw [show q + (k + 1) = q + 1 + k by omega]; exact p2
    · rw [s2, s1, List.append_assoc]
    · rw [t2, t1]

/-- What the last literal of a hole adds to the stream. -/
theorem scan_final_stream {E : Env} (content : List Nat) (gaps : Bool) (b : scan_state E)
    (h : b.sent ≤ b.stop) :
    ∃ lits, (scan_final content gaps b).stream = b.stream ++ lits ∧
      pending_emitted content gaps b.sent lits b.stop ∧
      (gaps = false → lits = literal_span content b.sent b.stop) ∧
      (scan_final content gaps b).holes2remove = b.holes2remove := by
  unfold scan_final
  cases gaps
  · by_cases hlt : b.sent < b.stop
    · rw [if_pos ⟨hlt, rfl⟩]
      refine ⟨_, rfl, ?_, ?_, rfl⟩
      · unfold pending_emitted
        exact ⟨b.stop, hlt, rfl, rfl⟩
      · intro _
        unfold literal_span
        rw [if_pos hlt]
    · rw [if_neg (fun h => hlt h.1)]
      refine ⟨[], by simp, ?_, ?_, rfl⟩
      · unfold pending_emitted
        show b.sent = b.stop
        omega
      · intro _
        unfold literal_span
        rw [if_neg hlt]
  · rw [if_neg (by simp)]
    refine ⟨[], by simp, ?_, ?_, rfl⟩
    · unfold pending_emitted
      exact ⟨rfl, h⟩
    · intro hg
      cases hg

/-- With less than a window left of the hole, the loop returns after it has
emitted the pending bytes up to the end of the hole (in the final round). -/
theorem pending_tail (E : Env) (hashes : hash_table) (content : List Nat) (B L hi : Nat)
    (gaps : Bool) (hBL : B ≤ L) (a : scan_state E) (q : Nat) (ha : scan_pending a q hi)
    (hq : hi - q < B) (fuel : Nat) (r : scan_state E)
    (h : scan_loop E hashes content B L hi gaps fuel a = some r) :
    ∃ lits, r.stream = a.stream ++ lits ∧ pending_emitted content gaps a.sent lits hi ∧
      r.holes2remove = a.holes2remove := by
  obtain ⟨h1, h2, h4, h5⟩ := ha
  have hw : a.stop - a.rd < B := by omega
  by_cases hs : a.stop = hi
  · rw [scan_loop_final E hashes content B L hi gaps a hw hs fuel r h]
    obtain ⟨lits, f1, f2, _, f4⟩ := scan_final_stream content gaps a (by omega)
    rw [hs] at f2
    exact ⟨lits, f1, f2, f4⟩
  · obtain ⟨f2, e2⟩ := scan_reaches_refill E hashes content B L hi gaps a hw hs fuel r h
    obtain ⟨l1, g1, g2, _⟩ := scan_flush_stream content gaps a (by omega)
    obtain ⟨p1, p2, p3, p4, p5, p6, p7⟩ := scan_flush_proj content (!gaps) a
    have hsent := scan_flush_sent content (!gaps) a (by omega)
    have hstop : (scan_refill content L hi gaps a).stop = hi := by
      unfold scan_refill
      show min hi ((scan_flush content (!gaps) a).rd + L) = hi
      omega
    have hrd : (scan_refill content L hi gaps a).rd = a.rd := by
      unfold scan_refill; exact p1
    have hsn : (scan_refill content L hi gaps a).sent = a.rd := by
      unfold scan_refill; exact hsent
    have hst : (scan_refill content L hi gaps a).stream = a.stream ++ l1 := by
      unfold scan_refill; exact g1
    have hh2 : (scan_refill content L hi gaps a).holes2remove = a.holes2remove := by
      unfold scan_refill; exact p6
    rw [scan_loop_final E hashes content B L hi gaps _ (by rw [hstop, hrd]; omega) hstop f2 r e2]
    obtain ⟨l2, k1, k2, _, k4⟩ := scan_final_stream content gaps
      (scan_refill content L hi gaps a) (by rw [hsn, hstop]; omega)
    rw [hsn, hstop] at k2
    refine ⟨l1 ++ l2, ?_, pending_emitted_append content gaps _ _ _ _ _ g2 k2, ?_⟩
    · rw [k1, hst, List.append_assoc]
    · rw [k4, hh2]

/-! # Rolling checksum: proofs -/

theorem ideal_sums_append (p : Nat × Nat) (l : List Nat) (d : Nat) :
    ideal_sums p (l ++ [d]) =
      ((ideal_sums p l).1 + (d % 256 + ROLLSUM_CHAR_OFFSET),
       (ideal_sums p l).2 + ((ideal_sums p l).1 + (d % 256 + ROLLSUM_CHAR_OFFSET))) := by
  induction l generalizing p with
  | nil => rfl
  | cons c l ih => exact ih _

/-- The sums continued from `(a, b)` in terms of the sums from `(0, 0)`. -/
theorem ideal_sums_shift (a b : Nat) (l : List Nat) :
    (ideal_sums (a, b) l).1 = a + (ideal_sums (0, 0) l).1 ∧
    (ideal_sums (a, b) l).2 = b + l.length * a + (ideal_sums (0, 0) l).2 := by
  induction l generalizing a b with
  | nil => simp [ideal_sums]
  | cons c l ih =>
    obtain ⟨h1, h2⟩ := ih (a + (c % 256 + ROLLSUM_CHAR_OFFSET))
      (b + (a + (c % 256 + ROLLSUM_CHAR_OFFSET)))
    obtain ⟨h3, h4⟩ := ih (0 + (c % 256 + ROLLSUM_CHAR_OFFSET))
      (0 + (0 + (c % 256 + ROLLSUM_CHAR_OFFSET)))
    simp only [ideal_sums, List.length_cons]
    rw [h1, h2, h3, h4]
    constructor
    · omega
    · ring

/-- The modelled checksum state after absorbing bytes is the ideal sums
reduced to 32 bits. -/
theorem rsync_fold_sums (l : List Nat) : ∀ (n a b : Nat),
    l.foldl rsync_rollin { count := n % 2 ^ 32, s1 := a % 2 ^ 32, s2 := b % 2 ^ 32 } =
      { count := (n + l.length) % 2 ^ 32
        s1 := (ideal_sums (a, b) l).1 % 2 ^ 32
        s2 := (ideal_sums (a, b) l).2 % 2 ^ 32 } := by
  induction l with
  | nil => intro n a b; rfl
  | cons c l ih =>
    intro n a b
    have hstep : rsync_rollin { count := n % 2 ^ 32, s1 := a % 2 ^ 32, s2 := b % 2 ^ 32 } c =
        { count := (n + 1) % 2 ^ 32
          s1 := (a + (c % 256 + ROLLSUM_CHAR_OFFSET)) % 2 ^ 32
          s2 := (b + (a + (c % 256 + ROLLSUM_CHAR_OFFSET))) % 2 ^ 32 } := by
      unfold rsync_rollin ROLLSUM_CHAR_OFFSET
      simp only [rsync_rollsum.mk.injEq]
      refine ⟨?_, ?_, ?_⟩ <;> omega
    rw [List.foldl_cons, hstep, ih]
    simp only [ideal_sums, List.length_cons, rsync_rollsum.mk.injEq]
    refine ⟨?_, trivial, trivial⟩
    congr 1; omega

theorem rsync_eat (l : List Nat) :
    l.foldl rsync_rollin rsync_init =
      { count := l.length % 2 ^ 32
        s1 := (ideal_sums (0, 0) l).1 % 2 ^ 32
        s2 := (ideal_sums (0, 0) l).2 % 2 ^ 32 } := by
  have := rsync_fold_sums l 0 0 0
  simpa [rsync_init] using this

/-- Rolling the modelled checksum of a window by one byte gives the checksum
state of the slid window. -/
theorem rsync_rotate_eat (c d : Nat) (l : List Nat) :
    rsync_rotate ((c :: l).foldl rsync_rollin rsync_init) c d =
      (l ++ [d]).foldl rsync_rollin rsync_init := by
  rw [rsync_eat, rsync_eat, ideal_sums_append]
  obtain ⟨h1, h2⟩ := ideal_sums_shift (0 + (c % 256 + ROLLSUM_CHAR_OFFSET))
    (0 + (0 + (c % 256 + ROLLSUM_CHAR_OFFSET))) l
  simp only [ideal_sums, List.length_cons, List.length_append, List.length_nil]
  rw [h1, h2]
  generalize (ideal_sums (0, 0) l).1 = A
  generalize (ideal_sums (0, 0) l).2 = Bv
  generalize hx : c % 256 = x
  generalize hy : d % 256 = y
  have hxb : x < 256 := by rw [← hx]; omega
  have hyb : y < 256 := by rw [← hy]; omega
  unfold rsync_rotate ROLLSUM_CHAR_OFFSET
  simp only [hx, hy, rsync_rollsum.mk.injEq]
  have hq : ((l.length + 1) % 2 ^ 32 * (x + 31)) % 2 ^ 32 = ((l.length + 1) * (x + 31)) % 2 ^ 32 := by
    rw [Nat.mul_mod, Nat.mod_mod, ← Nat.mul_mod]
  have hp : (l.length + 1) * (x + 31) = l.length * (x + 31) + (x + 31) := by ring
  have hp2 : l.length * (0 + (x + 31)) = l.length * (x + 31) := by simp
  rw [hp2]
  generalize (l.length + 1) % 2 ^ 32 * (x + 31) = Q at hq
  rw [hp] at hq
  generalize l.length * (x + 31) = P at hq
  have e1 : to_uint32 ((((0 + (x + 31) + A) % 2 ^ 32 : Nat) : Int) + (y : Int) - (x : Int))
      = (A + (y + 31)) % 2 ^ 32 := by
    unfold to_uint32; omega
  refine ⟨trivial, e1, ?_⟩
  rw [e1]
  unfold to_uint32
  omega

theorem rsync_seed_agrees (E : Env) (bytes : List Nat) :
    rolling_hasher_hash_value (with_rsync_rollsum E)
      (rolling_hasher_eat_hash (with_rsync_rollsum E) bytes)
      = rolling_hasher_hash (with_rsync_rollsum E) bytes := rfl

theorem rsync_roll_agrees (E : Env) (W : List Nat) (c : Nat) (hW : 1 ≤ W.length) :
    (with_rsync_rollsum E).RollsumRotate (rolling_hasher_eat_hash (with_rsync_rollsum E) W)
      (W.headD 0) c = rolling_hasher_eat_hash (with_rsync_rollsum E) (W.tail ++ [c]) := by
  cases W with
  | nil => simp at hW
  | cons w l => exact rsync_rotate_eat w c l

/-- C18. Rolling hash identity, for the modelled rolling checksum: for every
window `W` of at least one byte and every byte `c`, a hasher that runs
`eat_hash` on `W` and then `update (W[0], c)` has as `hash_value ()` the value of
`rolling_hasher::hash` on the bytes `W[1..]` followed by `c`. -/
theorem rolling_hash_identity (E : Env) (W : List Nat) (c : Nat) (hW : 1 ≤ W.length) :
    rolling_hasher_hash_value (with_rsync_rollsum E)
      ((with_rsync_rollsum E).RollsumRotate
        (rolling_hasher_eat_hash (with_rsync_rollsum E) W) (W.headD 0) c)
      = rolling_hasher_hash (with_rsync_rollsum E) (W.tail ++ [c]) := by
  rw [rsync_roll_agrees E W c hW]
  rfl

theorem rolling_hash_identity_witness :
    1 ≤ [200, 7, 255].length ∧
    rolling_hasher_hash_value (with_rsync_rollsum toy_env)
      ((with_rsync_rollsum toy_env).RollsumRotate
        (rolling_hasher_eat_hash (with_rsync_rollsum toy_env) [200, 7, 255])
        ([200, 7, 255].headD 0) 9)
      = rolling_hasher_hash (with_rsync_rollsum toy_env) ([200, 7, 255].tail ++ [9]) :=
  ⟨by decide, rolling_hash_identity toy_env [200, 7, 255] 9 (by decide)⟩


/-! # Identical files -/

theorem copy_run_filter (E : Env) (hashes : hash_table) (content : List Nat) (B q n : Nat)
    (lits : List delta_record) (hl : ∀ r ∈ lits, r.is_copy = false) :
    (copy_run E hashes content B q n ++ lits).filter delta_record.is_copy
      = copy_run E hashes content B q n := by
  rw [List.filter_append]
  have h1 : (copy_run E hashes content B q n).filter delta_record.is_copy
      = copy_run E hashes content B q n := by
    rw [List.filter_eq_self]
    intro r hr
    unfold copy_run at hr
    obtain ⟨i, _, rfl⟩ := List.mem_map.mp hr
    rfl
  have h2 : lits.filter delta_record.is_copy = [] := by
    rw [List.filter_eq_nil_iff]
    intro r hr
    rw [hl r hr]
    simp
  rw [h1, h2, List.append_nil]

theorem copy_run_chain (E : Env) (hashes : hash_table) (content : List Nat) (B q : Nat) :
    ∀ n, rec_chain false q (copy_run E hashes content B q n) (q + n * B) := by
  intro n
  induction n with
  | zero => simp [copy_run, rec_chain]
  | succ n ih =>
    have := rec_chain_snoc false
      (.copy (seeded_tpos E hashes content B (q + n * B)) B (q + n * B))
      (copy_run E hashes content B q n) q (q + n * B) ih (by simp [delta_record.s_offset])
    unfold copy_run at this ⊢
    rw [List.range_succ, List.map_append]
    simp only [List.map_cons, List.map_nil]
    have e : q + (n + 1) * B = q + n * B + B := by ring
    rw [e]
    simpa [delta_record.s_offset, delta_record.len] using this

theorem literal_span_not_copy (content : List Nat) (a b : Nat) :
    ∀ r ∈ literal_span content a b, r.is_copy = false := by
  intro r hr
  unfold literal_span at hr
  split at hr
  · simp only [List.mem_singleton] at hr
    subst hr
    rfl
  · simp at hr

/-- C13. Identical files, tail literal: for every content `T` of length
`N < 2^32` and every block length `B` with `1 ≤ B ≤ XDELTA_BUFFER_LEN`, with the
index built from the tuples that `read_and_hash` emits for `T` at block length
`B`, the final round of `read_and_delta` over the hole `[0, N)` of the source
`S = T` returns and emits exactly `N / B` copy records of length `B` at source
offsets `0, B, 2B, ...`, followed, when `N mod B > 0`, by exactly one literal
record that holds the last `N mod B` bytes at offset `(N / B) * B`. The rolling
checksum is a parameter; it is assumed that seeding it byte by byte gives the
fast hash of `rolling_hasher::hash`. -/
theorem identical_files_tail_literal (E : Env) (T : List Nat) (B : Nat)
    (chunkT chunkS : Nat → Nat) (fuelT fuelS : Nat) (hB1 : 1 ≤ B)
    (hBL : B ≤ XDELTA_BUFFER_LEN E) (hN : T.length < 2 ^ 32) (hseed : seed_agrees E)
    (hfT : T.length < fuelT) (hfS : 2 * T.length < fuelS) :
    ∃ (hs : hash_state) (res : delta_result) (tp : Nat → target_pos),
      read_and_hash E fuelT ⟨T, 0, 0, chunkT⟩ [] T.length B 0 none = .done hs ∧
      read_and_delta E fuelS ⟨T, 0, 0, chunkS⟩ [] (hash_table.build E hs.stream)
        [⟨0, T.length⟩] B false = .done res ∧
      res.stream = (List.range (T.length / B)).map (fun i => .copy (tp i) B (i * B)) ++
        (if T.length % B > 0 then
          [.literal (content_bytes T (T.length / B * B) (T.length % B)) (T.length % B)
            (T.length / B * B)]
         else []) := by
  obtain ⟨hs, res, h1, h2, h3⟩ := identical_files_stream E T B chunkT chunkS fuelT fuelS hB1 hBL
    hN hseed hfT hfS
  refine ⟨hs, res, fun i => seeded_tpos E (hash_table.build E hs.stream) T B (0 + i * B),
    h1, h2, ?_⟩
  have hdm := Nat.div_add_mod T.length B
  have hmul : T.length / B * B = B * (T.length / B) := Nat.mul_comm _ _
  have hsub : T.length - T.length / B * B = T.length % B := by omega
  rw [h3]
  unfold copy_run literal_span
  simp only [Nat.zero_add, hsub]
  congr 1
  by_cases hm : T.length % B > 0
  · rw [if_pos hm, if_pos (by omega)]
  · rw [if_neg hm, if_neg (by omega)]

theorem abc_source_length : abc_source.length = 1000 := by
  unfold abc_source
  rw [List.length_flatten, List.map_replicate, List.sum_replicate]
  rfl

theorem identical_files_tail_literal_witness :
    ∃ (hs : hash_state) (res : delta_result) (tp : Nat → target_pos),
      read_and_hash (with_rsync_rollsum toy_env) 1001 ⟨abc_source, 0, 0, fun _ => 0⟩ []
        abc_source.length 400 0 none = .done hs ∧
      read_and_delta (with_rsync_rollsum toy_env) 2001 ⟨abc_source, 0, 0, fun _ => 0⟩ []
        (hash_table.build (with_rsync_rollsum toy_env) hs.stream)
        [⟨0, abc_source.length⟩] 400 false = .done res ∧
      res.stream = [.copy (tp 0) 400 0, .copy (tp 1) 400 400,
        .literal (content_bytes abc_source 800 200) 200 800] := by
  obtain ⟨hs, res, tp, h1, h2, h3⟩ := identical_files_tail_literal (with_rsync_rollsum toy_env)
    abc_source 400 (fun _ => 0) (fun _ => 0) 1001 2001 (by decide) (by decide)
    (by rw [abc_source_length]; decide) (rsync_seed_agrees toy_env)
    (by rw [abc_source_length]; decide) (by rw [abc_source_length]; decide)
  refine ⟨hs, res, tp, h1, h2, ?_⟩
  rw [h3, abc_source_length]
  rfl

/-- C12, amended. Identical files, record count: for every content `T` of
length `N < 2^32` and every block length `B` with `1 ≤ B ≤ XDELTA_BUFFER_LEN`,
with the index built from `T` by `read_and_hash` at block length `B`, the final
round of `read_and_delta` over the hole `[0, N)` of `S = T` returns and emits
exactly `N / B` copy records, each of length `B`, which lie one after the other
from offset 0 to `(N / B) * B`. When `B` divides `N` these are `ceil (N / B)`
copies that cover `[0, N)` and no literal is emitted; when it does not, the
last `N mod B` bytes are emitted as one literal. -/
theorem identical_files_record_count (E : Env) (T : List Nat) (B : Nat)
    (chunkT chunkS : Nat → Nat) (fuelT fuelS : Nat) (hB1 : 1 ≤ B)
    (hBL : B ≤ XDELTA_BUFFER_LEN E) (hN : T.length < 2 ^ 32) (hseed : seed_agrees E)
    (hfT : T.length < fuelT) (hfS : 2 * T.length < fuelS) :
    ∃ (hs : hash_state) (res : delta_result),
      read_and_hash E fuelT ⟨T, 0, 0, chunkT⟩ [] T.length B 0 none = .done hs ∧
      read_and_delta E fuelS ⟨T, 0, 0, chunkS⟩ [] (hash_table.build E hs.stream)
        [⟨0, T.length⟩] B false = .done res ∧
      (res.stream.filter delta_record.is_copy).length = T.length / B ∧
      (∀ r ∈ res.stream.filter delta_record.is_copy, r.len = B) ∧
      rec_chain false 0 (res.stream.filter delta_record.is_copy) (T.length / B * B) ∧
      (T.length % B = 0 →
        T.length / B = (T.length + B - 1) / B ∧ T.length / B * B = T.length ∧
        res.stream.filter (fun r => !r.is_copy) = []) ∧
      (T.length % B > 0 →
        res.stream.filter (fun r => !r.is_copy) =
          [.literal (content_bytes T (T.length / B * B) (T.length % B)) (T.length % B)
            (T.length / B * B)]) := by
  obtain ⟨hs, res, h1, h2, h3⟩ := identical_files_stream E T B chunkT chunkS fuelT fuelS hB1 hBL
    hN hseed hfT hfS
  refine ⟨hs, res, h1, h2, ?_⟩
  have hdm := Nat.div_add_mod T.length B
  have hmul : T.length / B * B = B * (T.length / B) := Nat.mul_comm _ _
  have hsub : T.length - T.length / B * B = T.length % B := by omega
  have hcopies : res.stream.filter delta_record.is_copy
      = copy_run E (hash_table.build E hs.stream) T B 0 (T.length / B) := by
    rw [h3]
    exact copy_run_filter E _ T B 0 _ _ (literal_span_not_copy T _ _)
  have hlits : res.stream.filter (fun r => !r.is_copy)
      = literal_span T (T.length / B * B) T.length := by
    rw [h3, List.filter_append]
    have e1 : (copy_run E (hash_table.build E hs.stream) T B 0 (T.length / B)).filter
        (fun r => !r.is_copy) = [] := by
      rw [List.filter_eq_nil_iff]
      intro r hr
      unfold copy_run at hr
      obtain ⟨i, _, rfl⟩ := List.mem_map.mp hr
      simp [delta_record.is_copy]
    have e2 : (literal_span T (T.length / B * B) T.length).filter (fun r => !r.is_copy)
        = literal_span T (T.length / B * B) T.length := by
      rw [List.filter_eq_self]
      intro r hr
      rw [literal_span_not_copy T _ _ r hr]
      rfl
    rw [e1, e2, List.nil_append]
  refine ⟨?_, ?_, ?_, ?_, ?_⟩
  · rw [hcopies]
    simp [copy_run]
  · intro r hr
    rw [hcopies] at hr
    unfold copy_run at hr
    obtain ⟨i, _, rfl⟩ := List.mem_map.mp hr
    rfl
  · rw [hcopies]
    have := copy_run_chain E (hash_table.build E hs.stream) T B 0 (T.length / B)
    rwa [Nat.zero_add] at this
  · intro hm
    refine ⟨?_, by omega, ?_⟩
    · have e : T.length + B - 1 = B - 1 + B * (T.length / B) := by
        generalize B * (T.length / B) = P at hdm
        omega
      have hB0 : 0 < B := by omega
      have h0 : (B - 1) / B = 0 := Nat.div_eq_of_lt (by omega)
      rw [e, Nat.add_mul_div_left _ _ hB0, h0, Nat.zero_add]
    · rw [hlits]
      unfold literal_span
      rw [if_neg (by omega)]
  · intro hm
    rw [hlits]
    unfold literal_span
    rw [if_pos (by omega), hsub]

theorem identical_files_record_count_witness :
    ∃ (hs : hash_state) (res : delta_result),
      read_and_hash (with_rsync_rollsum (id_env 2)) 6 ⟨[1, 2, 3, 4], 0, 0, fun _ => 0⟩ [] [1, 2, 3, 4].length 2 0 none
        = .done hs ∧
      read_and_delta (with_rsync_rollsum (id_env 2)) 9 ⟨[1, 2, 3, 4], 0, 0, fun _ => 0⟩ []
        (hash_table.build (with_rsync_rollsum (id_env 2)) hs.stream) [⟨0, [1, 2, 3, 4].length⟩] 2 false = .done res ∧
      (res.stream.filter delta_record.is_copy).length = [1, 2, 3, 4].length / 2 ∧
      (∀ r ∈ res.stream.filter delta_record.is_copy, r.len = 2) ∧
      rec_chain false 0 (res.stream.filter delta_record.is_copy) ([1, 2, 3, 4].length / 2 * 2) ∧
      ([1, 2, 3, 4].length % 2 = 0 →
        [1, 2, 3, 4].length / 2 = ([1, 2, 3, 4].length + 2 - 1) / 2 ∧
        [1, 2, 3, 4].length / 2 * 2 = [1, 2, 3, 4].length ∧
        res.stream.filter (fun r => !r.is_copy) = []) ∧
      ([1, 2, 3, 4].length % 2 > 0 →
        res.stream.filter (fun r => !r.is_copy) =
          [.literal (content_bytes [1, 2, 3, 4] ([1, 2, 3, 4].length / 2 * 2)
            ([1, 2, 3, 4].length % 2)) ([1, 2, 3, 4].length % 2)
            ([1, 2, 3, 4].length / 2 * 2)]) :=
  identical_files_record_count (with_rsync_rollsum (id_env 2)) [1, 2, 3, 4] 2 (fun _ => 0) (fun _ => 0) 6 9
    (by decide) (by decide) (by decide) (rsync_seed_agrees (id_env 2)) (by decide) (by decide)

/-- C12 as stated fails when `B` does not divide `N`: for `S = T = [1, 2, 3]` and
`B = 2` the final round emits one copy, for the block `[0, 2)`, and the last
byte as a literal, not `ceil (3 / 2) = 2` copies and no literal. -/
theorem identical_files_record_count_counterexample :
    ∃ (hs : hash_state) (res : delta_result),
      read_and_hash (with_rsync_rollsum (id_env 2)) 4 ⟨[1, 2, 3], 0, 0, fun _ => 0⟩ [] 3 2 0 none
        = .done hs ∧
      read_and_delta (with_rsync_rollsum (id_env 2)) 7 ⟨[1, 2, 3], 0, 0, fun _ => 0⟩ []
        (hash_table.build (with_rsync_rollsum (id_env 2)) hs.stream) [⟨0, 3⟩] 2 false
        = .done res ∧
      (res.stream.filter delta_record.is_copy).length = 1 ∧
      res.stream.filter (fun r => !r.is_copy) = [.literal [3] 1 2] := by
  obtain ⟨hs, res, h1, h2, h3⟩ := identical_files_stream (with_rsync_rollsum (id_env 2))
    [1, 2, 3] 2 (fun _ => 0) (fun _ => 0) 4 7 (by decide) (by decide) (by decide)
    (rsync_seed_agrees (id_env 2)) (by decide) (by decide)
  refine ⟨hs, res, h1, h2, ?_, ?_⟩
  · rw [h3]
    rfl
  · rw [h3]
    rfl

/-! # Empty index, short holes -/

/-- With all of the hole in the buffer and an index in which nothing is found,
the loop returns after it has emitted the pending bytes and the rest of the hole
as one literal (in the final round). -/
theorem full_buffer_no_hit (E : Env) (hashes : hash_table) (content : List Nat) (B L hi : Nat)
    (gaps : Bool)
    (hnone : ∀ (f : Nat) (W : List Nat), hash_table.find_block E hashes f W B = none) :
    ∀ (fuel : Nat) (a r : scan_state E),
      scan_loop E hashes content B L hi gaps fuel a = some r → a.stop = hi →
      r.stream = a.stream ++ (if gaps then [] else literal_span content a.sent hi) ∧
      r.holes2remove = a.holes2remove := by
  intro fuel
  induction fuel with
  | zero => intro a r h; simp [scan_loop] at h
  | succ fuel ih =>
    intro a r h hs
    rw [scan_loop] at h
    by_cases hw : a.stop - a.rd < B
    · rw [if_pos hw, if_pos hs] at h
      have hr := (Option.some.inj h).symm
      subst hr
      obtain ⟨lits, f1, _, f3, f4⟩ : ∃ lits, (scan_final content gaps a).stream = a.stream ++ lits ∧
          True ∧ lits = (if gaps then [] else literal_span content a.sent hi) ∧
          (scan_final content gaps a).holes2remove = a.holes2remove := by
        unfold scan_final literal_span
        rw [hs]
        cases gaps
        · by_cases hlt : a.sent < hi
          · rw [if_pos ⟨hlt, rfl⟩]
            exact ⟨_, rfl, trivial, by simp [hlt], rfl⟩
          · rw [if_neg (fun h => hlt h.1)]
            exact ⟨[], by simp, trivial, by simp [hlt], rfl⟩
        · rw [if_neg (by simp)]
          exact ⟨[], by simp, trivial, by simp, rfl⟩
      rw [f1, f3]
      exact ⟨rfl, f4⟩
    · rw [if_neg hw, hnone] at h
      have := ih _ r h (by show a.stop = hi; exact hs)
      exact this

theorem find_block_empty (E : Env) (f : Nat) (W : List Nat) (B : Nat) :
    hash_table.find_block E hash_table.empty f W B = none := rfl

/-- C16, amended. Empty target: for every non-empty source `S` of at most
`XDELTA_BUFFER_LEN` bytes and every block length `B` with
`1 ≤ B ≤ XDELTA_BUFFER_LEN`, when the hash index is empty and the hole set is the
single hole `[0, |S|)`, the final round of `read_and_delta` returns and emits
exactly one record, a literal at `s_offset` 0 whose bytes are `S`. -/
theorem empty_target_one_literal (E : Env) (S : List Nat) (B : Nat) (chunk : Nat → Nat)
    (fuel : Nat) (hB1 : 1 ≤ B) (hBL : B ≤ XDELTA_BUFFER_LEN E) (hS0 : 0 < S.length)
    (hSL : S.length ≤ XDELTA_BUFFER_LEN E) (hfuel : 2 * S.length < fuel) :
    ∃ res, read_and_delta E fuel ⟨S, 0, 0, chunk⟩ [] hash_table.empty [⟨0, S.length⟩] B false
        = .done res ∧
      res.stream = [.literal S S.length 0] := by
  obtain ⟨_, hL2⟩ := XDELTA_BUFFER_LEN_bounds E
  obtain ⟨res, r, h1, h2, h3, _, _⟩ := delta_source_scan E hash_table.empty S B chunk fuel hB1 hBL
    (by omega) hfuel
  refine ⟨res, h1, ?_⟩
  have hw : (scan_init E 0 [] [] []).stop - (scan_init E 0 [] [] []).rd < B := by
    show 0 - 0 < B
    omega
  have hne : (scan_init E 0 [] [] []).stop ≠ S.length := by
    show 0 ≠ S.length
    omega
  obtain ⟨f2, e2⟩ := scan_reaches_refill E hash_table.empty S B (XDELTA_BUFFER_LEN E) S.length
    false (scan_init E 0 [] [] []) hw hne fuel r h2
  have hst : (scan_refill S (XDELTA_BUFFER_LEN E) S.length false (scan_init E 0 [] [] [])).stop
      = S.length := by
    show min S.length (0 + XDELTA_BUFFER_LEN E) = S.length
    omega
  obtain ⟨k1, _⟩ := full_buffer_no_hit E hash_table.empty S B (XDELTA_BUFFER_LEN E) S.length
    false (find_block_empty E · · B) f2 _ r e2 hst
  rw [h3, k1]
  show [] ++ literal_span S 0 S.length = _
  unfold literal_span
  rw [if_pos hS0, List.nil_append, Nat.sub_zero, content_bytes_self]

theorem empty_target_one_literal_witness :
    ∃ res, read_and_delta toy_env 7 ⟨[5, 6, 7], 0, 0, fun _ => 0⟩ [] hash_table.empty
        [⟨0, [5, 6, 7].length⟩] 2 false = .done res ∧
      res.stream = [.literal [5, 6, 7] [5, 6, 7].length 0] :=
  empty_target_one_literal toy_env [5, 6, 7] 2 (fun _ => 0) 7 (by decide) (by decide)
    (by decide) (by decide) (by decide)

theorem scan_flush_bounded {E : Env} (content : List Nat) (adddiff : Bool) (L hi : Nat)
    (a : scan_state E) (h : scan_bounded L hi a) :
    ∀ r ∈ (scan_flush content adddiff a).stream, r.len ≤ L := by
  obtain ⟨h1, h2, h3, h4, h5⟩ := h
  unfold scan_flush
  split
  · cases adddiff
    · exact h5
    · intro r hr
      simp only [↓reduceIte] at hr
      rcases List.mem_append.mp hr with hr | hr
      · exact h5 r hr
      · simp only [List.mem_singleton] at hr
        subst hr
        show a.rd - a.sent ≤ L
        omega
  · exact h5

/-- No record that the loop emits is longer than the buffer. -/
theorem scan_record_len_le (E : Env) (hashes : hash_table) (content : List Nat) (B L hi : Nat)
    (gaps : Bool) (hB1 : 1 ≤ B) (hBL : B ≤ L) :
    ∀ (fuel : Nat) (a r : scan_state E),
      scan_loop E hashes content B L hi gaps fuel a = some r → scan_bounded L hi a →
      ∀ x ∈ r.stream, x.len ≤ L := by
  intro fuel
  induction fuel with
  | zero => intro a r h; simp [scan_loop] at h
  | succ fuel ih =>
    intro a r h hb
    have hb' := hb
    obtain ⟨h1, h2, h3, h4, h5⟩ := hb'
    rw [scan_loop] at h
    by_cases hw : a.stop - a.rd < B
    · rw [if_pos hw] at h
      by_cases hs : a.stop = hi
      · rw [if_pos hs] at h
        have hr := (Option.some.inj h).symm
        subst hr
        unfold scan_final
        split
        · intro x hx
          rcases List.mem_append.mp hx with hx | hx
          · exact h5 x hx
          · simp only [List.mem_singleton] at hx
            subst hx
            show a.stop - a.sent ≤ L
            omega
        · exact h5
      · rw [if_neg hs] at h
        apply ih _ r h
        obtain ⟨p1, p2, p3, p4, p5, p6, p7⟩ := scan_flush_proj content (!gaps) a
        have hsent := scan_flush_sent content (!gaps) a h1
        unfold scan_refill
        refine ⟨?_, ?_, ?_, ?_, ?_⟩
        · show (scan_flush content (!gaps) a).sent ≤ (scan_flush content (!gaps) a).rd
          omega
        · show (scan_flush content (!gaps) a).rd ≤ min hi ((scan_flush content (!gaps) a).rd + L)
          omega
        · show min hi ((scan_flush content (!gaps) a).rd + L) ≤ hi
          omega
        · show min hi ((scan_flush content (!gaps) a).rd + L)
            ≤ (scan_flush content (!gaps) a).sent + L
          omega
        · exact scan_flush_bounded content (!gaps) L hi a hb
    · rw [if_neg hw] at h
      have hpb : scan_bounded L hi (scan_probe E content B a) := ⟨h1, h2, h3, h4, h5⟩
      cases hf : hash_table.find_block E hashes
          (rolling_hasher_hash_value E (scan_hasher E content B a))
          (content_bytes content a.rd B) B with
      | some bsh =>
        rw [hf] at h
        apply ih _ r h
        obtain ⟨p1, p2, p3, p4, p5, p6, p7⟩ := scan_flush_proj content (!gaps)
          (scan_probe E content B a)
        have hrd : (scan_probe E content B a).rd = a.rd := rfl
        have hstop : (scan_probe E content B a).stop = a.stop := rfl
        unfold scan_hit
        refine ⟨?_, ?_, ?_, ?_, ?_⟩
        · exact le_refl _
        · show (scan_flush content (!gaps) (scan_probe E content B a)).rd + B
            ≤ (scan_flush content (!gaps) (scan_probe E content B a)).stop
          omega
        · show (scan_flush content (!gaps) (scan_probe E content B a)).stop ≤ hi
          omega
        · show (scan_flush content (!gaps) (scan_probe E content B a)).stop
            ≤ (scan_flush content (!gaps) (scan_probe E content B a)).rd + B + L
          omega
        · intro x hx
          have hx' : x ∈ (scan_flush content (!gaps) (scan_probe E content B a)).stream ++
              [.copy bsh.tpos B (scan_flush content (!gaps) (scan_probe E content B a)).rd] := hx
          rcases List.mem_append.mp hx' with hx' | hx'
          · exact scan_flush_bounded content (!gaps) L hi _ hpb x hx'
          · simp only [List.mem_singleton] at hx'
            subst hx'
            exact hBL
      | none =>
        rw [hf] at h
        apply ih _ r h
        refine ⟨?_, ?_, h3, h4, h5⟩
        · show a.sent ≤ a.rd + 1
          omega
        · show a.rd + 1 ≤ a.stop
          omega

/-- The final round over a whole source emits no record that is longer than
the buffer; a source longer than the buffer does not come out as one literal. -/
theorem source_records_len_le (E : Env) (hashes : hash_table) (S : List Nat) (B : Nat)
    (chunk : Nat → Nat) (fuel : Nat) (hB1 : 1 ≤ B) (hBL : B ≤ XDELTA_BUFFER_LEN E)
    (hS : S.length < 2 ^ 32) (hfuel : 2 * S.length < fuel) :
    ∃ res, read_and_delta E fuel ⟨S, 0, 0, chunk⟩ [] hashes [⟨0, S.length⟩] B false
        = .done res ∧
      (∀ x ∈ res.stream, x.len ≤ XDELTA_BUFFER_LEN E) ∧
      (XDELTA_BUFFER_LEN E < S.length → res.stream ≠ [.literal S S.length 0]) := by
  obtain ⟨res, r, h1, h2, h3, _, _⟩ := delta_source_scan E hashes S B chunk fuel hB1 hBL hS hfuel
  have hb := scan_record_len_le E hashes S B (XDELTA_BUFFER_LEN E) S.length false hB1 hBL fuel _ r
    h2 ⟨le_refl _, le_refl _, Nat.zero_le _, Nat.zero_le _, by intro x hx; cases hx⟩
  rw [← h3] at hb
  refine ⟨res, h1, hb, ?_⟩
  intro hlong hc
  have := hb (.literal S S.length 0) (by rw [hc]; exact List.mem_cons_self _ _)
  have h' : S.length ≤ XDELTA_BUFFER_LEN E := this
  omega

theorem big_source_length : big_source.length = 2 ^ 23 + 1 := by
  unfold big_source
  rw [List.length_replicate]

/-- C16 as stated fails for a source that is longer than the buffer: for the
source of `2^23 + 1` zero bytes, the empty index and `B = 400`, the final round
returns, and its stream is not the single literal that holds the source, since
the buffer of `2^23` bytes is flushed as a first literal before it is refilled. -/
theorem empty_target_counterexample :
    ∃ res, read_and_delta (id_env 1) (2 ^ 25) ⟨big_source, 0, 0, fun _ => 0⟩ [] hash_table.empty
        [⟨0, big_source.length⟩] 400 false = .done res ∧
      res.stream ≠ [.literal big_source big_source.length 0] := by
  obtain ⟨res, h1, _, h3⟩ := source_records_len_le (id_env 1) hash_table.empty big_source 400
    (fun _ => 0) (2 ^ 25) (by decide) (by decide) (by rw [big_source_length]; decide)
    (by rw [big_source_length]; decide)
  exact ⟨res, h1, h3 (by rw [big_source_length]; decide)⟩

/-! # Digest feed, frame of the final round, hole lookup -/

/-- C11 at the failing input: for the region `[1, 2, 3]` and a reader that
returns at most two bytes per call, `read_and_hash` reads two bytes, then one,
and passes to `rs_mdfour_update` the spans `[1, 2]` and `[1]`: the second call is
given `rdbuf`, the start of the buffer, where the bytes just read are at
`endbuf`, so the digest is fed `[1, 2, 1]` and not the region `[1, 2, 3]`. -/
theorem digest_feed_short_read :
    hash_digest_feed
      (read_and_hash toy_env 2 ⟨[1, 2, 3], 0, 0, fun _ => 1⟩ [] 3 2 0 (some []))
      = some [1, 2, 1] := by
  decide

/-- The final round returns: with holes that are valid and lie inside the file, a
block length between 1 and `XDELTA_BUFFER_LEN` and enough fuel, `read_and_delta`
with `need_split_hole = false` comes back with a result. -/
theorem final_round_returns (E : Env) (hashes : hash_table) (content : List Nat)
    (pos calls : Nat) (chunk : Nat → Nat) (stream0 : List delta_record) (holes : List hole_t)
    (B fuel : Nat) (hB1 : 1 ≤ B) (hBL : B ≤ XDELTA_BUFFER_LEN E)
    (hfit : ∀ h ∈ holes, h.offset + h.length ≤ content.length ∧ hole_valid h)
    (hfuel : ∀ h ∈ holes, 2 * to_uint32 h.length < fuel) :
    ∃ res, read_and_delta E fuel ⟨content, pos, calls, chunk⟩ stream0 hashes holes B false
      = .done res := by
  obtain ⟨acc, groups, h1, _⟩ := delta_holes_spec E hashes content B false
    fuel hB1 hBL holes ⟨⟨content, pos, calls, chunk⟩, stream0, [], [], fun _ => 0⟩ rfl
    (fun h hh => ⟨(hfit h hh).1, (hfit h hh).2, hfuel h hh⟩)
  refine ⟨⟨acc.reader, acc.stream, holes, acc.probes⟩, ?_⟩
  unfold read_and_delta
  rw [h1]
  rfl

/-- C17. Final round leaves holes alone: when `read_and_delta` is called with
`need_split_hole = false` and returns, the hole set is the hole set it was
given. -/
theorem final_round_hole_set (E : Env) (fuel : Nat) (reader : file_reader)
    (stream : List delta_record) (hashes : hash_table) (hole_set : List hole_t) (B : Nat)
    (res : delta_result)
    (h : read_and_delta E fuel reader stream hashes hole_set B false = .done res) :
    res.hole_set = hole_set := by
  unfold read_and_delta at h
  split at h
  · simp only [Bool.false_eq_true, ↓reduceIte, Run.done.injEq] at h
    rw [← h]
  · cases h
  · cases h

theorem final_round_hole_set_witness :
    ∃ res, read_and_delta toy_env 7 ⟨[5, 6, 7], 0, 0, fun _ => 0⟩ [] hash_table.empty
        [⟨0, 3⟩] 2 false = .done res ∧ res.hole_set = [⟨0, 3⟩] := by
  obtain ⟨res, h⟩ := final_round_returns toy_env hash_table.empty [5, 6, 7] 0 0 (fun _ => 0) []
    [⟨0, 3⟩] 2 7 (by decide) (by decide) (by decide) (by decide)
  exact ⟨res, h, final_round_hole_set toy_env 7 ⟨[5, 6, 7], 0, 0, fun _ => 0⟩ []
    hash_table.empty [⟨0, 3⟩] 2 res h⟩

/-- C19, amended. Range-containment lookup: a valid hole `a` and a zero-length
probe at offset `x` are equivalent under `std::less<hole_t>` exactly when `x`
lies in the closed range of `a`, `a.offset ≤ x ≤ a.offset + a.length`; and in a
well-formed hole set that holds `a`, the lookup of the probe finds `a` exactly
in this case. -/
theorem hole_probe_lookup (a : hole_t) (x : Nat) (ha : hole_valid a) (hx : x < 2 ^ 64) :
    ((hole_less a ⟨x, 0⟩ = false ∧ hole_less ⟨x, 0⟩ a = false) ↔
      (a.offset ≤ x ∧ x ≤ a.offset + a.length)) ∧
    ∀ holes : List hole_t, holeset_wf holes → a ∈ holes →
      (set_find hole_less ⟨x, 0⟩ holes = some a ↔ (a.offset ≤ x ∧ x ≤ a.offset + a.length)) := by
  have hxv : hole_valid ⟨x, 0⟩ := by
    unfold hole_valid
    simpa using hx
  have key : (hole_less a ⟨x, 0⟩ = false ∧ hole_less ⟨x, 0⟩ a = false) ↔
      (a.offset ≤ x ∧ x ≤ a.offset + a.length) := by
    rw [hole_less_false_iff a ⟨x, 0⟩ hxv, hole_less_false_iff ⟨x, 0⟩ a ha]
    simp
  refine ⟨key, ?_⟩
  intro holes hwf hmem
  constructor
  · intro hf
    obtain ⟨_, h1, h2⟩ := set_find_mem hole_less ⟨x, 0⟩ holes a hf
    exact key.mp ⟨h1, h2⟩
  · intro hr
    obtain ⟨l1, l2, rfl⟩ := List.append_of_mem hmem
    exact (set_find_erase_hole a x l2 l1 hwf hr.1 hr.2).1

theorem hole_probe_lookup_witness :
    hole_valid ⟨10, 5⟩ ∧ 15 < 2 ^ 64 ∧
    (((hole_less ⟨10, 5⟩ ⟨15, 0⟩ = false ∧ hole_less ⟨15, 0⟩ ⟨10, 5⟩ = false) ↔
      ((⟨10, 5⟩ : hole_t).offset ≤ 15 ∧ 15 ≤ (⟨10, 5⟩ : hole_t).offset + (⟨10, 5⟩ : hole_t).length)) ∧
    ∀ holes : List hole_t, holeset_wf holes → (⟨10, 5⟩ : hole_t) ∈ holes →
      (set_find hole_less ⟨15, 0⟩ holes = some ⟨10, 5⟩ ↔
        ((⟨10, 5⟩ : hole_t).offset ≤ 15 ∧
          15 ≤ (⟨10, 5⟩ : hole_t).offset + (⟨10, 5⟩ : hole_t).length))) :=
  ⟨by decide, by decide, hole_probe_lookup ⟨10, 5⟩ 15 (by decide) (by decide)⟩

/-- C19 as stated fails at the end of a hole: the zero-length probe at offset 15
is equivalent to the hole `[10, 15)` and the lookup finds this hole, though 15
is not in the half-open range of the hole. -/
theorem hole_probe_lookup_counterexample :
    hole_less ⟨10, 5⟩ ⟨15, 0⟩ = false ∧ hole_less ⟨15, 0⟩ ⟨10, 5⟩ = false ∧
    set_find hole_less ⟨15, 0⟩ [⟨10, 5⟩] = some ⟨10, 5⟩ ∧
    ¬ ((⟨10, 5⟩ : hole_t).offset ≤ (⟨15, 0⟩ : hole_t).offset ∧
      (⟨15, 0⟩ : hole_t).offset < (⟨10, 5⟩ : hole_t).offset + (⟨10, 5⟩ : hole_t).length) := by
  decide

/-! # Intermediate rounds: the hole set after the splits -/

theorem wf_separated : ∀ (holes : List hole_t), holeset_wf holes →
    ∀ P ∈ holes, ∀ Q ∈ holes, P ≠ Q →
      (Q.offset + Q.length < P.offset ∨ P.offset + P.length < Q.offset) := by
  intro holes
  induction holes with
  | nil => intro _ P hP; simp at hP
  | cons e l ih =>
    intro hwf P hP Q hQ hne
    obtain ⟨hhead, _⟩ := List.pairwise_cons.mp hwf.2
    rcases List.mem_cons.mp hP with hPe | hPl
    · rcases List.mem_cons.mp hQ with hQe | hQl
      · exact absurd (hPe.trans hQe.symm) hne
      · left
        subst hPe
        exact (hole_less_iff P Q (hwf.1 Q hQ)).mp (hhead Q hQl)
    · rcases List.mem_cons.mp hQ with hQe | hQl
      · right
        subst hQe
        exact (hole_less_iff Q P (hwf.1 P hP)).mp (hhead P hPl)
      · exact ih (holeset_wf_cons hwf) P hPl Q hQl hne

/-- In a well-formed hole set a run of covered bytes lies in one hole: holes do
not touch. -/
theorem contiguous_in_one_hole (holes : List hole_t) (hwf : holeset_wf holes) (a b : Nat)
    (hab : a < b) (hcov : ∀ x, a ≤ x → x < b → covered holes x) :
    ∃ P ∈ holes, P.offset ≤ a ∧ b ≤ P.offset + P.length := by
  obtain ⟨P, hP, p1, p2⟩ := hcov a (le_refl _) hab
  refine ⟨P, hP, p1, ?_⟩
  by_contra hlt
  obtain ⟨Q, hQ, q1, q2⟩ := hcov (P.offset + P.length) (by omega) (by omega)
  have hne : P ≠ Q := by
    intro h
    subst h
    omega
  rcases wf_separated holes hwf P hP Q hQ hne with h | h <;> omega

theorem wf_overlap_eq (holes : List hole_t) (hwf : holeset_wf holes) (P Q : hole_t)
    (hP : P ∈ holes) (hQ : Q ∈ holes) (x : Nat) (h1 : P.offset ≤ x) (h2 : x < P.offset + P.length)
    (h3 : Q.offset ≤ x) (h4 : x < Q.offset + Q.length) : P = Q := by
  by_contra hne
  rcases wf_separated holes hwf P hP Q hQ hne with h | h <;> omega

/-- Ranges of positive length that are covered by the hole set and do not
overlap can be split out one after the other: each is inside a hole of the set
at the time of its call. -/
theorem split_args_ok_of_disjoint : ∀ (cs holes : List hole_t), holeset_wf holes →
    (∀ c ∈ cs, 0 < c.length ∧ ∀ x, c.offset ≤ x → x < c.offset + c.length → covered holes x) →
    cs.Pairwise hole_disjoint → split_args_ok true holes cs := by
  intro cs
  induction cs with
  | nil => intro holes _ _ _; trivial
  | cons c cs ih =>
    intro holes hwf hall hpw
    obtain ⟨hpos, hcov⟩ := hall c (List.mem_cons_self _ _)
    obtain ⟨hhead, htail⟩ := List.pairwise_cons.mp hpw
    obtain ⟨P, hP, p1, p2⟩ := contiguous_in_one_hole holes hwf c.offset (c.offset + c.length)
      (by omega) hcov
    have hc : hole_contains P c := ⟨p1, p2⟩
    obtain ⟨l1, l2, _, e2, e3, e4⟩ := split_hole_ok holes P c hwf hP hpos hc
    refine ⟨fun _ => hpos, ⟨P, hP, hc⟩, ?_⟩
    rw [e2]
    apply ih _ e3 _ htail
    intro d hd
    obtain ⟨dpos, dcov⟩ := hall d (List.mem_cons_of_mem _ hd)
    refine ⟨dpos, ?_⟩
    intro x hx1 hx2
    rw [e4]
    refine ⟨dcov x hx1 hx2, ?_⟩
    have := hhead d hd
    unfold hole_disjoint at this
    omega

theorem rec_chain_pairwise (g : Bool) : ∀ (recs : List delta_record) (a b : Nat),
    rec_chain g a recs b → recs.Pairwise (fun r s => r.s_offset + r.len ≤ s.s_offset) := by
  intro recs
  induction recs with
  | nil => intro _ _ _; exact List.Pairwise.nil
  | cons x recs ih =>
    intro a b h
    simp only [rec_chain] at h
    obtain ⟨_, h2⟩ := h
    refine List.pairwise_cons.mpr ⟨?_, ih _ _ h2⟩
    intro s hs
    exact ((rec_chain_within g _ _ _ h2).2 s hs).1

/-- The copy records of an intermediate round, hole by hole: every copy lies in
the hole it was found in, and no two copies overlap. -/
theorem copies_in_holes (E : Env) (hashes : hash_table) (content : List Nat) (B : Nat) :
    ∀ (holes : List hole_t) (groups : List (List delta_record)),
    holeset_wf holes →
    List.Forall₂ (fun h g =>
      hole_records E hashes content B true [] [] h.offset (h.offset + to_uint32 h.length)
        g (if true then g.map (fun r => ({ offset := r.s_offset, length := B } : hole_t))
           else [])) holes groups →
    (∀ r ∈ groups.flatten, r.is_copy = true ∧
      ∃ h ∈ holes, h.offset ≤ r.s_offset ∧ r.s_offset + B ≤ h.offset + h.length) ∧
    (groups.flatten.map (copy_hole B)).Pairwise hole_disjoint := by
  intro holes groups hwf hf
  induction hf with
  | nil => exact ⟨by intro r hr; simp at hr, by simp⟩
  | @cons h g hs gs hg _ ih =>
    obtain ⟨ih1, ih2⟩ := ih (holeset_wf_cons hwf)
    obtain ⟨recs, e1, e2, e3, _⟩ := hg
    simp only [List.nil_append] at e1
    subst e1
    have hle := to_uint32_le h.length
    have hin := (rec_chain_within true _ _ _ e2).2
    have hcopy : ∀ r ∈ g, r.is_copy = true ∧ r.len = B := by
      intro r hr
      have := e3 r hr
      cases r with
      | literal data len o => simp [record_sound] at this
      | copy tpos len o => exact ⟨rfl, this.1⟩
    have hg1 : ∀ r ∈ g, h.offset ≤ r.s_offset ∧ r.s_offset + B ≤ h.offset + h.length := by
      intro r hr
      have h1 := hin r hr
      have h2 := (hcopy r hr).2
      omega
    constructor
    · intro r hr
      rw [List.flatten_cons] at hr
      rcases List.mem_append.mp hr with hr | hr
      · exact ⟨(hcopy r hr).1, h, List.mem_cons_self _ _, hg1 r hr⟩
      · obtain ⟨c1, h', hh', c2⟩ := ih1 r hr
        exact ⟨c1, h', List.mem_cons_of_mem _ hh', c2⟩
    · rw [List.flatten_cons, List.map_append, List.pairwise_append]
      refine ⟨?_, ih2, ?_⟩
      · rw [List.pairwise_map]
        refine List.Pairwise.imp_of_mem ?_ (rec_chain_pairwise true _ _ _ e2)
        intro r s hr _ hrs
        left
        show r.s_offset + B ≤ s.s_offset
        have := (hcopy r hr).2
        omega
      · intro c hc d hd
        obtain ⟨r, hr, rfl⟩ := List.mem_map.mp hc
        obtain ⟨s, hs', rfl⟩ := List.mem_map.mp hd
        obtain ⟨_, h', hh', c2⟩ := ih1 s hs'
        have hsep := (hole_less_iff h h' (hwf.1 h' (List.mem_cons_of_mem _ hh'))).mp
          ((List.pairwise_cons.mp hwf.2).1 h' hh')
        have := hg1 r hr
        right
        show s.s_offset + B ≤ r.s_offset
        omega

/-- The end of an intermediate round, given what the loop over the holes has
emitted: the records are copies, each within a hole and no two overlapping,
every `split_hole` call succeeds, and the hole set afterwards covers what it
covered before minus the ranges of the copies. -/
theorem intermediate_round_core (E : Env) (hashes : hash_table) (content : List Nat)
    (reader : file_reader) (stream0 : List delta_record) (holes : List hole_t)
    (B fuel : Nat) (hB1 : 1 ≤ B) (hwf : holeset_wf holes) (acc : delta_acc)
    (groups : List (List delta_record))
    (h1 : delta_holes E hashes B true fuel holes ⟨reader, stream0, [], [], fun _ => 0⟩
      = .done acc)
    (h3 : acc.stream = stream0 ++ groups.flatten)
    (h4 : List.Forall₂ (fun h g =>
      hole_records E hashes content B true [] [] h.offset (h.offset + to_uint32 h.length)
        g (if true then g.map (fun r => ({ offset := r.s_offset, length := B } : hole_t))
           else [])) holes groups)
    (h5 : acc.holes2remove = groups.flatten.map (copy_hole B)) :
    ∃ res recs,
      read_and_delta E fuel reader stream0 hashes holes B true = .done res ∧
      res.stream = stream0 ++ recs ∧
      (∀ r ∈ recs, r.is_copy = true ∧
        ∃ h ∈ holes, h.offset ≤ r.s_offset ∧ r.s_offset + B ≤ h.offset + h.length) ∧
      res.hole_set = (split_holes holes (recs.map (copy_hole B))).2 ∧
      split_args_ok true holes (recs.map (copy_hole B)) ∧
      holeset_wf res.hole_set ∧
      ∀ x, covered res.hole_set x ↔
        (covered holes x ∧ ¬ ∃ r ∈ recs, r.s_offset ≤ x ∧ x < r.s_offset + B) := by
  obtain ⟨c1, c2⟩ := copies_in_holes E hashes content B holes groups hwf h4
  have hargs : split_args_ok true holes (groups.flatten.map (copy_hole B)) := by
    apply split_args_ok_of_disjoint _ _ hwf _ c2
    intro c hc
    obtain ⟨r, hr, rfl⟩ := List.mem_map.mp hc
    obtain ⟨_, h, hh, k1, k2⟩ := c1 r hr
    refine ⟨hB1, ?_⟩
    intro x hx1 hx2
    have hx1' : r.s_offset ≤ x := hx1
    have hx2' : x < r.s_offset + B := hx2
    exact ⟨h, hh, by omega, by omega⟩
  obtain ⟨s1, s2, s3⟩ := split_holes_invariant _ holes hwf hargs
  refine ⟨⟨acc.reader, acc.stream, (split_holes holes (groups.flatten.map (copy_hole B))).2,
    acc.probes⟩, groups.flatten, ?_, h3, c1, rfl, hargs, s2, ?_⟩
  · unfold read_and_delta
    rw [h1]
    simp only [↓reduceIte]
    rw [h5]
    cases hsp : split_holes holes (groups.flatten.map (copy_hole B)) with
    | mk a b =>
      rw [hsp] at s1
      simp only at s1
      subst s1
      rfl
  · intro x
    rw [s3 x]
    constructor
    · rintro ⟨k1, k2⟩
      refine ⟨k1, ?_⟩
      rintro ⟨r, hr, hr1, hr2⟩
      exact k2 ⟨copy_hole B r, List.mem_map.mpr ⟨r, hr, rfl⟩, hr1, hr2⟩
    · rintro ⟨k1, k2⟩
      refine ⟨k1, ?_⟩
      rintro ⟨c, hc, hc1, hc2⟩
      obtain ⟨r, hr, rfl⟩ := List.mem_map.mp hc
      exact k2 ⟨r, hr, hc1, hc2⟩

/-- An intermediate round: the loop over the holes returns, the records it
emits are copies, each within a hole and no two overlapping, every `split_hole`
call succeeds, and the hole set afterwards covers what it covered before minus
the ranges of the copies. -/
theorem intermediate_round_spec (E : Env) (hashes : hash_table) (content : List Nat)
    (pos calls : Nat) (chunk : Nat → Nat) (stream0 : List delta_record) (holes : List hole_t)
    (B fuel : Nat) (hB1 : 1 ≤ B) (hBL : B ≤ XDELTA_BUFFER_LEN E) (hwf : holeset_wf holes)
    (hfit : ∀ h ∈ holes, h.offset + h.length ≤ content.length)
    (hfuel : ∀ h ∈ holes, 2 * to_uint32 h.length < fuel) :
    ∃ res recs,
      read_and_delta E fuel ⟨content, pos, calls, chunk⟩ stream0 hashes holes B true
        = .done res ∧
      res.stream = stream0 ++ recs ∧
      (∀ r ∈ recs, r.is_copy = true ∧
        ∃ h ∈ holes, h.offset ≤ r.s_offset ∧ r.s_offset + B ≤ h.offset + h.length) ∧
      res.hole_set = (split_holes holes (recs.map (copy_hole B))).2 ∧
      split_args_ok true holes (recs.map (copy_hole B)) ∧
      holeset_wf res.hole_set ∧
      ∀ x, covered res.hole_set x ↔
        (covered holes x ∧ ¬ ∃ r ∈ recs, r.s_offset ≤ x ∧ x < r.s_offset + B) := by
  obtain ⟨acc, groups, h1, _, h3, h4, h5⟩ := delta_holes_spec E hashes content B true
    fuel hB1 hBL holes ⟨⟨content, pos, calls, chunk⟩, stream0, [], [], fun _ => 0⟩ rfl
    (fun h hh => ⟨hfit h hh, hwf.1 h hh, hfuel h hh⟩)
  exact intermediate_round_core E hashes content ⟨content, pos, calls, chunk⟩ stream0 holes B
    fuel hB1 hwf acc groups h1 h3 h4 (by rw [h5]; rfl)

/-- A hole shorter than a block, within the file: the per-hole loop makes no
`find_block` call and notes no hole to remove; in the final round it emits the
bytes of the hole as one literal, in an intermediate round nothing. -/
theorem short_hole_scan (E : Env) (hashes : hash_table) (content : List Nat) (B : Nat)
    (H : hole_t) (hBL : B ≤ XDELTA_BUFFER_LEN E) (h0 : 0 < H.length) (hlt : H.length < B)
    (hEnd : H.offset + H.length ≤ content.length) (hv : hole_valid H)
    (nsh : Bool) (acc : delta_acc) (fuel : Nat) (hc : acc.reader.content = content)
    (hfuel : 2 * H.length < fuel) :
    ∃ acc', delta_hole E hashes B nsh fuel H acc = .done acc' ∧
      acc'.probes = acc.probes ∧ acc'.holes2remove = acc.holes2remove ∧
      acc'.stream = acc.stream ++
        (if nsh then []
         else [.literal (content_bytes content H.offset H.length) H.length H.offset]) := by
  obtain ⟨_, hL2⟩ := XDELTA_BUFFER_LEN_bounds E
  have h32 : to_uint32 (H.length : Int) = H.length := to_uint32_of_lt _ (by omega)
  unfold hole_valid at hv
  obtain ⟨acc', r, h1, h2, _, h4, h5, h6⟩ := delta_hole_scan E hashes content B nsh H acc fuel
    (by omega) hBL hc (by rw [h32]; exact hEnd) (by rw [h32]; exact hv) (by rw [h32]; exact hfuel)
  rw [h32] at h2
  obtain ⟨t1, t2, t3⟩ := aligned_tail E hashes content B (XDELTA_BUFFER_LEN E)
    (H.offset + H.length) nsh hBL _ H.offset
    (⟨rfl, rfl, rfl, le_refl _, by show H.offset ≤ H.offset + H.length; omega⟩ :
      scan_aligned (scan_init E H.offset acc.stream acc.holes2remove acc.probes) H.offset
        (H.offset + H.length))
    (by omega) fuel r h2
  refine ⟨acc', h1, h6.trans t3, h5.trans t2, ?_⟩
  rw [h4, t1]
  show acc.stream ++ _ = _
  congr 1
  cases nsh
  · simp only [Bool.false_eq_true, ↓reduceIte]
    unfold literal_span
    rw [if_pos (by omega), Nat.add_sub_cancel_left]
  · rfl

/-- A hole shorter than a block stays in the hole set of an intermediate
round: no copy can lie in it. -/
theorem short_hole_kept_core (B : Nat) (H : hole_t) (h0 : 0 < H.length) (hlt : H.length < B)
    (holes : List hole_t) (hwf : holeset_wf holes) (hH : H ∈ holes)
    (hole_set : List hole_t) (recs : List delta_record)
    (h3 : ∀ r ∈ recs, r.is_copy = true ∧
      ∃ h ∈ holes, h.offset ≤ r.s_offset ∧ r.s_offset + B ≤ h.offset + h.length)
    (h6 : holeset_wf hole_set)
    (h7 : ∀ x, covered hole_set x ↔
      (covered holes x ∧ ¬ ∃ r ∈ recs, r.s_offset ≤ x ∧ x < r.s_offset + B)) :
    H ∈ hole_set := by
  have hcovH : ∀ x, H.offset ≤ x → x < H.offset + H.length → covered hole_set x := by
    intro x hx1 hx2
    rw [h7]
    refine ⟨⟨H, hH, hx1, hx2⟩, ?_⟩
    rintro ⟨r, hr, hr1, hr2⟩
    obtain ⟨_, h, hh, k1, k2⟩ := h3 r hr
    have := wf_overlap_eq holes hwf H h hH hh x hx1 hx2 (by omega) (by omega)
    subst this
    omega
  obtain ⟨P, hP, p1, p2⟩ := contiguous_in_one_hole hole_set h6 H.offset
    (H.offset + H.length) (by omega) hcovH
  obtain ⟨P0, hP0, q1, q2⟩ := contiguous_in_one_hole holes hwf P.offset (P.offset + P.length)
    (by omega)
    (fun x hx1 hx2 => ((h7 x).mp ⟨P, hP, hx1, hx2⟩).1)
  have hHP0 := wf_overlap_eq holes hwf H P0 hH hP0 H.offset (le_refl _) (by omega) (by omega)
    (by omega)
  subst hHP0
  have hPH : P = H := by
    cases P with
    | mk po pl =>
      cases H with
      | mk ho hl =>
        simp only at p1 p2 q1 q2
        simp only [hole_t.mk.injEq]
        omega
  rw [← hPH]
  exact hP

/-- A hole shorter than a block, in an intermediate round over holes within the
file: the round returns and the hole is still in the hole set. -/
theorem short_hole_kept (E : Env) (hashes : hash_table) (content : List Nat) (B : Nat)
    (H : hole_t) (hBL : B ≤ XDELTA_BUFFER_LEN E) (h0 : 0 < H.length) (hlt : H.length < B)
    (pos calls : Nat) (chunk : Nat → Nat) (stream0 : List delta_record) (holes : List hole_t)
    (fuel : Nat) (hwf : holeset_wf holes) (hH : H ∈ holes)
    (hfit : ∀ h ∈ holes, h.offset + h.length ≤ content.length)
    (hfuel : ∀ h ∈ holes, 2 * to_uint32 h.length < fuel) :
    ∃ res, read_and_delta E fuel ⟨content, pos, calls, chunk⟩ stream0 hashes holes B true
        = .done res ∧ H ∈ res.hole_set := by
  obtain ⟨res, recs, h1, _, h3, _, _, h6, h7⟩ := intermediate_round_spec E hashes content pos
    calls chunk stream0 holes B fuel (by omega) hBL hwf hfit hfuel
  exact ⟨res, h1, short_hole_kept_core B H h0 hlt holes hwf hH res.hole_set recs h3 h6 h7⟩

/-! # One changed byte -/

theorem copy_run_succ_front (E : Env) (hashes : hash_table) (content : List Nat) (B q n : Nat) :
    copy_run E hashes content B q (n + 1) =
      .copy (seeded_tpos E hashes content B q) B q :: copy_run E hashes content B (q + B) n := by
  unfold copy_run
  rw [List.range_succ_eq_map, List.map_cons, List.map_map]
  simp only [Nat.zero_mul, Nat.add_zero, List.cons.injEq, true_and]
  apply List.map_congr_left
  intro i _
  simp only [Function.comp_apply]
  have e : q + (i + 1) * B = q + B + i * B := by ring
  rw [e]

/-- A block of `S` that does not hold the changed byte is the block of `T`. -/
theorem unchanged_block (T S : List Nat) (p B i : Nat) (hB1 : 1 ≤ B)
    (hsame : ∀ x, x < T.length → x ≠ p → S.getD x 0 = T.getD x 0)
    (hi : i < T.length / B) (hne : i ≠ p / B) :
    content_bytes S (i * B) B = block_at T 0 B i := by
  unfold content_bytes block_at
  apply List.map_congr_left
  intro t ht
  have htB : t < B := List.mem_range.mp ht
  have h1 : (i + 1) * B ≤ T.length := by
    have := Nat.div_mul_le_self T.length B
    have h2 : (i + 1) * B ≤ T.length / B * B := Nat.mul_le_mul_right B (by omega)
    omega
  have h3 : (i + 1) * B = i * B + B := by ring
  have hdiv : (i * B + t) / B = i := by
    rw [Nat.mul_comm, Nat.mul_add_div (by omega), Nat.div_eq_of_lt htB]
    rfl
  have hnp : i * B + t ≠ p := by
    intro h
    rw [h] at hdiv
    exact hne hdiv.symm
  rw [Nat.zero_add]
  exact hsame _ (by omega) hnp

/-- The windows that start in the block of the changed byte are not found in
the index when their digests are those of no block of `T`. -/
theorem changed_window_miss (E : Env) (T S : List Nat) (B q : Nat)
    (hno : ∀ i, i < T.length / B →
      ¬ digest_eq E (E.get_slow_hash (block_at T 0 B i)) (E.get_slow_hash (content_bytes S q B))) :
    seeded_find E (hash_table.build E ((List.range (T.length / B)).map (hash_tuple E T 0 B 0)))
      S B q = none := by
  unfold seeded_find
  apply tuples_find_miss
  intro i hi
  have htake : (content_bytes S q B).take B = content_bytes S q B := by
    apply List.take_of_length_le
    rw [content_bytes_length]
  rw [htake]
  exact hno i hi

/-- The run up to the block of the changed byte: the blocks before it are
copied. -/
theorem flipped_head (E : Env) (hashes : hash_table) (S : List Nat) (B L N j : Nat)
    (hB1 : 1 ≤ B) (hBL : B ≤ L) (hj : j * B < N)
    (hhit : ∀ i, i < N / B → i ≠ j → ∃ bsh, seeded_find E hashes S B (i * B) = some bsh) :
    ∃ a1, scan_reaches E hashes S B L N false (scan_init E 0 [] [] []) a1 ∧
      scan_aligned a1 (j * B) N ∧ a1.stream = copy_run E hashes S B 0 j := by
  obtain ⟨a1, r1, al1, s1, _⟩ := aligned_run E hashes S B L N false hBL 0 j
    (scan_init E 0 [] [] []) ⟨rfl, rfl, rfl, Nat.zero_le _, Nat.zero_le _⟩ (by omega)
    (by
      intro i hi
      rw [Nat.zero_add]
      apply hhit i _ (by omega)
      rw [Nat.lt_iff_add_one_le, Nat.le_div_iff_mul_le (by omega)]
      have h1 : (i + 1) * B ≤ j * B := Nat.mul_le_mul_right B (by omega)
      omega)
  rw [Nat.zero_add] at al1
  exact ⟨a1, r1, al1, by rw [s1]; rfl⟩

/-- The run from the block after the changed byte on, when that block is whole:
it is found by the rolled hash and copied, as are the blocks behind it, and the
rest of the file goes out as the last literal. -/
theorem flipped_suffix (E : Env) (hashes : hash_table) (S : List Nat) (B L N j : Nat)
    (hB1 : 1 ≤ B) (hBL : B ≤ L) (hroll : roll_agrees E B) (hA : (j + 2) * B ≤ N)
    (hhit : ∀ i, i < N / B → i ≠ j → ∃ bsh, seeded_find E hashes S B (i * B) = some bsh)
    (a2 : scan_state E) (hp : scan_pending a2 ((j + 1) * B) N) (hr : scan_rolled S B a2)
    (fuel : Nat) (r : scan_state E) (h : scan_loop E hashes S B L N false fuel a2 = some r) :
    ∃ lits, r.stream = a2.stream ++ lits ++
        (copy_run E hashes S B ((j + 1) * B) (N / B - (j + 1)) ++ literal_span S (N / B * B) N) ∧
      literal_chain S a2.sent lits ((j + 1) * B) := by
  have hB0 : 0 < B := by omega
  have hj2 : j + 2 ≤ N / B := (Nat.le_div_iff_mul_le hB0).mpr hA
  have e1 : (j + 2) * B = (j + 1) * B + B := by ring
  have hM := Nat.div_mul_le_self N B
  have hM2 := Nat.lt_div_mul_add (a := N) hB0
  obtain ⟨bsh, hb⟩ := hhit (j + 1) (by omega) (by omega)
  obtain ⟨a3, lits2, r3, al3, s3, pe3, _, _⟩ := pending_hit E hashes S B L N false hB1 hBL hroll
    a2 ((j + 1) * B) hp hr (by omega) bsh hb
  obtain ⟨a4, r4, al4, s4, _⟩ := aligned_run E hashes S B L N false hBL ((j + 1) * B + B)
    (N / B - (j + 2)) a3 al3
    (by
      have e2 : (j + 1) * B + B + (N / B - (j + 2)) * B = (j + 2 + (N / B - (j + 2))) * B := by
        ring
      rw [e2, show j + 2 + (N / B - (j + 2)) = N / B by omega]
      exact hM)
    (by
      intro i hi
      have e3 : (j + 1) * B + B + i * B = (j + 2 + i) * B := by ring
      rw [e3]
      exact hhit (j + 2 + i) (by omega) (by omega))
  have e4 : (j + 1) * B + B + (N / B - (j + 2)) * B = N / B * B := by
    have e2 : (j + 1) * B + B + (N / B - (j + 2)) * B = (j + 2 + (N / B - (j + 2))) * B := by
      ring
    rw [e2, show j + 2 + (N / B - (j + 2)) = N / B by omega]
  rw [e4] at al4
  obtain ⟨f3, k3⟩ := r3 fuel r h
  obtain ⟨f4, k4⟩ := r4 f3 r k3
  obtain ⟨t1, _, _⟩ := aligned_tail E hashes S B L N false hBL a4 _ al4 (by omega) f4 r k4
  refine ⟨lits2, ?_, ?_⟩
  · rw [t1, s4, s3]
    have e5 : N / B - (j + 1) = (N / B - (j + 2)) + 1 := by omega
    rw [e5, copy_run_succ_front]
    have htp : seeded_tpos E hashes S B ((j + 1) * B) = bsh.tpos := by
      unfold seeded_tpos
      rw [hb]
    rw [htp]
    simp
  · unfold pending_emitted at pe3
    simpa using pe3

/-- The run from the block of the changed byte on, when no whole block follows
it: everything up to the end of the file goes out as literals. -/
theorem flipped_last (E : Env) (hashes : hash_table) (S : List Nat) (B L N j : Nat)
    (hB1 : 1 ≤ B) (hBL : B ≤ L) (hroll : roll_agrees E B) (hj : j * B < N)
    (hA : ¬ (j + 2) * B ≤ N)
    (hmiss : ∀ k, k < B → j * B + k + B ≤ N → seeded_find E hashes S B (j * B + k) = none)
    (a1 : scan_state E) (hp : scan_pending a1 (j * B) N) (hr : scan_rolled S B a1)
    (fuel : Nat) (r : scan_state E) (h : scan_loop E hashes S B L N false fuel a1 = some r) :
    ∃ lits, r.stream = a1.stream ++ lits ∧ literal_chain S a1.sent lits N := by
  have e1 : (j + 2) * B = j * B + B + B := by ring
  rw [e1] at hA
  generalize hk : (if j * B + B ≤ N then N + 1 - B - j * B else 0) = k
  have hk1 : k ≤ B := by rw [← hk]; split <;> omega
  have hk2 : ∀ i, i < k → j * B + i + B ≤ N := by
    intro i hi
    rw [← hk] at hi
    split at hi <;> omega
  have hk3 : N - (j * B + k) < B := by rw [← hk]; split <;> omega
  obtain ⟨a2, lits1, r2, p2, _, s2, pe2, _⟩ := pending_slide E hashes S B L N false hB1 hBL hroll
    k a1 (j * B) hp hr hk2 (fun i hi => hmiss i (by omega) (hk2 i hi))
  obtain ⟨f2, k2⟩ := r2 fuel r h
  obtain ⟨lits2, t1, t2, _⟩ := pending_tail E hashes S B L N false hBL a2 _ p2 hk3 f2 r k2
  refine ⟨lits1 ++ lits2, ?_, ?_⟩
  · rw [t1, s2, List.append_assoc]
  · have := pending_emitted_append S false _ _ _ _ _ pe2 t2
    unfold pending_emitted at this
    simpa using this

/-- The loop on file offsets over a source that differs from the target in one
block: copies for the blocks before it, literals over it, then copies again and
the last literal, or literals up to the end when no whole block follows. -/
theorem flipped_scan (E : Env) (hashes : hash_table) (S : List Nat) (B L N j : Nat)
    (hB1 : 1 ≤ B) (hBL : B ≤ L) (hroll : roll_agrees E B) (hj : j * B < N)
    (hhit : ∀ i, i < N / B → i ≠ j → ∃ bsh, seeded_find E hashes S B (i * B) = some bsh)
    (hmiss : ∀ k, k < B → j * B + k + B ≤ N → seeded_find E hashes S B (j * B + k) = none)
    (fuel : Nat) (r : scan_state E)
    (h : scan_loop E hashes S B L N false fuel (scan_init E 0 [] [] []) = some r) :
    ∃ lits, r.stream = copy_run E hashes S B 0 j ++ lits ++
        (if (j + 2) * B ≤ N then
          copy_run E hashes S B ((j + 1) * B) (N / B - (j + 1)) ++ literal_span S (N / B * B) N
         else []) ∧
      literal_chain S (j * B) lits (if (j + 2) * B ≤ N then (j + 1) * B else N) := by
  obtain ⟨a1, r1, al1, s1⟩ := flipped_head E hashes S B L N j hB1 hBL hj hhit
  obtain ⟨f1, k1⟩ := r1 fuel r h
  have hp1 : scan_pending a1 (j * B) N := ⟨le_of_eq al1.1, al1.2.1, al1.2.2.2.1, al1.2.2.2.2⟩
  have hr1 : scan_rolled S B a1 := by
    intro hn
    rw [al1.2.2.1] at hn
    cases hn
  by_cases hA : (j + 2) * B ≤ N
  · rw [if_pos hA, if_pos hA]
    have e1 : (j + 2) * B = j * B + B + B := by ring
    have e2 : (j + 1) * B = j * B + B := by ring
    obtain ⟨a2, lits1, r2, p2, q2, s2, pe2, _⟩ := pending_slide E hashes S B L N false hB1 hBL
      hroll B a1 (j * B) hp1 hr1 (fun i hi => by omega)
      (fun i hi => hmiss i hi (by omega))
    obtain ⟨f2, k2⟩ := r2 f1 r k1
    rw [← e2] at p2
    obtain ⟨lits2, t1, t2⟩ := flipped_suffix E hashes S B L N j hB1 hBL hroll hA hhit a2 p2 q2
      f2 r k2
    refine ⟨lits1 ++ lits2, ?_, ?_⟩
    · rw [t1, s2, s1]
      simp only [List.append_assoc]
    · unfold pending_emitted at pe2
      simp only [Bool.false_eq_true, ↓reduceIte] at pe2
      rw [al1.1] at pe2
      exact literal_chain_append S _ _ _ _ _ pe2 t2
  · rw [if_neg hA, if_neg hA]
    obtain ⟨lits, t1, t2⟩ := flipped_last E hashes S B L N j hB1 hBL hroll hj hA hmiss a1 hp1
      hr1 f1 r k1
    rw [al1.1] at t2
    exact ⟨lits, by rw [t1, s1, List.append_nil], t2⟩

/-- C14, amended. Single changed byte: let `S` be `T` with only the byte at `p`
changed, `N = |T| < 2^32`, `1 ≤ B ≤ XDELTA_BUFFER_LEN`, the index built from `T` by
`read_and_hash` at block length `B`, and assume that no window of `B` bytes of
`S` that starts in the block of `p` has the digest of a block of `T`, that
seeding the rolling checksum gives the fast hash of `rolling_hasher::hash`, and
that rolling it by one byte gives the seeded checksum of the slid window. Then
the final round over the hole `[0, N)` returns and emits a copy record for every
whole `B`-aligned block of `S` that does not hold `p`, at the offset of the
block; between the copies of the blocks before and after `p` it emits literal
records that cover exactly the block of `p`; the last `N mod B` bytes follow as
one literal. When no whole block follows the block of `p`, the literals run from
the start of that block to the end of the file. -/
theorem single_changed_byte (E : Env) (T S : List Nat) (p B : Nat)
    (chunkT chunkS : Nat → Nat) (fuelT fuelS : Nat) (hB1 : 1 ≤ B)
    (hBL : B ≤ XDELTA_BUFFER_LEN E) (hN : T.length < 2 ^ 32) (hlen : S.length = T.length)
    (hp : p < T.length)
    (hsame : ∀ x, x < T.length → x ≠ p → S.getD x 0 = T.getD x 0)
    (hseed : seed_agrees E) (hroll : roll_agrees E B)
    (hmiss : ∀ k, k < B → p / B * B + k + B ≤ T.length → ∀ i, i < T.length / B →
      ¬ digest_eq E (E.get_slow_hash (block_at T 0 B i))
        (E.get_slow_hash (content_bytes S (p / B * B + k) B)))
    (hfT : T.length < fuelT) (hfS : 2 * T.length < fuelS) :
    ∃ (hs : hash_state) (res : delta_result) (tp : Nat → target_pos)
        (lits : List delta_record),
      read_and_hash E fuelT ⟨T, 0, 0, chunkT⟩ [] T.length B 0 none = .done hs ∧
      read_and_delta E fuelS ⟨S, 0, 0, chunkS⟩ [] (hash_table.build E hs.stream)
        [⟨0, S.length⟩] B false = .done res ∧
      res.stream =
        (List.range (p / B)).map (fun i => .copy (tp i) B (i * B)) ++ lits ++
        (if (p / B + 2) * B ≤ T.length then
          (List.range (T.length / B - (p / B + 1))).map
            (fun i => .copy (tp (p / B + 1 + i)) B ((p / B + 1 + i) * B)) ++
          literal_span S (T.length / B * B) T.length
         else []) ∧
      literal_chain S (p / B * B) lits
        (if (p / B + 2) * B ≤ T.length then (p / B + 1) * B else T.length) := by
  obtain ⟨hs, a1, a2, _, _⟩ := read_and_hash_spec E ⟨T, 0, 0, chunkT⟩ [] T.length B 0 fuelT
    none hB1 hBL (by omega) (by simp) hfT
  simp only [List.nil_append] at a2
  obtain ⟨res, r, b1, b2, b3, _, _⟩ := delta_source_scan E (hash_table.build E hs.stream) S B
    chunkS fuelS hB1 hBL (by omega) (by omega)
  rw [hlen] at b2
  have hjp : p / B * B ≤ p := Nat.div_mul_le_self p B
  obtain ⟨lits, c1, c2⟩ := flipped_scan E (hash_table.build E hs.stream) S B
    (XDELTA_BUFFER_LEN E) T.length (p / B) hB1 hBL hroll (by omega)
    (by
      intro i hi hne
      rw [a2]
      exact tuples_find_hit E T S B _ _ i hseed hi (unchanged_block T S p B i hB1 hsame hi hne))
    (by
      intro k hk hk2
      rw [a2]
      exact changed_window_miss E T S B _ (hmiss k hk hk2))
    fuelS r b2
  refine ⟨hs, res, fun i => seeded_tpos E (hash_table.build E hs.stream) S B (i * B), lits,
    a1, b1, ?_, c2⟩
  rw [b3, c1]
  congr 1
  · congr 1
    unfold copy_run
    simp only [Nat.zero_add]
  · by_cases hA : (p / B + 2) * B ≤ T.length
    · rw [if_pos hA, if_pos hA]
      congr 1
      unfold copy_run
      apply List.map_congr_left
      intro i _
      have e : (p / B + 1) * B + i * B = (p / B + 1 + i) * B := by ring
      rw [e]
    · rw [if_neg hA, if_neg hA]

theorem single_changed_byte_witness :
    ∃ (hs : hash_state) (res : delta_result) (tp : Nat → target_pos)
        (lits : List delta_record),
      read_and_hash (with_rsync_rollsum (id_env 2)) 7 ⟨[1, 2, 3, 4, 5, 6], 0, 0, fun _ => 0⟩ []
        [1, 2, 3, 4, 5, 6].length 2 0 none = .done hs ∧
      read_and_delta (with_rsync_rollsum (id_env 2)) 13 ⟨[1, 2, 9, 4, 5, 6], 0, 0, fun _ => 0⟩ []
        (hash_table.build (with_rsync_rollsum (id_env 2)) hs.stream)
        [⟨0, [1, 2, 9, 4, 5, 6].length⟩] 2 false = .done res ∧
      res.stream =
        (List.range (2 / 2)).map (fun i => .copy (tp i) 2 (i * 2)) ++ lits ++
        (if (2 / 2 + 2) * 2 ≤ [1, 2, 3, 4, 5, 6].length then
          (List.range ([1, 2, 3, 4, 5, 6].length / 2 - (2 / 2 + 1))).map
            (fun i => .copy (tp (2 / 2 + 1 + i)) 2 ((2 / 2 + 1 + i) * 2)) ++
          literal_span [1, 2, 9, 4, 5, 6] ([1, 2, 3, 4, 5, 6].length / 2 * 2)
            [1, 2, 3, 4, 5, 6].length
         else []) ∧
      literal_chain [1, 2, 9, 4, 5, 6] (2 / 2 * 2) lits
        (if (2 / 2 + 2) * 2 ≤ [1, 2, 3, 4, 5, 6].length then (2 / 2 + 1) * 2
         else [1, 2, 3, 4, 5, 6].length) :=
  single_changed_byte (with_rsync_rollsum (id_env 2)) [1, 2, 3, 4, 5, 6] [1, 2, 9, 4, 5, 6] 2 2
    (fun _ => 0) (fun _ => 0) 7 13 (by decide) (by decide) (by decide) (by decide) (by decide)
    (by decide) (rsync_seed_agrees (id_env 2))
    (fun W c hW => rsync_roll_agrees (id_env 2) W c (by omega)) (by decide) (by decide)
    (by decide)

theorem getD_replicate_lt (n a x : Nat) (h : x < n) : (List.replicate n a).getD x 0 = a := by
  rw [List.getD_eq_getElem?_getD, List.getElem?_replicate, if_pos h]
  rfl

theorem content_bytes_const (D : List Nat) (o n a : Nat)
    (h : ∀ i, i < n → D.getD (o + i) 0 = a) : content_bytes D o n = List.replicate n a := by
  unfold content_bytes
  have : ∀ i ∈ List.range n, (fun i => D.getD (o + i) 0) i = (fun _ => a) i := by
    intro i hi
    exact h i (List.mem_range.mp hi)
  rw [List.map_congr_left this, List.map_const', List.length_range]

theorem scenario_target_length : scenario_target.length = 1024 := by
  unfold scenario_target
  rw [List.length_replicate]

theorem scenario_source_length : scenario_source.length = 1024 := by
  unfold scenario_source
  rw [List.length_append, List.length_cons, List.length_replicate, List.length_replicate]

theorem scenario_source_getD (x : Nat) (h : x < 1024) (hne : x ≠ 512) :
    scenario_source.getD x 0 = 65 := by
  unfold scenario_source
  by_cases hlt : x < 512
  · rw [List.getD_append _ _ _ _ (by rw [List.length_replicate]; exact hlt)]
    exact getD_replicate_lt 512 65 x hlt
  · rw [List.getD_append_right _ _ _ _ (by rw [List.length_replicate]; omega),
      List.length_replicate]
    obtain ⟨y, hy⟩ : ∃ y, x - 512 = y + 1 := ⟨x - 513, by omega⟩
    rw [hy, List.getD_cons_succ]
    exact getD_replicate_lt 511 65 y (by omega)

theorem scenario_source_getD_changed : scenario_source.getD 512 0 = 66 := by
  unfold scenario_source
  rw [List.getD_append_right _ _ _ _ (by rw [List.length_replicate]), List.length_replicate]
  rfl

theorem scenario_target_block (i : Nat) (hi : i < 4) :
    block_at scenario_target 0 256 i = List.replicate 256 65 := by
  rw [block_at_eq_content_bytes]
  apply content_bytes_const
  intro t ht
  unfold scenario_target
  exact getD_replicate_lt 1024 65 _ (by omega)

theorem scenario_source_window (q : Nat) (hq : q + 256 ≤ 1024) (hne : q + 256 ≤ 512 ∨ 512 < q) :
    content_bytes scenario_source q 256 = block_at scenario_target 0 256 0 := by
  rw [scenario_target_block 0 (by omega)]
  apply content_bytes_const
  intro t ht
  exact scenario_source_getD _ (by omega) (by omega)

theorem literal_chain_one (content : List Nat) (a : Nat) (lits : List delta_record)
    (h : literal_chain content a lits (a + 1)) :
    lits = [.literal (content_bytes content a 1) 1 a] := by
  cases lits with
  | nil =>
    have : a = a + 1 := h
    omega
  | cons r rs =>
    obtain ⟨m, h1, h2, h3⟩ := h
    have hle := literal_chain_le content rs m (a + 1) h3
    have hm : m = a + 1 := by omega
    subst hm
    cases rs with
    | nil =>
      rw [h2, Nat.add_sub_cancel_left]
    | cons r2 rs2 =>
      obtain ⟨m2, g1, _, g3⟩ := h3
      have := literal_chain_le content rs2 m2 (a + 1) g3
      omega

theorem scenario_changed_window_digest (i : Nat) (hi : i < scenario_target.length / 256) :
    ¬ digest_eq (with_rsync_rollsum (id_env 256))
      ((with_rsync_rollsum (id_env 256)).get_slow_hash (block_at scenario_target 0 256 i))
      ((with_rsync_rollsum (id_env 256)).get_slow_hash (content_bytes scenario_source 512 256)) := by
  rw [scenario_target_length] at hi
  rw [scenario_target_block i (by omega)]
  show ¬ memcmp (List.replicate 256 65) (content_bytes scenario_source 512 256) (255 + 1) = 0
  rw [memcmp_succ]
  have h1 : (List.replicate 256 65).headD 0 = 65 := rfl
  have h2 : (content_bytes scenario_source 512 256).headD 0 = 66 := by
    rw [(content_bytes_slide scenario_source 512 256 (by decide)).1]
    exact scenario_source_getD_changed
  rw [h1, h2]
  decide

/-- C14 as stated fails in its own scenario: for `T` = 1024 times `"A"`, `S` = 512
times `"A"`, `"B"`, 511 times `"A"` and `B = 256` (strong hash the identity, so that
equal digests are equal blocks), the final round emits copies for the blocks 0
and 1, the changed byte as a literal of one byte, then a copy for the window
`[513, 769)`, which is not block-aligned, and the last 255 bytes as a literal:
block 3 is not emitted as a copy, and the literals do not cover block 2. -/
theorem single_changed_byte_counterexample :
    ∃ (hs : hash_state) (res : delta_result) (t0 t1 t2 : target_pos),
      read_and_hash (with_rsync_rollsum (id_env 256)) 1025 ⟨scenario_target, 0, 0, fun _ => 0⟩ []
        scenario_target.length 256 0 none = .done hs ∧
      read_and_delta (with_rsync_rollsum (id_env 256)) 2049 ⟨scenario_source, 0, 0, fun _ => 0⟩ []
        (hash_table.build (with_rsync_rollsum (id_env 256)) hs.stream)
        [⟨0, scenario_source.length⟩] 256 false = .done res ∧
      res.stream = [.copy t0 256 0, .copy t1 256 256,
        .literal (content_bytes scenario_source 512 1) 1 512, .copy t2 256 513,
        .literal (content_bytes scenario_source 769 255) 255 769] := by
  have hseed := rsync_seed_agrees (id_env 256)
  have hroll : roll_agrees (with_rsync_rollsum (id_env 256)) 256 :=
    fun W c hW => rsync_roll_agrees (id_env 256) W c (by omega)
  obtain ⟨hs, a1, a2, _, _⟩ := read_and_hash_spec (with_rsync_rollsum (id_env 256))
    ⟨scenario_target, 0, 0, fun _ => 0⟩ [] scenario_target.length 256 0 1025 none (by decide)
    (by decide) (by rw [scenario_target_length]; decide) (by simp)
    (by rw [scenario_target_length]; decide)
  simp only [List.nil_append] at a2
  obtain ⟨res, r, b1, b2, b3, _, _⟩ := delta_source_scan (with_rsync_rollsum (id_env 256))
    (hash_table.build (with_rsync_rollsum (id_env 256)) hs.stream) scenario_source 256
    (fun _ => 0) 2049 (by decide) (by decide) (by rw [scenario_source_length]; decide)
    (by rw [scenario_source_length]; decide)
  rw [scenario_source_length] at b2
  have hhit : ∀ q, q + 256 ≤ 1024 → (q + 256 ≤ 512 ∨ 512 < q) →
      ∃ bsh, seeded_find (with_rsync_rollsum (id_env 256))
        (hash_table.build (with_rsync_rollsum (id_env 256)) hs.stream) scenario_source 256 q
        = some bsh := by
    intro q h1 h2
    rw [a2]
    exact tuples_find_hit _ scenario_target scenario_source 256 _ q 0 hseed
      (by rw [scenario_target_length]; decide) (scenario_source_window q h1 h2)
  have hmiss : seeded_find (with_rsync_rollsum (id_env 256))
      (hash_table.build (with_rsync_rollsum (id_env 256)) hs.stream) scenario_source 256 512
      = none := by
    rw [a2]
    exact changed_window_miss _ scenario_target scenario_source 256 512
      scenario_changed_window_digest
  -- blocks 0 and 1
  obtain ⟨s1, r1, al1, e1, _⟩ := aligned_run (with_rsync_rollsum (id_env 256))
    (hash_table.build (with_rsync_rollsum (id_env 256)) hs.stream) scenario_source 256
    (XDELTA_BUFFER_LEN (with_rsync_rollsum (id_env 256))) 1024 false (by decide) 0 2
    (scan_init _ 0 [] [] []) ⟨rfl, rfl, rfl, Nat.zero_le _, Nat.zero_le _⟩ (by decide)
    (fun i hi => hhit (0 + i * 256) (by omega) (by omega))
  obtain ⟨f1, k1⟩ := r1 2049 r b2
  have hp1 : scan_pending s1 512 1024 := ⟨le_of_eq al1.1, al1.2.1, al1.2.2.2.1, al1.2.2.2.2⟩
  have hr1 : scan_rolled scenario_source 256 s1 := by
    intro hn
    rw [al1.2.2.1] at hn
    cases hn
  -- the window at the changed byte
  obtain ⟨s2, l1, r2, p2, q2, e2, pe2, _⟩ := pending_miss (with_rsync_rollsum (id_env 256))
    (hash_table.build (with_rsync_rollsum (id_env 256)) hs.stream) scenario_source 256
    (XDELTA_BUFFER_LEN (with_rsync_rollsum (id_env 256))) 1024 false (by decide) (by decide)
    hroll s1 512 hp1 hr1 (by decide) hmiss
  obtain ⟨f2, k2⟩ := r2 f1 r k1
  -- the window one byte on
  obtain ⟨bsh, hb⟩ := hhit 513 (by decide) (by decide)
  obtain ⟨s3, l2, r3, al3, e3, pe3, _, _⟩ := pending_hit (with_rsync_rollsum (id_env 256))
    (hash_table.build (with_rsync_rollsum (id_env 256)) hs.stream) scenario_source 256
    (XDELTA_BUFFER_LEN (with_rsync_rollsum (id_env 256))) 1024 false (by decide) (by decide)
    hroll s2 513 p2 q2 (by decide) bsh hb
  obtain ⟨f3, k3⟩ := r3 f2 r k2
  obtain ⟨t1, _, _⟩ := aligned_tail (with_rsync_rollsum (id_env 256))
    (hash_table.build (with_rsync_rollsum (id_env 256)) hs.stream) scenario_source 256
    (XDELTA_BUFFER_LEN (with_rsync_rollsum (id_env 256))) 1024 false (by decide) s3 _ al3
    (by decide) f3 r k3
  have hl : l1 ++ l2 = [.literal (content_bytes scenario_source 512 1) 1 512] := by
    apply literal_chain_one
    have := pending_emitted_append scenario_source false _ _ _ _ _ pe2 pe3
    unfold pending_emitted at this
    rw [al1.1] at this
    simpa using this
  refine ⟨hs, res, seeded_tpos (with_rsync_rollsum (id_env 256))
    (hash_table.build (with_rsync_rollsum (id_env 256)) hs.stream) scenario_source 256 (0 + 0 * 256),
    seeded_tpos (with_rsync_rollsum (id_env 256))
    (hash_table.build (with_rsync_rollsum (id_env 256)) hs.stream) scenario_source 256 (0 + 1 * 256),
    bsh.tpos, a1, b1, ?_⟩
  rw [b3, t1, e3, e2, List.append_assoc s1.stream l1 l2, hl, e1]
  rfl

/-! # Returning runs of `read_and_delta` on any input -/

/-- The read loop of `read_and_delta` touches neither the records nor the noted
holes nor the log of lookups, and reads from the same file. -/
theorem delta_fill_frame (E : Env) : ∀ (fuel : Nat) (s : delta_state E) (n : Nat)
    (r : delta_state E), delta_fill E fuel s n = .done r →
    r.stream = s.stream ∧ r.holes2remove = s.holes2remove ∧ r.probes = s.probes ∧
      r.reader.content = s.reader.content := by
  intro fuel
  induction fuel with
  | zero =>
    intro s n r h
    rw [delta_fill] at h
    split at h
    · cases h
    · cases h
      exact ⟨rfl, rfl, rfl, rfl⟩
  | succ fuel ih =>
    intro s n r h
    rw [delta_fill] at h
    split at h
    · simp only at h
      split at h
      · cases h
      · have := ih _ _ _ h
        exact this
    · cases h
      exact ⟨rfl, rfl, rfl, rfl⟩

/-- The only error of the read loop is the failed read. -/
theorem delta_fill_thrown (E : Env) : ∀ (fuel : Nat) (s : delta_state E) (n : Nat)
    (msg : String), delta_fill E fuel s n = .thrown msg →
    msg = "Can't not read file or pipe." := by
  intro fuel
  induction fuel with
  | zero =>
    intro s n msg h
    rw [delta_fill] at h
    split at h <;> cases h
  | succ fuel ih =>
    intro s n msg h
    rw [delta_fill] at h
    split at h
    · simp only at h
      split at h
      · cases h
        rfl
      · exact ih _ _ _ h
    · cases h

/-- When the read loop comes back with the `n > 0` bytes it was to read, the file
holds these bytes behind the position of the reader. -/
theorem delta_fill_done_fits (E : Env) : ∀ (fuel : Nat) (s : delta_state E) (n : Nat)
    (r : delta_state E), 0 < n → n < 2 ^ 32 → delta_fill E fuel s n = .done r →
    s.reader.pos + n ≤ s.reader.content.length := by
  intro fuel
  induction fuel with
  | zero =>
    intro s n r h0 _ h
    rw [delta_fill] at h
    rw [if_pos h0] at h
    cases h
  | succ fuel ih =>
    intro s n r h0 h32 h
    rw [delta_fill] at h
    rw [if_pos h0] at h
    simp only at h
    have hsz : (s.reader.read_file s.buf (s.sentrybuf + s.remain.toNat) n).1
        = min n (min (s.reader.content.length - s.reader.pos) (s.reader.chunk s.reader.calls + 1)) :=
      rfl
    generalize hz : (s.reader.read_file s.buf (s.sentrybuf + s.remain.toNat) n).1 = size at h hsz
    split at h
    · cases h
    · rename_i hpos
      have hn' : to_uint32 ((n : Int) - (size : Int)) = n - size :=
        to_uint32_sub_int _ _ _ (by omega) (by omega) (by omega)
      rw [hn'] at h
      by_cases hrest : n - size = 0
      · omega
      · have := ih _ _ _ (by omega) (by omega) h
        have hp : (s.reader.read_file s.buf (s.sentrybuf + s.remain.toNat) n).2.2.pos
            = s.reader.pos + size := by
          rw [← hz]; rfl
        have hcn : (s.reader.read_file s.buf (s.sentrybuf + s.remain.toNat) n).2.2.content
            = s.reader.content := rfl
        simp only [hp, hcn] at this
        omega

/-- The exit branch of `delta_loop`, written with the named pieces. -/
theorem delta_loop_exit (E : Env) (hashes : hash_table) (B : Nat) (gaps : Bool)
    (s : delta_state E) (hA : s.remain < (B : Int)) (hto : s.to_read_bytes = 0) (fuel : Nat) :
    delta_loop E hashes B gaps (fuel + 1) s = .done (delta_final E gaps s) := by
  rw [delta_loop]
  dsimp only
  rw [if_pos hA, if_pos hto]
  unfold delta_final
  by_cases hc : to_uint32 ((s.endbuf : Int) - s.sentrybuf) > 0 ∧ (!gaps) = true
  · rw [if_pos hc, if_pos hc]
  · rw [if_neg hc, if_neg hc]

/-- The refill branch of `delta_loop`, written with the named pieces. -/
theorem delta_loop_refill (E : Env) (hashes : hash_table) (B : Nat) (gaps : Bool)
    (s : delta_state E) (hA : s.remain < (B : Int)) (hto : ¬ s.to_read_bytes = 0) (fuel : Nat) :
    delta_loop E hashes B gaps (fuel + 1) s =
      match delta_fill E (delta_refill_len E gaps s) (delta_refill_state E gaps s)
          (delta_refill_len E gaps s) with
      | .done s3 => delta_loop E hashes B gaps fuel s3
      | .thrown msg => .thrown msg
      | .unfinished => .unfinished := by
  rw [delta_loop]
  dsimp only
  rw [if_pos hA, if_neg hto]
  rfl

/-- The only error of the per-hole loop is the failed read. -/
theorem delta_loop_thrown (E : Env) (hashes : hash_table) (B : Nat) (gaps : Bool) :
    ∀ (fuel : Nat) (s : delta_state E) (msg : String),
      delta_loop E hashes B gaps fuel s = .thrown msg → msg = "Can't not read file or pipe." := by
  intro fuel
  induction fuel with
  | zero =>
    intro s msg h
    cases h
  | succ fuel ih =>
    intro s msg h
    by_cases hA : s.remain < (B : Int)
    · by_cases hto : s.to_read_bytes = 0
      · rw [delta_loop_exit E hashes B gaps s hA hto] at h
        cases h
      · rw [delta_loop_refill E hashes B gaps s hA hto] at h
        cases hf : delta_fill E (delta_refill_len E gaps s) (delta_refill_state E gaps s)
            (delta_refill_len E gaps s) with
        | done s3 =>
          rw [hf] at h
          exact ih s3 msg h
        | thrown m =>
          rw [hf] at h
          cases h
          exact delta_fill_thrown E _ _ _ _ hf
        | unfinished =>
          rw [hf] at h
          cases h
    · rw [delta_loop_window E hashes B gaps s hA] at h
      split at h
      · exact ih _ msg h
      · exact ih _ msg h

/-- More fuel does not change what the per-hole loop returns. -/
theorem delta_loop_mono (E : Env) (hashes : hash_table) (B : Nat) (gaps : Bool) :
    ∀ (fuel : Nat) (s r : delta_state E), delta_loop E hashes B gaps fuel s = .done r →
      ∀ k, delta_loop E hashes B gaps (fuel + k) s = .done r := by
  intro fuel
  induction fuel with
  | zero =>
    intro s r h
    cases h
  | succ fuel ih =>
    intro s r h k
    have hk : fuel + 1 + k = (fuel + k) + 1 := by omega
    rw [hk]
    by_cases hA : s.remain < (B : Int)
    · by_cases hto : s.to_read_bytes = 0
      · rw [delta_loop_exit E hashes B gaps s hA hto] at h ⊢
        exact h
      · rw [delta_loop_refill E hashes B gaps s hA hto] at h ⊢
        cases hf : delta_fill E (delta_refill_len E gaps s) (delta_refill_state E gaps s)
            (delta_refill_len E gaps s) with
        | done s3 =>
          rw [hf] at h
          exact ih s3 r h k
        | thrown m =>
          rw [hf] at h
          cases h
        | unfinished =>
          rw [hf] at h
          cases h
    · rw [delta_loop_window E hashes B gaps s hA] at h ⊢
      split
      · rename_i bsh hb
        rw [hb] at h
        exact ih _ r h k
      · rename_i hb
        rw [hb] at h
        exact ih _ r h k

/-- What the flush before a refill or a copy leaves as it is. -/
theorem delta_flush_frame (E : Env) (a : Bool) (s : delta_state E) :
    (delta_flush E a s).remain = s.remain ∧ (delta_flush E a s).reader = s.reader ∧
    (delta_flush E a s).holes2remove = s.holes2remove ∧
    (delta_flush E a s).probes = s.probes ∧
    (delta_flush E a s).to_read_bytes = s.to_read_bytes ∧
    (a = false → (delta_flush E a s).stream = s.stream) := by
  unfold delta_flush
  dsimp only
  split
  · refine ⟨rfl, rfl, rfl, rfl, rfl, ?_⟩
    intro ha
    subst ha
    rfl
  · exact ⟨rfl, rfl, rfl, rfl, rfl, fun _ => rfl⟩

/-- What the start of a refill leaves as it is. -/
theorem delta_refill_frame (E : Env) (g : Bool) (s : delta_state E) :
    (delta_refill_state E g s).remain = s.remain ∧
    (delta_refill_state E g s).reader = s.reader ∧
    (delta_refill_state E g s).holes2remove = s.holes2remove ∧
    (delta_refill_state E g s).probes = s.probes ∧
    (delta_refill_state E g s).to_read_bytes = s.to_read_bytes ∧
    (g = true → (delta_refill_state E g s).stream = s.stream) := by
  obtain ⟨h1, h2, h3, h4, h5, h6⟩ := delta_flush_frame E (!g) s
  refine ⟨h1, h2, h3, h4, h5, ?_⟩
  intro hg
  exact h6 (by rw [hg]; rfl)

/-- A refill asks for no more than the buffer has room for, and for no more
than is left of the hole. -/
theorem delta_refill_len_le (E : Env) (g : Bool) (s : delta_state E) (h0 : 0 ≤ s.remain)
    (hL : s.remain ≤ XDELTA_BUFFER_LEN E) :
    (delta_refill_len E g s : Int) + s.remain ≤ XDELTA_BUFFER_LEN E ∧
    delta_refill_len E g s ≤ s.to_read_bytes ∧
    delta_refill_len E g s
      = min s.to_read_bytes (XDELTA_BUFFER_LEN E - s.remain.toNat) := by
  obtain ⟨_, hL2⟩ := XDELTA_BUFFER_LEN_bounds E
  obtain ⟨h1, _, _, _, h5, _⟩ := delta_flush_frame E (!g) s
  have hb : to_uint32 ((XDELTA_BUFFER_LEN E : Int) - s.remain)
      = XDELTA_BUFFER_LEN E - s.remain.toNat :=
    to_uint32_sub_int _ _ _ (by omega) (by omega) (by omega)
  unfold delta_refill_len
  dsimp only
  rw [h1, h5, hb]
  split <;> omega

/-- The read loop adds to `remain` what it reads, which is no more than it was
asked for. -/
theorem delta_fill_remain (E : Env) : ∀ (fuel : Nat) (s : delta_state E) (n : Nat)
    (r : delta_state E), 0 ≤ s.remain → s.remain + n < 2 ^ 31 →
    delta_fill E fuel s n = .done r → 0 ≤ r.remain ∧ r.remain ≤ s.remain + n := by
  intro fuel
  induction fuel with
  | zero =>
    intro s n r h0 _ h
    rw [delta_fill] at h
    split at h
    · cases h
    · cases h
      omega
  | succ fuel ih =>
    intro s n r h0 h31 h
    rw [delta_fill] at h
    split at h
    · dsimp only at h
      have hsz : (s.reader.read_file s.buf (s.sentrybuf + s.remain.toNat) n).1 ≤ n :=
        Nat.min_le_left _ _
      generalize (s.reader.read_file s.buf (s.sentrybuf + s.remain.toNat) n).1 = size at h hsz
      generalize (s.reader.read_file s.buf (s.sentrybuf + s.remain.toNat) n).2.2 = rd at h
      generalize (s.reader.read_file s.buf (s.sentrybuf + s.remain.toNat) n).2.1 = bf at h
      split at h
      · cases h
      · have hn' : to_uint32 ((n : Int) - (size : Int)) = n - size :=
          to_uint32_sub_int _ _ _ rfl hsz (by omega)
        have hw : wrap_int32 (s.remain + (size : Int)) = s.remain + size :=
          wrap_int32_id _ (by omega) (by omega)
        rw [hn', hw] at h
        have := ih _ _ _ (by show 0 ≤ s.remain + (size : Int); omega)
          (by show s.remain + (size : Int) + ((n - size : Nat) : Int) < 2 ^ 31; omega) h
        dsimp only at this
        omega
    · cases h
      omega

/-- With a block longer than the buffer no window is ever complete: the per-hole
loop, when it returns, has noted no hole and made no lookup, and in an
intermediate round it has emitted nothing. -/
theorem delta_loop_no_window (E : Env) (hashes : hash_table) (B : Nat) (g : Bool)
    (hLB : XDELTA_BUFFER_LEN E < B) :
    ∀ (fuel : Nat) (s r : delta_state E), 0 ≤ s.remain → s.remain ≤ XDELTA_BUFFER_LEN E →
      delta_loop E hashes B g fuel s = .done r →
      (g = true → r.stream = s.stream) ∧ r.holes2remove = s.holes2remove ∧
        r.probes = s.probes ∧ r.reader.content = s.reader.content := by
  obtain ⟨_, hL2⟩ := XDELTA_BUFFER_LEN_bounds E
  intro fuel
  induction fuel with
  | zero =>
    intro s r _ _ h
    cases h
  | succ fuel ih =>
    intro s r h0 hL h
    have hA : s.remain < (B : Int) := by omega
    by_cases hto : s.to_read_bytes = 0
    · rw [delta_loop_exit E hashes B g s hA hto] at h
      cases h
      unfold delta_final
      split
      · refine ⟨?_, rfl, rfl, rfl⟩
        intro hg
        rename_i hc
        rw [hg] at hc
        simp at hc
      · exact ⟨fun _ => rfl, rfl, rfl, rfl⟩
    · rw [delta_loop_refill E hashes B g s hA hto] at h
      obtain ⟨f1, f2, f3, f4, _, f6⟩ := delta_refill_frame E g s
      obtain ⟨l1, _, _⟩ := delta_refill_len_le E g s h0 hL
      cases hf : delta_fill E (delta_refill_len E g s) (delta_refill_state E g s)
          (delta_refill_len E g s) with
      | done s3 =>
        rw [hf] at h
        obtain ⟨g1, g2, g3, g4⟩ := delta_fill_frame E _ _ _ _ hf
        obtain ⟨k1, k2⟩ := delta_fill_remain E _ _ _ _ (by rw [f1]; exact h0)
          (by rw [f1]; omega) hf
        rw [f1] at k2
        obtain ⟨e1, e2, e3, e4⟩ := ih s3 r k1 (by omega) h
        rw [f2] at g4
        exact ⟨fun hg => by rw [e1 hg, g1, f6 hg], by rw [e2, g2, f3], by rw [e3, g3, f4],
          by rw [e4, g4]⟩
      | thrown m =>
        rw [hf] at h
        cases h
      | unfinished =>
        rw [hf] at h
        cases h

/-- When the per-hole loop returns, the file holds the hole: every byte of the
hole has been read. -/
theorem delta_loop_done_fits (E : Env) (hashes : hash_table) (content : List Nat) (B : Nat)
    (gaps : Bool) (hi : Nat) (hB1 : 1 ≤ B) (hBL : B ≤ XDELTA_BUFFER_LEN E) (hv : hi < 2 ^ 64) :
    ∀ (fuel : Nat) (s r : delta_state E), delta_buf_inv E content hi s →
      (s.to_read_bytes = 0 → hi ≤ content.length) →
      delta_loop E hashes B gaps fuel s = .done r → hi ≤ content.length := by
  obtain ⟨_, hL2⟩ := XDELTA_BUFFER_LEN_bounds E
  intro fuel
  induction fuel with
  | zero =>
    intro s r _ _ h
    cases h
  | succ fuel ih =>
    intro s r hinv hz h
    have hinv' := hinv
    obtain ⟨i1, i2, i3, i4, i5, i6, i7, i8, i9⟩ := hinv'
    by_cases hA : s.remain < (B : Int)
    · by_cases hto : s.to_read_bytes = 0
      · exact hz hto
      · have h' := h
        rw [delta_loop_refill E hashes B gaps s hA hto] at h'
        obtain ⟨f1, f2, _, _, _, _⟩ := delta_refill_frame E gaps s
        obtain ⟨_, _, l3⟩ := delta_refill_len_le E gaps s (by omega) (by omega)
        have hremN : s.remain.toNat = s.endbuf - s.rdbuf := by omega
        rw [hremN] at l3
        have hfit : s.reader.pos + min s.to_read_bytes
            (XDELTA_BUFFER_LEN E - (s.endbuf - s.rdbuf)) ≤ content.length := by
          cases hf : delta_fill E (delta_refill_len E gaps s) (delta_refill_state E gaps s)
              (delta_refill_len E gaps s) with
          | done s3 =>
            have := delta_fill_done_fits E _ _ _ _ (by rw [l3]; omega) (by rw [l3]; omega) hf
            rw [f2, l3, i1] at this
            exact this
          | thrown m =>
            rw [hf] at h'
            cases h'
          | unfinished =>
            rw [hf] at h'
            cases h'
        obtain ⟨s3, e1, e2, _, e4⟩ := delta_step_refill_fit E hashes content B gaps hi hv s hinv
          hA hto hfit
        rw [e1 fuel] at h
        apply ih s3 r e2 _ h
        intro hz3
        obtain ⟨_, _, _, _, _, _, _, j8, _⟩ := e2
        omega
    · have hwin : s.rdbuf + B ≤ s.endbuf := by omega
      obtain ⟨_, q2⟩ := delta_probe_view E content hi B s hinv hB1 hwin
      have hwin1 : (delta_probe E B s).rdbuf + B ≤ (delta_probe E B s).endbuf := hwin
      rw [delta_loop_window E hashes B gaps s hA fuel] at h
      split at h
      · rename_i bsh _
        apply ih _ r (delta_hit_inv E content hi B gaps bsh _ q2 hv hBL hwin1) _ h
        intro hz3
        apply hz
        exact (delta_flush_frame E (!gaps) (delta_probe E B s)).2.2.2.2.1.symm.trans hz3
      · obtain ⟨m1, _⟩ := delta_miss_view E content hi B _ q2 hB1 hwin1
        exact ih _ r m1 hz h

/-- The body of the loop over the holes, written with the named start state. -/
theorem delta_hole_unfold (E : Env) (hashes : hash_table) (B : Nat) (gaps : Bool) (fuel : Nat)
    (H : hole_t) (acc : delta_acc) :
    delta_hole E hashes B gaps fuel H acc =
      match delta_loop E hashes B gaps fuel (delta_hole_init E H acc) with
      | .done s =>
        .done { reader := s.reader, stream := s.stream, holes2remove := s.holes2remove,
                probes := s.probes, buf := s.buf }
      | .thrown msg => .thrown msg
      | .unfinished => .unfinished := by
  unfold delta_hole
  simp only [file_reader.seek_file, ne_eq, not_true_eq_false, ↓reduceIte]
  rfl

/-- More fuel does not change what the pass over one hole returns. -/
theorem delta_hole_mono (E : Env) (hashes : hash_table) (B : Nat) (gaps : Bool) (fuel : Nat)
    (H : hole_t) (acc acc' : delta_acc)
    (h : delta_hole E hashes B gaps fuel H acc = .done acc') (k : Nat) :
    delta_hole E hashes B gaps (fuel + k) H acc = .done acc' := by
  rw [delta_hole_unfold] at h ⊢
  cases hl : delta_loop E hashes B gaps fuel (delta_hole_init E H acc) with
  | done s =>
    rw [hl] at h
    rw [delta_loop_mono E hashes B gaps fuel _ s hl k]
    exact h
  | thrown m =>
    rw [hl] at h
    cases h
  | unfinished =>
    rw [hl] at h
    cases h

/-- The only error of the pass over one hole is the failed read. -/
theorem delta_hole_thrown (E : Env) (hashes : hash_table) (B : Nat) (gaps : Bool) (fuel : Nat)
    (H : hole_t) (acc : delta_acc) (msg : String)
    (h : delta_hole E hashes B gaps fuel H acc = .thrown msg) :
    msg = "Can't not read file or pipe." := by
  rw [delta_hole_unfold] at h
  cases hl : delta_loop E hashes B gaps fuel (delta_hole_init E H acc) with
  | done s =>
    rw [hl] at h
    cases h
  | thrown m =>
    rw [hl] at h
    cases h
    exact delta_loop_thrown E hashes B gaps fuel _ _ hl
  | unfinished =>
    rw [hl] at h
    cases h

/-- With a block longer than the buffer, the pass over one hole, when it
returns, has noted no hole and made no lookup, and in an intermediate round it
has emitted nothing. -/
theorem delta_hole_no_window (E : Env) (hashes : hash_table) (B : Nat) (g : Bool)
    (hLB : XDELTA_BUFFER_LEN E < B) (fuel : Nat) (H : hole_t) (acc acc' : delta_acc)
    (h : delta_hole E hashes B g fuel H acc = .done acc') :
    (g = true → acc'.stream = acc.stream) ∧ acc'.holes2remove = acc.holes2remove ∧
      acc'.probes = acc.probes ∧ acc'.reader.content = acc.reader.content := by
  rw [delta_hole_unfold] at h
  cases hl : delta_loop E hashes B g fuel (delta_hole_init E H acc) with
  | done s =>
    rw [hl] at h
    cases h
    exact delta_loop_no_window E hashes B g hLB fuel _ s (le_refl _) (Int.ofNat_nonneg _) hl
  | thrown m =>
    rw [hl] at h
    cases h
  | unfinished =>
    rw [hl] at h
    cases h

/-- When the pass over a hole of positive length returns, the file holds the
hole. -/
theorem delta_hole_done_fits (E : Env) (hashes : hash_table) (content : List Nat) (B : Nat)
    (gaps : Bool) (H : hole_t) (acc acc' : delta_acc) (fuel : Nat)
    (hB1 : 1 ≤ B) (hBL : B ≤ XDELTA_BUFFER_LEN E) (hc : acc.reader.content = content)
    (hv : H.offset + to_uint32 H.length < 2 ^ 64) (hz : ¬ to_uint32 H.length = 0)
    (h : delta_hole E hashes B gaps fuel H acc = .done acc') :
    H.offset + to_uint32 H.length ≤ content.length := by
  have h32 : to_uint32 H.length < 2 ^ 32 := to_uint32_lt _
  rw [delta_hole_unfold] at h
  cases hl : delta_loop E hashes B gaps fuel (delta_hole_init E H acc) with
  | thrown m =>
    rw [hl] at h
    cases h
  | unfinished =>
    rw [hl] at h
    cases h
  | done s =>
    have hbinv : delta_buf_inv E content (H.offset + to_uint32 H.length)
        (delta_hole_init E H acc) :=
      ⟨hc, le_refl _, le_refl _, Nat.zero_le _, by simp [delta_hole_init],
        by intro i _ hi; simp [delta_hole_init] at hi, rfl, rfl, h32⟩
    exact delta_loop_done_fits E hashes content B gaps _ hB1 hBL hv fuel _ s hbinv
      (fun h0 => absurd h0 hz) hl

/-- The pass over one hole, when it returns: the records it added lie within the
hole, in order, and each is sound. No assumption is made on the file or on the
fuel. -/
theorem delta_hole_partial (E : Env) (hashes : hash_table) (content : List Nat) (B : Nat)
    (gaps : Bool) (H : hole_t) (acc acc' : delta_acc) (fuel : Nat)
    (hB1 : 1 ≤ B) (hBL : B ≤ XDELTA_BUFFER_LEN E) (hc : acc.reader.content = content)
    (hv : H.offset + to_uint32 H.length < 2 ^ 64)
    (h : delta_hole E hashes B gaps fuel H acc = .done acc') :
    acc'.reader.content = content ∧
      hole_records E hashes content B gaps acc.stream acc.holes2remove H.offset
        (H.offset + to_uint32 H.length) acc'.stream acc'.holes2remove := by
  by_cases hz : to_uint32 H.length = 0
  · have h' := h
    rw [delta_hole_unfold] at h'
    cases fuel with
    | zero => cases h'
    | succ fuel =>
      rw [delta_loop_exit E hashes B gaps _ (by show (0 : Int) < (B : Int); omega) hz] at h'
      have hfin : delta_final E gaps (delta_hole_init E H acc) = delta_hole_init E H acc := by
        unfold delta_final
        have h00 : to_uint32 (((delta_hole_init E H acc).endbuf : Int)
            - (delta_hole_init E H acc).sentrybuf) = 0 := by
          show to_uint32 (((0 : Nat) : Int) - ((0 : Nat) : Int)) = 0
          decide
        rw [if_neg (by rw [h00]; simp)]
      rw [hfin] at h'
      cases h'
      refine ⟨hc, [], (List.append_nil _).symm, ?_, by simp, ?_⟩
      · rw [hz]
        cases gaps <;> simp [rec_chain]
      · show acc.holes2remove = acc.holes2remove ++ _
        cases gaps <;> simp
  · have hEnd := delta_hole_done_fits E hashes content B gaps H acc acc' fuel hB1 hBL hc hv hz h
    obtain ⟨acc1, d1, d2, d3⟩ := delta_hole_spec E hashes content B gaps H acc
      (fuel + (2 * to_uint32 H.length + 1)) hB1 hBL hc hEnd hv (by omega)
    rw [delta_hole_mono E hashes B gaps fuel H acc acc' h] at d1
    cases d1
    exact ⟨d2, d3⟩

/-- A returning run of the loop over the holes went through its first hole and
then through the rest. -/
theorem delta_holes_cons_done (E : Env) (hashes : hash_table) (B : Nat) (gaps : Bool)
    (fuel : Nat) (h : hole_t) (rest : List hole_t) (acc acc' : delta_acc)
    (hd : delta_holes E hashes B gaps fuel (h :: rest) acc = .done acc') :
    ∃ acc1, delta_hole E hashes B gaps fuel h acc = .done acc1 ∧
      delta_holes E hashes B gaps fuel rest acc1 = .done acc' := by
  rw [delta_holes] at hd
  cases h1 : delta_hole E hashes B gaps fuel h acc with
  | done acc1 =>
    rw [h1] at hd
    exact ⟨acc1, rfl, hd⟩
  | thrown m =>
    rw [h1] at hd
    cases hd
  | unfinished =>
    rw [h1] at hd
    cases hd

/-- The only error of the loop over the holes is the failed read. -/
theorem delta_holes_thrown (E : Env) (hashes : hash_table) (B : Nat) (gaps : Bool)
    (fuel : Nat) : ∀ (holes : List hole_t) (acc : delta_acc) (msg : String),
    delta_holes E hashes B gaps fuel holes acc = .thrown msg →
    msg = "Can't not read file or pipe." := by
  intro holes
  induction holes with
  | nil =>
    intro acc msg h
    cases h
  | cons h holes ih =>
    intro acc msg hd
    rw [delta_holes] at hd
    cases h1 : delta_hole E hashes B gaps fuel h acc with
    | done acc1 =>
      rw [h1] at hd
      exact ih acc1 msg hd
    | thrown m =>
      rw [h1] at hd
      cases hd
      exact delta_hole_thrown E hashes B gaps fuel h acc _ h1
    | unfinished =>
      rw [h1] at hd
      cases hd

/-- The loop over the hole set, when it returns: the records it added come in
one group per hole, in iteration order, each group within its hole. No
assumption is made on the file or on the fuel. -/
theorem delta_holes_partial (E : Env) (hashes : hash_table) (content : List Nat) (B : Nat)
    (gaps : Bool) (fuel : Nat) (hB1 : 1 ≤ B) (hBL : B ≤ XDELTA_BUFFER_LEN E) :
    ∀ (holes : List hole_t) (acc acc' : delta_acc), acc.reader.content = content →
      (∀ h ∈ holes, hole_valid h) →
      delta_holes E hashes B gaps fuel holes acc = .done acc' →
      ∃ groups, acc'.reader.content = content ∧
        acc'.stream = acc.stream ++ groups.flatten ∧
        List.Forall₂ (fun h g =>
          hole_records E hashes content B gaps [] [] h.offset (h.offset + to_uint32 h.length)
            g (if gaps then g.map (fun r => ({ offset := r.s_offset, length := B } : hole_t))
               else [])) holes groups ∧
        acc'.holes2remove = acc.holes2remove ++
          (if gaps then groups.flatten.map
            (fun r => ({ offset := r.s_offset, length := B } : hole_t)) else []) := by
  intro holes
  induction holes with
  | nil =>
    intro acc acc' hc _ hd
    cases hd
    exact ⟨[], hc, by simp, List.Forall₂.nil, by cases gaps <;> simp⟩
  | cons h holes ih =>
    intro acc acc' hc hall hd
    obtain ⟨acc1, k1, k2⟩ := delta_holes_cons_done E hashes B gaps fuel h holes acc acc' hd
    have a2 := hall h (by simp)
    have hle := to_uint32_le h.length
    have hv : h.offset + to_uint32 h.length < 2 ^ 64 := by
      unfold hole_valid at a2; omega
    obtain ⟨d2, recs, d3, d4, d5, d6⟩ := delta_hole_partial E hashes content B gaps h acc acc1
      fuel hB1 hBL hc hv k1
    obtain ⟨groups, e2, e3, e4, e5⟩ := ih acc1 acc' d2
      (fun x hx => hall x (List.mem_cons_of_mem _ hx)) k2
    refine ⟨recs :: groups, e2, ?_, ?_, ?_⟩
    · rw [e3, d3]; simp
    · refine List.Forall₂.cons ⟨recs, by simp, d4, d5, ?_⟩ e4
      cases gaps <;> simp
    · rw [e5, d6]
      cases gaps <;> simp

/-- With a block longer than the buffer, the loop over the holes, when it
returns, has noted no hole and made no lookup, and in an intermediate round it
has emitted nothing. -/
theorem delta_holes_no_window (E : Env) (hashes : hash_table) (B : Nat) (g : Bool)
    (hLB : XDELTA_BUFFER_LEN E < B) (fuel : Nat) :
    ∀ (holes : List hole_t) (acc acc' : delta_acc),
      delta_holes E hashes B g fuel holes acc = .done acc' →
      (g = true → acc'.stream = acc.stream) ∧ acc'.holes2remove = acc.holes2remove ∧
        acc'.probes = acc.probes := by
  intro holes
  induction holes with
  | nil =>
    intro acc acc' hd
    cases hd
    exact ⟨fun _ => rfl, rfl, rfl⟩
  | cons h holes ih =>
    intro acc acc' hd
    obtain ⟨acc1, k1, k2⟩ := delta_holes_cons_done E hashes B g fuel h holes acc acc' hd
    obtain ⟨a1, a2, a3, _⟩ := delta_hole_no_window E hashes B g hLB fuel h acc acc1 k1
    obtain ⟨b1, b2, b3⟩ := ih acc1 acc' k2
    exact ⟨fun hg => (b1 hg).trans (a1 hg), b2.trans a2, b3.trans a3⟩

/-- An intermediate round on any input: the only error it can end with is the
failed read, and when it returns, the records it emitted are copies, each
within a hole, every `split_hole` call has succeeded, and the hole set covers
what it covered before minus the ranges of the copies. -/
theorem intermediate_round_any (E : Env) (hashes : hash_table) (reader : file_reader)
    (stream0 : List delta_record) (holes : List hole_t) (B fuel : Nat) (hB1 : 1 ≤ B)
    (hwf : holeset_wf holes) :
    (∀ msg, read_and_delta E fuel reader stream0 hashes holes B true = .thrown msg →
      msg = "Can't not read file or pipe.") ∧
    (∀ res, read_and_delta E fuel reader stream0 hashes holes B true = .done res →
      ∃ recs, res.stream = stream0 ++ recs ∧
        (∀ r ∈ recs, r.is_copy = true ∧
          ∃ h ∈ holes, h.offset ≤ r.s_offset ∧ r.s_offset + B ≤ h.offset + h.length) ∧
        split_args_ok true holes (recs.map (copy_hole B)) ∧
        holeset_wf res.hole_set ∧
        ∀ x, covered res.hole_set x ↔
          (covered holes x ∧ ¬ ∃ r ∈ recs, r.s_offset ≤ x ∧ x < r.s_offset + B)) ∧
    (∀ acc, delta_holes E hashes B true fuel holes ⟨reader, stream0, [], [], fun _ => 0⟩
        = .done acc →
      ∃ res, read_and_delta E fuel reader stream0 hashes holes B true = .done res) := by
  cases hd : delta_holes E hashes B true fuel holes ⟨reader, stream0, [], [], fun _ => 0⟩ with
  | thrown m =>
    have hr : read_and_delta E fuel reader stream0 hashes holes B true = .thrown m := by
      unfold read_and_delta
      rw [hd]
    rw [hr]
    refine ⟨?_, ?_, ?_⟩
    · intro msg h
      cases h
      exact delta_holes_thrown E hashes B true fuel holes _ _ hd
    · intro res h
      cases h
    · intro acc h
      cases h
  | unfinished =>
    have hr : read_and_delta E fuel reader stream0 hashes holes B true = .unfinished := by
      unfold read_and_delta
      rw [hd]
    rw [hr]
    refine ⟨?_, ?_, ?_⟩
    · intro msg h
      cases h
    · intro res h
      cases h
    · intro acc h
      cases h
  | done acc =>
    by_cases hBL : B ≤ XDELTA_BUFFER_LEN E
    · obtain ⟨groups, _, e3, e4, e5⟩ := delta_holes_partial E hashes reader.content B true fuel
        hB1 hBL holes _ acc rfl hwf.1 hd
      obtain ⟨res, recs, h1, h2, h3, _, h5, h6, h7⟩ := intermediate_round_core E hashes
        reader.content reader stream0 holes B fuel hB1 hwf acc groups hd e3 e4
        (by rw [e5]; rfl)
      rw [h1]
      refine ⟨?_, ?_, fun _ _ => ⟨res, rfl⟩⟩
      · intro msg h
        cases h
      · intro res' h
        cases h
        exact ⟨recs, h2, h3, h5, h6, h7⟩
    · obtain ⟨n1, n2, _⟩ := delta_holes_no_window E hashes B true (by omega) fuel holes _ acc hd
      have hr : read_and_delta E fuel reader stream0 hashes holes B true
          = .done ⟨acc.reader, acc.stream, holes, acc.probes⟩ := by
        unfold read_and_delta
        rw [hd]
        simp only [↓reduceIte]
        rw [n2]
        rfl
      rw [hr]
      refine ⟨?_, ?_, fun _ _ => ⟨_, rfl⟩⟩
      · intro msg h
        cases h
      · intro res' h
        cases h
        refine ⟨[], by rw [n1 rfl]; simp, by simp, trivial, hwf, ?_⟩
        intro x
        simp

/-- C20. Intermediate round shrinks holes exactly: for every reader, hash index,
hole set (well-formed, as a `std::set<hole_t>` is) and block length `B ≥ 1`, a
run of `read_and_delta` with `need_split_hole = true` never ends in the fatal
error of `split_hole`; when it returns, it has emitted only copy records, every
`split_hole` call it made was given a range inside a hole of the set, and the
set of byte offsets covered by the hole set is the set covered on entry minus
the union of the ranges `[s_offset, s_offset + B)` of the copy records emitted
in the call. It does return when the holes lie within the file and
`B ≤ XDELTA_BUFFER_LEN`. -/
theorem intermediate_round_shrinks_holes (E : Env) (hashes : hash_table) (reader : file_reader)
    (stream0 : List delta_record) (holes : List hole_t) (B fuel : Nat) (hB1 : 1 ≤ B)
    (hwf : holeset_wf holes) :
    (∀ msg, read_and_delta E fuel reader stream0 hashes holes B true = .thrown msg →
      msg ≠ "hole must be exists") ∧
    (∀ res, read_and_delta E fuel reader stream0 hashes holes B true = .done res →
      ∃ recs, res.stream = stream0 ++ recs ∧ (∀ r ∈ recs, r.is_copy = true) ∧
        split_args_ok true holes (recs.map (copy_hole B)) ∧
        ∀ x, covered res.hole_set x ↔
          (covered holes x ∧ ¬ ∃ r ∈ recs, r.s_offset ≤ x ∧ x < r.s_offset + B)) ∧
    (B ≤ XDELTA_BUFFER_LEN E → (∀ h ∈ holes, h.offset + h.length ≤ reader.content.length) →
      (∀ h ∈ holes, 2 * to_uint32 h.length < fuel) →
      ∃ res, read_and_delta E fuel reader stream0 hashes holes B true = .done res) := by
  obtain ⟨a1, a2, _⟩ := intermediate_round_any E hashes reader stream0 holes B fuel hB1 hwf
  refine ⟨?_, ?_, ?_⟩
  · intro msg h
    rw [a1 msg h]
    decide
  · intro res h
    obtain ⟨recs, h2, h3, h5, _, h7⟩ := a2 res h
    exact ⟨recs, h2, fun r hr => (h3 r hr).1, h5, h7⟩
  · intro hBL hfit hfuel
    obtain ⟨res, _, h1, _⟩ := intermediate_round_spec E hashes reader.content reader.pos
      reader.calls reader.chunk stream0 holes B fuel hB1 hBL hwf hfit hfuel
    exact ⟨res, h1⟩

theorem intermediate_round_shrinks_holes_witness :
    ∃ res recs,
      read_and_delta toy_env 11 ⟨[9, 1, 2, 9, 9], 0, 0, fun _ => 0⟩ []
        (hash_table.build toy_env [(3, ⟨[3], ⟨0, 0⟩⟩)]) [⟨0, 5⟩] 2 true = .done res ∧
      res.stream = [] ++ recs ∧ (∀ r ∈ recs, r.is_copy = true) ∧
      split_args_ok true [⟨0, 5⟩] (recs.map (copy_hole 2)) ∧
      ∀ x, covered res.hole_set x ↔
        (covered [⟨0, 5⟩] x ∧ ¬ ∃ r ∈ recs, r.s_offset ≤ x ∧ x < r.s_offset + 2) := by
  obtain ⟨_, h2, h3⟩ := intermediate_round_shrinks_holes toy_env
    (hash_table.build toy_env [(3, ⟨[3], ⟨0, 0⟩⟩)]) ⟨[9, 1, 2, 9, 9], 0, 0, fun _ => 0⟩ []
    [⟨0, 5⟩] 2 11 (by decide) ⟨by simp [hole_valid], by simp⟩
  obtain ⟨res, hr⟩ := h3 (by decide)
    (by intro h hh; simp only [List.mem_singleton] at hh; subst hh; decide)
    (by intro h hh; simp only [List.mem_singleton] at hh; subst hh; decide)
  obtain ⟨recs, b1, b2, b3, b4⟩ := h2 res hr
  exact ⟨res, recs, hr, b1, b2, b3, b4⟩

/-- A hole shorter than a block, on any file: a pass over it that returns has
made no `find_block` call and noted no hole to remove, and has emitted the bytes
of the hole as one literal in the final round, nothing in an intermediate
round. -/
theorem short_hole_any (E : Env) (hashes : hash_table) (content : List Nat) (B : Nat)
    (H : hole_t) (hBL : B ≤ XDELTA_BUFFER_LEN E) (h0 : 0 < H.length) (hlt : H.length < B)
    (hv : hole_valid H) (nsh : Bool) (acc acc' : delta_acc) (fuel : Nat)
    (hc : acc.reader.content = content)
    (h : delta_hole E hashes B nsh fuel H acc = .done acc') :
    acc'.probes = acc.probes ∧ acc'.holes2remove = acc.holes2remove ∧
      acc'.stream = acc.stream ++
        (if nsh then []
         else [.literal (content_bytes content H.offset H.length) H.length H.offset]) := by
  obtain ⟨_, hL2⟩ := XDELTA_BUFFER_LEN_bounds E
  have h32 : to_uint32 (H.length : Int) = H.length := to_uint32_of_lt _ (by omega)
  have hv' := hv
  unfold hole_valid at hv'
  have hEnd := delta_hole_done_fits E hashes content B nsh H acc acc' fuel (by omega) hBL hc
    (by rw [h32]; exact hv') (by rw [h32]; omega) h
  rw [h32] at hEnd
  obtain ⟨acc1, d1, d2, d3, d4⟩ := short_hole_scan E hashes content B H hBL h0 hlt hEnd hv nsh
    acc (fuel + (2 * H.length + 1)) hc (by omega)
  rw [delta_hole_mono E hashes B nsh fuel H acc acc' h] at d1
  cases d1
  exact ⟨d2, d3, d4⟩

/-- C15. Hole shorter than a block: for every block length
`B ≤ XDELTA_BUFFER_LEN`, every hash index and every hole `H` with
`0 < H.length < B`, a pass of `read_and_delta` over `H` that returns has made no
call of `hashes.find_block`, emitted no copy and noted no hole to remove; with
`need_split_hole = false` it has emitted exactly one literal record, which
carries the `H.length` bytes of the hole at `s_offset = H.offset`, with
`need_split_hole = true` it has emitted nothing, and the hole set that
`read_and_delta` returns for a hole set that holds `H` still holds `H`. The pass
does return when the file holds the hole. -/
theorem short_hole (E : Env) (hashes : hash_table) (content : List Nat) (B : Nat)
    (H : hole_t) (hBL : B ≤ XDELTA_BUFFER_LEN E) (h0 : 0 < H.length) (hlt : H.length < B)
    (hv : hole_valid H) :
    (∀ (nsh : Bool) (acc acc' : delta_acc) (fuel : Nat), acc.reader.content = content →
      delta_hole E hashes B nsh fuel H acc = .done acc' →
      acc'.probes = acc.probes ∧ acc'.holes2remove = acc.holes2remove ∧
        acc'.stream = acc.stream ++
          (if nsh then []
           else [.literal (content_bytes content H.offset H.length) H.length H.offset])) ∧
    (∀ (reader : file_reader) (stream0 : List delta_record) (holes : List hole_t)
      (fuel : Nat) (res : delta_result), holeset_wf holes → H ∈ holes →
      read_and_delta E fuel reader stream0 hashes holes B true = .done res →
      H ∈ res.hole_set) ∧
    (H.offset + H.length ≤ content.length →
      ∀ (nsh : Bool) (acc : delta_acc) (fuel : Nat), acc.reader.content = content →
        2 * H.length < fuel → ∃ acc', delta_hole E hashes B nsh fuel H acc = .done acc') := by
  refine ⟨?_, ?_, ?_⟩
  · intro nsh acc acc' fuel hc h
    exact short_hole_any E hashes content B H hBL h0 hlt hv nsh acc acc' fuel hc h
  · intro reader stream0 holes fuel res hwf hH h
    obtain ⟨_, a2, _⟩ := intermediate_round_any E hashes reader stream0 holes B fuel (by omega) hwf
    obtain ⟨recs, _, h3, _, h6, h7⟩ := a2 res h
    exact short_hole_kept_core B H h0 hlt holes hwf hH res.hole_set recs h3 h6 h7
  · intro hEnd nsh acc fuel hc hfuel
    obtain ⟨acc', d1, _⟩ := short_hole_scan E hashes content B H hBL h0 hlt hEnd hv nsh acc fuel
      hc hfuel
    exact ⟨acc', d1⟩

theorem short_hole_witness :
    (∃ acc', delta_hole toy_env hash_table.empty 5 false 5 ⟨1, 2⟩
        ⟨⟨[5, 6, 7], 0, 0, fun _ => 0⟩, [], [], [], fun _ => 0⟩ = .done acc' ∧
      acc'.probes = [] ∧ acc'.holes2remove = [] ∧
      acc'.stream = [] ++
        (if false then [] else [.literal (content_bytes [5, 6, 7] 1 2) 2 1])) ∧
    (∃ res, read_and_delta toy_env 5 ⟨[5, 6, 7], 0, 0, fun _ => 0⟩ [] hash_table.empty
        [⟨1, 2⟩] 5 true = .done res ∧ (⟨1, 2⟩ : hole_t) ∈ res.hole_set) := by
  obtain ⟨t1, t2, t3⟩ := short_hole toy_env hash_table.empty [5, 6, 7] 5 ⟨1, 2⟩ (by decide)
    (by decide) (by decide) (by decide)
  obtain ⟨acc', ha⟩ := t3 (by decide) false
    ⟨⟨[5, 6, 7], 0, 0, fun _ => 0⟩, [], [], [], fun _ => 0⟩ 5 rfl (by decide)
  obtain ⟨res, hr, _⟩ := short_hole_kept toy_env hash_table.empty [5, 6, 7] 5 ⟨1, 2⟩ (by decide)
    (by decide) (by decide) 0 0 (fun _ => 0) [] [⟨1, 2⟩] 5 ⟨by simp [hole_valid], by simp⟩
    (by simp)
    (by intro h hh; simp only [List.mem_singleton] at hh; subst hh; decide)
    (by intro h hh; simp only [List.mem_singleton] at hh; subst hh; decide)
  exact ⟨⟨acc', ha, t1 false _ acc' 5 rfl ha⟩,
    ⟨res, hr, t2 _ [] [⟨1, 2⟩] 5 res ⟨by simp [hole_valid], by simp⟩ (by simp) hr⟩⟩

/-! # Both kinds of round, the rolled hash, and termination -/

/-- Dropping the literals and the noted holes twice is dropping them once. -/
theorem strip_strip {E : Env} (s : delta_state E) : s.strip.strip = s.strip := by
  unfold delta_state.strip
  simp only [List.filter_filter, Bool.and_self]

/-- The read loop does not look at the records or the noted holes. -/
theorem delta_fill_strip (E : Env) : ∀ (fuel : Nat) (s : delta_state E) (n : Nat),
    delta_fill E fuel s.strip n = run_strip (delta_fill E fuel s n) := by
  intro fuel
  induction fuel with
  | zero =>
    intro s n
    rw [delta_fill, delta_fill]
    split <;> rfl
  | succ fuel ih =>
    intro s n
    rw [delta_fill, delta_fill]
    by_cases hn : n > 0
    · rw [if_pos hn, if_pos hn]
      dsimp only
      by_cases hs : (s.reader.read_file s.buf (s.sentrybuf + s.remain.toNat) n).1 ≤ 0
      · rw [if_pos hs]
        have hs' : (s.strip.reader.read_file s.strip.buf
            (s.strip.sentrybuf + s.strip.remain.toNat) n).1 ≤ 0 := hs
        rw [if_pos hs']
        rfl
      · rw [if_neg hs]
        have hs' : ¬ (s.strip.reader.read_file s.strip.buf
            (s.strip.sentrybuf + s.strip.remain.toNat) n).1 ≤ 0 := hs
        rw [if_neg hs']
        exact ih
          { s with
            reader := (s.reader.read_file s.buf (s.sentrybuf + s.remain.toNat) n).2.2
            buf := (s.reader.read_file s.buf (s.sentrybuf + s.remain.toNat) n).2.1
            to_read_bytes := to_uint32 ((s.to_read_bytes : Int)
              - (s.reader.read_file s.buf (s.sentrybuf + s.remain.toNat) n).1)
            endbuf := s.endbuf + (s.reader.read_file s.buf (s.sentrybuf + s.remain.toNat) n).1
            remain := wrap_int32 (s.remain
              + (s.reader.read_file s.buf (s.sentrybuf + s.remain.toNat) n).1) }
          (to_uint32 ((n : Int) - (s.reader.read_file s.buf (s.sentrybuf + s.remain.toNat) n).1))
    · rw [if_neg hn, if_neg hn]
      rfl

/-- The flush of the pending bytes adds at most a literal. -/
theorem delta_flush_strip (E : Env) (a : Bool) (s : delta_state E) :
    (delta_flush E a s).strip = delta_flush E false s.strip := by
  unfold delta_flush
  dsimp only
  have e : to_uint32 ((s.strip.rdbuf : Int) - s.strip.sentrybuf)
      = to_uint32 ((s.rdbuf : Int) - s.sentrybuf) := rfl
  rw [e]
  split
  · cases a
    · rfl
    · unfold delta_state.strip
      simp [delta_record.is_copy]
  · rfl

/-- The last literal of a hole is dropped with the literals. -/
theorem delta_final_strip (E : Env) (g : Bool) (s : delta_state E) :
    (delta_final E g s).strip = s.strip := by
  unfold delta_final
  split
  · unfold delta_state.strip
    simp [delta_record.is_copy]
  · rfl

/-- The start of a refill, without literals and noted holes. -/
theorem delta_refill_strip (E : Env) (g : Bool) (s : delta_state E) :
    (delta_refill_state E g s).strip = delta_refill_state E true s.strip ∧
    delta_refill_len E g s = delta_refill_len E true s.strip := by
  have h := delta_flush_strip E (!g) s
  obtain ⟨f1, _, _, _, f5, _⟩ := delta_flush_frame E (!g) s
  obtain ⟨k1, _, _, _, k5, _⟩ := delta_flush_frame E false s.strip
  constructor
  · unfold delta_refill_state
    dsimp only
    show ({ (delta_flush E (!g) s).strip with
        buf := if (delta_flush E (!g) s).strip.remain > 0 then
            memmove (delta_flush E (!g) s).strip.buf 0 (delta_flush E (!g) s).strip.rdbuf
              (delta_flush E (!g) s).strip.remain.toNat
          else (delta_flush E (!g) s).strip.buf
        sentrybuf := 0
        rdbuf := 0
        endbuf := 0 + (delta_flush E (!g) s).strip.remain.toNat } : delta_state E) = _
    rw [h]
    rfl
  · unfold delta_refill_len
    dsimp only
    rw [f1, f5]
    show _ = if (delta_flush E false s.strip).to_read_bytes
        > to_uint32 ((XDELTA_BUFFER_LEN E : Int) - (delta_flush E false s.strip).remain) then
        to_uint32 ((XDELTA_BUFFER_LEN E : Int) - (delta_flush E false s.strip).remain)
      else (delta_flush E false s.strip).to_read_bytes
    rw [k1, k5]
    rfl

/-- A copy is emitted alike in both kinds of round. -/
theorem delta_hit_strip (E : Env) (B : Nat) (g : Bool) (bsh : slow_hash) (s1 : delta_state E) :
    (delta_hit E B g bsh s1).strip = (delta_hit E B true bsh s1.strip).strip := by
  have h := delta_flush_strip E (!g) s1
  have e : ∀ t : delta_state E, (delta_hit E B true bsh t).strip
      = { (delta_flush E false t).strip with
          stream := (delta_flush E false t).strip.stream ++
            [.copy bsh.tpos (to_uint32 B) (delta_flush E false t).strip.offset]
          rdbuf := (delta_flush E false t).strip.rdbuf + B
          offset := u64 ((delta_flush E false t).strip.offset + B)
          remain := wrap_int32 ((delta_flush E false t).strip.remain - B)
          sentrybuf := (delta_flush E false t).strip.rdbuf + B
          newhash := true } := by
    intro t
    unfold delta_hit delta_state.strip
    simp [delta_record.is_copy]
  have e' : (delta_hit E B g bsh s1).strip
      = { (delta_flush E (!g) s1).strip with
          stream := (delta_flush E (!g) s1).strip.stream ++
            [.copy bsh.tpos (to_uint32 B) (delta_flush E (!g) s1).strip.offset]
          rdbuf := (delta_flush E (!g) s1).strip.rdbuf + B
          offset := u64 ((delta_flush E (!g) s1).strip.offset + B)
          remain := wrap_int32 ((delta_flush E (!g) s1).strip.remain - B)
          sentrybuf := (delta_flush E (!g) s1).strip.rdbuf + B
          newhash := true } := by
    unfold delta_hit delta_state.strip
    simp [delta_record.is_copy]
  rw [e', e, h]
  have h2 : (delta_flush E false s1.strip).strip = delta_flush E false s1.strip := by
    rw [delta_flush_strip E false s1.strip, strip_strip]
  rw [h2]

/-- The per-hole loop runs alike in both kinds of round: apart from the literal
records and the noted holes, its outcome is that of the intermediate round on
the state without them. -/
theorem delta_loop_strip (E : Env) (hashes : hash_table) (B : Nat) :
    ∀ (fuel : Nat) (g : Bool) (s : delta_state E),
      run_strip (delta_loop E hashes B g fuel s)
        = run_strip (delta_loop E hashes B true fuel s.strip) := by
  intro fuel
  induction fuel with
  | zero =>
    intro g s
    rfl
  | succ fuel ih =>
    intro g s
    by_cases hA : s.remain < (B : Int)
    · have hA' : s.strip.remain < (B : Int) := hA
      by_cases hto : s.to_read_bytes = 0
      · have hto' : s.strip.to_read_bytes = 0 := hto
        rw [delta_loop_exit E hashes B g s hA hto, delta_loop_exit E hashes B true _ hA' hto']
        show Run.done (delta_final E g s).strip = Run.done (delta_final E true s.strip).strip
        rw [delta_final_strip, delta_final_strip, strip_strip]
      · have hto' : ¬ s.strip.to_read_bytes = 0 := hto
        rw [delta_loop_refill E hashes B g s hA hto, delta_loop_refill E hashes B true _ hA' hto']
        obtain ⟨r1, r2⟩ := delta_refill_strip E g s
        rw [← r2, ← r1, delta_fill_strip]
        cases hf : delta_fill E (delta_refill_len E g s) (delta_refill_state E g s)
            (delta_refill_len E g s) with
        | done s3 =>
          show run_strip (delta_loop E hashes B g fuel s3)
            = run_strip (delta_loop E hashes B true fuel s3.strip)
          exact ih g s3
        | thrown m => rfl
        | unfinished => rfl
    · have hA' : ¬ s.strip.remain < (B : Int) := hA
      rw [delta_loop_window E hashes B g s hA, delta_loop_window E hashes B true _ hA']
      have e1 : delta_hasher E B s.strip = delta_hasher E B s := rfl
      have e2 : mem_bytes s.strip.buf s.strip.rdbuf B = mem_bytes s.buf s.rdbuf B := rfl
      rw [e1, e2]
      cases hfind : hash_table.find_block E hashes
          (rolling_hasher_hash_value E (delta_hasher E B s)) (mem_bytes s.buf s.rdbuf B) B with
      | some bsh =>
        show run_strip (delta_loop E hashes B g fuel (delta_hit E B g bsh (delta_probe E B s)))
          = run_strip (delta_loop E hashes B true fuel
              (delta_hit E B true bsh (delta_probe E B s.strip)))
        rw [ih g, ih true (delta_hit E B true bsh (delta_probe E B s.strip)),
          delta_hit_strip E B g bsh (delta_probe E B s)]
        rfl
      | none =>
        show run_strip (delta_loop E hashes B g fuel (delta_miss (delta_probe E B s)))
          = run_strip (delta_loop E hashes B true fuel (delta_miss (delta_probe E B s.strip)))
        rw [ih g]
        rfl

/-- The per-hole loop only adds to the stream, and in an intermediate round it
adds copy records only. -/
theorem delta_loop_grows (E : Env) (hashes : hash_table) (B : Nat) (g : Bool) :
    ∀ (fuel : Nat) (s r : delta_state E), delta_loop E hashes B g fuel s = .done r →
      ∃ recs, r.stream = s.stream ++ recs ∧ (g = true → ∀ x ∈ recs, x.is_copy = true) := by
  have hflush : ∀ t : delta_state E, ∃ l, (delta_flush E (!g) t).stream = t.stream ++ l ∧
      (g = true → l = []) := by
    intro t
    unfold delta_flush
    dsimp only
    split
    · cases g
      · exact ⟨_, rfl, fun h => by cases h⟩
      · exact ⟨[], by simp, fun _ => rfl⟩
    · exact ⟨[], by simp, fun _ => rfl⟩
  intro fuel
  induction fuel with
  | zero =>
    intro s r h
    cases h
  | succ fuel ih =>
    intro s r h
    by_cases hA : s.remain < (B : Int)
    · by_cases hto : s.to_read_bytes = 0
      · rw [delta_loop_exit E hashes B g s hA hto] at h
        cases h
        unfold delta_final
        split
        · rename_i hc
          refine ⟨_, rfl, ?_⟩
          intro hg
          rw [hg] at hc
          simp at hc
        · exact ⟨[], by simp, fun _ x hx => by simp at hx⟩
      · rw [delta_loop_refill E hashes B g s hA hto] at h
        cases hf : delta_fill E (delta_refill_len E g s) (delta_refill_state E g s)
            (delta_refill_len E g s) with
        | done s3 =>
          rw [hf] at h
          obtain ⟨g1, _, _, _⟩ := delta_fill_frame E _ _ _ _ hf
          obtain ⟨l, k1, k2⟩ := hflush s
          have g1' : s3.stream = s.stream ++ l := by
            rw [g1]
            exact k1
          obtain ⟨recs, e1, e2⟩ := ih s3 r h
          refine ⟨l ++ recs, by rw [e1, g1', List.append_assoc], ?_⟩
          intro hg x hx
          rw [k2 hg, List.nil_append] at hx
          exact e2 hg x hx
        | thrown m =>
          rw [hf] at h
          cases h
        | unfinished =>
          rw [hf] at h
          cases h
    · rw [delta_loop_window E hashes B g s hA] at h
      split at h
      · rename_i bsh _
        obtain ⟨recs, e1, e2⟩ := ih _ r h
        obtain ⟨l, k1, k2⟩ := hflush (delta_probe E B s)
        have hs : (delta_hit E B g bsh (delta_probe E B s)).stream
            = s.stream ++ (l ++ [.copy bsh.tpos (to_uint32 B)
                (delta_flush E (!g) (delta_probe E B s)).offset]) := by
          show (delta_flush E (!g) (delta_probe E B s)).stream ++ _ = _
          rw [k1, List.append_assoc]
          rfl
        refine ⟨(l ++ [.copy bsh.tpos (to_uint32 B)
          (delta_flush E (!g) (delta_probe E B s)).offset]) ++ recs,
          by rw [e1, hs, List.append_assoc], ?_⟩
        intro hg x hx
        rw [k2 hg, List.nil_append] at hx
        rcases List.mem_append.mp hx with hx | hx
        · simp only [List.mem_singleton] at hx
          rw [hx]
          rfl
        · exact e2 hg x hx
      · obtain ⟨recs, e1, e2⟩ := ih _ r h
        exact ⟨recs, e1, e2⟩

/-- The pass over one hole runs alike in both kinds of round. -/
theorem delta_hole_strip (E : Env) (hashes : hash_table) (B : Nat) (fuel : Nat) (g : Bool)
    (H : hole_t) (acc : delta_acc) :
    acc_strip (delta_hole E hashes B g fuel H acc)
      = acc_strip (delta_hole E hashes B true fuel H acc.strip) := by
  rw [delta_hole_unfold, delta_hole_unfold]
  have e0 : delta_hole_init E H acc.strip = (delta_hole_init E H acc).strip := rfl
  have h1 := delta_loop_strip E hashes B fuel g (delta_hole_init E H acc)
  have h2 := delta_loop_strip E hashes B fuel true (delta_hole_init E H acc).strip
  rw [strip_strip] at h2
  rw [e0]
  rw [← h2] at h1
  cases ha : delta_loop E hashes B g fuel (delta_hole_init E H acc) with
  | done s1 =>
    cases hb : delta_loop E hashes B true fuel (delta_hole_init E H acc).strip with
    | done s2 =>
      rw [ha, hb] at h1
      have h3 : s1.strip = s2.strip := by
        simp only [run_strip, Run.done.injEq] at h1
        exact h1
      show Run.done _ = Run.done _
      congr 1
      unfold delta_acc.strip
      have k1 : s1.strip.reader = s2.strip.reader := by rw [h3]
      have k2 : s1.strip.stream = s2.strip.stream := by rw [h3]
      have k3 : s1.strip.probes = s2.strip.probes := by rw [h3]
      have k4 : s1.strip.buf = s2.strip.buf := by rw [h3]
      have k1' : s1.reader = s2.reader := k1
      have k2' : s1.stream.filter delta_record.is_copy
          = s2.stream.filter delta_record.is_copy := k2
      have k3' : s1.probes = s2.probes := k3
      have k4' : s1.buf = s2.buf := k4
      simp only [k1', k2', k3', k4']
    | thrown m =>
      rw [ha, hb] at h1
      cases h1
    | unfinished =>
      rw [ha, hb] at h1
      cases h1
  | thrown m =>
    cases hb : delta_loop E hashes B true fuel (delta_hole_init E H acc).strip with
    | done s2 =>
      rw [ha, hb] at h1
      cases h1
    | thrown m2 =>
      rw [ha, hb] at h1
      simp only [run_strip, Run.thrown.injEq] at h1
      rw [h1]
    | unfinished =>
      rw [ha, hb] at h1
      cases h1
  | unfinished =>
    cases hb : delta_loop E hashes B true fuel (delta_hole_init E H acc).strip with
    | done s2 =>
      rw [ha, hb] at h1
      cases h1
    | thrown m2 =>
      rw [ha, hb] at h1
      cases h1
    | unfinished => rfl

/-- The loop over the holes runs alike in both kinds of round. -/
theorem delta_holes_strip (E : Env) (hashes : hash_table) (B : Nat) (fuel : Nat) :
    ∀ (holes : List hole_t) (g : Bool) (acc : delta_acc),
      acc_strip (delta_holes E hashes B g fuel holes acc)
        = acc_strip (delta_holes E hashes B true fuel holes acc.strip) := by
  intro holes
  induction holes with
  | nil =>
    intro g acc
    show Run.done acc.strip = Run.done acc.strip.strip
    unfold delta_acc.strip
    simp only [List.filter_filter, Bool.and_self]
  | cons H rest ih =>
    intro g acc
    have h1 := delta_hole_strip E hashes B fuel g H acc
    rw [delta_holes, delta_holes]
    cases ha : delta_hole E hashes B g fuel H acc with
    | done a1 =>
      cases hb : delta_hole E hashes B true fuel H acc.strip with
      | done a2 =>
        rw [ha, hb] at h1
        have h3 : a1.strip = a2.strip := by
          simp only [acc_strip, Run.done.injEq] at h1
          exact h1
        show acc_strip (delta_holes E hashes B g fuel rest a1)
          = acc_strip (delta_holes E hashes B true fuel rest a2)
        rw [ih g a1, ih true a2, h3]
      | thrown m =>
        rw [ha, hb] at h1
        cases h1
      | unfinished =>
        rw [ha, hb] at h1
        cases h1
    | thrown m =>
      cases hb : delta_hole E hashes B true fuel H acc.strip with
      | done a2 =>
        rw [ha, hb] at h1
        cases h1
      | thrown m2 =>
        rw [ha, hb] at h1
        simp only [acc_strip, Run.thrown.injEq] at h1
        rw [h1]
      | unfinished =>
        rw [ha, hb] at h1
        cases h1
    | unfinished =>
      cases hb : delta_hole E hashes B true fuel H acc.strip with
      | done a2 =>
        rw [ha, hb] at h1
        cases h1
      | thrown m2 =>
        rw [ha, hb] at h1
        cases h1
      | unfinished => rfl

/-- The loop over the holes only adds to the stream, and in an intermediate
round it adds copy records only. -/
theorem delta_holes_grows (E : Env) (hashes : hash_table) (B : Nat) (g : Bool) (fuel : Nat) :
    ∀ (holes : List hole_t) (acc acc' : delta_acc),
      delta_holes E hashes B g fuel holes acc = .done acc' →
      ∃ recs, acc'.stream = acc.stream ++ recs ∧ (g = true → ∀ x ∈ recs, x.is_copy = true) := by
  intro holes
  induction holes with
  | nil =>
    intro acc acc' hd
    cases hd
    exact ⟨[], by simp, fun _ x hx => by simp at hx⟩
  | cons H rest ih =>
    intro acc acc' hd
    obtain ⟨acc1, k1, k2⟩ := delta_holes_cons_done E hashes B g fuel H rest acc acc' hd
    rw [delta_hole_unfold] at k1
    cases hl : delta_loop E hashes B g fuel (delta_hole_init E H acc) with
    | done s =>
      rw [hl] at k1
      cases k1
      obtain ⟨r1, e1, e2⟩ := delta_loop_grows E hashes B g fuel _ s hl
      obtain ⟨r2, f1, f2⟩ := ih _ acc' k2
      refine ⟨r1 ++ r2, ?_, ?_⟩
      · rw [f1]
        show s.stream ++ r2 = _
        rw [e1, List.append_assoc]
        rfl
      · intro hg x hx
        rcases List.mem_append.mp hx with hx | hx
        · exact e2 hg x hx
        · exact f2 hg x hx
    | thrown m =>
      rw [hl] at k1
      cases k1
    | unfinished =>
      rw [hl] at k1
      cases k1

/-- Both kinds of round go through the holes alike: when one of them comes
through the loop over the holes, so does the other, with the same copy
records in the stream. -/
theorem delta_holes_both (E : Env) (hashes : hash_table) (B : Nat) (fuel : Nat)
    (holes : List hole_t) (g1 g2 : Bool) (acc acc1 : delta_acc)
    (h : delta_holes E hashes B g1 fuel holes acc = .done acc1) :
    ∃ acc2, delta_holes E hashes B g2 fuel holes acc = .done acc2 ∧
      acc2.stream.filter delta_record.is_copy = acc1.stream.filter delta_record.is_copy := by
  have e1 := delta_holes_strip E hashes B fuel holes g1 acc
  have e2 := delta_holes_strip E hashes B fuel holes g2 acc
  rw [← e2, h] at e1
  cases hb : delta_holes E hashes B g2 fuel holes acc with
  | done acc2 =>
    rw [hb] at e1
    simp only [acc_strip, Run.done.injEq] at e1
    refine ⟨acc2, rfl, ?_⟩
    have : acc1.strip.stream = acc2.strip.stream := by rw [e1]
    exact this.symm
  | thrown m =>
    rw [hb] at e1
    cases e1
  | unfinished =>
    rw [hb] at e1
    cases e1

/-- A run of `read_and_delta` that returns came through the loop over the holes,
and its stream and its log of lookups are those of the loop. -/
theorem read_and_delta_done_holes (E : Env) (fuel : Nat) (reader : file_reader)
    (stream0 : List delta_record) (hashes : hash_table) (holes : List hole_t) (B : Nat)
    (g : Bool) (res : delta_result)
    (h : read_and_delta E fuel reader stream0 hashes holes B g = .done res) :
    ∃ acc, delta_holes E hashes B g fuel holes ⟨reader, stream0, [], [], fun _ => 0⟩
        = .done acc ∧ res.stream = acc.stream ∧ res.probes = acc.probes := by
  unfold read_and_delta at h
  cases hd : delta_holes E hashes B g fuel holes ⟨reader, stream0, [], [], fun _ => 0⟩ with
  | done acc =>
    rw [hd] at h
    refine ⟨acc, rfl, ?_⟩
    cases g
    · simp only [Bool.false_eq_true, ↓reduceIte, Run.done.injEq] at h
      rw [← h]
      exact ⟨rfl, rfl⟩
    · simp only [↓reduceIte] at h
      split at h
      · simp only [Run.done.injEq] at h
        rw [← h]
        exact ⟨rfl, rfl⟩
      · cases h
  | thrown m =>
    rw [hd] at h
    cases h
  | unfinished =>
    rw [hd] at h
    cases h

/-- The final round returns as soon as it is through the loop over the holes. -/
theorem read_and_delta_final_of_holes (E : Env) (fuel : Nat) (reader : file_reader)
    (stream0 : List delta_record) (hashes : hash_table) (holes : List hole_t) (B : Nat)
    (acc : delta_acc)
    (h : delta_holes E hashes B false fuel holes ⟨reader, stream0, [], [], fun _ => 0⟩
      = .done acc) :
    read_and_delta E fuel reader stream0 hashes holes B false
      = .done ⟨acc.reader, acc.stream, holes, acc.probes⟩ := by
  unfold read_and_delta
  rw [h]
  rfl

/-- C22. Intermediate rounds emit copies only: for every reader, hash index, hole
set and block length, a run of `read_and_delta` with `need_split_hole = true`
that returns has emitted copy records only, the run with
`need_split_hole = false` on the same inputs returns too, and the copy records
among the records it has emitted are the same records (target position, length
and `s_offset`) in the same order. Conversely, when the run with
`need_split_hole = false` returns, so does the one with `need_split_hole = true`
for a block length `B ≥ 1` and a well-formed hole set. -/
theorem intermediate_copies_only (E : Env) (fuel : Nat) (reader : file_reader)
    (stream0 : List delta_record) (hashes : hash_table) (holes : List hole_t) (B : Nat) :
    (∀ rt, read_and_delta E fuel reader stream0 hashes holes B true = .done rt →
      ∃ recs, rt.stream = stream0 ++ recs ∧ (∀ r ∈ recs, r.is_copy = true) ∧
        ∃ rf recs_f, read_and_delta E fuel reader stream0 hashes holes B false = .done rf ∧
          rf.stream = stream0 ++ recs_f ∧ recs_f.filter delta_record.is_copy = recs) ∧
    (1 ≤ B → holeset_wf holes →
      ∀ rf, read_and_delta E fuel reader stream0 hashes holes B false = .done rf →
        ∃ rt, read_and_delta E fuel reader stream0 hashes holes B true = .done rt) := by
  constructor
  · intro rt h
    obtain ⟨acc_t, h1, h2, _⟩ := read_and_delta_done_holes E fuel reader stream0 hashes holes B
      true rt h
    obtain ⟨recs, e1, e2⟩ := delta_holes_grows E hashes B true fuel holes _ acc_t h1
    obtain ⟨acc_f, f1, f2⟩ := delta_holes_both E hashes B fuel holes true false _ acc_t h1
    obtain ⟨recs_f, k1, _⟩ := delta_holes_grows E hashes B false fuel holes _ acc_f f1
    have hall : recs.filter delta_record.is_copy = recs :=
      List.filter_eq_self.mpr (e2 rfl)
    refine ⟨recs, by rw [h2, e1], e2 rfl, ⟨acc_f.reader, acc_f.stream, holes, acc_f.probes⟩,
      recs_f, read_and_delta_final_of_holes E fuel reader stream0 hashes holes B acc_f f1, k1, ?_⟩
    rw [k1, e1, List.filter_append, List.filter_append, hall] at f2
    exact List.append_cancel_left f2
  · intro hB1 hwf rf h
    obtain ⟨acc_f, h1, _, _⟩ := read_and_delta_done_holes E fuel reader stream0 hashes holes B
      false rf h
    obtain ⟨acc_t, f1, _⟩ := delta_holes_both E hashes B fuel holes false true _ acc_f h1
    obtain ⟨_, _, a3⟩ := intermediate_round_any E hashes reader stream0 holes B fuel hB1 hwf
    exact a3 acc_t f1

theorem intermediate_copies_only_witness :
    ∃ rt rf recs recs_f,
      read_and_delta toy_env 11 ⟨[9, 1, 2, 9, 9], 0, 0, fun _ => 0⟩ []
        (hash_table.build toy_env [(3, ⟨[3], ⟨0, 0⟩⟩)]) [⟨0, 5⟩] 2 true = .done rt ∧
      read_and_delta toy_env 11 ⟨[9, 1, 2, 9, 9], 0, 0, fun _ => 0⟩ []
        (hash_table.build toy_env [(3, ⟨[3], ⟨0, 0⟩⟩)]) [⟨0, 5⟩] 2 false = .done rf ∧
      rt.stream = [] ++ recs ∧ rf.stream = [] ++ recs_f ∧ (∀ r ∈ recs, r.is_copy = true) ∧
      recs_f.filter delta_record.is_copy = recs := by
  obtain ⟨rt, _, hrt, _⟩ := intermediate_round_spec toy_env
    (hash_table.build toy_env [(3, ⟨[3], ⟨0, 0⟩⟩)]) [9, 1, 2, 9, 9] 0 0 (fun _ => 0) []
    [⟨0, 5⟩] 2 11 (by decide) (by decide) ⟨by simp [hole_valid], by simp⟩
    (by intro h hh; simp only [List.mem_singleton] at hh; subst hh; decide)
    (by intro h hh; simp only [List.mem_singleton] at hh; subst hh; decide)
  obtain ⟨recs, a1, a2, rf, recs_f, a3, a4, a5⟩ := (intermediate_copies_only toy_env 11
    ⟨[9, 1, 2, 9, 9], 0, 0, fun _ => 0⟩ [] (hash_table.build toy_env [(3, ⟨[3], ⟨0, 0⟩⟩)])
    [⟨0, 5⟩] 2).1 rt hrt
  exact ⟨rt, rf, recs, recs_f, hrt, a3, a1, a4, a2, a5⟩

/-- On file offsets: when the hasher is rolled from the window one byte back
whenever it is not seeded afresh, every lookup is made with the fast hash of the
window it is made for. -/
theorem scan_loop_probes (E : Env) (hashes : hash_table) (content : List Nat) (B L hi : Nat)
    (g : Bool) (hB1 : 1 ≤ B) (hseed : seed_agrees E) (hroll : roll_agrees E B) :
    ∀ (fuel : Nat) (a r : scan_state E), scan_rolled content B a →
      (∀ p ∈ a.probes, probe_fresh E B p) →
      scan_loop E hashes content B L hi g fuel a = some r →
      ∀ p ∈ r.probes, probe_fresh E B p := by
  intro fuel
  induction fuel with
  | zero =>
    intro a r _ _ h
    cases h
  | succ fuel ih =>
    intro a r hr hp h
    rw [scan_loop] at h
    obtain ⟨p1, _, p3, p4, p5, _, p7⟩ := scan_flush_proj content (!g) a
    split at h
    · split at h
      · cases h
        have e : (scan_final content g a).probes = a.probes := by
          unfold scan_final
          split <;> rfl
        rw [e]
        exact hp
      · apply ih _ r _ _ h
        · intro hn
          have hn' : a.newhash = false := by
            rw [← p4]
            exact hn
          obtain ⟨k1, k2, k3⟩ := hr hn'
          show 1 ≤ (scan_flush content (!g) a).rd ∧
            (scan_flush content (!g) a).hasher = rolling_hasher_eat_hash E
              (content_bytes content ((scan_flush content (!g) a).rd - 1) B) ∧
            (scan_flush content (!g) a).outchar
              = content.getD ((scan_flush content (!g) a).rd - 1) 0
          rw [p1, p3, p5]
          exact ⟨k1, k2, k3⟩
        · show ∀ p ∈ (scan_flush content (!g) a).probes, probe_fresh E B p
          rw [p7]
          exact hp
    · have hh := scan_hasher_rolled E content B a hB1 hroll hr
      have hprobe : ∀ p ∈ (scan_probe E content B a).probes, probe_fresh E B p := by
        intro p hpm
        have hpm' : p ∈ a.probes ++ [(rolling_hasher_hash_value E (scan_hasher E content B a),
            content_bytes content a.rd B)] := hpm
        rcases List.mem_append.mp hpm' with hpm' | hpm'
        · exact hp p hpm'
        · simp only [List.mem_singleton] at hpm'
          rw [hpm', hh]
          exact ⟨hseed _, content_bytes_length _ _ _⟩
      obtain ⟨q1, _, _, _, _, _, q7⟩ := scan_flush_proj content (!g) (scan_probe E content B a)
      split at h
      · apply ih _ r _ _ h
        · intro hn
          cases hn
        · show ∀ p ∈ (scan_flush content (!g) (scan_probe E content B a)).probes,
            probe_fresh E B p
          rw [q7]
          exact hprobe
      · apply ih (scan_miss content (scan_probe E content B a)) r _ hprobe h
        intro _
        refine ⟨Nat.le_add_left 1 a.rd, ?_, ?_⟩
        · show scan_hasher E content B a
            = rolling_hasher_eat_hash E (content_bytes content (a.rd + 1 - 1) B)
          rw [hh, Nat.add_sub_cancel]
        · show content.getD a.rd 0 = content.getD (a.rd + 1 - 1) 0
          rw [Nat.add_sub_cancel]

/-- The pass over a hole of which nothing is to be read (its length is a
multiple of `2^32`) returns what it was given, with the reader at the hole. -/
theorem delta_hole_empty (E : Env) (hashes : hash_table) (B : Nat) (g : Bool) (fuel : Nat)
    (H : hole_t) (acc acc' : delta_acc) (hB1 : 1 ≤ B) (hz : to_uint32 H.length = 0)
    (h : delta_hole E hashes B g fuel H acc = .done acc') :
    acc'.stream = acc.stream ∧ acc'.holes2remove = acc.holes2remove ∧
      acc'.probes = acc.probes ∧ acc'.reader.content = acc.reader.content := by
  rw [delta_hole_unfold] at h
  cases fuel with
  | zero => cases h
  | succ fuel =>
    rw [delta_loop_exit E hashes B g _ (by show (0 : Int) < (B : Int); omega) hz] at h
    have hfin : delta_final E g (delta_hole_init E H acc) = delta_hole_init E H acc := by
      unfold delta_final
      have h00 : to_uint32 (((delta_hole_init E H acc).endbuf : Int)
          - (delta_hole_init E H acc).sentrybuf) = 0 := by
        show to_uint32 (((0 : Nat) : Int) - ((0 : Nat) : Int)) = 0
        decide
      rw [if_neg (by rw [h00]; simp)]
    rw [hfin] at h
    cases h
    exact ⟨rfl, rfl, rfl, rfl⟩

/-- Under the seeding and the rolling identity, the pass over one hole makes
every lookup with the fast hash of the window it is made for. -/
theorem delta_hole_probes (E : Env) (hashes : hash_table) (content : List Nat) (B : Nat)
    (g : Bool) (H : hole_t) (acc acc' : delta_acc) (fuel : Nat) (hB1 : 1 ≤ B)
    (hseed : seed_agrees E) (hroll : roll_agrees E B) (hc : acc.reader.content = content)
    (hv : hole_valid H) (hp : ∀ p ∈ acc.probes, probe_fresh E B p)
    (h : delta_hole E hashes B g fuel H acc = .done acc') :
    acc'.reader.content = content ∧ ∀ p ∈ acc'.probes, probe_fresh E B p := by
  have hle := to_uint32_le H.length
  have hv' : H.offset + to_uint32 H.length < 2 ^ 64 := by
    unfold hole_valid at hv; omega
  by_cases hBL : B ≤ XDELTA_BUFFER_LEN E
  · by_cases hz : to_uint32 H.length = 0
    · obtain ⟨_, _, e3, e4⟩ := delta_hole_empty E hashes B g fuel H acc acc' hB1 hz h
      rw [e3, e4]
      exact ⟨hc, hp⟩
    · have hEnd := delta_hole_done_fits E hashes content B g H acc acc' fuel hB1 hBL hc hv' hz h
      obtain ⟨acc1, r, d1, d2, d3, _, _, d6⟩ := delta_hole_scan E hashes content B g H acc
        (fuel + (2 * to_uint32 H.length + 1)) hB1 hBL hc hEnd hv' (by omega)
      rw [delta_hole_mono E hashes B g fuel H acc acc' h] at d1
      cases d1
      refine ⟨d3, ?_⟩
      rw [d6]
      apply scan_loop_probes E hashes content B (XDELTA_BUFFER_LEN E) _ g hB1 hseed hroll _ _ r
        _ _ d2
      · intro hn
        cases hn
      · exact hp
  · obtain ⟨_, _, e3, e4⟩ := delta_hole_no_window E hashes B g (by omega) fuel H acc acc' h
    rw [e3, e4]
    exact ⟨hc, hp⟩

/-- Under the seeding and the rolling identity, the loop over the holes makes
every lookup with the fast hash of the window it is made for. -/
theorem delta_holes_probes (E : Env) (hashes : hash_table) (content : List Nat) (B : Nat)
    (g : Bool) (fuel : Nat) (hB1 : 1 ≤ B) (hseed : seed_agrees E) (hroll : roll_agrees E B) :
    ∀ (holes : List hole_t) (acc acc' : delta_acc), acc.reader.content = content →
      (∀ h ∈ holes, hole_valid h) → (∀ p ∈ acc.probes, probe_fresh E B p) →
      delta_holes E hashes B g fuel holes acc = .done acc' →
      ∀ p ∈ acc'.probes, probe_fresh E B p := by
  intro holes
  induction holes with
  | nil =>
    intro acc acc' _ _ hp hd
    cases hd
    exact hp
  | cons H rest ih =>
    intro acc acc' hc hall hp hd
    obtain ⟨acc1, k1, k2⟩ := delta_holes_cons_done E hashes B g fuel H rest acc acc' hd
    obtain ⟨c1, p1⟩ := delta_hole_probes E hashes content B g H acc acc1 fuel hB1 hseed hroll hc
      (hall H (by simp)) hp k1
    exact ih acc1 acc' c1 (fun x hx => hall x (List.mem_cons_of_mem _ hx)) p1 k2

/-- C21. Rolled hash agrees with a fresh hash at every lookup: assume that the
rolling checksum seeded byte by byte gives the fast hash of
`rolling_hasher::hash`, and that `eat_hash` on a window of `B` bytes followed by
`update (out, in)` leaves the hasher that `eat_hash` leaves on the slid window.
Then in every run of `read_and_delta` that returns, final or intermediate, every
call of `hashes.find_block` was given, with the `B` bytes at the read cursor, the
value of `rolling_hasher::hash` on these bytes: for the first window of a hole,
the window after a copy, a window reached by sliding one byte, and the first
window after the buffer was compacted and refilled alike. -/
theorem rolled_hash_fresh (E : Env) (fuel : Nat) (reader : file_reader)
    (stream0 : List delta_record) (hashes : hash_table) (holes : List hole_t) (B : Nat)
    (g : Bool) (res : delta_result) (hB1 : 1 ≤ B) (hseed : seed_agrees E)
    (hroll : roll_agrees E B) (hvalid : ∀ h ∈ holes, hole_valid h)
    (h : read_and_delta E fuel reader stream0 hashes holes B g = .done res) :
    ∀ p ∈ res.probes, p.1 = rolling_hasher_hash E p.2 ∧ p.2.length = B := by
  obtain ⟨acc, h1, _, h3⟩ := read_and_delta_done_holes E fuel reader stream0 hashes holes B g
    res h
  rw [h3]
  exact delta_holes_probes E hashes reader.content B g fuel hB1 hseed hroll holes _ acc rfl
    hvalid (fun p hp => by simp at hp) h1

theorem rolled_hash_fresh_witness :
    ∃ res, read_and_delta (with_rsync_rollsum (id_env 2)) 7 ⟨[1, 2, 3], 0, 0, fun _ => 0⟩ []
        hash_table.empty [⟨0, 3⟩] 2 false = .done res ∧
      res.probes.map Prod.snd = [[1, 2], [2, 3]] ∧
      ∀ p ∈ res.probes, p.1 = rolling_hasher_hash (with_rsync_rollsum (id_env 2)) p.2 ∧
        p.2.length = 2 := by
  obtain ⟨res, r, b1, b2, _, b4, _⟩ := delta_source_scan (with_rsync_rollsum (id_env 2))
    hash_table.empty [1, 2, 3] 2 (fun _ => 0) 7 (by decide) (by decide) (by decide) (by decide)
  have hr : (scan_loop (with_rsync_rollsum (id_env 2)) hash_table.empty [1, 2, 3] 2
      (XDELTA_BUFFER_LEN (with_rsync_rollsum (id_env 2))) 3 false 7
      (scan_init (with_rsync_rollsum (id_env 2)) 0 [] [] [])).map
        (fun a => a.probes.map Prod.snd) = some [[1, 2], [2, 3]] := by
    decide
  have b2' : scan_loop (with_rsync_rollsum (id_env 2)) hash_table.empty [1, 2, 3] 2
      (XDELTA_BUFFER_LEN (with_rsync_rollsum (id_env 2))) 3 false 7
      (scan_init (with_rsync_rollsum (id_env 2)) 0 [] [] []) = some r := b2
  rw [b2'] at hr
  simp only [Option.map_some', Option.some.injEq] at hr
  refine ⟨res, b1, by rw [b4]; exact hr, ?_⟩
  exact rolled_hash_fresh (with_rsync_rollsum (id_env 2)) 7 ⟨[1, 2, 3], 0, 0, fun _ => 0⟩ []
    hash_table.empty [⟨0, 3⟩] 2 false res (by decide) (rsync_seed_agrees (id_env 2))
    (fun W c hW => rsync_roll_agrees (id_env 2) W c (by omega))
    (by intro h hh; simp only [List.mem_singleton] at hh; subst hh; decide) b1

/-- More fuel does not change what the loop over the holes returns. -/
theorem delta_holes_mono (E : Env) (hashes : hash_table) (B : Nat) (g : Bool) (fuel k : Nat) :
    ∀ (holes : List hole_t) (acc acc' : delta_acc),
      delta_holes E hashes B g fuel holes acc = .done acc' →
      delta_holes E hashes B g (fuel + k) holes acc = .done acc' := by
  intro holes
  induction holes with
  | nil =>
    intro acc acc' h
    exact h
  | cons H rest ih =>
    intro acc acc' h
    obtain ⟨acc1, k1, k2⟩ := delta_holes_cons_done E hashes B g fuel H rest acc acc' h
    rw [delta_holes, delta_hole_mono E hashes B g fuel H acc acc1 k1 k]
    exact ih acc1 acc' k2

/-- More fuel does not change what `read_and_delta` returns. -/
theorem read_and_delta_mono (E : Env) (fuel k : Nat) (reader : file_reader)
    (stream0 : List delta_record) (hashes : hash_table) (holes : List hole_t) (B : Nat)
    (g : Bool) (res : delta_result)
    (h : read_and_delta E fuel reader stream0 hashes holes B g = .done res) :
    read_and_delta E (fuel + k) reader stream0 hashes holes B g = .done res := by
  unfold read_and_delta at h ⊢
  cases hd : delta_holes E hashes B g fuel holes ⟨reader, stream0, [], [], fun _ => 0⟩ with
  | done acc =>
    rw [hd] at h
    rw [delta_holes_mono E hashes B g fuel k holes _ acc hd]
    exact h
  | thrown m =>
    rw [hd] at h
    cases h
  | unfinished =>
    rw [hd] at h
    cases h

/-- One iteration of the per-hole loop, for a hole that the file holds and a
block that fits the buffer: the loop exits, or it goes on from a state that has
less of the hole left to read, or from one that has as much left to read and
the read cursor further on. -/
theorem delta_loop_progress (E : Env) (hashes : hash_table) (content : List Nat) (B : Nat)
    (g : Bool) (hi : Nat) (hB1 : 1 ≤ B) (hBL : B ≤ XDELTA_BUFFER_LEN E)
    (hEnd : hi ≤ content.length) (hv : hi < 2 ^ 64)
    (s : delta_state E) (hinv : delta_buf_inv E content hi s) :
    (∀ fuel, delta_loop E hashes B g (fuel + 1) s = .done (delta_final E g s)) ∨
    ∃ s', (∀ fuel, delta_loop E hashes B g (fuel + 1) s = delta_loop E hashes B g fuel s') ∧
      delta_buf_inv E content hi s' ∧
      (s'.to_read_bytes < s.to_read_bytes ∨
        (s'.to_read_bytes = s.to_read_bytes ∧
          s.offset + (s.rdbuf - s.sentrybuf) < s'.offset + (s'.rdbuf - s'.sentrybuf))) := by
  obtain ⟨_, hL2⟩ := XDELTA_BUFFER_LEN_bounds E
  have hinv' := hinv
  obtain ⟨i1, i2, i3, i4, i5, i6, i7, i8, i9⟩ := hinv'
  by_cases hA : s.remain < (B : Int)
  · by_cases hto : s.to_read_bytes = 0
    · exact Or.inl (fun fuel => delta_loop_exit E hashes B g s hA hto fuel)
    · right
      obtain ⟨s3, e1, e2, _, e4⟩ := delta_step_refill_fit E hashes content B g hi hv s hinv hA hto
        (by omega)
      refine ⟨s3, e1, e2, Or.inl ?_⟩
      obtain ⟨_, _, _, _, _, _, _, j8, _⟩ := e2
      omega
  · right
    have hwin : s.rdbuf + B ≤ s.endbuf := by omega
    obtain ⟨_, q2⟩ := delta_probe_view E content hi B s hinv hB1 hwin
    have hwin1 : (delta_probe E B s).rdbuf + B ≤ (delta_probe E B s).endbuf := hwin
    cases hfind : hash_table.find_block E hashes
        (rolling_hasher_hash_value E (delta_hasher E B s)) (mem_bytes s.buf s.rdbuf B) B with
    | some bsh =>
      refine ⟨delta_hit E B g bsh (delta_probe E B s), ?_,
        delta_hit_inv E content hi B g bsh _ q2 hv hBL hwin1, Or.inr ⟨?_, ?_⟩⟩
      · intro fuel
        rw [delta_loop_window E hashes B g s hA fuel, hfind]
      · exact (delta_flush_frame E (!g) (delta_probe E B s)).2.2.2.2.1
      · rw [delta_hit_eq E content hi B g bsh _ q2 hv hBL hwin1]
        show s.offset + (s.rdbuf - s.sentrybuf)
          < s.offset + (s.rdbuf - s.sentrybuf) + B + (s.rdbuf + B - (s.rdbuf + B))
        omega
    | none =>
      obtain ⟨m1, _⟩ := delta_miss_view E content hi B _ q2 hB1 hwin1
      refine ⟨delta_miss (delta_probe E B s), ?_, m1, Or.inr ⟨rfl, ?_⟩⟩
      · intro fuel
        rw [delta_loop_window E hashes B g s hA fuel, hfind]
      · show s.offset + (s.rdbuf - s.sentrybuf) < s.offset + (s.rdbuf + 1 - s.sentrybuf)
        omega

/-- C23. Termination of the delta loop: for every hash index, every block length
`B` with `1 ≤ B ≤ XDELTA_BUFFER_LEN`, every hole set (well-formed, as a
`std::set<hole_t>` is) whose holes lie within the file, and every reader,
however it splits the bytes into reads of at least one byte, `read_and_delta`
returns, in a final as in an intermediate round: `2^33` iterations of the
per-hole loop are enough for each hole, and more change nothing. -/
theorem delta_terminates (E : Env) (hashes : hash_table) (reader : file_reader)
    (stream0 : List delta_record) (holes : List hole_t) (B : Nat) (g : Bool)
    (hB1 : 1 ≤ B) (hBL : B ≤ XDELTA_BUFFER_LEN E) (hwf : holeset_wf holes)
    (hfit : ∀ h ∈ holes, h.offset + h.length ≤ reader.content.length) :
    ∃ res, ∀ fuel, 2 ^ 33 ≤ fuel →
      read_and_delta E fuel reader stream0 hashes holes B g = .done res := by
  have hfuel : ∀ h ∈ holes, 2 * to_uint32 h.length < 2 ^ 33 := by
    intro h _
    have := to_uint32_lt h.length
    omega
  have h0 : ∃ res, read_and_delta E (2 ^ 33) reader stream0 hashes holes B g = .done res := by
    cases g
    · exact final_round_returns E hashes reader.content reader.pos reader.calls reader.chunk
        stream0 holes B (2 ^ 33) hB1 hBL (fun h hh => ⟨hfit h hh, hwf.1 h hh⟩) hfuel
    · obtain ⟨res, _, h1, _⟩ := intermediate_round_spec E hashes reader.content reader.pos
        reader.calls reader.chunk stream0 holes B (2 ^ 33) hB1 hBL hwf hfit hfuel
      exact ⟨res, h1⟩
  obtain ⟨res, hres⟩ := h0
  refine ⟨res, ?_⟩
  intro fuel hf
  obtain ⟨k, rfl⟩ : ∃ k, fuel = 2 ^ 33 + k := ⟨fuel - 2 ^ 33, by omega⟩
  exact read_and_delta_mono E (2 ^ 33) k reader stream0 hashes holes B g res hres

theorem delta_terminates_witness :
    ∃ res, ∀ fuel, 2 ^ 33 ≤ fuel →
      read_and_delta toy_env fuel ⟨[9, 1, 2, 9, 9], 0, 0, fun _ => 0⟩ []
        (hash_table.build toy_env [(3, ⟨[3], ⟨0, 0⟩⟩)]) [⟨0, 5⟩] 2 true = .done res :=
  delta_terminates toy_env (hash_table.build toy_env [(3, ⟨[3], ⟨0, 0⟩⟩)])
    ⟨[9, 1, 2, 9, 9], 0, 0, fun _ => 0⟩ [] [⟨0, 5⟩] 2 true (by decide) (by decide)
    ⟨by simp [hole_valid], by simp⟩
    (by intro h hh; simp only [List.mem_singleton] at hh; subst hh; decide)


end xdelta
